import Mathlib

/-!
# A shallow embedding of `mm.c` (segregated free-list allocator)

The C program keeps all of its state in process-wide globals and in one
contiguous heap obtained from an `sbrk`-like primitive.  The embedding makes
that state explicit (`State`) and turns every C function into a Lean function
from states to optional results:

* `none` means that the C execution has no result: a null or out-of-heap
  memory access, or a loop that did not finish within the given fuel;
* `size_t` / `uint64_t` values are natural numbers reduced modulo `2^64`
  wherever the C arithmetic can wrap; pointers are 64-bit values as well;
* memory is byte addressed; `GET`/`PUT` move eight bytes, little endian.
-/

set_option autoImplicit false

namespace MM

/-! ## Constants -/

def ALIGNMENT : Nat := 16

def WSIZE : Nat := 8

def DSIZE : Nat := 16

/-- Number of values of a 64-bit word (`size_t`, `uint64_t`, pointers). -/
def U64 : Nat := 18446744073709551616

/-- The value `(void *)-1` / `(long)-1` that the growth primitive returns on failure. -/
def SBRK_FAIL : Nat := 18446744073709551615

/-! ## State -/

/-- All mutable state of the allocator: the bytes of memory, the bounds kept by
the growth primitive, and the private globals of `mm.c`.  `freeblk_listp i`
is the global `freeblk_listp`*i* (`freeblk_listp 0` is `freeblk_listp`), and
`curr_freelist` is the global pointer of that name: `some i` when it points to
`freeblk_listp`*i*, `none` when it is `NULL`.  `sbrk_calls` is not state of the
program: it records the argument of every call of the growth primitive, oldest
first, so that statements can speak about the growth calls of an operation. -/
structure State where
  mem : Nat → Nat
  mem_start_brk : Nat
  mem_brk : Nat
  mem_max_addr : Nat
  heap_listp : Nat
  freeblk_listp : Nat → Nat
  curr_freelist : Option Nat
  sbrk_calls : List Nat

/-- Sequencing of two steps of which the first may have no result. -/
@[noinline]
def obind {α β : Type} (x : Option α) (f : α → Option β) : Option β :=
  match x with
  | none => none
  | some a => f a

/-! ## Raw memory -/

/-- Eight bytes starting at `p`, little endian. -/
def read8 (m : Nat → Nat) (p : Nat) : Nat :=
  m p % 256 + 256 * (m (p + 1) % 256 + 256 * (m (p + 2) % 256 + 256 * (m (p + 3) % 256
    + 256 * (m (p + 4) % 256 + 256 * (m (p + 5) % 256 + 256 * (m (p + 6) % 256
    + 256 * (m (p + 7) % 256)))))))

/-- Memory after storing the 64-bit value `v` at `p`, little endian. -/
def write8 (m : Nat → Nat) (p v : Nat) : Nat → Nat :=
  fun a => if p ≤ a ∧ a < p + 8 then (v / 256 ^ (a - p)) % 256 else m a

/-- The byte range `[p, p + n)` lies inside the heap handed out so far. -/
def inHeapRange (s : State) (p n : Nat) : Prop :=
  s.mem_start_brk ≤ p ∧ p + n ≤ s.mem_brk

instance (s : State) (p n : Nat) : Decidable (inHeapRange s p n) := by
  unfold inHeapRange
  exact inferInstance

/-- Modelled from the spec: the heap growth primitive `grow(nBytes)` of the
external memory library (`mem_sbrk` / `mm_sbrk`, not part of `mm.c`): it
extends the contiguous range by `incr` bytes and returns the old end, or
fails with `(void *)-1` when the range cannot be extended.  Every call is
recorded in `sbrk_calls`. -/
def mem_sbrk (s : State) (incr : Nat) : State × Nat :=
  if s.mem_brk + incr ≤ s.mem_max_addr then
    ({ s with mem_brk := s.mem_brk + incr, sbrk_calls := s.sbrk_calls ++ [incr] }, s.mem_brk)
  else ({ s with sbrk_calls := s.sbrk_calls ++ [incr] }, SBRK_FAIL)

/-- Modelled from the spec: `memcpy` of the C library, restricted to ranges
inside the heap that do not overlap (anything else has no defined result). -/
def memcpy (s : State) (dst src n : Nat) : Option State :=
  if n = 0 then some s
  else if inHeapRange s dst n ∧ inHeapRange s src n ∧ (dst + n ≤ src ∨ src + n ≤ dst) then
    some { s with mem := fun a => if dst ≤ a ∧ a < dst + n then s.mem (src + (a - dst)) else s.mem a }
  else none

/-- Modelled from the spec: `memset` of the C library with fill byte `0`,
restricted to ranges inside the heap. -/
def memset0 (s : State) (p n : Nat) : Option State :=
  if n = 0 then some s
  else if inHeapRange s p n then
    some { s with mem := fun a => if p ≤ a ∧ a < p + n then 0 else s.mem a }
  else none

/-! ## Block codec (`PACK`, `GET`, `PUT`, …) -/

def PACK (size alloc : Nat) : Nat := size ||| alloc

def GET (s : State) (p : Nat) : Option Nat :=
  if inHeapRange s p 8 then some (read8 s.mem p) else none

def PUT (s : State) (p val : Nat) : Option State :=
  if inHeapRange s p 8 then some { s with mem := write8 s.mem p val } else none

/-- The mask `~(DSIZE-1)` as a 64-bit value. -/
def SIZE_MASK : Nat := 18446744073709551600

def GET_SIZE (s : State) (p : Nat) : Option Nat :=
  (GET s p).map (fun v => v &&& SIZE_MASK)

def GET_ALLOC (s : State) (p : Nat) : Option Nat :=
  (GET s p).map (fun v => v &&& 1)

def HDRP (bp : Nat) : Nat := (bp + U64 - WSIZE) % U64

def FTRP (s : State) (bp : Nat) : Option Nat :=
  (GET_SIZE s (HDRP bp)).map (fun sz => (bp + sz + U64 - DSIZE) % U64)

def NEXT_BLKP (s : State) (bp : Nat) : Option Nat :=
  (GET_SIZE s ((bp + U64 - WSIZE) % U64)).map (fun sz => (bp + sz) % U64)

def PREV_BLKP (s : State) (bp : Nat) : Option Nat :=
  (GET_SIZE s ((bp + U64 - DSIZE) % U64)).map (fun sz => (bp + U64 - sz) % U64)

def align (x : Nat) : Nat :=
  (ALIGNMENT * (((x + ALIGNMENT - 1) % U64) / ALIGNMENT)) % U64

/-! ## Size classes -/

/-- The table `sizes[14]` of `find_free_list`. -/
def sizes : List Nat :=
  [0, 32, 48, 64, 80, 96, 112, 128, 512, 2048, 8192, 32768, 131072, 524288]

/-- The chain of comparisons of `find_free_list` for a non-zero size: the index
of the global the chain selects. -/
def size_class (asize : Nat) : Nat :=
  if 0 ≤ asize ∧ asize < 32 then 0
  else if 32 ≤ asize ∧ asize < 48 then 1
  else if 48 ≤ asize ∧ asize < 64 then 2
  else if 64 ≤ asize ∧ asize < 80 then 3
  else if 80 ≤ asize ∧ asize < 96 then 4
  else if 96 ≤ asize ∧ asize < 112 then 5
  else if 112 ≤ asize ∧ asize < 128 then 6
  else if 128 ≤ asize ∧ asize < 512 then 7
  else if 512 ≤ asize ∧ asize < 2048 then 8
  else if 2048 ≤ asize ∧ asize < 8192 then 9
  else if 8192 ≤ asize ∧ asize < 32768 then 10
  else if 32768 ≤ asize ∧ asize < 131072 then 11
  else if 131072 ≤ asize ∧ asize < 524288 then 12
  else 13

/-- `find_free_list`: returns `NULL` (`none`) for size 0 without touching
`curr_freelist`; otherwise stores the address of the selected list head in
`curr_freelist` and returns it. -/
def find_free_list (s : State) (asize : Nat) : State × Option Nat :=
  if asize = 0 then (s, none)
  else ({ s with curr_freelist := some (size_class asize) }, some (size_class asize))

/-- The value `*curr_freelist`; reading through `NULL` has no result. -/
def deref_curr (s : State) : Option Nat :=
  s.curr_freelist.map s.freeblk_listp

/-- The assignment `*curr_freelist = v`. -/
def assign_curr (s : State) (v : Nat) : Option State :=
  s.curr_freelist.map (fun l =>
    { s with freeblk_listp := fun j => if j = l then v else s.freeblk_listp j })

/-! ## Free-list links -/

def GET_NEXT_FREEBLK (s : State) (p : Nat) : Option (State × Nat) :=
  obind (GET_SIZE s (HDRP p)) fun sz =>
  let r := find_free_list s sz
  let s1 : State := { r.1 with curr_freelist := r.2 }
  obind (deref_curr s1) fun hd =>
  if s1.heap_listp = hd then some (s1, 0)
  else obind (GET s1 p) fun v => some (s1, v)

def GET_PREV_FREEBLK (s : State) (p : Nat) : Option (State × Nat) :=
  obind (GET_SIZE s (HDRP p)) fun sz =>
  let r := find_free_list s sz
  let s1 : State := { r.1 with curr_freelist := r.2 }
  obind (deref_curr s1) fun hd =>
  if s1.heap_listp = hd then some (s1, 0)
  else obind (GET s1 ((p + 8) % U64)) fun v => some (s1, v)

def SET_NEXT_FREEBLK (s : State) (p val : Nat) : Option State :=
  PUT s p val

def SET_PREV_FREEBLK (s : State) (p val : Nat) : Option State :=
  PUT s ((p + 8) % U64) val

/-! ## Free-list search -/

/-- The `for` loop of `find_fit_given_free_list` together with the test that
follows it, started at `bp`. -/
def find_fit_loop (asize : Nat) : Nat → State → Nat → Option (State × Nat)
  | 0, _, _ => none
  | fuel + 1, s, bp =>
    obind (GET_NEXT_FREEBLK s bp) fun r1 =>
    if r1.2 ≠ 0 then
      obind (GET_SIZE r1.1 (HDRP bp)) fun sz =>
      if asize ≤ sz then some (r1.1, bp)
      else
        obind (GET_NEXT_FREEBLK r1.1 bp) fun r2 =>
        find_fit_loop asize fuel r2.1 r2.2
    else
      obind (GET_SIZE r1.1 (HDRP bp)) fun sz =>
      if asize ≤ sz then some (r1.1, bp)
      else some (r1.1, 0)

def find_fit_given_free_list (fuel : Nat) (s : State) (asize : Nat) : Option (State × Nat) :=
  let r := find_free_list s asize
  let s1 : State := { r.1 with curr_freelist := r.2 }
  obind (deref_curr s1) fun hd =>
  if hd = s1.heap_listp then some (s1, 0)
  else find_fit_loop asize fuel s1 hd

/-! ## Free-list insertion and removal -/

/-- `place_freeblk`.  In the non-empty case the C function returns from the
unconditional block that links the new block in front of the old head; the
sorted insertion written after that block is never reached. -/
def place_freeblk (s : State) (new_freeblk : Nat) : Option (State × Bool) :=
  obind (GET_SIZE s (HDRP new_freeblk)) fun sz =>
  let r := find_free_list s sz
  let s1 : State := { r.1 with curr_freelist := r.2 }
  obind (GET_ALLOC s1 (HDRP new_freeblk)) fun a =>
  if a ≠ 0 then some (s1, false)
  else
    obind (deref_curr s1) fun hd =>
    if hd = s1.heap_listp then
      obind (assign_curr s1 new_freeblk) fun s2 =>
      obind (deref_curr s2) fun hd2 =>
      obind (SET_NEXT_FREEBLK s2 hd2 0) fun s3 =>
      obind (deref_curr s3) fun hd3 =>
      obind (SET_PREV_FREEBLK s3 hd3 0) fun s4 =>
      some (s4, true)
    else
      let comp_block := hd
      obind (assign_curr s1 new_freeblk) fun s2 =>
      obind (SET_PREV_FREEBLK s2 new_freeblk 0) fun s3 =>
      obind (SET_NEXT_FREEBLK s3 new_freeblk comp_block) fun s4 =>
      obind (SET_PREV_FREEBLK s4 comp_block new_freeblk) fun s5 =>
      some (s5, true)

/-- The `for` loop of `remove_freeblk` together with the extra test for the
last list element that follows it, started at `bp`. -/
def remove_loop (block_to_remove : Nat) : Nat → State → Nat → Option (State × Bool)
  | 0, _, _ => none
  | fuel + 1, s, bp =>
    obind (GET_NEXT_FREEBLK s bp) fun r1 =>
    if r1.2 ≠ 0 then
      if bp = block_to_remove then
        obind (GET_PREV_FREEBLK r1.1 bp) fun r2 =>
        obind (GET_NEXT_FREEBLK r2.1 bp) fun r3 =>
        obind (SET_NEXT_FREEBLK r3.1 r2.2 r3.2) fun s4 =>
        obind (GET_NEXT_FREEBLK s4 bp) fun r5 =>
        obind (GET_PREV_FREEBLK r5.1 bp) fun r6 =>
        obind (SET_PREV_FREEBLK r6.1 r5.2 r6.2) fun s7 =>
        some (s7, true)
      else
        obind (GET_NEXT_FREEBLK r1.1 bp) fun r2 =>
        remove_loop block_to_remove fuel r2.1 r2.2
    else
      if bp = block_to_remove then
        obind (GET_PREV_FREEBLK r1.1 bp) fun r2 =>
        obind (SET_NEXT_FREEBLK r2.1 r2.2 0) fun s3 =>
        some (s3, true)
      else some (r1.1, false)

def remove_freeblk (fuel : Nat) (s : State) (block_to_remove : Nat) : Option (State × Bool) :=
  obind (GET_SIZE s (HDRP block_to_remove)) fun sz =>
  let r := find_free_list s sz
  let s1 : State := { r.1 with curr_freelist := r.2 }
  obind (deref_curr s1) fun hd =>
  if hd = s1.heap_listp then some (s1, false)
  else
    obind (GET_ALLOC s1 (HDRP block_to_remove)) fun a =>
    if a = 0 then some (s1, false)
    else if block_to_remove = hd then
      obind (GET_NEXT_FREEBLK s1 hd) fun r2 =>
      if r2.2 = 0 then
        obind (assign_curr r2.1 r2.1.heap_listp) fun s3 =>
        some (s3, true)
      else
        obind (deref_curr r2.1) fun hd2 =>
        obind (GET_NEXT_FREEBLK r2.1 hd2) fun r3 =>
        obind (SET_PREV_FREEBLK r3.1 r3.2 0) fun s4 =>
        obind (deref_curr s4) fun hd4 =>
        obind (GET_NEXT_FREEBLK s4 hd4) fun r5 =>
        obind (assign_curr r5.1 r5.2) fun s6 =>
        some (s6, true)
    else
      remove_loop block_to_remove fuel s1 hd

/-! ## Coalescing -/

/-- Case 2 of `coalesce` (only the next block is free); `size` is the size of `bp`. -/
def coalesce_case2 (fuel : Nat) (s : State) (bp size : Nat) : Option (State × Nat) :=
  obind (NEXT_BLKP s bp) fun blk_to_remove =>
  obind (obind (NEXT_BLKP s bp) fun p => GET_SIZE s (HDRP p)) fun nsz =>
  let size := (size + nsz) % U64
  obind (GET_SIZE s (HDRP blk_to_remove)) fun bsz =>
  obind (PUT s (HDRP blk_to_remove) (PACK bsz 1)) fun s1 =>
  obind (remove_freeblk fuel s1 blk_to_remove) fun r2 =>
  obind (PUT r2.1 (HDRP bp) (PACK size 0)) fun s3 =>
  obind (FTRP s3 bp) fun f =>
  obind (PUT s3 f (PACK size 0)) fun s4 =>
  obind (place_freeblk s4 bp) fun r5 =>
  some (r5.1, bp)

/-- Shared tail of cases 3 and 4 of `coalesce` when the two list pointers
compare equal: the previous block is extended in place. -/
def coalesce_extend_prev (s0 : State) (bp size : Nat) : Option (State × Nat) :=
  obind (PREV_BLKP s0 bp) fun p1 =>
  obind (PUT s0 (HDRP p1) (PACK size 0)) fun s1 =>
  obind (obind (PREV_BLKP s1 bp) fun p => FTRP s1 p) fun f =>
  obind (PUT s1 f (PACK size 0)) fun s2 =>
  obind (PREV_BLKP s2 bp) fun bp2 =>
  some (s2, bp2)

/-- The first three statements of the `else` branches of cases 3 and 4 of
`coalesce`: the previous block is marked allocated, removed from its list and
marked free again. -/
def coalesce_unlist_prev (fuel : Nat) (s0 : State) (bp : Nat) : Option State :=
  obind (PREV_BLKP s0 bp) fun p1 =>
  obind (obind (PREV_BLKP s0 bp) fun p => GET_SIZE s0 (HDRP p)) fun psz3 =>
  obind (PUT s0 (HDRP p1) (PACK psz3 1)) fun s1 =>
  obind (PREV_BLKP s1 bp) fun p2 =>
  obind (remove_freeblk fuel s1 p2) fun r2 =>
  obind (PREV_BLKP r2.1 bp) fun p3 =>
  obind (obind (PREV_BLKP r2.1 bp) fun p => GET_SIZE r2.1 (HDRP p)) fun psz4 =>
  PUT r2.1 (HDRP p3) (PACK psz4 0)

/-- Case 3 of `coalesce` (only the previous block is free). -/
def coalesce_case3 (fuel : Nat) (s : State) (bp size : Nat) : Option (State × Nat) :=
  obind (obind (PREV_BLKP s bp) fun p => GET_SIZE s (HDRP p)) fun psz =>
  let size := (size + psz) % U64
  obind (obind (PREV_BLKP s bp) fun p => GET_SIZE s (HDRP p)) fun psz2 =>
  let r1 := find_free_list s psz2
  let r2 := find_free_list r1.1 size
  if r1.2 = r2.2 then coalesce_extend_prev r2.1 bp size
  else
    obind (coalesce_unlist_prev fuel r2.1 bp) fun s3 =>
    obind (FTRP s3 bp) fun f =>
    obind (PUT s3 f (PACK size 0)) fun s4 =>
    obind (PREV_BLKP s4 bp) fun p4 =>
    obind (PUT s4 (HDRP p4) (PACK size 0)) fun s5 =>
    obind (PREV_BLKP s5 bp) fun bp2 =>
    obind (place_freeblk s5 bp2) fun r6 =>
    some (r6.1, bp2)

/-- Case 4 of `coalesce` (previous and next block are free).  The list test
compares the list of the size of `bp` itself with the list of the merged size. -/
def coalesce_case4 (fuel : Nat) (s : State) (bp size : Nat) : Option (State × Nat) :=
  obind (NEXT_BLKP s bp) fun n1 =>
  obind (obind (NEXT_BLKP s bp) fun p => GET_SIZE s (HDRP p)) fun nsz =>
  obind (PUT s (HDRP n1) (PACK nsz 1)) fun s1 =>
  obind (NEXT_BLKP s1 bp) fun n2 =>
  obind (remove_freeblk fuel s1 n2) fun r2 =>
  let s2 := r2.1
  obind (obind (PREV_BLKP s2 bp) fun p => GET_SIZE s2 (HDRP p)) fun psz =>
  obind (obind (NEXT_BLKP s2 bp) fun p => GET_SIZE s2 (HDRP p)) fun nsz2 =>
  let size := (size + (psz + nsz2) % U64) % U64
  obind (GET_SIZE s2 (HDRP bp)) fun bsz =>
  let r1 := find_free_list s2 bsz
  let r2 := find_free_list r1.1 size
  if r1.2 = r2.2 then coalesce_extend_prev r2.1 bp size
  else
    obind (coalesce_unlist_prev fuel r2.1 bp) fun s5 =>
    obind (PREV_BLKP s5 bp) fun p4 =>
    obind (PUT s5 (HDRP p4) (PACK size 0)) fun s6 =>
    obind (obind (PREV_BLKP s6 bp) fun p => FTRP s6 p) fun f =>
    obind (PUT s6 f (PACK size 0)) fun s7 =>
    obind (PREV_BLKP s7 bp) fun bp2 =>
    obind (place_freeblk s7 bp2) fun r8 =>
    some (r8.1, bp2)

def coalesce (fuel : Nat) (s : State) (bp : Nat) : Option (State × Nat) :=
  obind (obind (PREV_BLKP s bp) fun p => GET_ALLOC s (HDRP p)) fun prev_alloc =>
  obind (obind (NEXT_BLKP s bp) fun p => GET_ALLOC s (HDRP p)) fun next_alloc =>
  obind (GET_SIZE s (HDRP bp)) fun size =>
  if prev_alloc ≠ 0 ∧ next_alloc ≠ 0 then
    obind (place_freeblk s bp) fun r => some (r.1, bp)
  else if prev_alloc ≠ 0 ∧ next_alloc = 0 then coalesce_case2 fuel s bp size
  else if prev_alloc = 0 ∧ next_alloc ≠ 0 then coalesce_case3 fuel s bp size
  else if prev_alloc = 0 ∧ next_alloc = 0 then coalesce_case4 fuel s bp size
  else some (s, 0)

/-! ## Placement, growth and the public operations -/

def place (fuel : Nat) (s : State) (bp asize : Nat) : Option State :=
  obind (GET_SIZE s (HDRP bp)) fun csize =>
  obind (GET_SIZE s (HDRP bp)) fun sz =>
  obind (PUT s (HDRP bp) (PACK sz 1)) fun s1 =>
  obind (remove_freeblk fuel s1 bp) fun r2 =>
  if 2 * DSIZE ≤ (csize + U64 - asize) % U64 then
    obind (PUT r2.1 (HDRP bp) (PACK asize 1)) fun s3 =>
    obind (FTRP s3 bp) fun f =>
    obind (PUT s3 f (PACK asize 1)) fun s4 =>
    obind (NEXT_BLKP s4 bp) fun newbp =>
    obind (PUT s4 (HDRP newbp) (PACK ((csize + U64 - asize) % U64) 0)) fun s5 =>
    obind (FTRP s5 newbp) fun f2 =>
    obind (PUT s5 f2 (PACK ((csize + U64 - asize) % U64) 0)) fun s6 =>
    obind (coalesce fuel s6 newbp) fun r7 =>
    some r7.1
  else
    obind (PUT r2.1 (HDRP bp) (PACK csize 1)) fun s3 =>
    obind (FTRP s3 bp) fun f =>
    PUT s3 f (PACK csize 1)

def extend_heap (fuel : Nat) (s : State) (bytes : Nat) : Option (State × Nat) :=
  let size := align bytes
  let r := mem_sbrk s size
  let bp := r.2
  if bp = SBRK_FAIL then some (r.1, 0)
  else
    obind (PUT r.1 (HDRP bp) (PACK size 0)) fun s1 =>
    obind (FTRP s1 bp) fun f =>
    obind (PUT s1 f (PACK size 0)) fun s2 =>
    obind (NEXT_BLKP s2 bp) fun n =>
    obind (PUT s2 (HDRP n) (PACK 0 1)) fun s3 =>
    coalesce fuel s3 bp

/-- `mm_init`: the Boolean is the C return value. -/
def mm_init (s : State) : Option (State × Bool) :=
  let r := mem_sbrk s (4 * WSIZE)
  let s0 : State := { r.1 with heap_listp := r.2 }
  if r.2 = SBRK_FAIL then some (s0, false)
  else
    obind (PUT s0 s0.heap_listp 0) fun s1 =>
    obind (PUT s1 ((s1.heap_listp + WSIZE) % U64) (PACK DSIZE 1)) fun s2 =>
    obind (PUT s2 ((s2.heap_listp + 2 * WSIZE) % U64) (PACK DSIZE 1)) fun s3 =>
    obind (PUT s3 ((s3.heap_listp + 3 * WSIZE) % U64) (PACK 0 1)) fun s4 =>
    let h := (s4.heap_listp + 2 * WSIZE) % U64
    some ({ s4 with heap_listp := h,
                    freeblk_listp := fun j => if j < 14 then h else s4.freeblk_listp j }, true)

def malloc (fuel : Nat) (s : State) (size : Nat) : Option (State × Nat) :=
  if size = 0 then some (s, 0)
  else
    let asize := if size ≤ DSIZE then 2 * DSIZE else align ((size + DSIZE) % U64)
    obind (find_fit_given_free_list fuel s asize) fun r1 =>
    if r1.2 ≠ 0 then
      obind (place fuel r1.1 r1.2 asize) fun s2 => some (s2, r1.2)
    else
      obind (extend_heap fuel r1.1 asize) fun r2 =>
      if r2.2 = 0 then some (r2.1, 0)
      else obind (place fuel r2.1 r2.2 asize) fun s3 => some (s3, r2.2)

def free (fuel : Nat) (s : State) (ptr : Nat) : Option State :=
  obind (GET_SIZE s (HDRP ptr)) fun size =>
  obind (PUT s (HDRP ptr) (PACK size 0)) fun s1 =>
  obind (FTRP s1 ptr) fun f =>
  obind (PUT s1 f (PACK size 0)) fun s2 =>
  obind (coalesce fuel s2 ptr) fun r3 =>
  some r3.1

def realloc (fuel : Nat) (s : State) (oldptr size : Nat) : Option (State × Nat) :=
  if oldptr = 0 then malloc fuel s size
  else if size = 0 then
    obind (free fuel s oldptr) fun s1 => some (s1, 0)
  else
    let asize := align ((size + DSIZE) % U64)
    obind (GET_SIZE s (HDRP oldptr)) fun osz =>
    if osz ≥ asize then
      obind (place fuel s oldptr asize) fun s1 => some (s1, oldptr)
    else
      obind (malloc fuel s size) fun r1 =>
      obind (GET_SIZE r1.1 (HDRP oldptr)) fun osz2 =>
      obind (memcpy r1.1 r1.2 oldptr ((osz2 + U64 - DSIZE) % U64)) fun s2 =>
      obind (free fuel s2 oldptr) fun s3 =>
      some (s3, r1.2)

def calloc (fuel : Nat) (s : State) (nmemb size : Nat) : Option (State × Nat) :=
  let size := (size * nmemb) % U64
  obind (malloc fuel s size) fun r1 =>
  if r1.2 ≠ 0 then
    obind (memset0 r1.1 r1.2 size) fun s2 => some (s2, r1.2)
  else some (r1.1, r1.2)

/-! ## Call sequences -/

/-- One call of the public interface. -/
inductive Call where
  | malloc (size : Nat)
  | free (ptr : Nat)
  | realloc (ptr size : Nat)
  | calloc (nmemb size : Nat)

/-- A run of the allocator: the current state, the live allocations (address
and requested size, newest first) and the values returned so far. -/
structure Run where
  st : State
  live : List (Nat × Nat)
  results : List Nat

/-- A call is valid when `free` and `realloc` are given an address that is live
(`realloc` may also be given `NULL`). -/
def Call.valid (live : List (Nat × Nat)) : Call → Bool
  | .malloc _ => true
  | .free p => decide (p ∈ live.map Prod.fst)
  | .realloc p _ => decide (p = 0 ∨ p ∈ live.map Prod.fst)
  | .calloc _ _ => true

/-- The live allocations after a call that returned `r`. -/
def Call.track (live : List (Nat × Nat)) (r : Nat) : Call → List (Nat × Nat)
  | .malloc n => if r = 0 then live else (r, n) :: live
  | .free p => live.filter (fun x => x.1 ≠ p)
  | .realloc p n =>
    if n = 0 then live.filter (fun x => x.1 ≠ p)
    else if r = 0 then live
    else (r, n) :: live.filter (fun x => x.1 ≠ p)
  | .calloc k n => if r = 0 then live else (r, (n * k) % U64) :: live

/-- The allocator function behind a call; `free` reports `0`. -/
def Call.exec (fuel : Nat) (s : State) : Call → Option (State × Nat)
  | .malloc n => MM.malloc fuel s n
  | .free p => obind (MM.free fuel s p) fun s1 => some (s1, 0)
  | .realloc p n => MM.realloc fuel s p n
  | .calloc k n => MM.calloc fuel s k n

/-- One valid call; an invalid call has no result. -/
def step (fuel : Nat) (t : Run) (c : Call) : Option Run :=
  if c.valid t.live then
    obind (c.exec fuel t.st) fun r =>
    some { st := r.1, live := c.track t.live r.2, results := t.results ++ [r.2] }
  else none

def runCalls (fuel : Nat) : Run → List Call → Option Run
  | t, [] => some t
  | t, c :: cs => obind (step fuel t c) fun t1 => runCalls fuel t1 cs

/-- A 16-byte aligned address at which the growth primitive starts. -/
def heapBase : Nat := 34359738368

/-- The state before `mm_init`: zeroed memory, an empty range starting at
`heapBase` that may grow by `capacity` bytes, and the globals as initialised
by the C program. -/
def bootState (capacity : Nat) : State :=
  { mem := fun _ => 0
    mem_start_brk := heapBase
    mem_brk := heapBase
    mem_max_addr := heapBase + capacity
    heap_listp := 0
    freeblk_listp := fun _ => 0
    curr_freelist := some 0
    sbrk_calls := [] }

/-- The run that starts with a successful `mm_init`. -/
def startRun (capacity : Nat) : Option Run :=
  obind (mm_init (bootState capacity)) fun r =>
  if r.2 then some { st := r.1, live := [], results := [] } else none

/-- `mm_init` followed by the given valid calls. -/
def runFromInit (fuel capacity : Nat) (calls : List Call) : Option Run :=
  obind (startRun capacity) fun t => runCalls fuel t calls

/-! ## Observing a heap -/

/-- Forward scan of the heap as `mm_checkheap` does it: from the block after the
prologue until a header of size 0.  Each entry is the block address, its header
word and its footer word. -/
def heapScan : Nat → State → Nat → Option (List (Nat × Nat × Nat))
  | 0, _, _ => none
  | fuel + 1, s, bp =>
    obind (GET_SIZE s (HDRP bp)) fun sz =>
    if sz = 0 then some []
    else
      obind (GET s (HDRP bp)) fun h =>
      obind (obind (FTRP s bp) fun f => GET s f) fun ft =>
      obind (obind (NEXT_BLKP s bp) fun n => heapScan fuel s n) fun rest =>
      some ((bp, h, ft) :: rest)

/-- The members of a list as the allocator's own traversals visit them, started at `bp`. -/
def listScan : Nat → State → Nat → Option (List Nat)
  | 0, _, _ => none
  | fuel + 1, s, bp =>
    obind (GET_NEXT_FREEBLK s bp) fun r =>
    if r.2 ≠ 0 then obind (listScan fuel s r.2) fun rest => some (bp :: rest)
    else some [bp]

/-- The members of bucket `i`. -/
def bucketScan (fuel : Nat) (s : State) (i : Nat) : Option (List Nat) :=
  if s.freeblk_listp i = s.heap_listp then some [] else listScan fuel s (s.freeblk_listp i)

/-! ## Well-formed heaps -/

/-- A block of the heap: payload address, total size, allocated bit. -/
structure Blk where
  bp : Nat
  size : Nat
  alloc : Nat
deriving DecidableEq

/-- A description of a heap: its blocks in address order and the members of
the 14 free lists in list order. -/
structure Ghost where
  blocks : List Blk
  lists : Nat → List Nat

/-- The blocks `bs` tile the addresses from `cur` to `e`: each block starts where
the previous one ends, has a size that is a multiple of 16 and at least 32, and
carries the same boundary tag in its header and its footer. -/
def tiles (m : Nat → Nat) : Nat → List Blk → Nat → Prop
  | cur, [], e => cur = e
  | cur, b :: bs, e =>
    b.bp = cur ∧ 32 ≤ b.size ∧ b.size % 16 = 0 ∧ b.alloc < 2 ∧
    read8 m (cur - 8) = PACK b.size b.alloc ∧
    read8 m (cur + b.size - 16) = PACK b.size b.alloc ∧
    tiles m (cur + b.size) bs e

/-- The successor of `x` in the list `l` (`0` when there is none). -/
def nextOf : List Nat → Nat → Nat
  | [], _ => 0
  | a :: rest, x => if x = a then rest.headD 0 else nextOf rest x

/-- The predecessor of `x` in the list `l` (`0` when there is none). -/
def prevOf : List Nat → Nat → Nat
  | [], _ => 0
  | a :: rest, x => if rest ≠ [] ∧ x = rest.headD 0 then a else prevOf rest x

/-- The `next` and `prev` words stored at the members of `l` link them in list order. -/
def linked (m : Nat → Nat) (l : List Nat) : Prop :=
  ∀ x ∈ l, read8 m x = nextOf l x ∧ read8 m (x + 8) = prevOf l x

/-- The size field of the header word of the block at `bp`. -/
def hdrSize (m : Nat → Nat) (bp : Nat) : Nat := read8 m (bp - 8) &&& SIZE_MASK

/-- The allocated bit of the header word of the block at `bp`. -/
def hdrAlloc (m : Nat → Nat) (bp : Nat) : Nat := read8 m (bp - 8) &&& 1

/-- The address range kept by the growth primitive and the position of `heap_listp` in it. -/
def Layout (s : State) : Prop :=
  s.heap_listp = s.mem_start_brk + 16 ∧ s.heap_listp + 16 ≤ s.mem_brk ∧
  s.mem_brk ≤ s.mem_max_addr ∧ s.mem_max_addr < U64

/-- A member `b` of free list `i`: it lies in the heap behind the prologue, and the
size in its header is not zero and selects list `i`. -/
def memberOK (s : State) (i b : Nat) : Prop :=
  s.heap_listp + 16 ≤ b ∧ b + 16 ≤ s.mem_brk ∧ hdrSize s.mem b ≠ 0 ∧
  size_class (hdrSize s.mem b) = i

/-- The 14 list heads and the links in memory represent the lists `L`: an empty
list has head `heap_listp`, the members of a list are linked in order, and any
two members are at least 32 bytes apart. -/
def ListsOK (s : State) (L : Nat → List Nat) : Prop :=
  (∀ i, i < 14 →
    s.freeblk_listp i = (L i).headD s.heap_listp ∧ linked s.mem (L i) ∧ (L i).Nodup ∧
    ∀ b ∈ L i, memberOK s i b) ∧
  (∀ i, i < 14 → ∀ j, j < 14 → ∀ x ∈ L i, ∀ y ∈ L j, x = y ∨ x + 32 ≤ y ∨ y + 32 ≤ x)

/-- The heap of `s` is well formed and described by `g`: prologue, blocks and
epilogue tile the range, header and footer of every block agree, and every
free-list member is a free block filed in the list its size selects. -/
def WF (s : State) (g : Ghost) : Prop :=
  Layout s ∧
  read8 s.mem (s.heap_listp - 8) = PACK DSIZE 1 ∧
  read8 s.mem s.heap_listp = PACK DSIZE 1 ∧
  tiles s.mem (s.heap_listp + 16) g.blocks s.mem_brk ∧
  read8 s.mem (s.mem_brk - 8) = PACK 0 1 ∧
  ListsOK s g.lists ∧
  (∀ i, i < 14 → ∀ b ∈ g.lists i, ∃ blk ∈ g.blocks, blk.bp = b ∧ blk.alloc = 0)

instance tilesDecidable (m : Nat → Nat) : ∀ (bs : List Blk) (cur e : Nat), Decidable (tiles m cur bs e)
  | [], cur, e => inferInstanceAs (Decidable (cur = e))
  | b :: bs, cur, e =>
    have := tilesDecidable m bs (cur + b.size) e
    inferInstanceAs (Decidable (b.bp = cur ∧ 32 ≤ b.size ∧ b.size % 16 = 0 ∧ b.alloc < 2 ∧
      read8 m (cur - 8) = PACK b.size b.alloc ∧
      read8 m (cur + b.size - 16) = PACK b.size b.alloc ∧
      tiles m (cur + b.size) bs e))

instance (m : Nat → Nat) (l : List Nat) : Decidable (linked m l) := by
  unfold linked
  exact inferInstance

instance (s : State) : Decidable (Layout s) := by
  unfold Layout
  exact inferInstance

instance (s : State) (i b : Nat) : Decidable (memberOK s i b) := by
  unfold memberOK
  exact inferInstance

instance (s : State) (L : Nat → List Nat) : Decidable (ListsOK s L) := by
  unfold ListsOK
  exact inferInstance

instance (s : State) (g : Ghost) : Decidable (WF s g) := by
  unfold WF
  exact inferInstance

/-! ## Vocabulary for the effect of the operations -/

/-- Two states have the same record of growth calls, the same address range and the same
`heap_listp`. -/
def sameRange (s s' : State) : Prop :=
  s'.sbrk_calls = s.sbrk_calls ∧ s'.mem_start_brk = s.mem_start_brk ∧ s'.mem_brk = s.mem_brk ∧
  s'.mem_max_addr = s.mem_max_addr ∧ s'.heap_listp = s.heap_listp

/-- Memory after unlinking `b` from the list `l`: the `next` word of its
predecessor and the `prev` word of its successor are redirected. -/
def unlinkMem (m : Nat → Nat) (l : List Nat) (b : Nat) : Nat → Nat :=
  let m1 := if prevOf l b ≠ 0 then write8 m (prevOf l b) (nextOf l b) else m
  if nextOf l b ≠ 0 then write8 m1 (nextOf l b + 8) (prevOf l b) else m1

/-- Memory after linking `n` in front of the list `l`. -/
def pushMem (m : Nat → Nat) (l : List Nat) (n : Nat) : Nat → Nat :=
  match l with
  | [] => write8 (write8 m n 0) (n + 8) 0
  | h :: _ => write8 (write8 (write8 m (n + 8) 0) n h) (h + 8) n

/-- The lists `L` with list `i` replaced by `l`. -/
def setList (L : Nat → List Nat) (i : Nat) (l : List Nat) : Nat → List Nat :=
  fun j => if j = i then l else L j

/-- The byte `a` belongs to the `next`/`prev` words of a member of one of the lists. -/
def linkByte (L : Nat → List Nat) (a : Nat) : Prop :=
  ∃ i, i < 14 ∧ ∃ x ∈ L i, x ≤ a ∧ a < x + 16

/-- The first member of the list `l` whose header size is at least `asize` (`0` when there is none). -/
def firstFit (m : Nat → Nat) (asize : Nat) : List Nat → Nat
  | [] => 0
  | b :: rest => if asize ≤ hdrSize m b then b else firstFit m asize rest

/-- The adjusted block size that `malloc` computes for a request of `size` bytes. -/
def adjusted (size : Nat) : Nat :=
  if size ≤ DSIZE then 2 * DSIZE else align ((size + DSIZE) % U64)

/-- The state right after a successful `mm_init` on a fresh range that may grow to `capacity` bytes. -/
def initState (capacity : Nat) : State :=
  ((mm_init (bootState capacity)).map Prod.fst).getD (bootState capacity)

/-- The description of a heap without blocks. -/
def emptyGhost : Ghost := { blocks := [], lists := fun _ => [] }

/-- The allocated bit that `coalesce` reads for the block before a block preceded by `pre`
(the prologue when `pre` is empty). -/
def prevAlloc (pre : List Blk) : Nat := (pre.getLast?.map Blk.alloc).getD 1

/-- The allocated bit that `coalesce` reads for the block after a block followed by `post`
(the epilogue when `post` is empty). -/
def nextAlloc (post : List Blk) : Nat := (post.head?.map Blk.alloc).getD 1

/-- No byte of an allocated block of `g` (header, payload, footer) differs between `m` and `m'`. -/
def allocFrame (g : Ghost) (m m' : Nat → Nat) : Prop :=
  ∀ x ∈ g.blocks, x.alloc = 1 → ∀ a, x.bp - 8 ≤ a → a < x.bp + x.size - 8 → m' a = m a

/-- The memories `m` and `m'` agree on every byte outside `[lo, hi)` that is not part of
a link word of a member of the lists `L`. -/
def byteFrame (L : Nat → List Nat) (lo hi : Nat) (m m' : Nat → Nat) : Prop :=
  ∀ a, (a < lo ∨ hi ≤ a) → (∀ i, i < 14 → ∀ y ∈ L i, a < y ∨ y + 16 ≤ a) → m' a = m a

/-! ## Vocabulary of the proofs -/

/-- Memory after writing the tag `PACK size alloc` into the header and the footer of the
block at `bp`. -/
def retagMem (m : Nat → Nat) (bp size alloc : Nat) : Nat → Nat :=
  write8 (write8 m (bp - 8) (PACK size alloc)) (bp + size - 16) (PACK size alloc)

/-- The lists `L` after `x`, a block of size `sz`, was taken out of the list of its size. -/
def unlist (L : Nat → List Nat) (sz x : Nat) : Nat → List Nat :=
  setList L (size_class sz) ((L (size_class sz)).erase x)

/-- The lists `L` after `x`, a block of size `sz`, was put in front of the list of its size. -/
def enlist (L : Nat → List Nat) (sz x : Nat) : Nat → List Nat :=
  setList L (size_class sz) (x :: L (size_class sz))

/-- The boundary tags of the heap of `s` describe the blocks `bs`: prologue, the blocks in
address order and the epilogue tile the address range, and the header and the footer of
every block carry its size and its allocated bit. -/
def Tagged (s : State) (bs : List Blk) : Prop :=
  Layout s ∧
  read8 s.mem (s.heap_listp - 8) = PACK DSIZE 1 ∧
  read8 s.mem s.heap_listp = PACK DSIZE 1 ∧
  MM.tiles s.mem (s.heap_listp + 16) bs s.mem_brk ∧
  read8 s.mem (s.mem_brk - 8) = PACK 0 1

/-- What `coalesce` guarantees for the free block `blk` of the heap `s`, `g` when it returns
`r` in the state `s'` described by `g'`. -/
def Merged (s : State) (g : Ghost) (blk : Blk) (s' : State) (g' : Ghost) (r : Nat) : Prop :=
  WF s' g' ∧ sameRange s s' ∧ allocFrame g s.mem s'.mem ∧ hdrAlloc s'.mem blk.bp = 0 ∧
  (∀ b : Blk, b.alloc = 1 → (b ∈ g'.blocks ↔ b ∈ g.blocks)) ∧
  (∀ i, i < 14 → (g'.lists i).length ≤ (g.lists i).length + 1) ∧
  ∃ c, (⟨r, c, 0⟩ : Blk) ∈ g'.blocks ∧ r ≤ blk.bp ∧ blk.bp + blk.size ≤ r + c

/-- Memory after `place` without a split. -/
def placeMem (m : Nat → Nat) (l : List Nat) (bp c : Nat) : Nat → Nat :=
  retagMem (unlinkMem (write8 m (bp - 8) (PACK c 1)) l bp) bp c 1

/-- Memory after `place` has split the block and before it calls `coalesce`. -/
def splitMem (m : Nat → Nat) (l : List Nat) (bp c asize : Nat) : Nat → Nat :=
  retagMem (retagMem (unlinkMem (write8 m (bp - 8) (PACK c 1)) l bp) bp asize 1)
    (bp + asize) (c - asize) 0

/-- What `place` guarantees when it is called with the size `asize` for the block `blk` of
the heap `s`, `g` and ends in the state `s'` described by `g'`. -/
def Placed (s : State) (g : Ghost) (blk : Blk) (asize : Nat) (s' : State) (g' : Ghost) : Prop :=
  WF s' g' ∧ sameRange s s' ∧
  (∃ c, (⟨blk.bp, c, 1⟩ : Blk) ∈ g'.blocks ∧ asize ≤ c ∧ c ≤ blk.size) ∧
  (∀ b ∈ g.blocks, b.alloc = 1 → b ≠ blk →
    b ∈ g'.blocks ∧ ∀ a, b.bp - 8 ≤ a → a < b.bp + b.size - 8 → s'.mem a = s.mem a) ∧
  ((∀ i, i < 14 → blk.bp ∉ g.lists i) →
    ∀ a, blk.bp ≤ a → a < blk.bp + asize - 16 → s'.mem a = s.mem a) ∧
  (∀ i, i < 14 → (g'.lists i).length ≤ (g.lists i).length + 1)

/-- Memory after `extend_heap` has written the tags of the new block at the old end `brk`
of the heap and the new epilogue behind it. -/
def growMem (m : Nat → Nat) (brk size : Nat) : Nat → Nat :=
  write8 (retagMem m brk size 0) (brk + size - 8) (PACK 0 1)

/-- What a successful `malloc` guarantees: the heap `s'`, `g'` is well formed, the block at
the result `q` is allocated and has at least `asize` bytes, and the blocks that were
allocated before are still there with all their bytes. -/
def Allocated (s : State) (g : Ghost) (asize : Nat) (s' : State) (g' : Ghost) (q : Nat) :
    Prop :=
  WF s' g' ∧ (∃ c, (⟨q, c, 1⟩ : Blk) ∈ g'.blocks ∧ asize ≤ c) ∧
  (∀ b ∈ g.blocks, b.alloc = 1 → b ∈ g'.blocks) ∧ allocFrame g s.mem s'.mem ∧
  (∀ i, i < 14 → (g'.lists i).length ≤ (g.lists i).length + 2)

/-- The state after `mm_init`, `a = malloc(100)`, `malloc(1)` and `free(a)` on a fresh range
that may grow to 4096 bytes: a free block of 128 bytes in list 7, followed by an allocated
block of 32 bytes. -/
def sampleState : State :=
  ((runFromInit 8 4096 [.malloc 100, .malloc 1, .free (heapBase + 32)]).map Run.st).getD
    (bootState 0)

/-- The description of the heap of `sampleState`. -/
def sampleGhost : Ghost :=
  { blocks := [⟨heapBase + 32, 128, 0⟩, ⟨heapBase + 160, 32, 1⟩],
    lists := fun i => if i = 7 then [heapBase + 32] else [] }

/-- The state after `mm_init`, `malloc(1)` and `malloc(1)` on a fresh range that may grow to
4096 bytes: two allocated blocks of 32 bytes. -/
def pairState : State :=
  ((runFromInit 8 4096 [.malloc 1, .malloc 1]).map Run.st).getD (bootState 0)

/-- The description of the heap of `pairState`. -/
def pairGhost : Ghost :=
  { blocks := [⟨heapBase + 32, 32, 1⟩, ⟨heapBase + 64, 32, 1⟩], lists := fun _ => [] }

/-- The state after `mm_init` and `malloc(100)` on a fresh range that may grow to 4096 bytes:
one allocated block of 128 bytes. -/
def blockState : State :=
  ((runFromInit 8 4096 [.malloc 100]).map Run.st).getD (bootState 0)

/-- The description of the heap of `blockState`. -/
def blockGhost : Ghost :=
  { blocks := [⟨heapBase + 32, 128, 1⟩], lists := fun _ => [] }

/-- The members of bucket `i` with the sizes in their headers (`0` when the header cannot be
read). -/
def bucketSizes (fuel : Nat) (s : State) (i : Nat) : Option (List (Nat × Nat)) :=
  (bucketScan fuel s i).map fun l => l.map fun b => (b, (GET_SIZE s (HDRP b)).getD 0)

/-- The state after `mm_init`, `a = malloc(1)` and `free(a)` on a fresh range that may grow
to 4096 bytes: one free block of 32 bytes, the last block of the heap. -/
def tailState : State :=
  ((runFromInit 8 4096 [.malloc 1, .free (heapBase + 32)]).map Run.st).getD (bootState 0)

/-- The description of the heap of `tailState`. -/
def tailGhost : Ghost :=
  { blocks := [⟨heapBase + 32, 32, 0⟩],
    lists := fun i => if i = 1 then [heapBase + 32] else [] }

/-- The state `sampleState` after the caller of `remove_freeblk` has set the allocated bit in
the header of the free block at `heapBase + 32`. -/
def markedState : State :=
  { sampleState with mem := write8 sampleState.mem (heapBase + 24) (PACK 128 1) }

/-- The state `blockState` after `free` has cleared the allocated bit in the header and the
footer of the block at `heapBase + 32`, before `coalesce` is called: the block is free and in
no list. -/
def unlistedState : State :=
  { blockState with mem := retagMem blockState.mem (heapBase + 32) 128 0 }

/-- The description of the heap of `unlistedState`. -/
def unlistedGhost : Ghost :=
  { blocks := [⟨heapBase + 32, 128, 0⟩], lists := fun _ => [] }

/-- No two consecutive blocks of the list are both free. -/
def NoAdjFree : List Blk → Prop
  | [] => True
  | [_] => True
  | a :: b :: rest => (a.alloc ≠ 0 ∨ b.alloc ≠ 0) ∧ NoAdjFree (b :: rest)

instance noAdjFreeDecidable : ∀ bs : List Blk, Decidable (NoAdjFree bs)
  | [] => inferInstanceAs (Decidable True)
  | [_] => inferInstanceAs (Decidable True)
  | a :: b :: rest =>
    have := noAdjFreeDecidable (b :: rest)
    inferInstanceAs (Decidable ((a.alloc ≠ 0 ∨ b.alloc ≠ 0) ∧ NoAdjFree (b :: rest)))

/-- The blocks before a block preceded by `pre` that a merge leaves alone: all of `pre`,
without its last block when that block is free. -/
def keptBefore (pre : List Blk) : List Blk :=
  if prevAlloc pre = 0 then pre.dropLast else pre

/-- The blocks after a block followed by `post` that a merge leaves alone: all of `post`,
without its first block when that block is free. -/
def keptAfter (post : List Blk) : List Blk :=
  if nextAlloc post = 0 then post.tail else post

/-- The address at which the merged block starts: the address of the previous block when
that block is free, the address of `blk` otherwise. -/
def mergedStart (pre : List Blk) (blk : Blk) : Nat :=
  if prevAlloc pre = 0 then (pre.getLast?.map Blk.bp).getD blk.bp else blk.bp

/-- The size of the merged block: the size of `blk` plus the sizes of the previous and of
the next block, each counted when it is free. -/
def mergedSize (pre : List Blk) (blk : Blk) (post : List Blk) : Nat :=
  (if prevAlloc pre = 0 then (pre.getLast?.map Blk.size).getD 0 else 0) + blk.size +
    (if nextAlloc post = 0 then (post.head?.map Blk.size).getD 0 else 0)

/-- The heap after `mm_init`, `a = malloc(1)`, `b = malloc(100)`, `c = malloc(1)`, `free(a)`,
`free(c)` on a fresh range that may grow to 4096 bytes, at the moment at which `free(b)` has
cleared the allocated bit in the header and the footer of `b` and is about to call
`coalesce(b)`. -/
def bothFreeState : State :=
  (obind (runFromInit 8 4096 [.malloc 1, .malloc 100, .malloc 1, .free (heapBase + 32),
      .free (heapBase + 192)]) fun t =>
    obind (PUT t.st (HDRP (heapBase + 64)) (PACK 128 0)) fun s1 =>
    obind (FTRP s1 (heapBase + 64)) fun f =>
    PUT s1 f (PACK 128 0)).getD (bootState 0)

/-- The description of the heap of `bothFreeState`: three free blocks, the outer two in
list 1. -/
def bothFreeGhost : Ghost :=
  { blocks := [⟨heapBase + 32, 32, 0⟩, ⟨heapBase + 64, 128, 0⟩, ⟨heapBase + 192, 32, 0⟩],
    lists := fun i => if i = 1 then [heapBase + 192, heapBase + 32] else [] }

/-! # Theorems -/

/-! ## Sequencing -/

@[simp]
theorem obind_some {α β : Type} (a : α) (f : α → Option β) : obind (some a) f = f a := rfl

@[simp]
theorem obind_none {α β : Type} (f : α → Option β) : obind none f = none := rfl

theorem obind_eq_some {α β : Type} {x : Option α} {f : α → Option β} {b : β}
    (h : obind x f = some b) : ∃ a, x = some a ∧ f a = some b := by
  cases x with
  | none => simp at h
  | some a => exact ⟨a, rfl, h⟩

/-! ## Bytes and words -/

theorem read8_lt (m : Nat → Nat) (p : Nat) : read8 m p < U64 := by
  unfold read8 U64
  omega

theorem read8_congr {m m' : Nat → Nat} {p : Nat} (h : ∀ k, k < 8 → m' (p + k) = m (p + k)) :
    read8 m' p = read8 m p := by
  unfold read8
  have h0 := h 0 (by omega)
  rw [h 1 (by omega), h 2 (by omega), h 3 (by omega), h 4 (by omega), h 5 (by omega),
    h 6 (by omega), h 7 (by omega)]
  simp only [Nat.add_zero] at h0
  rw [h0]

theorem write8_other (m : Nat → Nat) (p v a : Nat) (h : a < p ∨ p + 8 ≤ a) :
    write8 m p v a = m a := by
  unfold write8
  have : ¬ (p ≤ a ∧ a < p + 8) := by omega
  simp [this]

theorem read8_write8_ne (m : Nat → Nat) (p v q : Nat) (h : q + 8 ≤ p ∨ p + 8 ≤ q) :
    read8 (write8 m p v) q = read8 m q := by
  apply read8_congr
  intro k hk
  apply write8_other
  omega

theorem read8_write8_same (m : Nat → Nat) (p v : Nat) : read8 (write8 m p v) p = v % U64 := by
  unfold read8 write8 U64
  have e1 : p + 1 - p = 1 := by omega
  have e2 : p + 2 - p = 2 := by omega
  have e3 : p + 3 - p = 3 := by omega
  have e4 : p + 4 - p = 4 := by omega
  have e5 : p + 5 - p = 5 := by omega
  have e6 : p + 6 - p = 6 := by omega
  have e7 : p + 7 - p = 7 := by omega
  simp only [le_refl, Nat.lt_add_of_pos_right, Nat.le_add_right, Nat.add_lt_add_iff_left,
    and_self, if_true, Nat.sub_self, pow_zero, Nat.div_one, e1, e2, e3, e4, e5, e6, e7,
    Nat.reducePow, Nat.reduceLT, Nat.lt_add_one, Nat.zero_lt_succ, Nat.reduceMod, true_and,
    Nat.mod_mod]
  omega

/-! ## Boundary tags -/

theorem PACK_eq_add {size alloc : Nat} (h : size % 16 = 0) (ha : alloc < 2) :
    PACK size alloc = size + alloc := by
  unfold PACK
  have hs : size = 2 ^ 4 * (size / 16) := by omega
  have hlt : alloc < 2 ^ 4 := by omega
  rw [hs, ← Nat.mul_add_lt_is_or hlt]

theorem and_SIZE_MASK (v : Nat) (hv : v < U64) : v &&& SIZE_MASK = v - v % 16 := by
  apply Nat.eq_of_testBit_eq
  intro i
  have hm : SIZE_MASK = 2 ^ 4 * (2 ^ 60 - 1) := by
    unfold SIZE_MASK
    norm_num
  have hv2 : v - v % 16 = 2 ^ 4 * (v / 16) := by omega
  rw [Nat.testBit_and, hm, hv2, Nat.testBit_mul_pow_two, Nat.testBit_mul_pow_two,
    Nat.testBit_two_pow_sub_one]
  by_cases h4 : 4 ≤ i
  · have e : v / 16 = v >>> 4 := by
      rw [Nat.shiftRight_eq_div_pow]
    rw [e, Nat.testBit_shiftRight]
    have e2 : 4 + (i - 4) = i := by omega
    rw [e2]
    by_cases h64 : i - 4 < 60
    · simp [h4, h64]
    · have : v < 2 ^ i := by
        have : (2:Nat) ^ 64 ≤ 2 ^ i := Nat.pow_le_pow_right (by omega) (by omega)
        unfold U64 at hv
        omega
      simp [h4, h64, Nat.testBit_lt_two_pow this]
  · simp [h4]

theorem and_one_eq (v : Nat) : v &&& 1 = v % 2 := Nat.and_one_is_mod v

theorem size_of_PACK {size alloc : Nat} (h : size % 16 = 0) (ha : alloc < 2)
    (hlt : PACK size alloc < U64) : PACK size alloc &&& SIZE_MASK = size := by
  rw [and_SIZE_MASK _ hlt, PACK_eq_add h ha]
  omega

theorem alloc_of_PACK {size alloc : Nat} (h : size % 16 = 0) (ha : alloc < 2) :
    PACK size alloc &&& 1 = alloc := by
  rw [and_one_eq, PACK_eq_add h ha]
  omega

theorem PACK_mod {size alloc : Nat} (h : size % 16 = 0) (ha : alloc < 2) (hs : size + 1 < U64) :
    PACK size alloc % U64 = PACK size alloc := by
  rw [PACK_eq_add h ha]
  apply Nat.mod_eq_of_lt
  omega

/-! ## Successor and predecessor in a list -/

theorem nextOf_cons (a : Nat) (rest : List Nat) (x : Nat) :
    nextOf (a :: rest) x = if x = a then rest.headD 0 else nextOf rest x := rfl

theorem prevOf_cons (a : Nat) (rest : List Nat) (x : Nat) :
    prevOf (a :: rest) x = if rest ≠ [] ∧ x = rest.headD 0 then a else prevOf rest x := rfl

theorem headD_mem {l : List Nat} (h : l ≠ []) (d : Nat) : l.headD d ∈ l := by
  cases l with
  | nil => exact absurd rfl h
  | cons a r => simp

theorem nextOf_notin {l : List Nat} {x : Nat} (h : x ∉ l) : nextOf l x = 0 := by
  induction l with
  | nil => rfl
  | cons a r ih =>
    simp only [List.mem_cons, not_or] at h
    rw [nextOf_cons, if_neg h.1, ih h.2]

theorem prevOf_notin {l : List Nat} {x : Nat} (h : x ∉ l) : prevOf l x = 0 := by
  induction l with
  | nil => rfl
  | cons a r ih =>
    simp only [List.mem_cons, not_or] at h
    rw [prevOf_cons, ih h.2, if_neg]
    rintro ⟨hne, hx⟩
    exact h.2 (hx ▸ headD_mem hne 0)

theorem nextOf_zero_or_mem (l : List Nat) (x : Nat) : nextOf l x = 0 ∨ nextOf l x ∈ l := by
  induction l with
  | nil => left; rfl
  | cons a r ih =>
    rw [nextOf_cons]
    by_cases hx : x = a
    · rw [if_pos hx]
      cases r with
      | nil => left; rfl
      | cons b r2 => right; simp
    · rw [if_neg hx]
      rcases ih with h | h
      · left; exact h
      · right; exact List.mem_cons_of_mem _ h

theorem prevOf_zero_or_mem (l : List Nat) (x : Nat) : prevOf l x = 0 ∨ prevOf l x ∈ l := by
  induction l with
  | nil => left; rfl
  | cons a r ih =>
    rw [prevOf_cons]
    by_cases hx : r ≠ [] ∧ x = r.headD 0
    · rw [if_pos hx]; right; simp
    · rw [if_neg hx]
      rcases ih with h | h
      · left; exact h
      · right; exact List.mem_cons_of_mem _ h

theorem nextOf_append {pre post : List Nat} {x : Nat} (h : x ∉ pre) :
    nextOf (pre ++ x :: post) x = post.headD 0 := by
  induction pre with
  | nil => simp [nextOf_cons]
  | cons a r ih =>
    simp only [List.mem_cons, not_or] at h
    rw [List.cons_append, nextOf_cons, if_neg h.1, ih h.2]

theorem prevOf_head {a : Nat} {rest : List Nat} (h : (a :: rest).Nodup) :
    prevOf (a :: rest) a = 0 := by
  rw [prevOf_cons]
  have hn : a ∉ rest := (List.nodup_cons.mp h).1
  rw [prevOf_notin hn, if_neg]
  rintro ⟨hne, hx⟩
  exact hn (hx ▸ headD_mem hne 0)

/-- In a list without repetitions and without `0`, `y` follows `x` exactly when `x` precedes `y`. -/
theorem prevOf_of_nextOf {l : List Nat} (hnd : l.Nodup) {x y : Nat}
    (h : nextOf l x = y) (hy : y ≠ 0) : prevOf l y = x := by
  induction l with
  | nil => exact absurd h.symm hy
  | cons a r ih =>
    have hnd' := List.nodup_cons.mp hnd
    rw [nextOf_cons] at h
    rw [prevOf_cons]
    by_cases hx : x = a
    · rw [if_pos hx] at h
      have hr : r ≠ [] := by
        intro hr
        rw [hr] at h
        exact hy h.symm
      rw [if_pos ⟨hr, h.symm⟩, hx]
    · rw [if_neg hx] at h
      have hyr : y ∈ r := by
        rcases nextOf_zero_or_mem r x with h0 | hm
        · rw [h0] at h; exact absurd h.symm hy
        · rw [h] at hm; exact hm
      have hxr : x ∈ r := by
        by_contra hxr
        rw [nextOf_notin hxr] at h
        exact hy h.symm
      rw [if_neg, ih hnd'.2 h]
      rintro ⟨hne, hyh⟩
      -- y is the head of r, so nothing in r precedes it
      cases r with
      | nil => exact hne rfl
      | cons b r2 =>
        simp only [List.headD_cons] at hyh
        rw [nextOf_cons] at h
        have hnd2 := List.nodup_cons.mp hnd'.2
        by_cases hxb : x = b
        · rw [if_pos hxb] at h
          have : y ∈ r2 := by
            cases r2 with
            | nil => simp at h; exact absurd h.symm hy
            | cons c r3 => simp at h; rw [← h]; simp
          exact hnd2.1 (hyh ▸ this)
        · rw [if_neg hxb] at h
          have : y ∈ r2 := by
            rcases nextOf_zero_or_mem r2 x with h0 | hm
            · rw [h0] at h; exact absurd h.symm hy
            · rw [h] at hm; exact hm
          exact hnd2.1 (hyh ▸ this)

theorem nextOf_of_prevOf {l : List Nat} (hnd : l.Nodup) {x y : Nat}
    (h : prevOf l y = x) (hx : x ≠ 0) : nextOf l x = y := by
  induction l with
  | nil => exact absurd h.symm hx
  | cons a r ih =>
    have hnd' := List.nodup_cons.mp hnd
    rw [prevOf_cons] at h
    rw [nextOf_cons]
    by_cases hc : r ≠ [] ∧ y = r.headD 0
    · rw [if_pos hc] at h
      rw [if_pos h.symm, hc.2]
    · rw [if_neg hc] at h
      have hxr : x ∈ r := by
        rcases prevOf_zero_or_mem r y with h0 | hm
        · rw [h0] at h; exact absurd h.symm hx
        · rw [h] at hm; exact hm
      have hxa : x ≠ a := fun e => hnd'.1 (e ▸ hxr)
      rw [if_neg hxa]
      exact ih hnd'.2 h

theorem headD_erase {r : List Nat} (hnd : r.Nodup) (h0 : 0 ∉ r) (b d : Nat) :
    (r.erase b).headD d = if r ≠ [] ∧ r.headD d = b then (if nextOf r b = 0 then d else nextOf r b)
      else r.headD d := by
  cases r with
  | nil => simp
  | cons c r2 =>
    by_cases hc : c = b
    · subst hc
      simp only [List.erase_cons_head, ne_eq, reduceCtorEq, not_false_eq_true, List.headD_cons,
        and_self, if_true, nextOf_cons]
      cases r2 with
      | nil => simp
      | cons e r3 =>
        have : e ≠ 0 := by
          intro h
          apply h0
          simp [h]
        simp [this]
    · rw [List.erase_cons_tail (by simpa using hc)]
      simp [hc]

theorem headD_erase_zero {r : List Nat} (hnd : r.Nodup) {b : Nat} (hb : b ≠ 0) :
    (r.erase b).headD 0 = if r.headD 0 = b then nextOf r b else r.headD 0 := by
  cases r with
  | nil => simp [Ne.symm hb]
  | cons c r2 =>
    by_cases hc : c = b
    · subst hc
      simp [nextOf_cons]
    · rw [List.erase_cons_tail (by simpa using hc)]
      simp [hc]

theorem nextOf_ne_of_notin {r : List Nat} {b x : Nat} (hb : b ∉ r) (hb0 : b ≠ 0) :
    nextOf r x ≠ b := by
  rcases nextOf_zero_or_mem r x with h | h
  · rw [h]; exact Ne.symm hb0
  · intro e; exact hb (e ▸ h)

theorem prevOf_ne_of_notin {r : List Nat} {b x : Nat} (hb : b ∉ r) (hb0 : b ≠ 0) :
    prevOf r x ≠ b := by
  rcases prevOf_zero_or_mem r x with h | h
  · rw [h]; exact Ne.symm hb0
  · intro e; exact hb (e ▸ h)

theorem nextOf_erase {l : List Nat} (hnd : l.Nodup) {b x : Nat} (hb : b ≠ 0) (hx : x ≠ b) :
    nextOf (l.erase b) x = if nextOf l x = b then nextOf l b else nextOf l x := by
  induction l with
  | nil => simp [nextOf, Ne.symm hb]
  | cons a r ih =>
    have hnd' := List.nodup_cons.mp hnd
    by_cases hab : a = b
    · subst hab
      rw [List.erase_cons_head, nextOf_cons, if_neg hx, if_neg (nextOf_ne_of_notin hnd'.1 hb)]
    · rw [List.erase_cons_tail (by simpa using hab), nextOf_cons, nextOf_cons, nextOf_cons,
        if_neg (Ne.symm hab)]
      by_cases hxa : x = a
      · rw [if_pos hxa, if_pos hxa]
        exact headD_erase_zero hnd'.2 hb
      · rw [if_neg hxa, if_neg hxa]
        exact ih hnd'.2

theorem prevOf_erase {l : List Nat} (hnd : l.Nodup) {b x : Nat} (hb : b ≠ 0) (hx : x ≠ b) :
    prevOf (l.erase b) x = if prevOf l x = b then prevOf l b else prevOf l x := by
  induction l with
  | nil => simp [prevOf, Ne.symm hb]
  | cons a r ih =>
    have hnd' := List.nodup_cons.mp hnd
    by_cases hab : a = b
    · subst hab
      rw [List.erase_cons_head, prevOf_head hnd, prevOf_cons]
      by_cases hc : r ≠ [] ∧ x = r.headD 0
      · rw [if_pos hc, if_pos rfl]
        obtain ⟨hne, hxe⟩ := hc
        cases r with
        | nil => exact absurd rfl hne
        | cons c r2 =>
          simp only [List.headD_cons] at hxe
          subst hxe
          exact prevOf_head hnd'.2
      · rw [if_neg hc, if_neg (prevOf_ne_of_notin hnd'.1 hb)]
    · rw [List.erase_cons_tail (by simpa using hab)]
      cases r with
      | nil => simp [prevOf, hab]
      | cons c r2 =>
        have hnd2 := List.nodup_cons.mp hnd'.2
        by_cases hcb : c = b
        · subst hcb
          rw [List.erase_cons_head]
          rw [prevOf_cons a r2, prevOf_cons a (c :: r2), prevOf_cons a (c :: r2), prevOf_cons c r2]
          simp only [ne_eq, reduceCtorEq, not_false_eq_true, List.headD_cons, true_and, if_true,
            if_neg hx]
          by_cases hh : r2 ≠ [] ∧ x = r2.headD 0
          · rw [if_pos hh, if_pos hh, if_pos rfl]
          · rw [if_neg hh, if_neg hh, if_neg (prevOf_ne_of_notin hnd2.1 hb)]
        · rw [List.erase_cons_tail (by simpa using hcb)]
          have ih' := ih hnd'.2
          rw [List.erase_cons_tail (by simpa using hcb)] at ih'
          rw [prevOf_cons a (c :: r2.erase b), prevOf_cons a (c :: r2), prevOf_cons a (c :: r2)]
          simp only [ne_eq, reduceCtorEq, not_false_eq_true, List.headD_cons, true_and]
          rw [if_neg (Ne.symm hcb)]
          by_cases hxc : x = c
          · rw [if_pos hxc, if_pos hxc, if_neg hab]
          · rw [if_neg hxc, if_neg hxc]
            exact ih'

/-! ## Reading and writing inside the heap -/

theorem GET_eq {s : State} {p : Nat} (h1 : s.mem_start_brk ≤ p) (h2 : p + 8 ≤ s.mem_brk) :
    GET s p = some (read8 s.mem p) := by
  unfold GET inHeapRange
  rw [if_pos ⟨h1, h2⟩]

theorem PUT_eq {s : State} {p : Nat} (v : Nat) (h1 : s.mem_start_brk ≤ p) (h2 : p + 8 ≤ s.mem_brk) :
    PUT s p v = some { s with mem := write8 s.mem p v } := by
  unfold PUT inHeapRange
  rw [if_pos ⟨h1, h2⟩]

theorem HDRP_eq {bp : Nat} (h1 : 8 ≤ bp) (h2 : bp < U64) : HDRP bp = bp - 8 := by
  unfold HDRP WSIZE U64 at *
  omega

theorem GET_SIZE_HDRP {s : State} {bp : Nat} (h1 : s.mem_start_brk + 8 ≤ bp)
    (h2 : bp ≤ s.mem_brk) (h3 : s.mem_brk < U64) :
    GET_SIZE s (HDRP bp) = some (hdrSize s.mem bp) := by
  rw [HDRP_eq (by omega) (by omega)]
  unfold GET_SIZE
  rw [GET_eq (by omega) (by omega)]
  rfl

theorem GET_ALLOC_HDRP {s : State} {bp : Nat} (h1 : s.mem_start_brk + 8 ≤ bp)
    (h2 : bp ≤ s.mem_brk) (h3 : s.mem_brk < U64) :
    GET_ALLOC s (HDRP bp) = some (hdrAlloc s.mem bp) := by
  rw [HDRP_eq (by omega) (by omega)]
  unfold GET_ALLOC
  rw [GET_eq (by omega) (by omega)]
  rfl

theorem FTRP_eq {s : State} {bp : Nat} (h1 : s.mem_start_brk + 8 ≤ bp)
    (h2 : bp ≤ s.mem_brk) (h3 : s.mem_brk < U64) (h4 : bp + hdrSize s.mem bp < U64 + 16)
    (h5 : 16 ≤ bp + hdrSize s.mem bp) :
    FTRP s bp = some (bp + hdrSize s.mem bp - 16) := by
  unfold FTRP
  rw [GET_SIZE_HDRP h1 h2 h3]
  simp only [Option.map_some', Option.some.injEq]
  unfold DSIZE U64 at *
  omega

theorem NEXT_BLKP_eq {s : State} {bp : Nat} (h1 : s.mem_start_brk + 8 ≤ bp)
    (h2 : bp ≤ s.mem_brk) (h3 : s.mem_brk < U64) (h4 : bp + hdrSize s.mem bp < U64) :
    NEXT_BLKP s bp = some (bp + hdrSize s.mem bp) := by
  unfold NEXT_BLKP
  have e : (bp + U64 - WSIZE) % U64 = HDRP bp := rfl
  rw [e, GET_SIZE_HDRP h1 h2 h3]
  simp only [Option.map_some', Option.some.injEq]
  exact Nat.mod_eq_of_lt h4

theorem PREV_BLKP_eq {s : State} {bp : Nat} (h1 : s.mem_start_brk + 16 ≤ bp)
    (h2 : bp ≤ s.mem_brk) (h3 : s.mem_brk < U64)
    (h4 : (read8 s.mem (bp - 16) &&& SIZE_MASK) ≤ bp) :
    PREV_BLKP s bp = some (bp - (read8 s.mem (bp - 16) &&& SIZE_MASK)) := by
  unfold PREV_BLKP GET_SIZE
  have e : (bp + U64 - DSIZE) % U64 = bp - 16 := by
    unfold DSIZE U64 at *
    omega
  rw [e, GET_eq (by omega) (by omega)]
  simp only [Option.map_some', Option.some.injEq]
  unfold U64 at *
  omega

theorem hdrSize_lt (m : Nat → Nat) (bp : Nat) : hdrSize m bp < U64 := by
  unfold hdrSize
  rw [and_SIZE_MASK _ (read8_lt _ _)]
  have := read8_lt m (bp - 8)
  omega

theorem hdrSize_of_tag {m : Nat → Nat} {bp size alloc : Nat}
    (h : read8 m (bp - 8) = PACK size alloc) (hs : size % 16 = 0) (ha : alloc < 2) :
    hdrSize m bp = size := by
  unfold hdrSize
  rw [h]
  exact size_of_PACK hs ha (h ▸ read8_lt _ _)

theorem hdrAlloc_of_tag {m : Nat → Nat} {bp size alloc : Nat}
    (h : read8 m (bp - 8) = PACK size alloc) (hs : size % 16 = 0) (ha : alloc < 2) :
    hdrAlloc m bp = alloc := by
  unfold hdrAlloc
  rw [h]
  exact alloc_of_PACK hs ha

/-! ## The link accessors -/

theorem find_free_list_ne_zero (s : State) {sz : Nat} (h : sz ≠ 0) :
    find_free_list s sz = ({ s with curr_freelist := some (size_class sz) }, some (size_class sz)) := by
  unfold find_free_list
  rw [if_neg h]

theorem GET_NEXT_FREEBLK_eq {s : State} {x i : Nat} (h1 : s.mem_start_brk + 8 ≤ x)
    (h2 : x + 8 ≤ s.mem_brk) (h3 : s.mem_brk < U64) (hsz : hdrSize s.mem x ≠ 0)
    (hcl : size_class (hdrSize s.mem x) = i) (hne : s.freeblk_listp i ≠ s.heap_listp) :
    GET_NEXT_FREEBLK s x = some ({ s with curr_freelist := some i }, read8 s.mem x) := by
  unfold GET_NEXT_FREEBLK
  rw [GET_SIZE_HDRP h1 (by omega) h3]
  simp only [obind_some, find_free_list_ne_zero s hsz, hcl, deref_curr, Option.map_some']
  rw [if_neg (Ne.symm hne), GET_eq (by simpa using (by omega : s.mem_start_brk ≤ x))
    (by simpa using h2)]
  rfl

theorem GET_PREV_FREEBLK_eq {s : State} {x i : Nat} (h1 : s.mem_start_brk + 8 ≤ x)
    (h2 : x + 16 ≤ s.mem_brk) (h3 : s.mem_brk < U64) (hsz : hdrSize s.mem x ≠ 0)
    (hcl : size_class (hdrSize s.mem x) = i) (hne : s.freeblk_listp i ≠ s.heap_listp) :
    GET_PREV_FREEBLK s x = some ({ s with curr_freelist := some i }, read8 s.mem (x + 8)) := by
  unfold GET_PREV_FREEBLK
  rw [GET_SIZE_HDRP h1 (by omega) h3]
  have e : (x + 8) % U64 = x + 8 := Nat.mod_eq_of_lt (by omega)
  simp only [obind_some, find_free_list_ne_zero s hsz, hcl, deref_curr, Option.map_some', e]
  rw [if_neg (Ne.symm hne), GET_eq (by simpa using (by omega : s.mem_start_brk ≤ x + 8))
    (by simpa using h2)]
  rfl

theorem SET_NEXT_FREEBLK_eq {s : State} {p : Nat} (v : Nat) (h1 : s.mem_start_brk ≤ p)
    (h2 : p + 8 ≤ s.mem_brk) :
    SET_NEXT_FREEBLK s p v = some { s with mem := write8 s.mem p v } :=
  PUT_eq v h1 h2

theorem SET_PREV_FREEBLK_eq {s : State} {p : Nat} (v : Nat) (h1 : s.mem_start_brk ≤ p)
    (h2 : p + 16 ≤ s.mem_brk) (h3 : s.mem_brk < U64) :
    SET_PREV_FREEBLK s p v = some { s with mem := write8 s.mem (p + 8) v } := by
  unfold SET_PREV_FREEBLK
  have e : (p + 8) % U64 = p + 8 := Nat.mod_eq_of_lt (by omega)
  rw [e]
  exact PUT_eq v (by omega) (by omega)

/-! ## Unlinking a list member in memory -/

theorem read8_write8 (m : Nat → Nat) (p v q : Nat) (h : q = p ∨ q + 8 ≤ p ∨ p + 8 ≤ q) :
    read8 (write8 m p v) q = if q = p then v % U64 else read8 m q := by
  by_cases e : q = p
  · rw [if_pos e, e, read8_write8_same]
  · rw [if_neg e, read8_write8_ne]
    omega

theorem unlinkMem_frame (m : Nat → Nat) (l : List Nat) (b a : Nat)
    (h : ∀ x ∈ l, a < x ∨ x + 16 ≤ a) : unlinkMem m l b a = m a := by
  unfold unlinkMem
  have hp : prevOf l b ≠ 0 → (a < prevOf l b ∨ prevOf l b + 8 ≤ a) := by
    intro hne
    rcases prevOf_zero_or_mem l b with h0 | hm
    · exact absurd h0 hne
    · have := h _ hm
      omega
  have hc : nextOf l b ≠ 0 → (a < nextOf l b + 8 ∨ nextOf l b + 8 + 8 ≤ a) := by
    intro hne
    rcases nextOf_zero_or_mem l b with h0 | hm
    · exact absurd h0 hne
    · have := h _ hm
      omega
  by_cases h1 : prevOf l b ≠ 0 <;> by_cases h2 : nextOf l b ≠ 0
  · rw [if_pos h1, if_pos h2, write8_other _ _ _ _ (hc h2), write8_other _ _ _ _ (hp h1)]
  · rw [if_pos h1, if_neg h2, write8_other _ _ _ _ (hp h1)]
  · rw [if_neg h1, if_pos h2, write8_other _ _ _ _ (hc h2)]
  · rw [if_neg h1, if_neg h2]

theorem read8_unlinkMem_frame (m : Nat → Nat) (l : List Nat) (b q : Nat)
    (h : ∀ x ∈ l, q + 8 ≤ x ∨ x + 16 ≤ q) : read8 (unlinkMem m l b) q = read8 m q := by
  apply read8_congr
  intro k hk
  apply unlinkMem_frame
  intro x hx
  have := h x hx
  omega

theorem unlinkMem_notin (m : Nat → Nat) {l : List Nat} {b : Nat} (h : b ∉ l) :
    unlinkMem m l b = m := by
  unfold unlinkMem
  rw [prevOf_notin h, nextOf_notin h]
  simp

theorem linked_unlink {m : Nat → Nat} {l : List Nat} {b : Nat} (hl : linked m l)
    (hnd : l.Nodup) (hpos : ∀ x ∈ l, x ≠ 0)
    (hsep : ∀ x ∈ l, ∀ y ∈ l, x = y ∨ x + 16 ≤ y ∨ y + 16 ≤ x) (hb : b ∈ l) :
    linked (unlinkMem m l b) (l.erase b) := by
  intro x hx
  obtain ⟨hxb, hxl⟩ := (List.Nodup.mem_erase_iff hnd).mp hx
  have hb0 := hpos b hb
  have hx0 := hpos x hxl
  have hpv : prevOf l b < U64 := by
    rw [← (hl b hb).2]; exact read8_lt _ _
  have hcv : nextOf l b < U64 := by
    rw [← (hl b hb).1]; exact read8_lt _ _
  have hp := prevOf_zero_or_mem l b
  have hc := nextOf_zero_or_mem l b
  have sp : prevOf l b ≠ 0 → (x = prevOf l b ∨ x + 16 ≤ prevOf l b ∨ prevOf l b + 16 ≤ x) := by
    intro hne
    rcases hp with h0 | hm
    · exact absurd h0 hne
    · exact hsep x hxl _ hm
  have sc : nextOf l b ≠ 0 → (x = nextOf l b ∨ x + 16 ≤ nextOf l b ∨ nextOf l b + 16 ≤ x) := by
    intro hne
    rcases hc with h0 | hm
    · exact absurd h0 hne
    · exact hsep x hxl _ hm
  constructor
  · -- the next word of x
    rw [nextOf_erase hnd hb0 hxb]
    by_cases hxp : x = prevOf l b
    · have hpne : prevOf l b ≠ 0 := hxp ▸ hx0
      have hnb : nextOf l x = b := by
        rw [hxp]; exact nextOf_of_prevOf hnd rfl hpne
      rw [if_pos hnb]
      unfold unlinkMem
      rw [if_pos hpne]
      by_cases hcne : nextOf l b ≠ 0
      · rw [if_pos hcne, read8_write8_ne _ _ _ _ (by have := sc hcne; omega), hxp,
          read8_write8_same, Nat.mod_eq_of_lt hcv]
      · rw [if_neg hcne, hxp, read8_write8_same, Nat.mod_eq_of_lt hcv]
    · have hnb : nextOf l x ≠ b := by
        intro e
        exact hxp (prevOf_of_nextOf hnd e hb0).symm
      rw [if_neg hnb, ← (hl x hxl).1]
      unfold unlinkMem
      by_cases hpne : prevOf l b ≠ 0 <;> by_cases hcne : nextOf l b ≠ 0
      · rw [if_pos hpne, if_pos hcne, read8_write8_ne _ _ _ _ (by have := sc hcne; omega),
          read8_write8_ne _ _ _ _ (by have := sp hpne; omega)]
      · rw [if_pos hpne, if_neg hcne, read8_write8_ne _ _ _ _ (by have := sp hpne; omega)]
      · rw [if_neg hpne, if_pos hcne, read8_write8_ne _ _ _ _ (by have := sc hcne; omega)]
      · rw [if_neg hpne, if_neg hcne]
  · -- the prev word of x
    rw [prevOf_erase hnd hb0 hxb]
    by_cases hxc : x = nextOf l b
    · have hcne : nextOf l b ≠ 0 := hxc ▸ hx0
      have hpb : prevOf l x = b := by
        rw [hxc]; exact prevOf_of_nextOf hnd rfl hcne
      rw [if_pos hpb]
      unfold unlinkMem
      rw [if_pos hcne, hxc, read8_write8_same, Nat.mod_eq_of_lt hpv]
    · have hpb : prevOf l x ≠ b := by
        intro e
        exact hxc (nextOf_of_prevOf hnd e hb0).symm
      rw [if_neg hpb, ← (hl x hxl).2]
      unfold unlinkMem
      by_cases hpne : prevOf l b ≠ 0 <;> by_cases hcne : nextOf l b ≠ 0
      · rw [if_pos hpne, if_pos hcne, read8_write8_ne _ _ _ _ (by have := sc hcne; omega),
          read8_write8_ne _ _ _ _ (by have := sp hpne; omega)]
      · rw [if_pos hpne, if_neg hcne, read8_write8_ne _ _ _ _ (by have := sp hpne; omega)]
      · rw [if_neg hpne, if_pos hcne, read8_write8_ne _ _ _ _ (by have := sc hcne; omega)]
      · rw [if_neg hpne, if_neg hcne]

/-! ## `remove_freeblk` -/

theorem prevOf_ne_zero {l : List Nat} (hpos : ∀ x ∈ l, x ≠ 0) {b : Nat} (hb : b ∈ l)
    (hh : b ≠ l.headD 0) : prevOf l b ≠ 0 := by
  induction l with
  | nil => simp at hb
  | cons a r ih =>
    simp only [List.headD_cons] at hh
    have hbr : b ∈ r := by
      rcases List.mem_cons.mp hb with h | h
      · exact absurd h hh
      · exact h
    rw [prevOf_cons]
    by_cases hc : r ≠ [] ∧ b = r.headD 0
    · rw [if_pos hc]
      exact hpos a (by simp)
    · rw [if_neg hc]
      apply ih (fun x hx => hpos x (List.mem_cons_of_mem _ hx)) hbr
      intro e
      apply hc
      refine ⟨?_, e⟩
      intro hr
      rw [hr] at hbr
      simp at hbr

theorem ListsOK.member {s : State} {L : Nat → List Nat} (h : ListsOK s L) {i x : Nat}
    (hi : i < 14) (hx : x ∈ L i) : memberOK s i x :=
  (h.1 i hi).2.2.2 x hx

theorem ListsOK.head_ne {s : State} {L : Nat → List Nat} (h : ListsOK s L) {i : Nat}
    (hi : i < 14) (hne : L i ≠ []) : s.freeblk_listp i ≠ s.heap_listp := by
  rw [(h.1 i hi).1]
  have hm := headD_mem hne s.heap_listp
  have := (h.member hi hm).1
  omega

theorem remove_loop_spec {L : Nat → List Nat} {i b : Nat} (hi : i < 14) :
    ∀ (post pre : List Nat) (x : Nat) (t : State) (fuel : Nat),
      Layout t → ListsOK t L → L i = pre ++ x :: post → b ∉ pre →
      (b ∈ L i → prevOf (L i) b ≠ 0) → post.length < fuel →
      ∃ t', remove_loop b fuel t x = some (t', decide (b ∈ x :: post)) ∧
        t'.mem = unlinkMem t.mem (L i) b ∧ t'.freeblk_listp = t.freeblk_listp ∧
        sameRange t t' := by
  intro post
  induction post with
  | nil =>
    intro pre x t fuel hlay hL hdec hbpre hprev hfuel
    obtain ⟨hl1, hl2, hl3, hl4⟩ := hlay
    have hxl : x ∈ L i := by rw [hdec]; simp
    obtain ⟨hx1, hx2, hx3, hx4⟩ := hL.member hi hxl
    have hne : L i ≠ [] := by rw [hdec]; simp
    have hhead := hL.head_ne hi hne
    obtain ⟨-, hlink, hnd, -⟩ := hL.1 i hi
    have hxpre : x ∉ pre := by
      rw [hdec] at hnd
      have := List.nodup_append.mp hnd
      intro hx
      exact this.2.2 hx (by simp) 
    have hnx : read8 t.mem x = 0 := by
      rw [(hlink x hxl).1, hdec, nextOf_append hxpre]; rfl
    cases fuel with
    | zero => simp at hfuel
    | succ f =>
      unfold remove_loop
      rw [GET_NEXT_FREEBLK_eq (by omega) (by omega) (by omega) hx3 hx4 hhead]
      simp only [obind_some, hnx, ne_eq, not_true_eq_false, if_false]
      by_cases hxb : x = b
      · rw [if_pos hxb]
        have hbl : b ∈ L i := hxb ▸ hxl
        have hp := hprev hbl
        have hpm : prevOf (L i) b ∈ L i := by
          rcases prevOf_zero_or_mem (L i) b with h | h
          · exact absurd h hp
          · exact h
        obtain ⟨hp1, hp2, -, -⟩ := hL.member hi hpm
        have hpv : read8 t.mem (x + 8) = prevOf (L i) b := by
          rw [(hlink x hxl).2, hxb]
        rw [GET_PREV_FREEBLK_eq (s := { t with curr_freelist := some i }) (by dsimp only; omega)
          (by dsimp only; omega) (by dsimp only; omega) hx3 hx4 hhead]
        simp only [obind_some, hpv]
        rw [SET_NEXT_FREEBLK_eq (s := { t with curr_freelist := some i }) 0
          (by dsimp only; omega) (by dsimp only; omega)]
        simp only [obind_some]
        refine ⟨_, congrArg some (Prod.ext rfl ?_), ?_, rfl, ⟨rfl, rfl, rfl, rfl, rfl⟩⟩
        · simp [hxb]
        · have hc : nextOf (L i) b = 0 := by
            rw [← hxb, ← (hlink x hxl).1, hnx]
          unfold unlinkMem
          simp [hp, hc]
      · rw [if_neg hxb]
        refine ⟨_, congrArg some (Prod.ext rfl ?_), ?_, rfl, ⟨rfl, rfl, rfl, rfl, rfl⟩⟩
        · have : b ≠ x := fun e => hxb e.symm
          simp [this]
        · have : b ∉ L i := by
            rw [hdec]
            simp only [List.mem_append, List.mem_cons, List.mem_nil_iff, or_false, not_or]
            exact ⟨hbpre, fun e => hxb e.symm⟩
          simp [unlinkMem_notin _ this]
  | cons y post' ih =>
    intro pre x t fuel hlay hL hdec hbpre hprev hfuel
    obtain ⟨hl1, hl2, hl3, hl4⟩ := hlay
    have hxl : x ∈ L i := by rw [hdec]; simp
    have hyl : y ∈ L i := by rw [hdec]; simp
    obtain ⟨hx1, hx2, hx3, hx4⟩ := hL.member hi hxl
    obtain ⟨hy1, hy2, hy3, hy4⟩ := hL.member hi hyl
    have hne : L i ≠ [] := by rw [hdec]; simp
    have hhead := hL.head_ne hi hne
    obtain ⟨-, hlink, hnd, -⟩ := hL.1 i hi
    have hnd' := hnd
    rw [hdec] at hnd'
    have hxpre : x ∉ pre := by
      have := List.nodup_append.mp hnd'
      intro hx
      exact this.2.2 hx (by simp)
    have hxy : x ≠ y := by
      have := (List.nodup_append.mp hnd').2.1
      have := (List.nodup_cons.mp this).1
      intro e
      apply this
      simp [e]
    have hnx : read8 t.mem x = y := by
      rw [(hlink x hxl).1, hdec, nextOf_append hxpre]; rfl
    have hy0 : y ≠ 0 := by omega
    cases fuel with
    | zero => simp at hfuel
    | succ f =>
      unfold remove_loop
      rw [GET_NEXT_FREEBLK_eq (by omega) (by omega) (by omega) hx3 hx4 hhead]
      simp only [obind_some, hnx, ne_eq, hy0, not_false_eq_true, if_true]
      by_cases hxb : x = b
      · rw [if_pos hxb]
        have hbl : b ∈ L i := hxb ▸ hxl
        have hp := hprev hbl
        have hpm : prevOf (L i) b ∈ L i := by
          rcases prevOf_zero_or_mem (L i) b with h | h
          · exact absurd h hp
          · exact h
        obtain ⟨hp1, hp2, -, -⟩ := hL.member hi hpm
        have hpv : read8 t.mem (x + 8) = prevOf (L i) b := by
          rw [(hlink x hxl).2, hxb]
        have hcv : nextOf (L i) b = y := by
          rw [← hxb, ← (hlink x hxl).1, hnx]
        have hb0 : b ≠ 0 := by omega
        have hpx : prevOf (L i) b ≠ x := by
          intro e
          rw [hxb] at e
          have := nextOf_of_prevOf hnd e hb0
          rw [hcv] at this
          exact hxy (hxb.trans this.symm)
        have hsep := hL.2 i hi i hi x hxl _ hpm
        have hh2 : hdrSize (write8 t.mem (prevOf (L i) b) y) x = hdrSize t.mem x := by
          unfold hdrSize
          rw [read8_write8_ne _ _ _ _ (by omega)]
        rw [GET_PREV_FREEBLK_eq (s := { t with curr_freelist := some i }) (by dsimp only; omega)
          (by dsimp only; omega) (by dsimp only; omega) hx3 hx4 hhead]
        simp only [obind_some, hpv]
        rw [GET_NEXT_FREEBLK_eq (s := { t with curr_freelist := some i }) (by dsimp only; omega)
          (by dsimp only; omega) (by dsimp only; omega) hx3 hx4 hhead]
        simp only [obind_some, hnx]
        rw [SET_NEXT_FREEBLK_eq (s := { t with curr_freelist := some i }) y
          (by dsimp only; omega) (by dsimp only; omega)]
        simp only [obind_some]
        rw [GET_NEXT_FREEBLK_eq
          (s := { t with curr_freelist := some i, mem := write8 t.mem (prevOf (L i) b) y })
          (by dsimp only; omega) (by dsimp only; omega) (by dsimp only; omega)
          (by dsimp only; rw [hh2]; exact hx3) (by dsimp only; rw [hh2]; exact hx4) hhead]
        simp only [obind_some]
        rw [GET_PREV_FREEBLK_eq
          (s := { t with curr_freelist := some i, mem := write8 t.mem (prevOf (L i) b) y })
          (by dsimp only; omega) (by dsimp only; omega) (by dsimp only; omega)
          (by dsimp only; rw [hh2]; exact hx3) (by dsimp only; rw [hh2]; exact hx4) hhead]
        simp only [obind_some]
        rw [read8_write8_ne _ _ _ x (by omega), read8_write8_ne _ _ _ (x + 8) (by omega), hnx, hpv]
        rw [SET_PREV_FREEBLK_eq
          (s := { t with curr_freelist := some i, mem := write8 t.mem (prevOf (L i) b) y })
          (prevOf (L i) b) (by dsimp only; omega) (by dsimp only; omega) (by dsimp only; omega)]
        simp only [obind_some]
        refine ⟨_, congrArg some (Prod.ext rfl ?_), ?_, rfl, ⟨rfl, rfl, rfl, rfl, rfl⟩⟩
        · simp [hxb]
        · unfold unlinkMem
          simp [hp, hcv, hy0]
      · rw [if_neg hxb]
        rw [GET_NEXT_FREEBLK_eq (s := { t with curr_freelist := some i }) (by dsimp only; omega)
          (by dsimp only; omega) (by dsimp only; omega) hx3 hx4 hhead]
        simp only [obind_some, hnx]
        have hdec' : L i = (pre ++ [x]) ++ y :: post' := by
          rw [hdec]; simp
        have hb' : b ∉ pre ++ [x] := by
          simp only [List.mem_append, List.mem_singleton, not_or]
          exact ⟨hbpre, fun e => hxb e.symm⟩
        obtain ⟨t', h1, h2, h3, h4⟩ := ih (pre ++ [x]) y
          { t with curr_freelist := some i } f ⟨hl1, hl2, hl3, hl4⟩ hL hdec' hb' hprev
          (by simpa using hfuel)
        refine ⟨t', ?_, h2, h3, h4⟩
        rw [h1]
        have : b ≠ x := fun e => hxb e.symm
        simp [this]

theorem assign_curr_eq (s : State) (l v : Nat) (h : s.curr_freelist = some l) :
    assign_curr s v =
      some { s with freeblk_listp := fun j => if j = l then v else s.freeblk_listp j } := by
  unfold assign_curr
  rw [h]
  rfl

theorem remove_freeblk_spec {s : State} {L : Nat → List Nat} {i b F : Nat} (hi : i < 14)
    (hlay : Layout s) (hL : ListsOK s L) (hb1 : s.heap_listp + 16 ≤ b) (hb2 : b ≤ s.mem_brk)
    (hsz : hdrSize s.mem b ≠ 0) (hcl : size_class (hdrSize s.mem b) = i)
    (hal : hdrAlloc s.mem b ≠ 0) (hfuel : (L i).length < F) :
    ∃ s', remove_freeblk F s b = some (s', decide (b ∈ L i)) ∧
      s'.mem = unlinkMem s.mem (L i) b ∧
      (∀ j, s'.freeblk_listp j =
        if j = i then ((L i).erase b).headD s.heap_listp else s.freeblk_listp j) ∧
      sameRange s s' := by
  have hlay' := hlay
  obtain ⟨hl1, hl2, hl3, hl4⟩ := hlay
  obtain ⟨hhd, hlink, hnd, -⟩ := hL.1 i hi
  unfold remove_freeblk
  rw [GET_SIZE_HDRP (by omega) (by omega) (by omega)]
  simp only [obind_some, find_free_list_ne_zero s hsz, hcl, deref_curr, Option.map_some']
  rw [hhd]
  cases hl : L i with
  | nil =>
    simp only [List.headD_nil, if_true]
    refine ⟨_, congrArg some (Prod.ext rfl ?_), ?_, ?_, ⟨rfl, rfl, rfl, rfl, rfl⟩⟩
    · simp
    · simp [unlinkMem, prevOf, nextOf]
    · intro j
      by_cases hj : j = i
      · subst hj; simp [hhd, hl]
      · simp [hj]
  | cons h r =>
    have hhl : h ∈ L i := by rw [hl]; simp
    obtain ⟨hh1, hh2, hh3, hh4⟩ := hL.member hi hhl
    have hne : L i ≠ [] := by rw [hl]; simp
    have hhead := hL.head_ne hi hne
    have hhead' : s.freeblk_listp i = h := by rw [hhd, hl]; rfl
    have hhne : h ≠ s.heap_listp := by omega
    simp only [List.headD_cons, hhne, if_false]
    rw [GET_ALLOC_HDRP (s := { s with curr_freelist := some i }) (by dsimp only; omega)
      (by dsimp only; omega) (by dsimp only; omega)]
    simp only [obind_some, hal, if_false]
    have hnd' := hnd
    rw [hl] at hnd'
    have hnx : read8 s.mem h = r.headD 0 := by
      rw [(hlink h hhl).1, hl, nextOf_cons, if_pos rfl]
    by_cases hbh : b = h
    · rw [if_pos hbh]
      rw [GET_NEXT_FREEBLK_eq (s := { s with curr_freelist := some i }) (by dsimp only; omega)
        (by dsimp only; omega) (by dsimp only; omega) hh3 hh4 hhead]
      simp only [obind_some, hnx]
      cases hr : r with
      | nil =>
        simp only [List.headD_nil, if_true]
        rw [assign_curr_eq _ i _ rfl]
        simp only [obind_some]
        refine ⟨_, congrArg some (Prod.ext rfl ?_), ?_, ?_, ⟨rfl, rfl, rfl, rfl, rfl⟩⟩
        · simp [hbh]
        · simp [unlinkMem, prevOf, nextOf, hbh]
        · intro j
          simp [hbh]
      | cons c r2 =>
        have hcl' : c ∈ L i := by rw [hl, hr]; simp
        obtain ⟨hc1, hc2, hc3, hc4⟩ := hL.member hi hcl'
        have hc0 : c ≠ 0 := by omega
        have hsep := hL.2 i hi i hi h hhl c hcl'
        have hhc : h ≠ c := by
          rw [hr] at hnd'
          have := (List.nodup_cons.mp hnd').1
          intro e
          apply this
          simp [e]
        have hnx' : read8 s.mem h = c := by rw [hnx, hr]; rfl
        have hh2' : hdrSize (write8 s.mem (c + 8) 0) h = hdrSize s.mem h := by
          unfold hdrSize
          rw [read8_write8_ne _ _ _ _ (by omega)]
        simp only [List.headD_cons, hc0, if_false, Option.map_some', obind_some, hhead']
        rw [GET_NEXT_FREEBLK_eq (s := { s with curr_freelist := some i }) (by dsimp only; omega)
          (by dsimp only; omega) (by dsimp only; omega) hh3 hh4 hhead]
        simp only [obind_some, hnx']
        rw [SET_PREV_FREEBLK_eq (s := { s with curr_freelist := some i }) 0
          (by dsimp only; omega) (by dsimp only; omega) (by dsimp only; omega)]
        simp only [obind_some, Option.map_some', hhead']
        rw [GET_NEXT_FREEBLK_eq
          (s := { s with curr_freelist := some i, mem := write8 s.mem (c + 8) 0 })
          (by dsimp only; omega) (by dsimp only; omega) (by dsimp only; omega)
          (by dsimp only; rw [hh2']; exact hh3) (by dsimp only; rw [hh2']; exact hh4) hhead]
        simp only [obind_some]
        rw [assign_curr_eq _ i _ rfl]
        simp only [obind_some]
        rw [read8_write8_ne _ _ _ h (by omega), hnx']
        refine ⟨_, congrArg some (Prod.ext rfl ?_), ?_, ?_, ⟨rfl, rfl, rfl, rfl, rfl⟩⟩
        · simp [hbh]
        · have hp0 : prevOf (h :: c :: r2) h = 0 := prevOf_head (hr ▸ hnd')
          simp [unlinkMem, hbh, hp0, nextOf_cons, hc0]
        · intro j
          simp [hbh]
    · rw [if_neg hbh]
      have hpos : ∀ x ∈ L i, x ≠ 0 := by
        intro x hx
        have := (hL.member hi hx).1
        omega
      have hprev : b ∈ L i → prevOf (L i) b ≠ 0 := by
        intro hbl
        apply prevOf_ne_zero hpos hbl
        rw [hl]
        exact hbh
      obtain ⟨t', h1, h2, h3, h4⟩ := remove_loop_spec (L := L) (b := b) hi r [] h
        { s with curr_freelist := some i } F hlay' hL (by rw [hl]; rfl) (by simp) hprev
        (by rw [hl] at hfuel; simp at hfuel; omega)
      refine ⟨t', ?_, ?_, ?_, h4⟩
      · rw [h1]
      · rw [h2, hl]
      · intro j
        rw [h3]
        by_cases hj : j = i
        · subst hj
          rw [if_pos rfl, List.erase_cons_tail (by simpa using fun e => hbh e.symm)]
          exact hhead'
        · rw [if_neg hj]

/-! ## Lists under changes of memory -/

theorem ListsOK_congr {s s' : State} {L : Nat → List Nat} (hL : ListsOK s L)
    (hhp : s'.heap_listp = s.heap_listp) (hbrk : s.mem_brk ≤ s'.mem_brk)
    (hh : ∀ j, j < 14 → s'.freeblk_listp j = s.freeblk_listp j)
    (hm : ∀ j, j < 14 → ∀ x ∈ L j, read8 s'.mem x = read8 s.mem x ∧
      read8 s'.mem (x + 8) = read8 s.mem (x + 8) ∧ hdrSize s'.mem x = hdrSize s.mem x) :
    ListsOK s' L := by
  refine ⟨?_, hL.2⟩
  intro j hj
  obtain ⟨h1, h2, h3, h4⟩ := hL.1 j hj
  refine ⟨?_, ?_, h3, ?_⟩
  · rw [hh j hj, hhp, h1]
  · intro x hx
    obtain ⟨e1, e2, -⟩ := hm j hj x hx
    rw [e1, e2]
    exact h2 x hx
  · intro x hx
    obtain ⟨-, -, e3⟩ := hm j hj x hx
    obtain ⟨m1, m2, m3, m4⟩ := h4 x hx
    refine ⟨?_, ?_, ?_, ?_⟩
    · rw [hhp]; exact m1
    · omega
    · rw [e3]; exact m3
    · rw [e3]; exact m4

theorem ListsOK.ne_of_ne {s : State} {L : Nat → List Nat} (hL : ListsOK s L) {i j x y : Nat}
    (hi : i < 14) (hj : j < 14) (hx : x ∈ L i) (hy : y ∈ L j) (hij : i ≠ j) : x ≠ y := by
  intro e
  have h1 := (hL.member hi hx).2.2.2
  have h2 := (hL.member hj hy).2.2.2
  rw [e] at h1
  exact hij (h1.symm.trans h2)

theorem ListsOK_remove {s s' : State} {L : Nat → List Nat} {i b : Nat} (hi : i < 14)
    (hL : ListsOK s L) (hm : s'.mem = unlinkMem s.mem (L i) b)
    (hh : ∀ j, s'.freeblk_listp j =
      if j = i then ((L i).erase b).headD s.heap_listp else s.freeblk_listp j)
    (hr : sameRange s s') : ListsOK s' (setList L i ((L i).erase b)) := by
  obtain ⟨hr0, hr1, hr2, hr3, hr4⟩ := hr
  have hsub : ∀ j, j < 14 → ∀ x ∈ setList L i ((L i).erase b) j, x ∈ L j := by
    intro j _ x hx
    unfold setList at hx
    by_cases hji : j = i
    · rw [if_pos hji] at hx
      rw [hji]
      exact List.mem_of_mem_erase hx
    · rw [if_neg hji] at hx
      exact hx
  have hhdr : ∀ j, j < 14 → ∀ x ∈ L j, hdrSize s'.mem x = hdrSize s.mem x := by
    intro j hj x hx
    unfold hdrSize
    rw [hm]
    rw [read8_unlinkMem_frame]
    intro z hz
    have h1 := (hL.member hj hx).1
    rcases hL.2 j hj i hi x hx z hz with e | e | e <;> omega
  have hmem : ∀ j, j < 14 → ∀ x ∈ L j, memberOK s' j x := by
    intro j hj x hx
    obtain ⟨m1, m2, m3, m4⟩ := hL.member hj hx
    refine ⟨?_, ?_, ?_, ?_⟩
    · rw [hr4]; exact m1
    · rw [hr2]; exact m2
    · rw [hhdr j hj x hx]; exact m3
    · rw [hhdr j hj x hx]; exact m4
  refine ⟨?_, ?_⟩
  · intro j hj
    obtain ⟨h1, h2, h3, h4⟩ := hL.1 j hj
    by_cases hji : j = i
    · subst hji
      have e : setList L j ((L j).erase b) j = (L j).erase b := by simp [setList]
      rw [e]
      refine ⟨?_, ?_, h3.erase b, ?_⟩
      · rw [hh j, if_pos rfl, hr4]
      · rw [hm]
        by_cases hb : b ∈ L j
        · apply linked_unlink h2 h3 _ _ hb
          · intro x hx
            have := (hL.member hj hx).1
            omega
          · intro x hx y hy
            rcases hL.2 j hj j hj x hx y hy with e | e | e <;> omega
        · rw [unlinkMem_notin _ hb, List.erase_of_not_mem hb]
          exact h2
      · intro x hx
        exact hmem j hj x (List.mem_of_mem_erase hx)
    · have e : setList L i ((L i).erase b) j = L j := by simp [setList, hji]
      rw [e]
      refine ⟨?_, ?_, h3, hmem j hj⟩
      · rw [hh j, if_neg hji, hr4, h1]
      · intro x hx
        have hfr : ∀ q, (q = x ∨ q = x + 8) → read8 s'.mem q = read8 s.mem q := by
          intro q hq
          rw [hm, read8_unlinkMem_frame]
          intro z hz
          have hne := hL.ne_of_ne hj hi hx hz hji
          rcases hL.2 j hj i hi x hx z hz with e | e | e <;> omega
        rw [hfr x (Or.inl rfl), hfr (x + 8) (Or.inr rfl)]
        exact h2 x hx
  · intro j hj k hk x hx y hy
    exact hL.2 j hj k hk x (hsub j hj x hx) y (hsub k hk y hy)

/-! ## `find_fit_given_free_list` -/

theorem find_fit_loop_spec {L : Nat → List Nat} {i asize : Nat} (hi : i < 14) :
    ∀ (post pre : List Nat) (x : Nat) (t : State) (fuel : Nat),
      Layout t → ListsOK t L → L i = pre ++ x :: post → post.length < fuel →
      find_fit_loop asize fuel t x =
        some ({ t with curr_freelist := some i }, firstFit t.mem asize (x :: post)) := by
  intro post
  induction post with
  | nil =>
    intro pre x t fuel hlay hL hdec hfuel
    obtain ⟨hl1, hl2, hl3, hl4⟩ := hlay
    have hxl : x ∈ L i := by rw [hdec]; simp
    obtain ⟨hx1, hx2, hx3, hx4⟩ := hL.member hi hxl
    have hne : L i ≠ [] := by rw [hdec]; simp
    have hhead := hL.head_ne hi hne
    obtain ⟨-, hlink, hnd, -⟩ := hL.1 i hi
    have hxpre : x ∉ pre := by
      rw [hdec] at hnd
      have := List.nodup_append.mp hnd
      intro hx
      exact this.2.2 hx (by simp)
    have hnx : read8 t.mem x = 0 := by
      rw [(hlink x hxl).1, hdec, nextOf_append hxpre]; rfl
    cases fuel with
    | zero => simp at hfuel
    | succ f =>
      unfold find_fit_loop
      rw [GET_NEXT_FREEBLK_eq (by omega) (by omega) (by omega) hx3 hx4 hhead]
      simp only [obind_some, hnx, ne_eq, not_true_eq_false, if_false]
      rw [GET_SIZE_HDRP (s := { t with curr_freelist := some i }) (by dsimp only; omega)
        (by dsimp only; omega) (by dsimp only; omega)]
      simp only [obind_some, firstFit]
      by_cases hfit : asize ≤ hdrSize t.mem x
      · rw [if_pos hfit, if_pos hfit]
      · rw [if_neg hfit, if_neg hfit]
  | cons y post' ih =>
    intro pre x t fuel hlay hL hdec hfuel
    obtain ⟨hl1, hl2, hl3, hl4⟩ := hlay
    have hxl : x ∈ L i := by rw [hdec]; simp
    have hyl : y ∈ L i := by rw [hdec]; simp
    obtain ⟨hx1, hx2, hx3, hx4⟩ := hL.member hi hxl
    obtain ⟨hy1, hy2, hy3, hy4⟩ := hL.member hi hyl
    have hne : L i ≠ [] := by rw [hdec]; simp
    have hhead := hL.head_ne hi hne
    obtain ⟨-, hlink, hnd, -⟩ := hL.1 i hi
    have hxpre : x ∉ pre := by
      rw [hdec] at hnd
      have := List.nodup_append.mp hnd
      intro hx
      exact this.2.2 hx (by simp)
    have hnx : read8 t.mem x = y := by
      rw [(hlink x hxl).1, hdec, nextOf_append hxpre]; rfl
    have hy0 : y ≠ 0 := by omega
    cases fuel with
    | zero => simp at hfuel
    | succ f =>
      unfold find_fit_loop
      rw [GET_NEXT_FREEBLK_eq (by omega) (by omega) (by omega) hx3 hx4 hhead]
      simp only [obind_some, hnx, ne_eq, hy0, not_false_eq_true, if_true]
      rw [GET_SIZE_HDRP (s := { t with curr_freelist := some i }) (by dsimp only; omega)
        (by dsimp only; omega) (by dsimp only; omega)]
      simp only [obind_some]
      rw [firstFit]
      by_cases hfit : asize ≤ hdrSize t.mem x
      · rw [if_pos hfit, if_pos hfit]
      · rw [if_neg hfit, if_neg hfit]
        rw [GET_NEXT_FREEBLK_eq (s := { t with curr_freelist := some i }) (by dsimp only; omega)
          (by dsimp only; omega) (by dsimp only; omega) hx3 hx4 hhead]
        simp only [obind_some, hnx]
        have hdec' : L i = (pre ++ [x]) ++ y :: post' := by
          rw [hdec]; simp
        exact ih (pre ++ [x]) y { t with curr_freelist := some i } f ⟨hl1, hl2, hl3, hl4⟩ hL hdec'
          (by simpa using hfuel)

theorem find_fit_given_free_list_spec {s : State} {L : Nat → List Nat} {asize fuel : Nat}
    (hlay : Layout s) (hL : ListsOK s L) (ha : asize ≠ 0) (hi : size_class asize < 14)
    (hfuel : (L (size_class asize)).length < fuel) :
    find_fit_given_free_list fuel s asize =
      some ({ s with curr_freelist := some (size_class asize) },
        firstFit s.mem asize (L (size_class asize))) := by
  unfold find_fit_given_free_list
  simp only [find_free_list_ne_zero s ha, deref_curr, Option.map_some', obind_some]
  rw [(hL.1 _ hi).1]
  cases hl : L (size_class asize) with
  | nil => simp [firstFit]
  | cons h r =>
    have hhl : h ∈ L (size_class asize) := by rw [hl]; simp
    have := (hL.member hi hhl).1
    have hne : h ≠ s.heap_listp := by omega
    simp only [List.headD_cons, hne, if_false]
    rw [find_fit_loop_spec (L := L) hi r [] h { s with curr_freelist := some (size_class asize) } fuel
      hlay hL (by rw [hl]; rfl) (by rw [hl] at hfuel; simp at hfuel; omega)]

theorem ite_lt_of_lt {c : Prop} [Decidable c] {a b n : Nat} (ha : a < n) (hb : b < n) :
    (if c then a else b) < n := by
  split <;> assumption

theorem size_class_lt (n : Nat) : size_class n < 14 := by
  unfold size_class
  repeat' apply ite_lt_of_lt
  all_goals omega

theorem firstFit_eq_zero {m : Nat → Nat} {asize : Nat} {l : List Nat}
    (h : ∀ b ∈ l, hdrSize m b < asize) : firstFit m asize l = 0 := by
  induction l with
  | nil => rfl
  | cons a r ih =>
    rw [firstFit, if_neg (by have := h a (by simp); omega)]
    exact ih (fun b hb => h b (List.mem_cons_of_mem _ hb))

theorem malloc_unfold (fuel : Nat) (s : State) (size : Nat) (h : size ≠ 0) :
    malloc fuel s size =
      obind (find_fit_given_free_list fuel s (adjusted size)) fun r1 =>
      if r1.2 ≠ 0 then
        obind (place fuel r1.1 r1.2 (adjusted size)) fun s2 => some (s2, r1.2)
      else
        obind (extend_heap fuel r1.1 (adjusted size)) fun r2 =>
        if r2.2 = 0 then some (r2.1, 0)
        else obind (place fuel r2.1 r2.2 (adjusted size)) fun s3 => some (s3, r2.2) := by
  unfold malloc adjusted
  rw [if_neg h]

theorem align_adjusted_ne_zero {size : Nat} (h : adjusted size ≠ 0) :
    align (adjusted size) ≠ 0 := by
  unfold adjusted at *
  unfold align DSIZE ALIGNMENT U64 at *
  split at h
  · rw [if_pos (by assumption)]
    omega
  · rw [if_neg (by assumption)]
    omega

/-- C9: in a well-formed heap, when the list selected for the adjusted size of a request of
`size ≥ 1` bytes has no member that is large enough and the growth primitive fails, `malloc`
returns null (given enough fuel for the list search) and leaves every byte of memory, all
list heads, `heap_listp` and the heap bounds as they were. -/
theorem malloc_failure_is_clean (s : State) (g : Ghost) (size i : Nat) (hwf : WF s g)
    (hsize : 1 ≤ size) (hlist : (find_free_list s (adjusted size)).2 = some i)
    (hnofit : ∀ b ∈ g.lists i, hdrSize s.mem b < adjusted size)
    (hgrow : (mem_sbrk s (align (adjusted size))).2 = SBRK_FAIL) :
    ∃ N, ∀ fuel, N ≤ fuel → ∃ s', malloc fuel s size = some (s', 0) ∧
      s'.mem = s.mem ∧ s'.freeblk_listp = s.freeblk_listp ∧ s'.heap_listp = s.heap_listp ∧
      s'.mem_start_brk = s.mem_start_brk ∧ s'.mem_brk = s.mem_brk := by
  obtain ⟨hlay, -, -, -, -, hL, -⟩ := hwf
  have ha : adjusted size ≠ 0 := by
    intro h0
    unfold find_free_list at hlist
    rw [if_pos h0] at hlist
    simp at hlist
  have hi : i = size_class (adjusted size) := by
    rw [find_free_list_ne_zero s ha] at hlist
    simpa using hlist.symm
  subst hi
  have hcond : ¬ (s.mem_brk + align (adjusted size) ≤ s.mem_max_addr) := by
    intro hc
    unfold mem_sbrk at hgrow
    rw [if_pos hc] at hgrow
    have := align_adjusted_ne_zero ha
    obtain ⟨-, -, h3, h4⟩ := hlay
    unfold SBRK_FAIL at hgrow
    unfold U64 at h4
    dsimp only at hgrow
    omega
  refine ⟨(g.lists (size_class (adjusted size))).length + 1, ?_⟩
  intro fuel hfuel
  rw [malloc_unfold fuel s size (by omega),
    find_fit_given_free_list_spec hlay hL ha (size_class_lt _) (by omega)]
  simp only [obind_some, firstFit_eq_zero hnofit, ne_eq, not_true_eq_false, if_false]
  unfold extend_heap mem_sbrk
  simp only [hcond, if_false, if_true, obind_some]
  exact ⟨_, rfl, rfl, rfl, rfl, rfl, rfl⟩

set_option maxRecDepth 100000

theorem malloc_failure_is_clean_witness :
    WF (initState 32) emptyGhost ∧
    ∃ N, ∀ fuel, N ≤ fuel → ∃ s', malloc fuel (initState 32) 100 = some (s', 0) ∧
      s'.mem = (initState 32).mem ∧ s'.freeblk_listp = (initState 32).freeblk_listp ∧
      s'.heap_listp = (initState 32).heap_listp ∧
      s'.mem_start_brk = (initState 32).mem_start_brk ∧
      s'.mem_brk = (initState 32).mem_brk :=
  ⟨by decide,
   malloc_failure_is_clean (initState 32) emptyGhost 100 7 (by decide) (by decide) (by decide)
     (by decide) (by decide)⟩

/-! ## `place_freeblk` -/

set_option maxRecDepth 512

theorem pushMem_frame (m : Nat → Nat) (l : List Nat) (n a : Nat) (hn : a < n ∨ n + 16 ≤ a)
    (hh : ∀ x ∈ l, a < x ∨ x + 16 ≤ a) : pushMem m l n a = m a := by
  cases l with
  | nil =>
    show write8 (write8 m n 0) (n + 8) 0 a = m a
    rw [write8_other _ _ _ _ (by omega), write8_other _ _ _ _ (by omega)]
  | cons h r =>
    show write8 (write8 (write8 m (n + 8) 0) n h) (h + 8) n a = m a
    have := hh h (by simp)
    rw [write8_other _ _ _ _ (by omega), write8_other _ _ _ _ (by omega),
      write8_other _ _ _ _ (by omega)]

theorem read8_pushMem_frame (m : Nat → Nat) (l : List Nat) (n q : Nat)
    (hn : q + 8 ≤ n ∨ n + 16 ≤ q) (hh : ∀ x ∈ l, q + 8 ≤ x ∨ x + 16 ≤ q) :
    read8 (pushMem m l n) q = read8 m q := by
  apply read8_congr
  intro k hk
  apply pushMem_frame
  · omega
  · intro x hx
    have := hh x hx
    omega

theorem place_freeblk_spec {s : State} {L : Nat → List Nat} {i n : Nat} (hi : i < 14)
    (hlay : Layout s) (hL : ListsOK s L) (hn1 : s.heap_listp + 16 ≤ n) (hn2 : n + 16 ≤ s.mem_brk)
    (hsz : hdrSize s.mem n ≠ 0) (hcl : size_class (hdrSize s.mem n) = i)
    (hal : hdrAlloc s.mem n = 0) :
    ∃ s', place_freeblk s n = some (s', true) ∧ s'.mem = pushMem s.mem (L i) n ∧
      (∀ j, s'.freeblk_listp j = if j = i then n else s.freeblk_listp j) ∧ sameRange s s' := by
  obtain ⟨hl1, hl2, hl3, hl4⟩ := hlay
  obtain ⟨hhd, -, -, -⟩ := hL.1 i hi
  unfold place_freeblk
  rw [GET_SIZE_HDRP (by omega) (by omega) (by omega)]
  simp only [obind_some, find_free_list_ne_zero s hsz, hcl]
  rw [GET_ALLOC_HDRP (s := { s with curr_freelist := some i }) (by dsimp only; omega)
    (by dsimp only; omega) (by dsimp only; omega)]
  simp only [obind_some, hal, ne_eq, not_true_eq_false, if_false, deref_curr, Option.map_some']
  rw [hhd]
  cases hl : L i with
  | nil =>
    simp only [List.headD_nil, if_true]
    rw [assign_curr_eq _ i _ rfl]
    simp only [obind_some, Option.map_some', if_true]
    rw [SET_NEXT_FREEBLK_eq
      (s := { s with curr_freelist := some i,
                     freeblk_listp := fun j => if j = i then n else s.freeblk_listp j }) 0
      (by dsimp only; omega) (by dsimp only; omega)]
    simp only [obind_some, Option.map_some', if_true]
    rw [SET_PREV_FREEBLK_eq
      (s := { s with curr_freelist := some i,
                     freeblk_listp := fun j => if j = i then n else s.freeblk_listp j,
                     mem := write8 s.mem n 0 }) 0
      (by dsimp only; omega) (by dsimp only; omega) (by dsimp only; omega)]
    simp only [obind_some]
    exact ⟨_, rfl, rfl, fun j => rfl, ⟨rfl, rfl, rfl, rfl, rfl⟩⟩
  | cons h r =>
    have hhl : h ∈ L i := by rw [hl]; simp
    obtain ⟨hh1, hh2, -, -⟩ := hL.member hi hhl
    have hne : h ≠ s.heap_listp := by omega
    simp only [List.headD_cons, hne, if_false]
    rw [assign_curr_eq _ i _ rfl]
    simp only [obind_some]
    rw [SET_PREV_FREEBLK_eq
      (s := { s with curr_freelist := some i,
                     freeblk_listp := fun j => if j = i then n else s.freeblk_listp j }) 0
      (by dsimp only; omega) (by dsimp only; omega) (by dsimp only; omega)]
    simp only [obind_some]
    rw [SET_NEXT_FREEBLK_eq
      (s := { s with curr_freelist := some i,
                     freeblk_listp := fun j => if j = i then n else s.freeblk_listp j,
                     mem := write8 s.mem (n + 8) 0 }) h
      (by dsimp only; omega) (by dsimp only; omega)]
    simp only [obind_some]
    rw [SET_PREV_FREEBLK_eq
      (s := { s with curr_freelist := some i,
                     freeblk_listp := fun j => if j = i then n else s.freeblk_listp j,
                     mem := write8 (write8 s.mem (n + 8) 0) n h }) n
      (by dsimp only; omega) (by dsimp only; omega) (by dsimp only; omega)]
    simp only [obind_some]
    exact ⟨_, rfl, rfl, fun j => rfl, ⟨rfl, rfl, rfl, rfl, rfl⟩⟩

theorem linked_push {m : Nat → Nat} {l : List Nat} {n : Nat} (hl : linked m l)
    (hn : n < U64) (hlt : ∀ x ∈ l, x < U64)
    (hsep : ∀ x ∈ l, x + 16 ≤ n ∨ n + 16 ≤ x)
    (hsep2 : ∀ x ∈ l, ∀ y ∈ l, x = y ∨ x + 16 ≤ y ∨ y + 16 ≤ x) :
    linked (pushMem m l n) (n :: l) := by
  have hnl : n ∉ l := by
    intro h
    have := hsep n h
    omega
  cases l with
  | nil =>
    intro x hx
    simp only [List.mem_singleton] at hx
    subst hx
    have e : pushMem m [] x = write8 (write8 m x 0) (x + 8) 0 := rfl
    rw [e]
    constructor
    · rw [read8_write8_ne _ _ _ _ (by omega), read8_write8_same]
      simp [nextOf_cons]
    · rw [read8_write8_same]
      simp [prevOf_cons, prevOf]
  | cons h r =>
    have hh := hsep h (by simp)
    have hhlt := hlt h (by simp)
    intro x hx
    have e : pushMem m (h :: r) n = write8 (write8 (write8 m (n + 8) 0) n h) (h + 8) n := rfl
    rw [e]
    rcases List.mem_cons.mp hx with hxn | hxl
    · subst hxn
      constructor
      · rw [read8_write8_ne _ _ _ _ (by omega), read8_write8_same, Nat.mod_eq_of_lt hhlt]
        simp [nextOf_cons]
      · rw [read8_write8_ne _ _ _ _ (by omega), read8_write8_ne _ _ _ _ (by omega),
          read8_write8_same, prevOf_cons, prevOf_notin hnl]
        have : x ≠ h := by omega
        simp [this]
    · have hxs := hsep x hxl
      have hxh := hsep2 x hxl h (by simp)
      have hxn : x ≠ n := by omega
      constructor
      · rw [read8_write8_ne _ _ _ _ (by omega), read8_write8_ne _ _ _ _ (by omega),
          read8_write8_ne _ _ _ _ (by omega), nextOf_cons, if_neg hxn]
        exact (hl x hxl).1
      · rw [prevOf_cons]
        by_cases hxh' : x = h
        · subst hxh'
          rw [read8_write8_same, Nat.mod_eq_of_lt hn]
          simp
        · rw [read8_write8_ne _ _ _ _ (by omega), read8_write8_ne _ _ _ _ (by omega),
            read8_write8_ne _ _ _ _ (by omega)]
          have : ¬ (h :: r ≠ [] ∧ x = (h :: r).headD 0) := by
            simp [hxh']
          rw [if_neg this]
          exact (hl x hxl).2

theorem ListsOK_push {s s' : State} {L : Nat → List Nat} {i n : Nat} (hi : i < 14)
    (hlay : Layout s) (hL : ListsOK s L) (hn1 : s.heap_listp + 16 ≤ n) (hn2 : n + 16 ≤ s.mem_brk)
    (hsz : hdrSize s.mem n ≠ 0) (hcl : size_class (hdrSize s.mem n) = i)
    (hsep : ∀ j, j < 14 → ∀ y ∈ L j, n + 32 ≤ y ∨ y + 32 ≤ n)
    (hm : s'.mem = pushMem s.mem (L i) n)
    (hh : ∀ j, s'.freeblk_listp j = if j = i then n else s.freeblk_listp j)
    (hr : sameRange s s') : ListsOK s' (setList L i (n :: L i)) := by
  obtain ⟨hr0, hr1, hr2, hr3, hr4⟩ := hr
  obtain ⟨hl1, hl2, hl3, hl4⟩ := hlay
  have hword : ∀ j, j < 14 → ∀ x ∈ L j, ∀ q, (q = x - 8 ∨ (j ≠ i ∧ (q = x ∨ q = x + 8))) →
      read8 s'.mem q = read8 s.mem q := by
    intro j hj x hx q hq
    rw [hm]
    have hx1 := (hL.member hj hx).1
    have hxn := hsep j hj x hx
    apply read8_pushMem_frame
    · omega
    · intro z hz
      rcases hL.2 j hj i hi x hx z hz with e | e | e
      · rcases hq with hq | ⟨hji, -⟩
        · omega
        · exact absurd e (hL.ne_of_ne hj hi hx hz hji)
      · omega
      · omega
  have hmem : ∀ j, j < 14 → ∀ x ∈ L j, memberOK s' j x := by
    intro j hj x hx
    obtain ⟨m1, m2, m3, m4⟩ := hL.member hj hx
    have e : hdrSize s'.mem x = hdrSize s.mem x := by
      unfold hdrSize
      rw [hword j hj x hx _ (Or.inl rfl)]
    refine ⟨?_, ?_, ?_, ?_⟩
    · rw [hr4]; exact m1
    · rw [hr2]; exact m2
    · rw [e]; exact m3
    · rw [e]; exact m4
  have hnmem : memberOK s' i n := by
    have e : hdrSize s'.mem n = hdrSize s.mem n := by
      have e0 : read8 (pushMem s.mem (L i) n) (n - 8) = read8 s.mem (n - 8) := by
        apply read8_pushMem_frame
        · omega
        · intro z hz
          have := hsep i hi z hz
          omega
      unfold hdrSize
      rw [hm, e0]
    refine ⟨?_, ?_, ?_, ?_⟩
    · rw [hr4]; exact hn1
    · rw [hr2]; exact hn2
    · rw [e]; exact hsz
    · rw [e]; exact hcl
  refine ⟨?_, ?_⟩
  · intro j hj
    obtain ⟨h1, h2, h3, h4⟩ := hL.1 j hj
    by_cases hji : j = i
    · subst hji
      have e : setList L j (n :: L j) j = n :: L j := by simp [setList]
      rw [e]
      refine ⟨?_, ?_, ?_, ?_⟩
      · rw [hh j, if_pos rfl]; rfl
      · rw [hm]
        apply linked_push h2 (by omega)
        · intro x hx
          have := (hL.member hj hx).2.1
          omega
        · intro x hx
          have := hsep j hj x hx
          omega
        · intro x hx y hy
          rcases hL.2 j hj j hj x hx y hy with e | e | e <;> omega
      · apply List.nodup_cons.mpr
        refine ⟨?_, h3⟩
        intro hn
        have := hsep j hj n hn
        omega
      · intro x hx
        rcases List.mem_cons.mp hx with e | e
        · rw [e]; exact hnmem
        · exact hmem j hj x e
    · have e : setList L i (n :: L i) j = L j := by simp [setList, hji]
      rw [e]
      refine ⟨?_, ?_, h3, hmem j hj⟩
      · rw [hh j, if_neg hji, hr4, h1]
      · intro x hx
        rw [hword j hj x hx x (Or.inr ⟨hji, Or.inl rfl⟩),
          hword j hj x hx (x + 8) (Or.inr ⟨hji, Or.inr rfl⟩)]
        exact h2 x hx
  · intro j hj k hk x hx y hy
    have hx' : x = n ∨ x ∈ L j := by
      unfold setList at hx
      by_cases hji : j = i
      · rw [if_pos hji] at hx
        rcases List.mem_cons.mp hx with e | e
        · left; exact e
        · right; rw [hji]; exact e
      · rw [if_neg hji] at hx
        right; exact hx
    have hy' : y = n ∨ y ∈ L k := by
      unfold setList at hy
      by_cases hki : k = i
      · rw [if_pos hki] at hy
        rcases List.mem_cons.mp hy with e | e
        · left; exact e
        · right; rw [hki]; exact e
      · rw [if_neg hki] at hy
        right; exact hy
    rcases hx' with hx' | hx' <;> rcases hy' with hy' | hy'
    · left; rw [hx', hy']
    · have := hsep k hk y hy'
      omega
    · have := hsep j hj x hx'
      omega
    · exact hL.2 j hj k hk x hx' y hy'

/-! ## Tilings -/

theorem tiles_nil (m : Nat → Nat) (a e : Nat) : tiles m a [] e ↔ a = e := Iff.rfl

theorem tiles_cons (m : Nat → Nat) (a e : Nat) (b : Blk) (bs : List Blk) :
    tiles m a (b :: bs) e ↔
      (b.bp = a ∧ 32 ≤ b.size ∧ b.size % 16 = 0 ∧ b.alloc < 2 ∧
        read8 m (a - 8) = PACK b.size b.alloc ∧
        read8 m (a + b.size - 16) = PACK b.size b.alloc ∧
        tiles m (a + b.size) bs e) := Iff.rfl

theorem tiles_append (m : Nat → Nat) (xs ys : List Blk) (a e : Nat) :
    tiles m a (xs ++ ys) e ↔ ∃ c, tiles m a xs c ∧ tiles m c ys e := by
  induction xs generalizing a with
  | nil =>
    simp only [List.nil_append, tiles_nil]
    constructor
    · intro h; exact ⟨a, rfl, h⟩
    · rintro ⟨c, rfl, h⟩; exact h
  | cons b r ih =>
    simp only [List.cons_append, tiles_cons, ih]
    constructor
    · rintro ⟨h1, h2, h3, h4, h5, h6, c, h7, h8⟩
      exact ⟨c, ⟨h1, h2, h3, h4, h5, h6, h7⟩, h8⟩
    · rintro ⟨c, ⟨h1, h2, h3, h4, h5, h6, h7⟩, h8⟩
      exact ⟨h1, h2, h3, h4, h5, h6, c, h7, h8⟩

theorem tiles_le {m : Nat → Nat} {bs : List Blk} {a e : Nat} (h : tiles m a bs e) : a ≤ e := by
  induction bs generalizing a with
  | nil => exact le_of_eq h
  | cons b r ih =>
    obtain ⟨-, -, -, -, -, -, h7⟩ := h
    have := ih h7
    omega

/-- What a tiling says about one of its blocks. -/
theorem tiles_mem {m : Nat → Nat} {bs : List Blk} {a e : Nat} (h : tiles m a bs e) {x : Blk}
    (hx : x ∈ bs) :
    a ≤ x.bp ∧ x.bp + x.size ≤ e ∧ 32 ≤ x.size ∧ x.size % 16 = 0 ∧ x.alloc < 2 ∧
      read8 m (x.bp - 8) = PACK x.size x.alloc ∧
      read8 m (x.bp + x.size - 16) = PACK x.size x.alloc := by
  induction bs generalizing a with
  | nil => simp at hx
  | cons b r ih =>
    obtain ⟨h1, h2, h3, h4, h5, h6, h7⟩ := h
    rcases List.mem_cons.mp hx with e1 | e1
    · subst e1
      have := tiles_le h7
      rw [h1]
      exact ⟨le_refl _, by omega, h2, h3, h4, h5, h6⟩
    · obtain ⟨g1, g2, g3⟩ := ih h7 e1
      exact ⟨by omega, g2, g3⟩

theorem tiles_congr {m m' : Nat → Nat} {bs : List Blk} {a e : Nat} (h : tiles m a bs e)
    (hm : ∀ x ∈ bs, read8 m' (x.bp - 8) = read8 m (x.bp - 8) ∧
      read8 m' (x.bp + x.size - 16) = read8 m (x.bp + x.size - 16)) :
    tiles m' a bs e := by
  induction bs generalizing a with
  | nil => exact h
  | cons b r ih =>
    obtain ⟨h1, h2, h3, h4, h5, h6, h7⟩ := h
    have hb := hm b (by simp)
    rw [h1] at hb
    refine ⟨h1, h2, h3, h4, ?_, ?_, ?_⟩
    · rw [hb.1]; exact h5
    · rw [hb.2]; exact h6
    · exact ih h7 (fun x hx => hm x (List.mem_cons_of_mem _ hx))

theorem tiles_disjoint {m : Nat → Nat} {bs : List Blk} {a e : Nat} (h : tiles m a bs e)
    {x y : Blk} (hx : x ∈ bs) (hy : y ∈ bs) :
    x = y ∨ x.bp + x.size ≤ y.bp ∨ y.bp + y.size ≤ x.bp := by
  induction bs generalizing a with
  | nil => simp at hx
  | cons b r ih =>
    obtain ⟨h1, h2, h3, h4, h5, h6, h7⟩ := h
    rcases List.mem_cons.mp hx with e1 | e1 <;> rcases List.mem_cons.mp hy with e2 | e2
    · left; rw [e1, e2]
    · have := (tiles_mem h7 e2).1
      right; left
      rw [e1, h1]; exact this
    · have := (tiles_mem h7 e1).1
      right; right
      rw [e2, h1]; exact this
    · exact ih h7 e1 e2

theorem tiles_bp_inj {m : Nat → Nat} {bs : List Blk} {a e : Nat} (h : tiles m a bs e)
    {x y : Blk} (hx : x ∈ bs) (hy : y ∈ bs) (hxy : x.bp = y.bp) : x = y := by
  have h1 := (tiles_mem h hx).2.2.1
  have h2 := (tiles_mem h hy).2.2.1
  rcases tiles_disjoint h hx hy with e1 | e1 | e1
  · exact e1
  · omega
  · omega

/-! ## Consequences of well-formedness -/

theorem WF.layout {s : State} {g : Ghost} (h : WF s g) : Layout s := h.1

theorem WF.tiles {s : State} {g : Ghost} (h : WF s g) :
    tiles s.mem (s.heap_listp + 16) g.blocks s.mem_brk := h.2.2.2.1

theorem WF.lists {s : State} {g : Ghost} (h : WF s g) : ListsOK s g.lists := h.2.2.2.2.2.1

theorem WF.member_free {s : State} {g : Ghost} (h : WF s g) {i b : Nat} (hi : i < 14)
    (hb : b ∈ g.lists i) : ∃ blk ∈ g.blocks, blk.bp = b ∧ blk.alloc = 0 :=
  h.2.2.2.2.2.2 i hi b hb

/-- Header facts of a block of a well-formed heap, in the vocabulary of the accessors. -/
theorem WF.block {s : State} {g : Ghost} (h : WF s g) {x : Blk} (hx : x ∈ g.blocks) :
    s.heap_listp + 16 ≤ x.bp ∧ x.bp + x.size ≤ s.mem_brk ∧ 32 ≤ x.size ∧ x.size % 16 = 0 ∧
      x.alloc < 2 ∧ hdrSize s.mem x.bp = x.size ∧ hdrAlloc s.mem x.bp = x.alloc ∧
      read8 s.mem (x.bp + x.size - 16) = PACK x.size x.alloc := by
  obtain ⟨h1, h2, h3, h4, h5, h6, h7⟩ := tiles_mem h.tiles hx
  exact ⟨h1, h2, h3, h4, h5, hdrSize_of_tag h6 h4 h5, hdrAlloc_of_tag h6 h4 h5, h7⟩

/-- A list member of a well-formed heap is not the address of an allocated block. -/
theorem WF.member_not_alloc {s : State} {g : Ghost} (h : WF s g) {i : Nat} (hi : i < 14)
    {x : Blk} (hx : x ∈ g.blocks) (ha : x.alloc ≠ 0) : x.bp ∉ g.lists i := by
  intro hb
  obtain ⟨y, hy, hyb, hya⟩ := h.member_free hi hb
  have := tiles_bp_inj h.tiles hy hx hyb
  rw [this] at hya
  exact ha hya

/-! ## Rebuilding well-formedness after a local change -/

/-- The boundary tags of a block do not overlap the link words of any list member. -/
theorem WF.tag_linkfree {s : State} {g : Ghost} (h : WF s g) {x : Blk} (hx : x ∈ g.blocks)
    {q : Nat} (hq : q = x.bp - 8 ∨ q = x.bp + x.size - 16) {i : Nat} (hi : i < 14) {y : Nat}
    (hy : y ∈ g.lists i) : q + 8 ≤ y ∨ y + 16 ≤ q := by
  obtain ⟨b, hb, hby, -⟩ := h.member_free hi hy
  obtain ⟨x1, x2, x3, -⟩ := h.block hx
  obtain ⟨b1, b2, b3, -⟩ := h.block hb
  rcases tiles_disjoint h.tiles hx hb with e | e | e
  · subst e
    rcases hq with hq | hq <;> omega
  · rcases hq with hq | hq <;> omega
  · rcases hq with hq | hq <;> omega

theorem WF.member_range {s : State} {g : Ghost} (h : WF s g) {i : Nat} (hi : i < 14) {y : Nat}
    (hy : y ∈ g.lists i) : s.heap_listp + 16 ≤ y ∧ y + 32 ≤ s.mem_brk := by
  obtain ⟨b, hb, hby, -⟩ := h.member_free hi hy
  obtain ⟨b1, b2, b3, -⟩ := h.block hb
  omega

theorem WF_rebuild {s s' : State} {g : Ghost} {pre M N post : List Blk}
    {K : Nat → List Nat} {a e : Nat} (hwf : WF s g) (hdec : g.blocks = pre ++ M ++ post)
    (ha : tiles s.mem (s.heap_listp + 16) pre a) (he : tiles s.mem e post s.mem_brk)
    (hae : a ≤ e) (hr : sameRange s s') (hmid : tiles s'.mem a N e)
    (hframe : ∀ q, (q + 8 ≤ a - 8 ∨ e - 8 ≤ q) →
      (∀ i, i < 14 → ∀ x ∈ g.lists i, q + 8 ≤ x ∨ x + 16 ≤ q) → read8 s'.mem q = read8 s.mem q)
    (hL : ListsOK s' K)
    (hmem : ∀ i, i < 14 → ∀ b ∈ K i, ∃ blk ∈ pre ++ N ++ post, blk.bp = b ∧ blk.alloc = 0) :
    WF s' ⟨pre ++ N ++ post, K⟩ := by
  obtain ⟨hr0, hr1, hr2, hr3, hr4⟩ := hr
  have hlay := hwf.layout
  obtain ⟨hl1, hl2, hl3, hl4⟩ := hlay
  have hp1 := hwf.2.1
  have hp2 := hwf.2.2.1
  have hep := hwf.2.2.2.2.1
  have hwf' := hwf
  have hale := tiles_le ha
  have hele := tiles_le he
  have hlinkfree_lo : ∀ q, q + 8 ≤ s.heap_listp + 16 → ∀ i, i < 14 → ∀ x ∈ g.lists i,
      q + 8 ≤ x ∨ x + 16 ≤ q := by
    intro q hq i hi x hx
    have := (hwf'.member_range hi hx).1
    omega
  refine ⟨?_, ?_, ?_, ?_, ?_, hL, hmem⟩
  · unfold Layout
    rw [hr1, hr2, hr3, hr4]
    exact ⟨hl1, hl2, hl3, hl4⟩
  · rw [hr4, hframe _ (by omega) (hlinkfree_lo _ (by omega))]
    exact hp1
  · rw [hr4, hframe _ (by omega) (hlinkfree_lo _ (by omega))]
    exact hp2
  · rw [hr4, hr2]
    show tiles s'.mem (s.heap_listp + 16) (pre ++ N ++ post) s.mem_brk
    rw [tiles_append, ]
    refine ⟨e, ?_, ?_⟩
    · rw [tiles_append]
      refine ⟨a, ?_, hmid⟩
      apply tiles_congr ha
      intro x hx
      have hxg : x ∈ g.blocks := by rw [hdec]; simp [hx]
      obtain ⟨x1, x2, x3, -⟩ := tiles_mem ha hx
      constructor
      · exact hframe _ (by omega) (fun i hi y hy => hwf'.tag_linkfree hxg (Or.inl rfl) hi hy)
      · exact hframe _ (by omega) (fun i hi y hy => hwf'.tag_linkfree hxg (Or.inr rfl) hi hy)
    · apply tiles_congr he
      intro x hx
      have hxg : x ∈ g.blocks := by rw [hdec]; simp [hx]
      obtain ⟨x1, x2, x3, -⟩ := tiles_mem he hx
      constructor
      · exact hframe _ (by omega) (fun i hi y hy => hwf'.tag_linkfree hxg (Or.inl rfl) hi hy)
      · exact hframe _ (by omega) (fun i hi y hy => hwf'.tag_linkfree hxg (Or.inr rfl) hi hy)
  · rw [hr2, hframe _ (by omega)]
    · exact hep
    · intro i hi x hx
      have := (hwf'.member_range hi hx).2
      omega

/-! ## What `coalesce` reads -/

theorem prevAlloc_nil : prevAlloc [] = 1 := rfl

theorem prevAlloc_concat (pre : List Blk) (pb : Blk) : prevAlloc (pre ++ [pb]) = pb.alloc := by
  simp [prevAlloc]

theorem nextAlloc_nil : nextAlloc [] = 1 := rfl

theorem nextAlloc_cons (nb : Blk) (post : List Blk) : nextAlloc (nb :: post) = nb.alloc := rfl

/-- The words around a block of a well-formed heap that tell `coalesce` about its neighbours. -/
theorem WF.neighbours {s : State} {g : Ghost} (hwf : WF s g) {pre post : List Blk} {blk : Blk}
    (hdec : g.blocks = pre ++ blk :: post) :
    ∃ psz nsz, read8 s.mem (blk.bp - 16) = PACK psz (prevAlloc pre) ∧ psz % 16 = 0 ∧
      16 ≤ psz ∧ s.heap_listp + psz ≤ blk.bp ∧
      read8 s.mem (blk.bp - psz - 8) = PACK psz (prevAlloc pre) ∧ prevAlloc pre < 2 ∧
      read8 s.mem (blk.bp + blk.size - 8) = PACK nsz (nextAlloc post) ∧ nsz % 16 = 0 ∧
      blk.bp + blk.size + nsz ≤ s.mem_brk ∧ nextAlloc post < 2 ∧
      (pre = [] → psz = 16 ∧ blk.bp = s.heap_listp + 16) ∧
      (∀ pre' pb, pre = pre' ++ [pb] → psz = pb.size ∧ pb.bp + pb.size = blk.bp) ∧
      (post = [] → nsz = 0 ∧ blk.bp + blk.size = s.mem_brk) ∧
      (∀ nb post', post = nb :: post' → nsz = nb.size ∧ nb.bp = blk.bp + blk.size) := by
  have ht := hwf.tiles
  rw [hdec, tiles_append] at ht
  obtain ⟨a, ht1, ht2⟩ := ht
  obtain ⟨hb1, hb2, hb3, hb4, hb5, hb6, ht3⟩ := ht2
  have hp1 := hwf.2.1
  have hp2 := hwf.2.2.1
  have hep := hwf.2.2.2.2.1
  obtain ⟨hl1, hl2, hl3, hl4⟩ := hwf.layout
  have hprev : ∃ psz, read8 s.mem (blk.bp - 16) = PACK psz (prevAlloc pre) ∧ psz % 16 = 0 ∧
      16 ≤ psz ∧ s.heap_listp + psz ≤ blk.bp ∧
      read8 s.mem (blk.bp - psz - 8) = PACK psz (prevAlloc pre) ∧ prevAlloc pre < 2 ∧
      (pre = [] → psz = 16 ∧ blk.bp = s.heap_listp + 16) ∧
      (∀ pre' pb, pre = pre' ++ [pb] → psz = pb.size ∧ pb.bp + pb.size = blk.bp) := by
    rcases List.eq_nil_or_concat pre with hpre | ⟨pre', pb, hpre⟩
    · subst hpre
      have ha : s.heap_listp + 16 = a := ht1
      refine ⟨16, ?_, by omega, by omega, by omega, ?_, by decide, ?_, ?_⟩
      · rw [hb1, ← ha]
        simpa [prevAlloc_nil, DSIZE] using hp2
      · rw [hb1, ← ha]
        simpa [prevAlloc_nil, DSIZE] using hp1
      · intro _
        exact ⟨rfl, by omega⟩
      · intro pre' pb h
        simp at h
    · rw [List.concat_eq_append] at hpre
      subst hpre
      rw [tiles_append] at ht1
      obtain ⟨c, ht4, ht5⟩ := ht1
      obtain ⟨p1, p2, p3, p4, p5, p6, p7⟩ := ht5
      have hc : c + pb.size = a := p7
      have hlo := tiles_le ht4
      refine ⟨pb.size, ?_, p3, by omega, by omega, ?_, ?_, ?_, ?_⟩
      · rw [prevAlloc_concat, hb1, ← hc]
        have e : c + pb.size - 16 = c + pb.size - 16 := rfl
        rw [show c + pb.size - 16 = c + pb.size - 16 from rfl]
        exact p6
      · rw [prevAlloc_concat, hb1, ← hc]
        have e : c + pb.size - pb.size - 8 = c - 8 := by omega
        rw [e]
        exact p5
      · rw [prevAlloc_concat]; exact p4
      · intro h
        simp at h
      · intro pre'' pb' h
        have := List.append_inj' h rfl
        obtain ⟨-, h2⟩ := this
        simp only [List.cons.injEq, and_true] at h2
        subst h2
        exact ⟨rfl, by omega⟩
  have hnext : ∃ nsz, read8 s.mem (blk.bp + blk.size - 8) = PACK nsz (nextAlloc post) ∧
      nsz % 16 = 0 ∧ blk.bp + blk.size + nsz ≤ s.mem_brk ∧ nextAlloc post < 2 ∧
      (post = [] → nsz = 0 ∧ blk.bp + blk.size = s.mem_brk) ∧
      (∀ nb post', post = nb :: post' → nsz = nb.size ∧ nb.bp = blk.bp + blk.size) := by
    cases post with
    | nil =>
      have he : a + blk.size = s.mem_brk := ht3
      refine ⟨0, ?_, by omega, by omega, by decide, ?_, ?_⟩
      · rw [hb1, he]
        simpa [nextAlloc_nil] using hep
      · intro _
        exact ⟨rfl, by omega⟩
      · intro nb post' h
        simp at h
    | cons nb post' =>
      obtain ⟨n1, n2, n3, n4, n5, n6, n7⟩ := ht3
      have := tiles_le n7
      refine ⟨nb.size, ?_, n3, by omega, n4, ?_, ?_⟩
      · rw [nextAlloc_cons, hb1]
        exact n5
      · intro h
        simp at h
      · intro nb' post'' h
        simp only [List.cons.injEq] at h
        obtain ⟨h1, -⟩ := h
        subst h1
        exact ⟨rfl, by omega⟩
  obtain ⟨psz, q1, q2, q3, q4, q5, q6, q7, q8⟩ := hprev
  obtain ⟨nsz, r1, r2, r3, r4, r5, r6⟩ := hnext
  exact ⟨psz, nsz, q1, q2, q3, q4, q5, q6, r1, r2, r3, r4, q7, q8, r5, r6⟩

/-! ## `coalesce`: the dispatch on the neighbours -/

theorem coalesce_dispatch {s : State} {g : Ghost} (hwf : WF s g) {pre post : List Blk} {blk : Blk}
    (hdec : g.blocks = pre ++ blk :: post) (fuel : Nat) :
    coalesce fuel s blk.bp =
      if prevAlloc pre ≠ 0 ∧ nextAlloc post ≠ 0 then
        obind (place_freeblk s blk.bp) fun r => some (r.1, blk.bp)
      else if prevAlloc pre ≠ 0 ∧ nextAlloc post = 0 then coalesce_case2 fuel s blk.bp blk.size
      else if prevAlloc pre = 0 ∧ nextAlloc post ≠ 0 then coalesce_case3 fuel s blk.bp blk.size
      else if prevAlloc pre = 0 ∧ nextAlloc post = 0 then coalesce_case4 fuel s blk.bp blk.size
      else some (s, 0) := by
  obtain ⟨psz, nsz, q1, q2, q3, q4, q5, q6, r1, r2, r3, r4, -⟩ := hwf.neighbours hdec
  have hx : blk ∈ g.blocks := by rw [hdec]; simp
  obtain ⟨x1, x2, x3, x4, x5, x6, x7, x8⟩ := hwf.block hx
  obtain ⟨hl1, hl2, hl3, hl4⟩ := hwf.layout
  have hpsz : read8 s.mem (blk.bp - 16) &&& SIZE_MASK = psz := by
    rw [q1]; exact size_of_PACK q2 q6 (q1 ▸ read8_lt _ _)
  have hpa : hdrAlloc s.mem (blk.bp - psz) = prevAlloc pre := hdrAlloc_of_tag q5 q2 q6
  have hna : hdrAlloc s.mem (blk.bp + blk.size) = nextAlloc post := hdrAlloc_of_tag r1 r2 r4
  unfold coalesce
  rw [PREV_BLKP_eq (by omega) (by omega) (by omega) (by omega), hpsz,
    NEXT_BLKP_eq (by omega) (by omega) (by omega) (by omega), x6]
  simp only [obind_some]
  rw [GET_ALLOC_HDRP (by omega) (by omega) (by omega),
    GET_ALLOC_HDRP (by omega) (by omega) (by omega),
    GET_SIZE_HDRP (by omega) (by omega) (by omega), hpa, hna, x6]
  simp only [obind_some]

/-- A byte of an allocated block is not part of the link words of a list member. -/
theorem WF.alloc_not_link {s : State} {g : Ghost} (h : WF s g) {x : Blk} (hx : x ∈ g.blocks)
    (hxa : x.alloc = 1) {a : Nat} (h1 : x.bp - 8 ≤ a) (h2 : a < x.bp + x.size - 8) {i : Nat}
    (hi : i < 14) {y : Nat} (hy : y ∈ g.lists i) : a < y ∨ y + 16 ≤ a := by
  obtain ⟨b, hb, hby, hba⟩ := h.member_free hi hy
  obtain ⟨x1, x2, x3, -⟩ := h.block hx
  obtain ⟨b1, b2, b3, -⟩ := h.block hb
  rcases tiles_disjoint h.tiles hx hb with e | e | e
  · subst e
    omega
  · omega
  · omega

/-- A free block that is in no list is at least 32 bytes away from every list member. -/
theorem WF.sep_of_not_member {s : State} {g : Ghost} (h : WF s g) {x : Blk} (hx : x ∈ g.blocks)
    (hnot : ∀ i, i < 14 → x.bp ∉ g.lists i) {j : Nat} (hj : j < 14) {y : Nat}
    (hy : y ∈ g.lists j) : x.bp + 32 ≤ y ∨ y + 32 ≤ x.bp := by
  obtain ⟨b, hb, hby, hba⟩ := h.member_free hj hy
  obtain ⟨x1, x2, x3, -⟩ := h.block hx
  obtain ⟨b1, b2, b3, -⟩ := h.block hb
  rcases tiles_disjoint h.tiles hx hb with e | e | e
  · subst e
    exact absurd (hby ▸ hy) (hnot j hj)
  · omega
  · omega

theorem coalesce_case1_spec {s : State} {g : Ghost} (hwf : WF s g) {A Z : List Blk}
    {B : Blk} (hdec : g.blocks = A ++ B :: Z) (hfree : B.alloc = 0)
    (hnot : ∀ i, i < 14 → B.bp ∉ g.lists i) (hpa : prevAlloc A = 1)
    (hna : nextAlloc Z = 1) (fuel : Nat) :
    ∃ s', coalesce fuel s B.bp = some (s', B.bp) ∧
      WF s' ⟨g.blocks, setList g.lists (size_class B.size)
        (B.bp :: g.lists (size_class B.size))⟩ ∧
      sameRange s s' ∧ allocFrame g s.mem s'.mem ∧ hdrAlloc s'.mem B.bp = 0 := by
  have hx : B ∈ g.blocks := by rw [hdec]; simp
  obtain ⟨x1, x2, x3, x4, x5, x6, x7, x8⟩ := hwf.block hx
  have hlay := hwf.layout
  have hi := size_class_lt B.size
  rw [coalesce_dispatch hwf hdec, if_pos (by rw [hpa, hna]; decide)]
  obtain ⟨s', e1, e2, e3, e4⟩ := place_freeblk_spec (n := B.bp) hi hlay hwf.lists x1
    (by omega) (by rw [x6]; omega) (by rw [x6]) (by rw [x7, hfree])
  have hL' := ListsOK_push hi hlay hwf.lists x1 (by omega) (by rw [x6]; omega) (by rw [x6])
    (fun j hj y hy => hwf.sep_of_not_member hx hnot hj hy) e2 e3 e4
  rw [e1]
  simp only [obind_some]
  have hfr : ∀ q, (q + 8 ≤ B.bp ∨ B.bp + 16 ≤ q) →
      (∀ i, i < 14 → ∀ x ∈ g.lists i, q + 8 ≤ x ∨ x + 16 ≤ q) →
      read8 s'.mem q = read8 s.mem q := by
    intro q hq hlf
    rw [e2]
    exact read8_pushMem_frame _ _ _ _ hq (fun y hy => hlf _ hi y hy)
  have ht := hwf.tiles
  rw [hdec, tiles_append] at ht
  obtain ⟨a, ht1, ht2⟩ := ht
  obtain ⟨hb1, hb2, hb3, hb4, hb5, hb6, ht3⟩ := ht2
  refine ⟨s', rfl, ?_, e4, ?_, ?_⟩
  · have := WF_rebuild (M := [B]) (N := [B]) (K := setList g.lists (size_class B.size)
      (B.bp :: g.lists (size_class B.size))) hwf (by rw [hdec]; simp) ht1 ht3 (by omega) e4
      ?_ ?_ hL' ?_
    · simpa [hdec] using this
    · refine ⟨hb1, hb2, hb3, hb4, ?_, ?_, rfl⟩
      · rw [hfr _ (by omega) (fun i hi y hy => hwf.tag_linkfree hx (Or.inl (by omega)) hi hy)]
        exact hb5
      · rw [hfr _ (by omega) (fun i hi y hy => hwf.tag_linkfree hx (Or.inr (by omega)) hi hy)]
        exact hb6
    · intro q hq hlf
      exact hfr q (by omega) hlf
    · intro i hi b hb
      unfold setList at hb
      by_cases hic : i = size_class B.size
      · rw [if_pos hic] at hb
        rcases List.mem_cons.mp hb with e | e
        · exact ⟨B, by simp, e.symm, hfree⟩
        · obtain ⟨y, hy1, hy2, hy3⟩ := hwf.member_free (hic ▸ hi) e
          exact ⟨y, by simpa [hdec] using hy1, hy2, hy3⟩
      · rw [if_neg hic] at hb
        obtain ⟨y, hy1, hy2, hy3⟩ := hwf.member_free hi hb
        exact ⟨y, by simpa [hdec] using hy1, hy2, hy3⟩
  · intro x hxg hxa a h1 h2
    rw [e2]
    apply pushMem_frame
    · obtain ⟨y1, y2, y3, -⟩ := hwf.block hxg
      rcases tiles_disjoint hwf.tiles hxg hx with e | e | e
      · subst e; omega
      · omega
      · omega
    · intro y hy
      exact hwf.alloc_not_link hxg hxa h1 h2 hi hy
  · unfold hdrAlloc
    rw [hfr _ (by omega) (fun i hi y hy => hwf.tag_linkfree hx (Or.inl (by omega)) hi hy)]
    exact x7.trans hfree

/-! ## Frames -/

theorem byteFrame.refl (L : Nat → List Nat) (lo hi : Nat) (m : Nat → Nat) :
    byteFrame L lo hi m m := fun _ _ _ => rfl

theorem byteFrame.trans {L : Nat → List Nat} {lo hi : Nat} {m m1 m2 : Nat → Nat}
    (h1 : byteFrame L lo hi m m1) (h2 : byteFrame L lo hi m1 m2) : byteFrame L lo hi m m2 :=
  fun a ha hl => (h2 a ha hl).trans (h1 a ha hl)

theorem byteFrame.mono {L : Nat → List Nat} {lo hi lo' hi' : Nat} {m m' : Nat → Nat}
    (h : byteFrame L lo hi m m') (h1 : lo' ≤ lo) (h2 : hi ≤ hi') : byteFrame L lo' hi' m m' :=
  fun a ha hl => h a (by omega) hl

theorem byteFrame_write8 (L : Nat → List Nat) {lo hi p : Nat} (m : Nat → Nat) (v : Nat)
    (h1 : lo ≤ p) (h2 : p + 8 ≤ hi) : byteFrame L lo hi m (write8 m p v) :=
  fun a ha _ => write8_other _ _ _ _ (by omega)

theorem byteFrame_unlink (L : Nat → List Nat) (lo hi : Nat) (m : Nat → Nat) {i : Nat}
    (hi' : i < 14) (b : Nat) : byteFrame L lo hi m (unlinkMem m (L i) b) :=
  fun a _ hl => unlinkMem_frame _ _ _ _ (fun x hx => hl i hi' x hx)

theorem byteFrame_push (L : Nat → List Nat) {lo hi n : Nat} (m : Nat → Nat) {l : List Nat}
    (hl : ∀ x ∈ l, ∃ i, i < 14 ∧ x ∈ L i) (h1 : lo ≤ n) (h2 : n + 16 ≤ hi) :
    byteFrame L lo hi m (pushMem m l n) := by
  intro a ha hlf
  apply pushMem_frame
  · omega
  · intro x hx
    obtain ⟨i, hi', hxi⟩ := hl x hx
    exact hlf i hi' x hxi

theorem byteFrame.word {L : Nat → List Nat} {lo hi : Nat} {m m' : Nat → Nat}
    (h : byteFrame L lo hi m m') {q : Nat} (hq : q + 8 ≤ lo ∨ hi ≤ q)
    (hl : ∀ i, i < 14 → ∀ y ∈ L i, q + 8 ≤ y ∨ y + 16 ≤ q) : read8 m' q = read8 m q := by
  apply read8_congr
  intro k hk
  apply h
  · omega
  · intro i hi' y hy
    have := hl i hi' y hy
    omega

/-- A change confined to free blocks and link words leaves the allocated blocks alone. -/
theorem byteFrame.alloc {s : State} {g : Ghost} (hwf : WF s g) {lo hi : Nat} {m' : Nat → Nat}
    (h : byteFrame g.lists lo hi s.mem m')
    (hout : ∀ x ∈ g.blocks, x.alloc = 1 → x.bp + x.size - 8 ≤ lo ∨ hi ≤ x.bp - 8) :
    allocFrame g s.mem m' := by
  intro x hx hxa a h1 h2
  apply h
  · have := hout x hx hxa
    omega
  · intro i hi' y hy
    exact hwf.alloc_not_link hx hxa h1 h2 hi' hy

theorem mem_setList {L : Nat → List Nat} {i j : Nat} {l : List Nat} {x : Nat}
    (h : x ∈ setList L i l j) : x ∈ l ∨ x ∈ L j := by
  unfold setList at h
  by_cases hji : j = i
  · rw [if_pos hji] at h; exact Or.inl h
  · rw [if_neg hji] at h; exact Or.inr h

theorem setList_same (L : Nat → List Nat) (i : Nat) (l : List Nat) : setList L i l i = l := by
  simp [setList]

theorem setList_other (L : Nat → List Nat) {i j : Nat} (l : List Nat) (h : j ≠ i) :
    setList L i l j = L j := by
  simp [setList, h]

theorem mem_setList_erase {L : Nat → List Nat} {i j b x : Nat}
    (h : x ∈ setList L i ((L i).erase b) j) : x ∈ L j := by
  by_cases hji : j = i
  · subst hji
    rw [setList_same] at h
    exact List.mem_of_mem_erase h
  · rw [setList_other _ _ hji] at h
    exact h

theorem not_mem_setList_erase {L : Nat → List Nat} {i b : Nat} (hnd : (L i).Nodup) :
    b ∉ setList L i ((L i).erase b) i := by
  rw [setList_same]
  exact fun h => ((List.Nodup.mem_erase_iff hnd).mp h).1 rfl

theorem length_setList_erase (L : Nat → List Nat) (i b j : Nat) :
    (setList L i ((L i).erase b) j).length ≤ (L j).length := by
  by_cases hji : j = i
  · subst hji
    rw [setList_same]
    exact List.length_erase_le _ _
  · rw [setList_other _ _ hji]

theorem PACK_lt {size alloc : Nat} (h : size % 16 = 0) (ha : alloc < 2) (hs : size + 1 < U64) :
    PACK size alloc < U64 := by
  rw [PACK_eq_add h ha]
  omega

theorem read8_write8_tag (m : Nat → Nat) (p : Nat) {size alloc : Nat} (h : size % 16 = 0)
    (ha : alloc < 2) (hs : size + 1 < U64) :
    read8 (write8 m p (PACK size alloc)) p = PACK size alloc := by
  rw [read8_write8_same, Nat.mod_eq_of_lt (PACK_lt h ha hs)]

theorem Layout_of_sameRange {s s' : State} (h : Layout s) (hr : sameRange s s') : Layout s' := by
  obtain ⟨hr0, hr1, hr2, hr3, hr4⟩ := hr
  unfold Layout
  rw [hr1, hr2, hr3, hr4]
  exact h

theorem sameRange_trans {s t s2 : State} (h1 : sameRange s t) (h2 : sameRange t s2) :
    sameRange s s2 := by
  obtain ⟨a0, a1, a2, a3, a4⟩ := h1
  obtain ⟨b0, b1, b2, b3, b4⟩ := h2
  exact ⟨b0.trans a0, b1.trans a1, b2.trans a2, b3.trans a3, b4.trans a4⟩

theorem sameRange_mem (s : State) (m : Nat → Nat) : sameRange s { s with mem := m } :=
  ⟨rfl, rfl, rfl, rfl, rfl⟩

theorem mem_rebuild {pre M mid' post : List Blk} {y : Blk} (hy : y ∈ pre ++ M ++ post)
    (hn : y ∉ M) : y ∈ pre ++ mid' ++ post := by
  simp only [List.mem_append] at hy ⊢
  rcases hy with (h | h) | h
  · exact Or.inl (Or.inl h)
  · exact absurd h hn
  · exact Or.inr h

/-- A header is marked allocated and the block is then removed from its list: the lists
stay well linked, and memory changes only in that header and in link words. -/
theorem remove_marked {s : State} {L : Nat → List Nat} {x z F : Nat} (hlay : Layout s)
    (hL : ListsOK s L) (hx1 : s.heap_listp + 16 ≤ x) (hx2 : x ≤ s.mem_brk)
    (hsz : hdrSize s.mem x = z) (hsz2 : 16 ≤ z) (hsz3 : z % 16 = 0)
    (hgeo : ∀ i, i < 14 → ∀ y ∈ L i, y = x ∨ y + 32 ≤ x ∨ x + 32 ≤ y)
    (hfuel : (L (size_class z)).length < F) :
    ∃ s2 r, remove_freeblk F { s with mem := write8 s.mem (x - 8) (PACK z 1) } x =
        some (s2, r) ∧
      ListsOK s2 (setList L (size_class z) ((L (size_class z)).erase x)) ∧
      sameRange s s2 ∧
      s2.mem = unlinkMem (write8 s.mem (x - 8) (PACK z 1)) (L (size_class z)) x := by
  obtain ⟨hl1, hl2, hl3, hl4⟩ := hlay
  have hj := size_class_lt z
  have hszlt := hdrSize_lt s.mem x
  have hU : U64 = 18446744073709551616 := rfl
  have hm1 : read8 (write8 s.mem (x - 8) (PACK z 1)) (x - 8) = PACK z 1 :=
    read8_write8_tag _ _ hsz3 (by decide) (by omega)
  have hL1 : ListsOK { s with mem := write8 s.mem (x - 8) (PACK z 1) } L := by
    refine ListsOK_congr hL ?_ ?_ ?_ ?_
    · rfl
    · exact le_refl _
    · intro _ _; rfl
    intro i hi y hy
    dsimp only
    have hy1 := (hL.member hi hy).1
    rcases hgeo i hi y hy with e | e | e
    · refine ⟨read8_write8_ne _ _ _ _ (by omega), read8_write8_ne _ _ _ _ (by omega), ?_⟩
      rw [e, hdrSize_of_tag hm1 hsz3 (by decide), hsz]
    · unfold hdrSize
      exact ⟨read8_write8_ne _ _ _ _ (by omega), read8_write8_ne _ _ _ _ (by omega),
        by rw [read8_write8_ne _ _ _ _ (by omega)]⟩
    · unfold hdrSize
      exact ⟨read8_write8_ne _ _ _ _ (by omega), read8_write8_ne _ _ _ _ (by omega),
        by rw [read8_write8_ne _ _ _ _ (by omega)]⟩
  obtain ⟨s2, e21, e22, e23, e24⟩ := remove_freeblk_spec (F := F)
    (s := { s with mem := write8 s.mem (x - 8) (PACK z 1) }) (b := x) hj
    ⟨hl1, hl2, hl3, hl4⟩ hL1 hx1 hx2
    (by dsimp only; rw [hdrSize_of_tag hm1 hsz3 (by decide)]; omega)
    (by dsimp only; rw [hdrSize_of_tag hm1 hsz3 (by decide)])
    (by dsimp only; rw [hdrAlloc_of_tag hm1 hsz3 (by decide)]; decide) hfuel
  exact ⟨s2, _, e21, ListsOK_remove hj hL1 e22 e23 e24, e24, e22⟩

/-- A free block whose tags are in place is put into its list: the lists stay well linked,
and memory changes only in the link words of the block and of the old head. -/
theorem place_freeblk_listed {s : State} {L : Nat → List Nat} {n w : Nat} (hlay : Layout s)
    (hL : ListsOK s L) (hn1 : s.heap_listp + 16 ≤ n) (hn2 : n + w ≤ s.mem_brk)
    (hms : 32 ≤ w) (hms2 : w % 16 = 0) (hh : read8 s.mem (n - 8) = PACK w 0)
    (hgeo : ∀ i, i < 14 → ∀ y ∈ L i, y + 32 ≤ n ∨ n + w ≤ y) :
    ∃ s5, place_freeblk s n = some (s5, true) ∧
      ListsOK s5 (setList L (size_class w) (n :: L (size_class w))) ∧ sameRange s s5 ∧
      s5.mem = pushMem s.mem (L (size_class w)) n ∧
      (∀ q, (q + 8 ≤ n ∨ n + 16 ≤ q) → (∀ i, i < 14 → ∀ y ∈ L i, q + 8 ≤ y + 8 ∨ y + 16 ≤ q) →
        read8 s5.mem q = read8 s.mem q) := by
  have hk := size_class_lt w
  have hU : U64 = 18446744073709551616 := rfl
  have hs : hdrSize s.mem n = w := hdrSize_of_tag hh hms2 (by decide)
  have ha : hdrAlloc s.mem n = 0 := hdrAlloc_of_tag hh hms2 (by decide)
  obtain ⟨s5, e51, e52, e53, e54⟩ := place_freeblk_spec (n := n) hk hlay hL hn1 (by omega)
    (by rw [hs]; omega) (by rw [hs]) ha
  have hL5 := ListsOK_push (n := n) hk hlay hL hn1 (by omega) (by rw [hs]; omega) (by rw [hs])
    (fun i hi y hy => by have := hgeo i hi y hy; omega) e52 e53 e54
  refine ⟨s5, e51, hL5, e54, e52, ?_⟩
  intro q hq hlf
  rw [e52]
  cases hl : L (size_class w) with
  | nil =>
    show read8 (write8 (write8 s.mem n 0) (n + 8) 0) q = read8 s.mem q
    rw [read8_write8_ne _ _ _ _ (by omega), read8_write8_ne _ _ _ _ (by omega)]
  | cons h r =>
    show read8 (write8 (write8 (write8 s.mem (n + 8) 0) n h) (h + 8) n) q = read8 s.mem q
    have := hlf _ hk h (by rw [hl]; simp)
    rw [read8_write8_ne _ _ _ _ (by omega), read8_write8_ne _ _ _ _ (by omega),
      read8_write8_ne _ _ _ _ (by omega)]

/-! ## Boundary tags -/

theorem retag_hdr (m : Nat → Nat) {bp size alloc : Nat} (h1 : 8 ≤ bp) (h2 : 16 ≤ size)
    (h3 : size % 16 = 0) (ha : alloc < 2) (h4 : size + 1 < U64) :
    read8 (retagMem m bp size alloc) (bp - 8) = PACK size alloc := by
  unfold retagMem
  rw [read8_write8_ne _ _ _ _ (by omega)]
  exact read8_write8_tag _ _ h3 ha h4

theorem retag_ftr (m : Nat → Nat) {bp size alloc : Nat} (h3 : size % 16 = 0) (ha : alloc < 2)
    (h4 : size + 1 < U64) :
    read8 (retagMem m bp size alloc) (bp + size - 16) = PACK size alloc := by
  unfold retagMem
  exact read8_write8_tag _ _ h3 ha h4

theorem retag_other (m : Nat → Nat) {bp size : Nat} (alloc : Nat) {q : Nat} (h0 : 8 ≤ bp)
    (h3 : 16 ≤ size) (h1 : q + 8 ≤ bp - 8 ∨ bp ≤ q) (h2 : q + 8 ≤ bp + size - 16 ∨ bp + size - 8 ≤ q) :
    read8 (retagMem m bp size alloc) q = read8 m q := by
  unfold retagMem
  rw [read8_write8_ne _ _ _ _ (by omega), read8_write8_ne _ _ _ _ (by omega)]

theorem retag_byte (m : Nat → Nat) {bp size : Nat} (alloc : Nat) {a : Nat} (h0 : 8 ≤ bp)
    (h3 : 16 ≤ size) (h1 : a < bp - 8 ∨ bp ≤ a) (h2 : a < bp + size - 16 ∨ bp + size - 8 ≤ a) :
    retagMem m bp size alloc a = m a := by
  unfold retagMem
  rw [write8_other _ _ _ _ (by omega), write8_other _ _ _ _ (by omega)]

theorem byteFrame_retag (L : Nat → List Nat) {lo hi bp size : Nat} (m : Nat → Nat)
    (alloc : Nat) (h0 : 8 ≤ bp) (h1 : lo ≤ bp - 8) (h2 : bp + size - 8 ≤ hi) (h3 : 16 ≤ size) :
    byteFrame L lo hi m (retagMem m bp size alloc) :=
  fun a ha _ => retag_byte _ _ h0 h3 (by omega) (by omega)

/-! ## Reading block geometry from known tags -/

theorem GET_SIZE_tag {s : State} {b size alloc : Nat} (hlay : Layout s)
    (h1 : s.heap_listp ≤ b) (h2 : b ≤ s.mem_brk)
    (hh : read8 s.mem (b - 8) = PACK size alloc) (hs : size % 16 = 0) (ha : alloc < 2) :
    GET_SIZE s (HDRP b) = some size := by
  obtain ⟨hl1, hl2, hl3, hl4⟩ := hlay
  rw [GET_SIZE_HDRP (by omega) h2 (by omega), hdrSize_of_tag hh hs ha]

theorem GET_ALLOC_tag {s : State} {bp size alloc : Nat} (hlay : Layout s)
    (h1 : s.heap_listp ≤ bp) (h2 : bp ≤ s.mem_brk)
    (hh : read8 s.mem (bp - 8) = PACK size alloc) (hs : size % 16 = 0) (ha : alloc < 2) :
    GET_ALLOC s (HDRP bp) = some alloc := by
  obtain ⟨hl1, hl2, hl3, hl4⟩ := hlay
  rw [GET_ALLOC_HDRP (by omega) h2 (by omega), hdrAlloc_of_tag hh hs ha]

theorem NEXT_BLKP_tag {s : State} {bp size alloc : Nat} (hlay : Layout s)
    (h1 : s.heap_listp ≤ bp) (h2 : bp + size ≤ s.mem_brk)
    (hh : read8 s.mem (bp - 8) = PACK size alloc) (hs : size % 16 = 0) (ha : alloc < 2) :
    NEXT_BLKP s bp = some (bp + size) := by
  obtain ⟨hl1, hl2, hl3, hl4⟩ := hlay
  have e := hdrSize_of_tag hh hs ha
  rw [NEXT_BLKP_eq (by omega) (by omega) (by omega) (by rw [e]; omega), e]

theorem FTRP_tag {s : State} {bp size alloc : Nat} (hlay : Layout s)
    (h1 : s.heap_listp ≤ bp) (h2 : bp + size ≤ s.mem_brk) (h3 : 16 ≤ size)
    (hh : read8 s.mem (bp - 8) = PACK size alloc) (hs : size % 16 = 0) (ha : alloc < 2) :
    FTRP s bp = some (bp + size - 16) := by
  obtain ⟨hl1, hl2, hl3, hl4⟩ := hlay
  have e := hdrSize_of_tag hh hs ha
  have hU : U64 = 18446744073709551616 := rfl
  rw [FTRP_eq (by omega) (by omega) (by omega) (by rw [e]; omega) (by rw [e]; omega), e]

theorem PREV_BLKP_tag {s : State} {bp psz alloc : Nat} (hlay : Layout s)
    (h1 : s.heap_listp + psz ≤ bp) (h2 : bp ≤ s.mem_brk)
    (hf : read8 s.mem (bp - 16) = PACK psz alloc) (hs : psz % 16 = 0) (ha : alloc < 2) :
    PREV_BLKP s bp = some (bp - psz) := by
  obtain ⟨hl1, hl2, hl3, hl4⟩ := hlay
  have e : read8 s.mem (bp - 16) &&& SIZE_MASK = psz := by
    rw [hf]; exact size_of_PACK hs ha (hf ▸ read8_lt _ _)
  rw [PREV_BLKP_eq (by omega) h2 (by omega) (by rw [e]; omega), e]

theorem PUT_tag {s : State} {bp : Nat} (v : Nat) (hlay : Layout s) (h1 : s.heap_listp ≤ bp)
    (h2 : bp ≤ s.mem_brk) :
    PUT s (HDRP bp) v = some { s with mem := write8 s.mem (bp - 8) v } := by
  obtain ⟨hl1, hl2, hl3, hl4⟩ := hlay
  rw [HDRP_eq (by omega) (by omega), PUT_eq _ (by omega) (by omega)]

/-- Writing header and footer of a block, as the code does with `PUT(HDRP(b), ..)` followed
by `PUT(FTRP(b), ..)`. -/
theorem retag_exec {β : Type} {s : State} {b n e : Nat} (hlay : Layout s)
    (h1 : s.heap_listp ≤ b) (h2 : b + n ≤ s.mem_brk) (h3 : 16 ≤ n)
    (hs : n % 16 = 0) (ha : e < 2) (K : State → Option β) :
    (obind (PUT s (HDRP b) (PACK n e)) fun s3 =>
      obind (FTRP s3 b) fun f => obind (PUT s3 f (PACK n e)) K) =
    K { s with mem := retagMem s.mem b n e } := by
  have hl := hlay
  obtain ⟨hl1, hl2, hl3, hl4⟩ := hl
  have hU : U64 = 18446744073709551616 := rfl
  rw [PUT_tag _ hlay h1 (by omega)]
  simp only [obind_some]
  rw [FTRP_tag (s := { s with mem := write8 s.mem (b - 8) (PACK n e) }) hlay h1 h2 h3
    (read8_write8_tag _ _ hs ha (by omega)) hs ha]
  simp only [obind_some]
  rw [PUT_eq _ (by dsimp only; omega) (by dsimp only; omega)]
  rfl

/-- Retagging a block that holds no list member keeps the lists intact. -/
theorem ListsOK_retag {s : State} {L : Nat → List Nat} {bp size : Nat} (alloc : Nat)
    (hL : ListsOK s L) (h0 : 8 ≤ bp) (h3 : 16 ≤ size)
    (hgeo : ∀ i, i < 14 → ∀ y ∈ L i, y + 32 ≤ bp ∨ bp + size ≤ y) :
    ListsOK { s with mem := retagMem s.mem bp size alloc } L := by
  refine ListsOK_congr hL ?_ ?_ ?_ ?_
  · rfl
  · exact le_refl _
  · intro _ _; rfl
  intro i hi y hy
  have hg := hgeo i hi y hy
  have hy1 := (hL.member hi hy).1
  unfold hdrSize
  dsimp only
  rw [retag_other _ _ h0 h3 (by omega) (by omega), retag_other _ _ h0 h3 (by omega) (by omega),
    retag_other _ _ h0 h3 (by omega) (by omega)]
  exact ⟨rfl, rfl, rfl⟩

/-- A member of the lists after `x` was taken out of the list of its size. -/
theorem ListsOK.mem_erase {s : State} {L : Nat → List Nat} (hL : ListsOK s L) {x sz : Nat}
    (hsz : hdrSize s.mem x = sz) {i y : Nat} (hi : i < 14)
    (hy : y ∈ setList L (size_class sz) ((L (size_class sz)).erase x) i) : y ∈ L i ∧ y ≠ x := by
  have hyL := mem_setList_erase hy
  refine ⟨hyL, ?_⟩
  intro e
  have hcls := (hL.member hi hyL).2.2.2
  rw [e, hsz] at hcls
  rw [← hcls, e] at hy
  exact not_mem_setList_erase (hL.1 _ (size_class_lt sz)).2.2.1 hy

theorem mem_unlist {L : Nat → List Nat} {sz x i y : Nat} (h : y ∈ unlist L sz x i) : y ∈ L i :=
  mem_setList_erase h

theorem mem_enlist_self (L : Nat → List Nat) (sz x : Nat) : x ∈ enlist L sz x (size_class sz) := by
  unfold enlist setList
  rw [if_pos rfl]
  exact List.mem_cons_self _ _

theorem mem_enlist {L : Nat → List Nat} {sz x i y : Nat} (h : y ∈ enlist L sz x i) :
    y = x ∨ y ∈ L i := by
  unfold enlist setList at h
  by_cases hi : i = size_class sz
  · rw [if_pos hi] at h
    rcases List.mem_cons.mp h with e | e
    · exact Or.inl e
    · exact Or.inr (hi ▸ e)
  · rw [if_neg hi] at h
    exact Or.inr h

theorem length_unlist (L : Nat → List Nat) (sz x i : Nat) :
    (unlist L sz x i).length ≤ (L i).length :=
  length_setList_erase L _ x i

theorem length_enlist (L : Nat → List Nat) (sz x i : Nat) :
    (enlist L sz x i).length ≤ (L i).length + 1 := by
  unfold enlist setList
  by_cases hi : i = size_class sz
  · rw [if_pos hi, hi]; simp
  · rw [if_neg hi]; omega

/-- The members that are left after a block was taken out keep away from it. -/
theorem ListsOK.unlist_far {s : State} {L : Nat → List Nat} (hL : ListsOK s L) {x sz l h : Nat}
    (hsz : hdrSize s.mem x = sz)
    (hgeo : ∀ i, i < 14 → ∀ y ∈ L i, y = x ∨ y + 32 ≤ l ∨ h ≤ y) :
    ∀ i, i < 14 → ∀ y ∈ unlist L sz x i, y + 32 ≤ l ∨ h ≤ y := by
  intro i hi' y hy
  obtain ⟨hyL, hne⟩ := hL.mem_erase hsz hi' hy
  rcases hgeo i hi' y hyL with e | e
  · exact absurd e hne
  · exact e

/-- Case 2 of `coalesce` on the level of tags and lists. -/
theorem coalesce_case2_exec {s : State} {L : Nat → List Nat} {bp size nsz F : Nat}
    (hlay : Layout s) (hL : ListsOK s L) (h1 : s.heap_listp + 16 ≤ bp)
    (hh : read8 s.mem (bp - 8) = PACK size 0) (hs1 : 32 ≤ size) (hs2 : size % 16 = 0)
    (hn : read8 s.mem (bp + size - 8) = PACK nsz 0) (hn1 : 32 ≤ nsz) (hn2 : nsz % 16 = 0)
    (h2 : bp + (size + nsz) ≤ s.mem_brk)
    (hgeo : ∀ i, i < 14 → ∀ y ∈ L i, y = bp + size ∨ y + 32 ≤ bp ∨ bp + (size + nsz) ≤ y)
    (hfuel : (L (size_class nsz)).length < F) :
    ∃ s5, coalesce_case2 F s bp size = some (s5, bp) ∧
      ListsOK s5 (enlist (unlist L nsz (bp + size)) (size + nsz) bp) ∧ sameRange s s5 ∧
      byteFrame L (bp - 8) (bp + (size + nsz) - 8) s.mem s5.mem ∧
      read8 s5.mem (bp - 8) = PACK (size + nsz) 0 ∧
      read8 s5.mem (bp + (size + nsz) - 16) = PACK (size + nsz) 0 := by
  have hl := hlay
  obtain ⟨hl1, hl2, hl3, hl4⟩ := hl
  have hU : U64 = 18446744073709551616 := rfl
  have hnsz : hdrSize s.mem (bp + size) = nsz := hdrSize_of_tag hn hn2 (by decide)
  obtain ⟨s2, r, e2, hL2, hr2, hm2⟩ := remove_marked (x := bp + size) (z := nsz) (F := F)
    hlay hL (by omega) (by omega) hnsz (by omega) hn2
    (fun i hi y hy => by have := hgeo i hi y hy; omega) hfuel
  have hlay2 : Layout s2 := Layout_of_sameRange hlay hr2
  have hgeo2 := hL.unlist_far hnsz hgeo
  obtain ⟨r0, r1, r2, r3, r4⟩ := hr2
  have hL4 : ListsOK { s2 with mem := retagMem s2.mem bp (size + nsz) 0 }
      (unlist L nsz (bp + size)) := ListsOK_retag 0 hL2 (by omega) (by omega) hgeo2
  have h4h : read8 (retagMem s2.mem bp (size + nsz) 0) (bp - 8) = PACK (size + nsz) 0 :=
    retag_hdr _ (by omega) (by omega) (by omega) (by decide) (by omega)
  have h4f : read8 (retagMem s2.mem bp (size + nsz) 0) (bp + (size + nsz) - 16) =
      PACK (size + nsz) 0 := retag_ftr _ (by omega) (by decide) (by omega)
  obtain ⟨s5, e5, hL5, hr5, hm5, hw5⟩ := place_freeblk_listed
    (s := { s2 with mem := retagMem s2.mem bp (size + nsz) 0 }) (n := bp) (w := size + nsz)
    hlay2 hL4 (by dsimp only; omega) (by dsimp only; omega) (by omega) (by omega) h4h hgeo2
  have hfar : ∀ q, (q = bp - 8 ∨ q = bp + (size + nsz) - 16) → ∀ i, i < 14 →
      ∀ y ∈ unlist L nsz (bp + size) i, q + 8 ≤ y + 8 ∨ y + 16 ≤ q := by
    intro q hq i hi y hy
    have := hgeo2 i hi y hy
    omega
  refine ⟨s5, ?_, hL5, sameRange_trans (t := { s2 with mem := retagMem s2.mem bp (size + nsz) 0 })
    ⟨r0, r1, r2, r3, r4⟩ hr5, ?_, ?_, ?_⟩
  · unfold coalesce_case2
    rw [NEXT_BLKP_tag hlay (by omega) (by omega) hh hs2 (by decide)]
    simp only [obind_some]
    rw [GET_SIZE_tag hlay (by omega) (by omega) hn hn2 (by decide)]
    simp only [obind_some]
    rw [Nat.mod_eq_of_lt (by omega : size + nsz < U64), PUT_tag _ hlay (by omega) (by omega)]
    simp only [obind_some]
    rw [e2]
    simp only [obind_some]
    rw [retag_exec hlay2 (by omega) (by omega) (by omega) (by omega) (by decide), e5]
    rfl
  · rw [hm5]
    dsimp only
    rw [hm2]
    refine (((byteFrame_write8 L _ _ (by omega) (by omega)).trans
      (byteFrame_unlink L _ _ _ (size_class_lt nsz) _)).trans
      (byteFrame_retag L _ 0 (by omega) (by omega) (by omega) (by omega))).trans
      (byteFrame_push L _ ?_ (by omega) (by omega))
    intro y hy
    exact ⟨_, size_class_lt _, mem_unlist hy⟩
  · rw [hw5 _ (by omega) (hfar _ (Or.inl rfl))]
    exact h4h
  · rw [hw5 _ (by omega) (hfar _ (Or.inr rfl))]
    exact h4f

/-! ## Replacing a run of blocks of a well-formed heap -/

theorem WF.split3 {s : State} {g : Ghost} (hwf : WF s g) {pre mid post : List Blk}
    (hdec : g.blocks = pre ++ mid ++ post) :
    ∃ a e, MM.tiles s.mem (s.heap_listp + 16) pre a ∧ MM.tiles s.mem a mid e ∧
      MM.tiles s.mem e post s.mem_brk := by
  have ht := hwf.tiles
  rw [hdec, tiles_append] at ht
  obtain ⟨e, ht1, ht2⟩ := ht
  rw [tiles_append] at ht1
  obtain ⟨a, ht3, ht4⟩ := ht1
  exact ⟨a, e, ht3, ht4, ht2⟩

/-- A list member is the address of a block of the run `mid` or keeps away from the run. -/
theorem WF.member_geo {s : State} {g : Ghost} (hwf : WF s g) {pre mid post : List Blk}
    (hdec : g.blocks = pre ++ mid ++ post) {a e : Nat}
    (ha : MM.tiles s.mem (s.heap_listp + 16) pre a) (he : MM.tiles s.mem e post s.mem_brk)
    {i : Nat} (hi : i < 14) {y : Nat} (hy : y ∈ g.lists i) :
    (∃ b ∈ mid, b.bp = y ∧ b.alloc = 0) ∨ y + 32 ≤ a ∨ e ≤ y := by
  obtain ⟨b, hb, hby, hba⟩ := hwf.member_free hi hy
  rw [hdec] at hb
  simp only [List.mem_append] at hb
  rcases hb with (h | h) | h
  · obtain ⟨-, t2, t3, -⟩ := tiles_mem ha h
    right; left; omega
  · exact Or.inl ⟨b, h, hby, hba⟩
  · obtain ⟨t1, -⟩ := tiles_mem he h
    right; right; omega

/-- The run `mid` of blocks is replaced by the run `N` that covers the same addresses. -/
theorem WF.splice {s t : State} {g : Ghost} {pre mid N post : List Blk}
    {K : Nat → List Nat} {a e : Nat} (hwf : WF s g) (hdec : g.blocks = pre ++ mid ++ post)
    (ha : MM.tiles s.mem (s.heap_listp + 16) pre a) (hm : MM.tiles s.mem a mid e)
    (he : MM.tiles s.mem e post s.mem_brk) (hr : sameRange s t) (hmid : MM.tiles t.mem a N e)
    (hbf : byteFrame g.lists (a - 8) (e - 8) s.mem t.mem) (hL : ListsOK t K)
    (hmem : ∀ i, i < 14 → ∀ b ∈ K i, (∃ blk ∈ N, blk.bp = b ∧ blk.alloc = 0) ∨
      ((∃ j, j < 14 ∧ b ∈ g.lists j) ∧ (b + 32 ≤ a ∨ e ≤ b))) :
    WF t ⟨pre ++ N ++ post, K⟩ ∧ allocFrame ⟨pre ++ post, g.lists⟩ s.mem t.mem := by
  have hae := tiles_le hm
  constructor
  · refine WF_rebuild hwf hdec ha he hae hr hmid (fun q hq hlf => hbf.word (by omega) hlf) hL ?_
    intro i hi b hb
    rcases hmem i hi b hb with ⟨blk, h1, h2, h3⟩ | ⟨⟨j, hj, hbj⟩, hfar⟩
    · exact ⟨blk, by simp [h1], h2, h3⟩
    · obtain ⟨y, hy1, hy2, hy3⟩ := hwf.member_free hj hbj
      refine ⟨y, mem_rebuild (M := mid) (hdec ▸ hy1) ?_, hy2, hy3⟩
      intro hmidy
      obtain ⟨t1, t2, t3, -⟩ := tiles_mem hm hmidy
      omega
  · intro x hx hxa q h1 h2
    have hxg : x ∈ g.blocks := by
      rw [hdec]
      simp only [List.mem_append] at hx ⊢
      rcases hx with h | h
      · exact Or.inl (Or.inl h)
      · exact Or.inr h
    apply hbf
    · simp only [List.mem_append] at hx
      rcases hx with h | h
      · obtain ⟨-, t2, t3, -⟩ := tiles_mem ha h
        left; omega
      · obtain ⟨t1, -⟩ := tiles_mem he h
        right; omega
    · intro i hi' y hy
      exact hwf.alloc_not_link hxg hxa h1 h2 hi' hy

/-- When the replaced run holds free blocks only, every allocated block of the heap is
outside of it. -/
theorem allocFrame_of_splice {g : Ghost} {pre mid post : List Blk} {m m' : Nat → Nat}
    (hdec : g.blocks = pre ++ mid ++ post) (hfree : ∀ x ∈ mid, x.alloc = 0)
    (h : allocFrame ⟨pre ++ post, g.lists⟩ m m') : allocFrame g m m' := by
  intro x hx hxa
  rw [hdec] at hx
  simp only [List.mem_append] at hx
  rcases hx with (h1 | h1) | h1
  · exact h x (by simp [h1]) hxa
  · rw [hfree x h1] at hxa
    exact absurd hxa (by decide)
  · exact h x (by simp [h1]) hxa

theorem mem_splice_alloc {pre mid mid' post : List Blk} (hfree : ∀ x ∈ mid, x.alloc = 0)
    (hfree' : ∀ x ∈ mid', x.alloc = 0) {b : Blk} (hb : b.alloc = 1) :
    b ∈ pre ++ mid' ++ post ↔ b ∈ pre ++ mid ++ post := by
  have h1 : b ∉ mid := fun h => by rw [hfree b h] at hb; exact absurd hb (by decide)
  have h2 : b ∉ mid' := fun h => by rw [hfree' b h] at hb; exact absurd hb (by decide)
  simp only [List.mem_append, h1, h2, or_false]

theorem WF.tagged {s : State} {g : Ghost} (hwf : WF s g) : Tagged s g.blocks :=
  ⟨hwf.1, hwf.2.1, hwf.2.2.1, hwf.2.2.2.1, hwf.2.2.2.2.1⟩

/-- The tags after the run `mid` of blocks is replaced by the run `mid'` that covers the same
addresses, whatever happens to the lists. -/
theorem WF.tagged_splice {s s' : State} {g : Ghost} {pre mid mid' post : List Blk}
    {a e : Nat} (hwf : WF s g) (hdec : g.blocks = pre ++ mid ++ post)
    (ha : MM.tiles s.mem (s.heap_listp + 16) pre a) (hm : MM.tiles s.mem a mid e)
    (he : MM.tiles s.mem e post s.mem_brk) (hr : sameRange s s') (hmid : MM.tiles s'.mem a mid' e)
    (hbf : byteFrame g.lists (a - 8) (e - 8) s.mem s'.mem) :
    Tagged s' (pre ++ mid' ++ post) := by
  have hae := tiles_le hm
  have hframe : ∀ q, (q + 8 ≤ a - 8 ∨ e - 8 ≤ q) →
      (∀ i, i < 14 → ∀ x ∈ g.lists i, q + 8 ≤ x ∨ x + 16 ≤ q) →
      read8 s'.mem q = read8 s.mem q := fun q hq hlf => hbf.word (by omega) hlf
  obtain ⟨hr0, hr1, hr2, hr3, hr4⟩ := hr
  have hlay := hwf.layout
  obtain ⟨hl1, hl2, hl3, hl4⟩ := hlay
  have hp1 := hwf.2.1
  have hp2 := hwf.2.2.1
  have hep := hwf.2.2.2.2.1
  have hale := tiles_le ha
  have hele := tiles_le he
  have hlinkfree_lo : ∀ q, q + 8 ≤ s.heap_listp + 16 → ∀ i, i < 14 → ∀ x ∈ g.lists i,
      q + 8 ≤ x ∨ x + 16 ≤ q := by
    intro q hq i hi x hx
    have := (hwf.member_range hi hx).1
    omega
  refine ⟨?_, ?_, ?_, ?_, ?_⟩
  · unfold Layout
    rw [hr1, hr2, hr3, hr4]
    exact ⟨hl1, hl2, hl3, hl4⟩
  · rw [hr4, hframe _ (by omega) (hlinkfree_lo _ (by omega))]
    exact hp1
  · rw [hr4, hframe _ (by omega) (hlinkfree_lo _ (by omega))]
    exact hp2
  · rw [hr4, hr2]
    rw [tiles_append]
    refine ⟨e, ?_, ?_⟩
    · rw [tiles_append]
      refine ⟨a, ?_, hmid⟩
      apply tiles_congr ha
      intro x hx
      have hxg : x ∈ g.blocks := by rw [hdec]; simp [hx]
      obtain ⟨x1, x2, x3, -⟩ := tiles_mem ha hx
      constructor
      · exact hframe _ (by omega) (fun i hi y hy => hwf.tag_linkfree hxg (Or.inl rfl) hi hy)
      · exact hframe _ (by omega) (fun i hi y hy => hwf.tag_linkfree hxg (Or.inr rfl) hi hy)
    · apply tiles_congr he
      intro x hx
      have hxg : x ∈ g.blocks := by rw [hdec]; simp [hx]
      obtain ⟨x1, x2, x3, -⟩ := tiles_mem he hx
      constructor
      · exact hframe _ (by omega) (fun i hi y hy => hwf.tag_linkfree hxg (Or.inl rfl) hi hy)
      · exact hframe _ (by omega) (fun i hi y hy => hwf.tag_linkfree hxg (Or.inr rfl) hi hy)
  · rw [hr2, hframe _ (by omega)]
    · exact hep
    · intro i hi x hx
      have := (hwf.member_range hi hx).2
      omega

theorem length_enlist_unlist (L : Nat → List Nat) (sz x sz' x' i : Nat) :
    (enlist (unlist L sz x) sz' x' i).length ≤ (L i).length + 1 := by
  have h1 := length_enlist (unlist L sz x) sz' x' i
  have h2 := length_unlist L sz x i
  omega

/-- The free block `blk` is merged with the free block `Q` that follows it (case 2), with
the blocks of the heap afterwards. -/
theorem coalesce_case2_full {s : State} {g : Ghost} (hwf : WF s g) {A Z : List Blk}
    {blk Q : Blk} (hdec : g.blocks = A ++ [blk, Q] ++ Z) (hfree : blk.alloc = 0)
    (hnot : ∀ i, i < 14 → blk.bp ∉ g.lists i) (hpa : prevAlloc A = 1) (hnb : Q.alloc = 0)
    {fuel : Nat} (hfuel : ∀ i, i < 14 → (g.lists i).length < fuel) :
    ∃ s' L', coalesce fuel s blk.bp = some (s', blk.bp) ∧
      Merged s g blk s' ⟨A ++ [⟨blk.bp, blk.size + Q.size, 0⟩] ++ Z, L'⟩ blk.bp ∧
      blk.bp ∈ L' (size_class (blk.size + Q.size)) := by
  obtain ⟨a, e, ha, hm, he⟩ := hwf.split3 hdec
  have hm' := hm
  obtain ⟨hb1, hb2, hb3, hb4, hb5, hb6, hm2⟩ := hm'
  obtain ⟨hc1, hc2, hc3, hc4, hc5, hc6, hm3⟩ := hm2
  subst hb1
  have hm4 : blk.bp + (blk.size + Q.size) = e := by rw [← Nat.add_assoc]; exact hm3
  clear hm3
  subst hm4
  rw [hfree] at hb5
  rw [hnb] at hc5
  have hlay := hwf.layout
  have hbrk := tiles_le he
  have hp := tiles_le ha
  have hdec' : g.blocks = A ++ blk :: (Q :: Z) := by rw [hdec]; simp
  have hgeo : ∀ i, i < 14 → ∀ y ∈ g.lists i,
      y = blk.bp + blk.size ∨ y + 32 ≤ blk.bp ∨ blk.bp + (blk.size + Q.size) ≤ y := by
    intro i hi y hy
    rcases hwf.member_geo hdec ha he hi hy with ⟨b, hb, hby, -⟩ | h | h
    · simp only [List.mem_cons, List.mem_singleton, List.not_mem_nil, or_false] at hb
      rcases hb with rfl | rfl
      · exact absurd (hby ▸ hy) (hnot i hi)
      · left; omega
    · exact Or.inr (Or.inl h)
    · exact Or.inr (Or.inr h)
  obtain ⟨s5, e5, hL5, hr5, hbf, h5h, h5f⟩ := coalesce_case2_exec (F := fuel) hlay hwf.lists
    hp hb5 hb2 hb3 hc5 hc2 hc3 hbrk hgeo (hfuel _ (size_class_lt _))
  have hnsz : hdrSize s.mem (blk.bp + blk.size) = Q.size := hdrSize_of_tag hc5 hc3 (by decide)
  obtain ⟨hw, hfr⟩ := hwf.splice (N := [⟨blk.bp, blk.size + Q.size, 0⟩])
    (K := enlist (unlist g.lists Q.size (blk.bp + blk.size)) (blk.size + Q.size) blk.bp)
    hdec ha hm he hr5
    ⟨rfl, by dsimp only; omega, by dsimp only; omega, by dsimp only; omega, h5h, h5f, rfl⟩ hbf hL5
    (by
      intro i hi b hb
      rcases mem_enlist hb with h | h
      · exact Or.inl ⟨_, List.mem_singleton.mpr rfl, h.symm, rfl⟩
      · exact Or.inr ⟨⟨i, hi, mem_unlist h⟩, hwf.lists.unlist_far hnsz hgeo i hi b h⟩)
  have hfm : ∀ x ∈ [blk, Q], x.alloc = 0 := by
    intro x hx
    simp only [List.mem_cons, List.mem_singleton, List.not_mem_nil, or_false] at hx
    rcases hx with rfl | rfl
    · exact hfree
    · exact hnb
  refine ⟨s5, _, ?_, ⟨hw, hr5, allocFrame_of_splice hdec hfm hfr,
    hdrAlloc_of_tag h5h (by omega) (by decide), ?_, ?_, ?_⟩, mem_enlist_self _ _ _⟩
  · rw [coalesce_dispatch hwf hdec', if_neg (by rw [nextAlloc_cons, hnb]; simp),
      if_pos (by rw [nextAlloc_cons, hnb, hpa]; simp)]
    exact e5
  · intro b hb
    rw [hdec]
    exact mem_splice_alloc hfm (by simp) hb
  · intro i _
    exact length_enlist_unlist _ _ _ _ _ _
  · exact ⟨blk.size + Q.size, by simp, le_refl _, by omega⟩

/-- The free block `blk` is merged with the free block `Q` that follows it (case 2). -/
theorem coalesce_case2_spec {s : State} {g : Ghost} (hwf : WF s g) {A Z : List Blk}
    {blk Q : Blk} (hdec : g.blocks = A ++ [blk, Q] ++ Z) (hfree : blk.alloc = 0)
    (hnot : ∀ i, i < 14 → blk.bp ∉ g.lists i) (hpa : prevAlloc A = 1) (hnb : Q.alloc = 0)
    {fuel : Nat} (hfuel : ∀ i, i < 14 → (g.lists i).length < fuel) :
    ∃ s' g' r, coalesce fuel s blk.bp = some (s', r) ∧ Merged s g blk s' g' r ∧ r = blk.bp ∧
      ∃ c, (⟨blk.bp, c, 0⟩ : Blk) ∈ g'.blocks ∧ blk.size ≤ c ∧
        blk.bp ∈ g'.lists (size_class c) := by
  obtain ⟨s', L', e, hM, hin⟩ := coalesce_case2_full hwf hdec hfree hnot hpa hnb hfuel
  exact ⟨s', _, blk.bp, e, hM, rfl, blk.size + Q.size, by simp, by omega, hin⟩

/-! ## Cases 3 and 4 of `coalesce`: the shared parts -/

theorem ListsOK_links {s s' : State} {L : Nat → List Nat} (hL : ListsOK s L)
    (hhp : s'.heap_listp = s.heap_listp)
    (hh : ∀ j, j < 14 → s'.freeblk_listp j = s.freeblk_listp j)
    (hm : ∀ j, j < 14 → ∀ x ∈ L j, read8 s'.mem x = read8 s.mem x ∧
      read8 s'.mem (x + 8) = read8 s.mem (x + 8) ∧ memberOK s' j x) :
    ListsOK s' L := by
  refine ⟨?_, hL.2⟩
  intro j hj
  obtain ⟨h1, h2, h3, h4⟩ := hL.1 j hj
  refine ⟨?_, ?_, h3, ?_⟩
  · rw [hh j hj, hhp, h1]
  · intro x hx
    obtain ⟨e1, e2, -⟩ := hm j hj x hx
    rw [e1, e2]
    exact h2 x hx
  · intro x hx
    exact (hm j hj x hx).2.2

theorem write8_comm (m : Nat → Nat) {p q : Nat} (v w : Nat) (h : p + 8 ≤ q ∨ q + 8 ≤ p) :
    write8 (write8 m p v) q w = write8 (write8 m q w) p v := by
  funext a
  unfold write8
  by_cases h1 : q ≤ a ∧ a < q + 8
  · have h2 : ¬ (p ≤ a ∧ a < p + 8) := by omega
    simp only [h1, h2, and_self, if_true, if_false]
  · by_cases h2 : p ≤ a ∧ a < p + 8
    · simp only [h1, h2, and_self, if_true, if_false]
    · simp only [h1, h2, if_false]

/-- The size of the block before `bp`, read as the code does through the footer before `bp`
and the header it leads to. -/
theorem prev_size_exec {s : State} {p psz a1 a2 : Nat} (hlay : Layout s)
    (h1 : s.heap_listp + 16 ≤ p) (h2 : p + psz ≤ s.mem_brk) (hs : psz % 16 = 0)
    (hh : read8 s.mem (p - 8) = PACK psz a1) (ha1 : a1 < 2)
    (hf : read8 s.mem (p + psz - 16) = PACK psz a2) (ha2 : a2 < 2) :
    (obind (PREV_BLKP s (p + psz)) fun q => GET_SIZE s (HDRP q)) = some psz := by
  rw [PREV_BLKP_tag hlay (by omega) (by omega) hf hs ha2, Nat.add_sub_cancel]
  simp only [obind_some]
  exact GET_SIZE_tag hlay (by omega) (by omega) hh hs ha1

/-- The block at `p` before `bp` is marked allocated, removed from its list and marked
free again. -/
theorem coalesce_unlist_prev_exec {s : State} {L : Nat → List Nat} {p psz F : Nat}
    (hlay : Layout s) (hL : ListsOK s L) (h1 : s.heap_listp + 16 ≤ p)
    (h2 : p + psz ≤ s.mem_brk) (hs1 : 32 ≤ psz) (hs2 : psz % 16 = 0)
    (hh : read8 s.mem (p - 8) = PACK psz 0) (hf : read8 s.mem (p + psz - 16) = PACK psz 0)
    (hgeo : ∀ i, i < 14 → ∀ y ∈ L i, y = p ∨ y + 32 ≤ p ∨ p + psz ≤ y)
    (hfuel : (L (size_class psz)).length < F) :
    ∃ s3, coalesce_unlist_prev F s (p + psz) = some s3 ∧ ListsOK s3 (unlist L psz p) ∧
      sameRange s s3 ∧ byteFrame L (p - 8) p s.mem s3.mem ∧
      read8 s3.mem (p - 8) = PACK psz 0 := by
  have hl := hlay
  obtain ⟨hl1, hl2, hl3, hl4⟩ := hl
  have hU : U64 = 18446744073709551616 := rfl
  have hpsz : hdrSize s.mem p = psz := hdrSize_of_tag hh hs2 (by decide)
  obtain ⟨s2, r, e2, hL2, hr2, hm2⟩ := remove_marked (x := p) (z := psz) (F := F)
    hlay hL h1 (by omega) hpsz (by omega) hs2
    (fun i hi y hy => by have := hgeo i hi y hy; omega) hfuel
  have hlay2 : Layout s2 := Layout_of_sameRange hlay hr2
  have hgeo2 := hL.unlist_far hpsz hgeo
  obtain ⟨r0, r1, r2, r3, r4⟩ := hr2
  have hbf2 : byteFrame L (p - 8) p s.mem s2.mem := by
    rw [hm2]
    exact (byteFrame_write8 L _ _ (by omega) (by omega)).trans
      (byteFrame_unlink L _ _ _ (size_class_lt psz) _)
  have hlf : ∀ q, (q = p - 8 ∨ q = p + psz - 16) → ∀ i, i < 14 → ∀ y ∈ L i,
      q + 8 ≤ y ∨ y + 16 ≤ q := by
    intro q hq i hi y hy
    have := hgeo i hi y hy
    omega
  have h2h : read8 s2.mem (p - 8) = PACK psz 1 := by
    rw [hm2, read8_unlinkMem_frame _ _ _ _ (hlf _ (Or.inl rfl) _ (size_class_lt psz))]
    exact read8_write8_tag _ _ hs2 (by decide) (by omega)
  have h2f : read8 s2.mem (p + psz - 16) = PACK psz 0 := by
    rw [hbf2.word (by omega) (hlf _ (Or.inr rfl))]
    exact hf
  have hL3 : ListsOK { s2 with mem := write8 s2.mem (p - 8) (PACK psz 0) } (unlist L psz p) := by
    refine ListsOK_congr hL2 ?_ ?_ ?_ ?_
    · rfl
    · exact le_refl _
    · intro _ _; rfl
    intro i hi y hy
    have hg := hgeo2 i hi y hy
    have hy1 := (hL2.member hi hy).1
    unfold hdrSize
    dsimp only
    rw [read8_write8_ne _ _ _ _ (by omega), read8_write8_ne _ _ _ _ (by omega),
      read8_write8_ne _ _ _ _ (by omega)]
    exact ⟨rfl, rfl, rfl⟩
  refine ⟨{ s2 with mem := write8 s2.mem (p - 8) (PACK psz 0) }, ?_, hL3, ⟨r0, r1, r2, r3, r4⟩,
    hbf2.trans (byteFrame_write8 L _ _ (by omega) (by omega)),
    read8_write8_tag _ _ hs2 (by decide) (by omega)⟩
  unfold coalesce_unlist_prev
  rw [prev_size_exec hlay h1 h2 hs2 hh (by decide) hf (by decide),
    PREV_BLKP_tag hlay (by omega) (by omega) hf hs2 (by decide), Nat.add_sub_cancel]
  simp only [obind_some]
  rw [PUT_tag _ hlay (by omega) (by omega)]
  simp only [obind_some]
  rw [PREV_BLKP_tag (s := { s with mem := write8 s.mem (p - 8) (PACK psz 1) }) hlay
    (by dsimp only; omega) (by dsimp only; omega) (by dsimp only; rw [read8_write8_ne _ _ _ _ (by omega)]; exact hf) hs2
    (by decide), Nat.add_sub_cancel]
  simp only [obind_some]
  rw [e2]
  simp only [obind_some]
  rw [prev_size_exec hlay2 (by omega) (by omega) hs2 h2h (by decide) h2f (by decide),
    PREV_BLKP_tag hlay2 (by omega) (by omega) h2f hs2 (by decide), Nat.add_sub_cancel]
  simp only [obind_some]
  exact PUT_tag _ hlay2 (by omega) (by omega)

/-- The block at `p` before `bp` is extended in place to the size `ms`. -/
theorem coalesce_extend_prev_exec {s : State} {p psz ms a2 : Nat} (hlay : Layout s)
    (h1 : s.heap_listp + 16 ≤ p) (hs1 : 16 ≤ psz) (hs2 : psz % 16 = 0)
    (hf : read8 s.mem (p + psz - 16) = PACK psz a2) (ha2 : a2 < 2)
    (hm1 : psz + 16 ≤ ms) (hm2 : ms % 16 = 0) (h2 : p + ms ≤ s.mem_brk) :
    coalesce_extend_prev s (p + psz) ms =
      some ({ s with mem := retagMem s.mem p ms 0 }, p) := by
  have hl := hlay
  obtain ⟨hl1, hl2, hl3, hl4⟩ := hl
  have hU : U64 = 18446744073709551616 := rfl
  have hf1 : read8 (write8 s.mem (p - 8) (PACK ms 0)) (p + psz - 16) = PACK psz a2 := by
    rw [read8_write8_ne _ _ _ _ (by omega)]; exact hf
  have hf2 : read8 (retagMem s.mem p ms 0) (p + psz - 16) = PACK psz a2 := by
    rw [retag_other _ _ (by omega) (by omega) (by omega) (by omega)]; exact hf
  unfold coalesce_extend_prev
  rw [PREV_BLKP_tag hlay (by omega) (by omega) hf hs2 ha2, Nat.add_sub_cancel]
  simp only [obind_some]
  rw [PUT_tag _ hlay (by omega) (by omega)]
  simp only [obind_some]
  rw [PREV_BLKP_tag (s := { s with mem := write8 s.mem (p - 8) (PACK ms 0) }) hlay
    (by dsimp only; omega) (by dsimp only; omega) hf1 hs2 ha2, Nat.add_sub_cancel]
  simp only [obind_some]
  rw [FTRP_tag (s := { s with mem := write8 s.mem (p - 8) (PACK ms 0) }) hlay
    (by dsimp only; omega) (by dsimp only; omega) (by omega)
    (read8_write8_tag _ _ hm2 (by decide) (by omega)) hm2 (by decide)]
  simp only [obind_some]
  rw [PUT_eq _ (by dsimp only; omega) (by dsimp only; omega)]
  simp only [obind_some]
  rw [show write8 (write8 s.mem (p - 8) (PACK ms 0)) (p + ms - 16) (PACK ms 0) =
    retagMem s.mem p ms 0 from rfl]
  rw [PREV_BLKP_tag (s := { s with mem := retagMem s.mem p ms 0 }) hlay
    (by dsimp only; omega) (by dsimp only; omega) hf2 hs2 ha2, Nat.add_sub_cancel]
  rfl

/-- The lists stay intact when a free block grows in place without changing its list. -/
theorem ListsOK_extend {s s' : State} {L : Nat → List Nat} {p psz ms : Nat} (hL : ListsOK s L)
    (hr : sameRange s s') (hhd : s'.freeblk_listp = s.freeblk_listp)
    (hmem : s'.mem = retagMem s.mem p ms 0) (h1 : s.heap_listp + 16 ≤ p)
    (hh : hdrSize s.mem p = psz) (hm1 : 32 ≤ ms)
    (hm2 : ms % 16 = 0) (hm3 : ms + 1 < U64) (hcls : size_class psz = size_class ms)
    (hgeo : ∀ i, i < 14 → ∀ y ∈ L i, y = p ∨ y + 32 ≤ p ∨ p + ms ≤ y) :
    ListsOK s' L := by
  obtain ⟨r0, r1, r2, r3, r4⟩ := hr
  refine ListsOK_links hL r4 (fun j _ => by rw [hhd]) ?_
  intro i hi y hy
  have hg := hgeo i hi y hy
  obtain ⟨y1, y2, y3, y4⟩ := hL.member hi hy
  rw [hmem, retag_other _ _ (by omega) (by omega) (by omega) (by omega),
    retag_other _ _ (by omega) (by omega) (by omega) (by omega)]
  refine ⟨rfl, rfl, ?_⟩
  unfold memberOK
  rw [r4, r2, hmem]
  by_cases e : y = p
  · have hs : hdrSize (retagMem s.mem p ms 0) y = ms := by
      rw [e]
      exact hdrSize_of_tag (retag_hdr _ (by omega) (by omega) hm2 (by decide) hm3) hm2
        (by decide)
    rw [hs]
    refine ⟨y1, y2, by omega, ?_⟩
    rw [← hcls, ← hh, ← e]
    exact y4
  · have hs : hdrSize (retagMem s.mem p ms 0) y = hdrSize s.mem y := by
      unfold hdrSize
      rw [retag_other _ _ (by omega) (by omega) (by omega) (by omega)]
    rw [hs]
    exact ⟨y1, y2, y3, y4⟩

/-- A block whose tags have just been written as free is put into the list of its size. -/
theorem retag_enlist {s : State} {L L1 : Nat → List Nat} {p w : Nat} (hlay : Layout s)
    (hL1 : ListsOK s L1) (hsub : ∀ i, i < 14 → ∀ y ∈ L1 i, ∃ j, j < 14 ∧ y ∈ L j)
    (h1 : s.heap_listp + 16 ≤ p) (h2 : p + w ≤ s.mem_brk) (hm1 : 32 ≤ w) (hm2 : w % 16 = 0)
    (hgeo : ∀ i, i < 14 → ∀ y ∈ L1 i, y + 32 ≤ p ∨ p + w ≤ y) :
    ∃ s', place_freeblk { s with mem := retagMem s.mem p w 0 } p = some (s', true) ∧
      ListsOK s' (enlist L1 w p) ∧ sameRange s s' ∧
      byteFrame L (p - 8) (p + w - 8) s.mem s'.mem ∧
      read8 s'.mem (p - 8) = PACK w 0 ∧ read8 s'.mem (p + w - 16) = PACK w 0 ∧
      ∀ q, p + 16 ≤ q → q + 8 ≤ p + w - 16 → read8 s'.mem q = read8 s.mem q := by
  have hl := hlay
  obtain ⟨hl1, hl2, hl3, hl4⟩ := hl
  have hU : U64 = 18446744073709551616 := rfl
  have hL4 : ListsOK { s with mem := retagMem s.mem p w 0 } L1 :=
    ListsOK_retag 0 hL1 (by omega) (by omega) hgeo
  have h4h : read8 (retagMem s.mem p w 0) (p - 8) = PACK w 0 :=
    retag_hdr _ (by omega) (by omega) (by omega) (by decide) (by omega)
  have h4f : read8 (retagMem s.mem p w 0) (p + w - 16) = PACK w 0 :=
    retag_ftr _ (by omega) (by decide) (by omega)
  obtain ⟨s5, e5, hL5, hr5, hm5, hw5⟩ := place_freeblk_listed
    (s := { s with mem := retagMem s.mem p w 0 }) (n := p) (w := w)
    hlay hL4 (by dsimp only; omega) (by dsimp only; omega) (by omega) (by omega) h4h hgeo
  have hfar : ∀ q, (q = p - 8 ∨ q = p + w - 16) → ∀ i, i < 14 →
      ∀ y ∈ L1 i, q + 8 ≤ y + 8 ∨ y + 16 ≤ q := by
    intro q hq i hi y hy
    have := hgeo i hi y hy
    omega
  refine ⟨s5, e5, hL5, hr5, ?_, ?_, ?_, ?_⟩
  · rw [hm5]
    dsimp only
    refine (byteFrame_retag L _ 0 (by omega) (by omega) (by omega) (by omega)).trans
      (byteFrame_push L _ ?_ (by omega) (by omega))
    intro y hy
    exact hsub _ (size_class_lt _) y hy
  · rw [hw5 _ (by omega) (hfar _ (Or.inl rfl))]
    exact h4h
  · rw [hw5 _ (by omega) (hfar _ (Or.inr rfl))]
    exact h4f
  · intro q hq1 hq2
    rw [hw5 _ (by omega) (fun i hi y hy => by have := hgeo i hi y hy; omega)]
    exact retag_other _ _ (by omega) (by omega) (by omega) (by omega)

/-- Case 3 of `coalesce` when the merged block stays in the list of the block before `bp`. -/
theorem coalesce_case3_same_exec {s : State} {p psz size : Nat} (fuel : Nat) (hlay : Layout s)
    (h1 : s.heap_listp + 16 ≤ p) (hs1 : 32 ≤ psz) (hs2 : psz % 16 = 0)
    (hh : read8 s.mem (p - 8) = PACK psz 0) (hf : read8 s.mem (p + psz - 16) = PACK psz 0)
    (hz1 : 16 ≤ size) (hz2 : size % 16 = 0) (h2 : p + (size + psz) ≤ s.mem_brk)
    (hcls : size_class psz = size_class (size + psz)) :
    ∃ s', coalesce_case3 fuel s (p + psz) size = some (s', p) ∧
      s'.mem = retagMem s.mem p (size + psz) 0 ∧ sameRange s s' ∧
      s'.freeblk_listp = s.freeblk_listp := by
  have hl := hlay
  obtain ⟨hl1, hl2, hl3, hl4⟩ := hl
  have hU : U64 = 18446744073709551616 := rfl
  have hp0 : psz ≠ 0 := by omega
  have hm0 : size + psz ≠ 0 := by omega
  unfold coalesce_case3
  rw [prev_size_exec hlay h1 (by omega) hs2 hh (by decide) hf (by decide)]
  simp only [obind_some]
  rw [Nat.mod_eq_of_lt (by omega : size + psz < U64)]
  simp only [find_free_list_ne_zero _ hp0, find_free_list_ne_zero _ hm0]
  rw [if_pos (congrArg some hcls)]
  rw [coalesce_extend_prev_exec (s := { s with curr_freelist := some (size_class (size + psz)) })
    hlay h1 (by omega) hs2 hf (by decide) (by omega) (by omega) (by dsimp only; omega)]
  exact ⟨_, rfl, rfl, ⟨rfl, rfl, rfl, rfl, rfl⟩, rfl⟩

/-- Case 3 of `coalesce` when the merged block moves to another list. -/
theorem coalesce_case3_move_exec {s : State} {L : Nat → List Nat} {p psz size F : Nat}
    (hlay : Layout s) (hL : ListsOK s L) (h1 : s.heap_listp + 16 ≤ p) (hs1 : 32 ≤ psz)
    (hs2 : psz % 16 = 0) (hh : read8 s.mem (p - 8) = PACK psz 0)
    (hf : read8 s.mem (p + psz - 16) = PACK psz 0)
    (hbh : read8 s.mem (p + psz - 8) = PACK size 0) (hz1 : 16 ≤ size) (hz2 : size % 16 = 0)
    (h2 : p + (size + psz) ≤ s.mem_brk)
    (hgeo : ∀ i, i < 14 → ∀ y ∈ L i, y = p ∨ y + 32 ≤ p ∨ p + (size + psz) ≤ y)
    (hcls : size_class psz ≠ size_class (size + psz))
    (hfuel : (L (size_class psz)).length < F) :
    ∃ s', coalesce_case3 F s (p + psz) size = some (s', p) ∧
      ListsOK s' (enlist (unlist L psz p) (size + psz) p) ∧ sameRange s s' ∧
      byteFrame L (p - 8) (p + (size + psz) - 8) s.mem s'.mem ∧
      read8 s'.mem (p - 8) = PACK (size + psz) 0 ∧
      read8 s'.mem (p + (size + psz) - 16) = PACK (size + psz) 0 ∧
      read8 s'.mem (p + psz - 8) = PACK size 0 := by
  have hl := hlay
  obtain ⟨hl1, hl2, hl3, hl4⟩ := hl
  have hU : U64 = 18446744073709551616 := rfl
  have hp0 : psz ≠ 0 := by omega
  have hm0 : size + psz ≠ 0 := by omega
  have hpsz : hdrSize s.mem p = psz := hdrSize_of_tag hh hs2 (by decide)
  obtain ⟨s3, e3, hL3, hr3, hbf3, h3h⟩ := coalesce_unlist_prev_exec
    (s := { s with curr_freelist := some (size_class (size + psz)) }) (F := F)
    hlay hL h1 (by dsimp only; omega) hs1 hs2 hh hf
    (fun i hi y hy => by have := hgeo i hi y hy; omega) hfuel
  have hlay3 : Layout s3 := Layout_of_sameRange (s := s) hlay hr3
  have hlf : ∀ q, (q = p + psz - 16 ∨ q = p + psz - 8) → ∀ i, i < 14 → ∀ y ∈ L i,
      q + 8 ≤ y ∨ y + 16 ≤ q := by
    intro q hq i hi y hy
    have := hgeo i hi y hy
    omega
  have h3f : read8 s3.mem (p + psz - 16) = PACK psz 0 := by
    rw [hbf3.word (by omega) (hlf _ (Or.inl rfl))]; exact hf
  have h3b : read8 s3.mem (p + psz - 8) = PACK size 0 := by
    rw [hbf3.word (by omega) (hlf _ (Or.inr rfl))]; exact hbh
  have hgeo1 := hL.unlist_far hpsz hgeo
  obtain ⟨r0, r1, r2, r3, r4⟩ := hr3
  dsimp only at r1 r2 r3 r4
  obtain ⟨s', e', hL', hr', hbf', hth, htf, hin⟩ := retag_enlist (L := L) (s := s3)
    (p := p) (w := size + psz) hlay3 hL3 (fun i hi y hy => ⟨i, hi, mem_unlist hy⟩)
    (by omega) (by omega) (by omega) (by omega) hgeo1
  have ea : p + psz + size - 16 = p + (size + psz) - 16 := by omega
  have em : write8 (write8 s3.mem (p + psz + size - 16) (PACK (size + psz) 0)) (p - 8)
      (PACK (size + psz) 0) = retagMem s3.mem p (size + psz) 0 := by
    rw [ea]; exact write8_comm _ _ _ (by omega)
  refine ⟨s', ?_, hL', sameRange_trans (t := s3) ⟨r0, r1, r2, r3, r4⟩ hr',
    (hbf3.mono (le_refl _) (by omega)).trans hbf', hth, htf,
    (hin _ (by omega) (by omega)).trans h3b⟩
  unfold coalesce_case3
  rw [prev_size_exec hlay h1 (by omega) hs2 hh (by decide) hf (by decide)]
  simp only [obind_some]
  rw [Nat.mod_eq_of_lt (by omega : size + psz < U64)]
  simp only [find_free_list_ne_zero _ hp0, find_free_list_ne_zero _ hm0]
  rw [if_neg (fun h => hcls (Option.some.inj h)), e3]
  simp only [obind_some]
  rw [FTRP_tag hlay3 (by omega) (by omega) (by omega) h3b hz2 (by decide)]
  simp only [obind_some]
  rw [PUT_eq _ (by omega) (by omega)]
  simp only [obind_some]
  rw [PREV_BLKP_tag
    (s := { s3 with mem := write8 s3.mem (p + psz + size - 16) (PACK (size + psz) 0) }) hlay3
    (by dsimp only; omega) (by dsimp only; omega)
    (by dsimp only; rw [read8_write8_ne _ _ _ _ (by omega)]; exact h3f) hs2 (by decide),
    Nat.add_sub_cancel]
  simp only [obind_some]
  rw [PUT_tag
    (s := { s3 with mem := write8 s3.mem (p + psz + size - 16) (PACK (size + psz) 0) }) _ hlay3
    (by dsimp only; omega) (by dsimp only; omega)]
  simp only [obind_some]
  rw [em, PREV_BLKP_tag (s := { s3 with mem := retagMem s3.mem p (size + psz) 0 }) hlay3
    (by dsimp only; omega) (by dsimp only; omega)
    (by dsimp only
        rw [retag_other _ _ (by omega) (by omega) (by omega) (by omega)]
        exact h3f) hs2 (by decide),
    Nat.add_sub_cancel]
  simp only [obind_some]
  rw [e']
  rfl

/-- Case 3 of `coalesce` on the level of tags and lists. -/
theorem coalesce_case3_exec {s : State} {L : Nat → List Nat} {p q n F : Nat}
    (hlay : Layout s) (hL : ListsOK s L) (h1 : s.heap_listp + 16 ≤ p) (hs1 : 32 ≤ q)
    (hs2 : q % 16 = 0) (hh : read8 s.mem (p - 8) = PACK q 0)
    (hf : read8 s.mem (p + q - 16) = PACK q 0)
    (hbh : read8 s.mem (p + q - 8) = PACK n 0) (hz1 : 16 ≤ n) (hz2 : n % 16 = 0)
    (h2 : p + (n + q) ≤ s.mem_brk)
    (hgeo : ∀ i, i < 14 → ∀ y ∈ L i, y = p ∨ y + 32 ≤ p ∨ p + (n + q) ≤ y)
    (hfuel : (L (size_class q)).length < F) :
    ∃ s' L', coalesce_case3 F s (p + q) n = some (s', p) ∧ ListsOK s' L' ∧
      sameRange s s' ∧ byteFrame L (p - 8) (p + (n + q) - 8) s.mem s'.mem ∧
      read8 s'.mem (p - 8) = PACK (n + q) 0 ∧
      read8 s'.mem (p + (n + q) - 16) = PACK (n + q) 0 ∧
      read8 s'.mem (p + q - 8) = PACK n 0 ∧
      (∀ i, i < 14 → ∀ y ∈ L' i,
        y = p ∨ (y ∈ L i ∧ (y + 32 ≤ p ∨ p + (n + q) ≤ y))) ∧
      (∀ i, i < 14 → (L' i).length ≤ (L i).length + 1) := by
  have hl := hlay
  obtain ⟨hl1, hl2, hl3, hl4⟩ := hl
  have hU : U64 = 18446744073709551616 := rfl
  have hpsz : hdrSize s.mem p = q := hdrSize_of_tag hh hs2 (by decide)
  by_cases hcls : size_class q = size_class (n + q)
  · obtain ⟨s', e', hmem, hr, hhd⟩ := coalesce_case3_same_exec F hlay h1 hs1 hs2 hh hf hz1
      hz2 h2 hcls
    refine ⟨s', L, e', ListsOK_extend hL hr hhd hmem h1 hpsz (by omega) (by omega) (by omega)
      hcls hgeo, hr, ?_, ?_, ?_, ?_, ?_, fun i _ => Nat.le_succ _⟩
    · rw [hmem]
      exact byteFrame_retag L _ 0 (by omega) (by omega) (by omega) (by omega)
    · rw [hmem]
      exact retag_hdr _ (by omega) (by omega) (by omega) (by decide) (by omega)
    · rw [hmem]
      exact retag_ftr _ (by omega) (by decide) (by omega)
    · rw [hmem, retag_other _ _ (by omega) (by omega) (by omega) (by omega)]
      exact hbh
    · intro i hi y hy
      rcases hgeo i hi y hy with e | e
      · exact Or.inl e
      · exact Or.inr ⟨hy, e⟩
  · obtain ⟨s', e', hL', hr, hbf, hth, htf, hin⟩ := coalesce_case3_move_exec (F := F)
      hlay hL h1 hs1 hs2 hh hf hbh hz1 hz2 h2 hgeo hcls hfuel
    refine ⟨s', _, e', hL', hr, hbf, hth, htf, hin, ?_, ?_⟩
    · intro i hi y hy
      rcases mem_enlist hy with e | e
      · exact Or.inl e
      · exact Or.inr ⟨mem_unlist e, hL.unlist_far hpsz hgeo i hi y e⟩
    · intro i _
      exact length_enlist_unlist _ _ _ _ _ _

/-- The free block `blk` is merged with the free block `P` before it (case 3), with the
blocks of the heap afterwards. -/
theorem coalesce_case3_full {s : State} {g : Ghost} (hwf : WF s g) {A Z : List Blk}
    {P blk : Blk} (hdec : g.blocks = A ++ [P, blk] ++ Z) (hfree : blk.alloc = 0)
    (hnot : ∀ i, i < 14 → blk.bp ∉ g.lists i) (hpb : P.alloc = 0) (hna : nextAlloc Z = 1)
    {fuel : Nat} (hfuel : ∀ i, i < 14 → (g.lists i).length < fuel) :
    ∃ s' L', coalesce fuel s blk.bp = some (s', P.bp) ∧
      Merged s g blk s' ⟨A ++ [⟨P.bp, blk.size + P.size, 0⟩] ++ Z, L'⟩ P.bp := by
  obtain ⟨a, e, ha, hm, he⟩ := hwf.split3 hdec
  have hm' := hm
  obtain ⟨hb1, hb2, hb3, hb4, hb5, hb6, hm2⟩ := hm'
  obtain ⟨hc1, hc2, hc3, hc4, hc5, hc6, hm3⟩ := hm2
  subst hb1
  have hm4 : P.bp + (blk.size + P.size) = e := by
    rw [Nat.add_comm blk.size, ← Nat.add_assoc]; exact hm3
  clear hm3
  subst hm4
  rw [hpb] at hb5 hb6
  rw [hfree] at hc5
  have hlay := hwf.layout
  have hbrk := tiles_le he
  have hp := tiles_le ha
  have hdec' : g.blocks = (A ++ [P]) ++ blk :: Z := by rw [hdec]; simp
  have hgeo : ∀ i, i < 14 → ∀ y ∈ g.lists i,
      y = P.bp ∨ y + 32 ≤ P.bp ∨ P.bp + (blk.size + P.size) ≤ y := by
    intro i hi y hy
    rcases hwf.member_geo hdec ha he hi hy with ⟨b, hb, hby, -⟩ | h | h
    · simp only [List.mem_cons, List.mem_singleton, List.not_mem_nil, or_false] at hb
      rcases hb with rfl | rfl
      · exact Or.inl hby.symm
      · exact absurd (hby ▸ hy) (hnot i hi)
    · exact Or.inr (Or.inl h)
    · exact Or.inr (Or.inr h)
  obtain ⟨s5, L5, e5, hL5, hr5, hbf, h5h, h5f, h5b, hmem5, hlen5⟩ := coalesce_case3_exec
    (F := fuel) hlay hwf.lists hp hb2 hb3 hb5 hb6 hc5 (by omega) hc3 hbrk hgeo
    (hfuel _ (size_class_lt _))
  obtain ⟨hw, hfr⟩ := hwf.splice (N := [⟨P.bp, blk.size + P.size, 0⟩]) (K := L5)
    hdec ha hm he hr5
    ⟨rfl, by dsimp only; omega, by dsimp only; omega, by dsimp only; omega, h5h, h5f, rfl⟩ hbf hL5
    (by
      intro i hi b hb
      rcases hmem5 i hi b hb with h | ⟨h, hfar⟩
      · exact Or.inl ⟨_, List.mem_singleton.mpr rfl, h.symm, rfl⟩
      · exact Or.inr ⟨⟨i, hi, h⟩, hfar⟩)
  have hfm : ∀ x ∈ [P, blk], x.alloc = 0 := by
    intro x hx
    simp only [List.mem_cons, List.mem_singleton, List.not_mem_nil, or_false] at hx
    rcases hx with rfl | rfl
    · exact hpb
    · exact hfree
  refine ⟨s5, _, ?_, hw, hr5, allocFrame_of_splice hdec hfm hfr, ?_, ?_, hlen5, ?_⟩
  · rw [coalesce_dispatch hwf hdec', if_neg (by rw [prevAlloc_concat, hpb]; simp),
      if_neg (by rw [prevAlloc_concat, hpb]; simp),
      if_pos (by rw [prevAlloc_concat, hpb, hna]; simp), hc1]
    exact e5
  · rw [hc1]
    exact hdrAlloc_of_tag h5b hc3 (by decide)
  · intro b hb
    rw [hdec]
    exact mem_splice_alloc hfm (by simp) hb
  · exact ⟨blk.size + P.size, by simp, by omega, by omega⟩

/-- The free block `blk` is merged with the free block `P` before it (case 3). -/
theorem coalesce_case3_spec {s : State} {g : Ghost} (hwf : WF s g) {A Z : List Blk}
    {P blk : Blk} (hdec : g.blocks = A ++ [P, blk] ++ Z) (hfree : blk.alloc = 0)
    (hnot : ∀ i, i < 14 → blk.bp ∉ g.lists i) (hpb : P.alloc = 0) (hna : nextAlloc Z = 1)
    {fuel : Nat} (hfuel : ∀ i, i < 14 → (g.lists i).length < fuel) :
    ∃ s' g' r, coalesce fuel s blk.bp = some (s', r) ∧ Merged s g blk s' g' r := by
  obtain ⟨s', L', e, hM⟩ := coalesce_case3_full hwf hdec hfree hnot hpb hna hfuel
  exact ⟨s', _, P.bp, e, hM⟩

theorem Blk.eta_free {b : Blk} (h : b.alloc = 0) : (⟨b.bp, b.size, 0⟩ : Blk) = b := by
  cases b
  simp only at h
  rw [h]

theorem prevAlloc_zero {pre : List Blk} (h : prevAlloc pre = 0) :
    ∃ pre' pb, pre = pre' ++ [pb] ∧ pb.alloc = 0 := by
  rcases List.eq_nil_or_concat pre with e | ⟨pre', pb, e⟩
  · rw [e, prevAlloc_nil] at h
    exact absurd h (by decide)
  · rw [List.concat_eq_append] at e
    rw [e, prevAlloc_concat] at h
    exact ⟨pre', pb, e, h⟩

theorem nextAlloc_zero {post : List Blk} (h : nextAlloc post = 0) :
    ∃ nb post', post = nb :: post' ∧ nb.alloc = 0 := by
  cases post with
  | nil => rw [nextAlloc_nil] at h; exact absurd h (by decide)
  | cons nb post' => exact ⟨nb, post', rfl, h⟩

/-- The free block `blk` has allocated neighbours and is put into its list (case 1). -/
theorem coalesce_case1_merged {s : State} {g : Ghost} (hwf : WF s g) {pre post : List Blk}
    {blk : Blk} (hdec : g.blocks = pre ++ blk :: post) (hfree : blk.alloc = 0)
    (hnot : ∀ i, i < 14 → blk.bp ∉ g.lists i) (hpa : prevAlloc pre = 1)
    (hna : nextAlloc post = 1) (fuel : Nat) :
    ∃ s' g' r, coalesce fuel s blk.bp = some (s', r) ∧ Merged s g blk s' g' r := by
  obtain ⟨s', e1, e2, e3, e4, e5⟩ := coalesce_case1_spec hwf hdec hfree hnot hpa hna fuel
  refine ⟨s', _, blk.bp, e1, e2, e3, e4, e5, fun b _ => Iff.rfl, ?_, ?_⟩
  · intro i _
    exact length_enlist g.lists blk.size blk.bp i
  · refine ⟨blk.size, ?_, le_refl _, le_refl _⟩
    rw [Blk.eta_free hfree, hdec]
    simp

/-- Cases 1 to 3 of `coalesce`: unless both neighbours of the free block `B` are free,
the heap stays well formed. -/
theorem coalesce_wf {s : State} {g : Ghost} (hwf : WF s g) {A Z : List Blk}
    {B : Blk} (hdec : g.blocks = A ++ B :: Z) (hfree : B.alloc = 0)
    (hnot : ∀ i, i < 14 → B.bp ∉ g.lists i)
    (hcase : prevAlloc A ≠ 0 ∨ nextAlloc Z ≠ 0)
    {F : Nat} (hfuel : ∀ i, i < 14 → (g.lists i).length < F) :
    ∃ s' g' r, coalesce F s B.bp = some (s', r) ∧ Merged s g B s' g' r := by
  obtain ⟨psz, nsz, -, -, -, -, -, q6, -, -, -, r4, -⟩ := hwf.neighbours hdec
  by_cases hp : prevAlloc A = 0
  · have hn : nextAlloc Z = 1 := by
      rcases hcase with h | h
      · exact absurd hp h
      · omega
    obtain ⟨pre', pb, e, hpb⟩ := prevAlloc_zero hp
    exact coalesce_case3_spec (A := pre') (Z := Z) (P := pb) hwf
      (by rw [hdec, e]; simp) hfree hnot hpb hn hfuel
  · have hp1 : prevAlloc A = 1 := by omega
    by_cases hn : nextAlloc Z = 0
    · obtain ⟨nb, post', e, hnb⟩ := nextAlloc_zero hn
      obtain ⟨s', g', r, e', hM, -⟩ := coalesce_case2_spec (A := A) (Z := post')
        (Q := nb) hwf (by rw [hdec, e]; simp) hfree hnot hp1 hnb hfuel
      exact ⟨s', g', r, e', hM⟩
    · exact coalesce_case1_merged hwf hdec hfree hnot hp1 (by omega) F

/-- Cases 1 and 2 of `coalesce`: when the block before the free block `B` is allocated,
`coalesce` returns `B` itself, grown by the next block if that is free, and files it in
the list of its size. -/
theorem coalesce_after_alloc {s : State} {g : Ghost} (hwf : WF s g) {A Z : List Blk}
    {B : Blk} (hdec : g.blocks = A ++ B :: Z) (hfree : B.alloc = 0)
    (hnot : ∀ i, i < 14 → B.bp ∉ g.lists i) (hp1 : prevAlloc A = 1)
    {F : Nat} (hfuel : ∀ i, i < 14 → (g.lists i).length < F) :
    ∃ s' g' c, coalesce F s B.bp = some (s', B.bp) ∧ Merged s g B s' g' B.bp ∧
      (⟨B.bp, c, 0⟩ : Blk) ∈ g'.blocks ∧ B.size ≤ c ∧ B.bp ∈ g'.lists (size_class c) := by
  obtain ⟨psz, nsz, -, -, -, -, -, q6, -, -, -, r4, -⟩ := hwf.neighbours hdec
  by_cases hn : nextAlloc Z = 0
  · obtain ⟨nb, post', e, hnb⟩ := nextAlloc_zero hn
    obtain ⟨s', g', r, e', hM, hr, c, hc1, hc2, hc3⟩ := coalesce_case2_spec (A := A)
      (Z := post') (Q := nb) hwf (by rw [hdec, e]; simp) hfree hnot hp1 hnb hfuel
    subst hr
    exact ⟨s', g', c, e', hM, hc1, hc2, hc3⟩
  · obtain ⟨s', e1, e2, e3, e4, e5⟩ := coalesce_case1_spec hwf hdec hfree hnot hp1 (by omega) F
    refine ⟨s', _, B.size, e1, ⟨e2, e3, e4, e5, fun b _ => Iff.rfl, ?_, ?_⟩, ?_, le_refl _, ?_⟩
    · intro i _
      exact length_enlist g.lists B.size B.bp i
    · refine ⟨B.size, ?_, le_refl _, le_refl _⟩
      rw [Blk.eta_free hfree, hdec]
      simp
    · rw [Blk.eta_free hfree, hdec]
      simp
    · exact mem_enlist_self _ _ _

/-! ## `place` -/

/-- A variant of `ListsOK.unlist_far` for an arbitrary property of the remaining members. -/
theorem ListsOK.unlist_of {s : State} {L : Nat → List Nat} (hL : ListsOK s L) {x sz : Nat}
    (hsz : hdrSize s.mem x = sz) {P : Nat → Nat → Prop}
    (h : ∀ i, i < 14 → ∀ y ∈ L i, y = x ∨ P i y) :
    ∀ i, i < 14 → ∀ y ∈ unlist L sz x i, P i y := by
  intro i hi' y hy
  obtain ⟨hyL, hne⟩ := hL.mem_erase hsz hi' hy
  rcases h i hi' y hyL with e | e
  · exact absurd e hne
  · exact e

theorem obind_pure {α : Type} (x : Option α) : obind x some = x := by
  cases x <;> rfl

/-- The first steps of `place`: the block is marked allocated and taken out of its list. -/
theorem place_head {s : State} {L : Nat → List Nat} {bp c al fuel : Nat}
    (hlay : Layout s) (hL : ListsOK s L) (h1 : s.heap_listp + 16 ≤ bp)
    (h2 : bp + c ≤ s.mem_brk) (hh : read8 s.mem (bp - 8) = PACK c al) (hal : al < 2)
    (hc1 : 32 ≤ c) (hc2 : c % 16 = 0)
    (hgeo : ∀ i, i < 14 → ∀ y ∈ L i, y = bp ∨ y + 32 ≤ bp ∨ bp + c ≤ y)
    (hfuel : (L (size_class c)).length < fuel) :
    ∃ s2 r, remove_freeblk fuel { s with mem := write8 s.mem (bp - 8) (PACK c 1) } bp =
        some (s2, r) ∧
      ListsOK s2 (unlist L c bp) ∧ sameRange s s2 ∧ Layout s2 ∧
      s2.mem = unlinkMem (write8 s.mem (bp - 8) (PACK c 1)) (L (size_class c)) bp ∧
      (∀ i, i < 14 → ∀ y ∈ unlist L c bp i, y + 32 ≤ bp ∨ bp + c ≤ y) := by
  have hl := hlay
  obtain ⟨hl1, hl2, hl3, hl4⟩ := hl
  have hsz : hdrSize s.mem bp = c := hdrSize_of_tag hh hc2 hal
  obtain ⟨s2, r, e2, hL2, hr2, hm2⟩ := remove_marked (x := bp) (z := c) (F := fuel)
    hlay hL h1 (by omega) hsz (by omega) hc2
    (fun i hi y hy => by have := hgeo i hi y hy; omega) hfuel
  exact ⟨s2, r, e2, hL2, hr2, Layout_of_sameRange hlay hr2, hm2, hL.unlist_far hsz hgeo⟩

/-- `place` when the block is not split. -/
theorem place_nosplit_exec {s : State} {L : Nat → List Nat} {bp c al asize F : Nat}
    (hlay : Layout s) (hL : ListsOK s L) (h1 : s.heap_listp + 16 ≤ bp)
    (h2 : bp + c ≤ s.mem_brk) (hh : read8 s.mem (bp - 8) = PACK c al) (hal : al < 2)
    (hc1 : 32 ≤ c) (hc2 : c % 16 = 0) (hle : asize ≤ c) (hrem : c - asize < 32)
    (hgeo : ∀ i, i < 14 → ∀ y ∈ L i, y = bp ∨ y + 32 ≤ bp ∨ bp + c ≤ y)
    (hfuel : (L (size_class c)).length < F) :
    ∃ s', place F s bp asize = some s' ∧ ListsOK s' (unlist L c bp) ∧ sameRange s s' ∧
      s'.mem = retagMem (unlinkMem (write8 s.mem (bp - 8) (PACK c 1)) (L (size_class c)) bp)
        bp c 1 := by
  obtain ⟨s2, r, e2, hL2, hr2, hlay2, hm2, hgeo2⟩ := place_head hlay hL h1 h2 hh hal hc1 hc2
    hgeo hfuel
  have hl := hlay
  obtain ⟨hl1, hl2, hl3, hl4⟩ := hl
  obtain ⟨r0, r1, r2, r3, r4⟩ := hr2
  have hU : U64 = 18446744073709551616 := rfl
  refine ⟨{ s2 with mem := retagMem s2.mem bp c 1 }, ?_,
    ListsOK_retag 1 hL2 (by omega) (by omega) hgeo2, ⟨r0, r1, r2, r3, r4⟩, by rw [hm2]⟩
  unfold place
  rw [GET_SIZE_tag hlay (by omega) (by omega) hh hc2 hal]
  simp only [obind_some]
  rw [PUT_tag _ hlay (by omega) (by omega)]
  simp only [obind_some]
  rw [e2]
  simp only [obind_some]
  rw [if_neg (by unfold DSIZE U64; omega)]
  have hk := retag_exec (s := s2) (b := bp) (n := c) (e := 1) hlay2 (by omega)
    (by omega) (by omega) hc2 (by decide) some
  simp only [obind_pure] at hk
  exact hk

/-- `place` when the block is split: the state in which `coalesce` is called for the
remainder. -/
theorem place_split_exec {s : State} {L : Nat → List Nat} {b c e j F : Nat}
    (hlay : Layout s) (hL : ListsOK s L) (h1 : s.heap_listp + 16 ≤ b)
    (h2 : b + c ≤ s.mem_brk) (hh : read8 s.mem (b - 8) = PACK c e) (hal : e < 2)
    (hc1 : 32 ≤ c) (hc2 : c % 16 = 0) (ha1 : 16 ≤ j) (ha2 : j % 16 = 0)
    (hrem : j + 32 ≤ c)
    (hgeo : ∀ i, i < 14 → ∀ y ∈ L i, y = b ∨ y + 32 ≤ b ∨ b + c ≤ y)
    (hfuel : (L (size_class c)).length < F) :
    ∃ s6, place F s b j = (obind (coalesce F s6 (b + j)) fun r7 => some r7.1) ∧
      ListsOK s6 (unlist L c b) ∧ sameRange s s6 ∧
      s6.mem = retagMem (retagMem (unlinkMem (write8 s.mem (b - 8) (PACK c 1))
        (L (size_class c)) b) b j 1) (b + j) (c - j) 0 := by
  obtain ⟨s2, r, e2, hL2, hr2, hlay2, hm2, hgeo2⟩ := place_head hlay hL h1 h2 hh hal hc1 hc2
    hgeo hfuel
  have hl := hlay
  obtain ⟨hl1, hl2, hl3, hl4⟩ := hl
  obtain ⟨r0, r1, r2, r3, r4⟩ := hr2
  have hU : U64 = 18446744073709551616 := rfl
  have hL4 : ListsOK { s2 with mem := retagMem s2.mem b j 1 } (unlist L c b) :=
    ListsOK_retag 1 hL2 (by omega) (by omega)
      (fun i hi y hy => by have := hgeo2 i hi y hy; omega)
  obtain ⟨m6, hm6⟩ : ∃ m6, m6 = retagMem (retagMem s2.mem b j 1) (b + j)
    (c - j) 0 := ⟨_, rfl⟩
  have hL6 : ListsOK { s2 with mem := m6 } (unlist L c b) := hm6 ▸
    ListsOK_retag (s := { s2 with mem := retagMem s2.mem b j 1 }) 0 hL4 (by omega)
      (by omega) (fun i hi y hy => by have := hgeo2 i hi y hy; omega)
  refine ⟨{ s2 with mem := m6 }, ?_, hL6, ⟨r0, r1, r2, r3, r4⟩, by rw [hm6, hm2]⟩
  unfold place
  rw [GET_SIZE_tag hlay (by omega) (by omega) hh hc2 hal]
  simp only [obind_some]
  rw [PUT_tag _ hlay (by omega) (by omega)]
  simp only [obind_some]
  rw [e2]
  simp only [obind_some]
  rw [if_pos (by unfold DSIZE U64; omega),
    (by unfold U64; omega : (c + U64 - j) % U64 = c - j),
    retag_exec (s := s2) hlay2 (by omega) (by omega) (by omega) ha2 (by decide),
    NEXT_BLKP_tag (s := { s2 with mem := retagMem s2.mem b j 1 }) hlay2
      (by dsimp only; omega) (by dsimp only; omega)
      (retag_hdr _ (by omega) (by omega) ha2 (by decide) (by omega)) ha2 (by decide)]
  simp only [obind_some]
  rw [retag_exec (s := { s2 with mem := retagMem s2.mem b j 1 }) hlay2
    (by dsimp only; omega) (by dsimp only; omega) (by omega) (by omega) (by decide), hm6]

theorem placeMem_frame (L : Nat → List Nat) (m : Nat → Nat) {i bp c : Nat} (hi : i < 14)
    (h1 : 8 ≤ bp) (hc : 16 ≤ c) :
    byteFrame L (bp - 8) (bp + c - 8) m (placeMem m (L i) bp c) :=
  ((byteFrame_write8 L _ _ (by omega) (by omega)).trans
    (byteFrame_unlink L _ _ _ hi _)).trans
    (byteFrame_retag L _ 1 (by omega) (by omega) (by omega) (by omega))

theorem placeMem_inner (m : Nat → Nat) {l : List Nat} {bp c a : Nat} (hl : bp ∉ l)
    (h0 : 8 ≤ bp) (hc : 16 ≤ c) (h1 : bp ≤ a) (h2 : a < bp + c - 16) :
    placeMem m l bp c a = m a := by
  unfold placeMem
  rw [retag_byte _ _ h0 hc (by omega) (by omega), unlinkMem_notin _ hl,
    write8_other _ _ _ _ (by omega)]

theorem splitMem_frame (L : Nat → List Nat) (m : Nat → Nat) {i bp c asize : Nat} (hi : i < 14)
    (h1 : 8 ≤ bp) (ha : 16 ≤ asize) (hc : asize + 16 ≤ c) :
    byteFrame L (bp - 8) (bp + c - 8) m (splitMem m (L i) bp c asize) :=
  (((byteFrame_write8 L _ _ (by omega) (by omega)).trans
    (byteFrame_unlink L _ _ _ hi _)).trans
    (byteFrame_retag L _ 1 (by omega) (by omega) (by omega) (by omega))).trans
    (byteFrame_retag L _ 0 (by omega) (by omega) (by omega) (by omega))

theorem splitMem_inner (m : Nat → Nat) {l : List Nat} {bp c asize a : Nat} (hl : bp ∉ l)
    (h0 : 8 ≤ bp) (ha : 16 ≤ asize) (hc : asize + 16 ≤ c) (h1 : bp ≤ a)
    (h2 : a < bp + asize - 16) : splitMem m l bp c asize a = m a := by
  unfold splitMem
  rw [retag_byte _ _ (by omega) (by omega) (by omega) (by omega),
    retag_byte _ _ h0 ha (by omega) (by omega), unlinkMem_notin _ hl,
    write8_other _ _ _ _ (by omega)]

/-- The two blocks that `place` leaves when it splits tile the range of the old block. -/
theorem splitMem_tiles (m : Nat → Nat) (l : List Nat) {bp c asize : Nat} (h0 : 8 ≤ bp)
    (ha1 : 32 ≤ asize) (ha2 : asize % 16 = 0) (hc1 : asize + 32 ≤ c) (hc2 : c % 16 = 0)
    (hc3 : c + 1 < U64) :
    tiles (splitMem m l bp c asize) bp [⟨bp, asize, 1⟩, ⟨bp + asize, c - asize, 0⟩]
      (bp + c) := by
  have hU : U64 = 18446744073709551616 := rfl
  refine ⟨rfl, ha1, ha2, Nat.one_lt_two, ?_, ?_, rfl, ?_, ?_, Nat.zero_lt_two, ?_, ?_, ?_⟩
  · show read8 (splitMem m l bp c asize) (bp - 8) = PACK asize 1
    unfold splitMem
    rw [retag_other _ _ (by omega) (by omega) (by omega) (by omega)]
    exact retag_hdr _ h0 (by omega) ha2 (by decide) (by omega)
  · show read8 (splitMem m l bp c asize) (bp + asize - 16) = PACK asize 1
    unfold splitMem
    rw [retag_other _ _ (by omega) (by omega) (by omega) (by omega)]
    exact retag_ftr _ ha2 (by decide) (by omega)
  · show 32 ≤ c - asize
    omega
  · show (c - asize) % 16 = 0
    omega
  · show read8 (splitMem m l bp c asize) (bp + asize - 8) = PACK (c - asize) 0
    exact retag_hdr _ (by omega) (by omega) (by omega) (by decide) (by omega)
  · show read8 (splitMem m l bp c asize) (bp + asize + (c - asize) - 16) = PACK (c - asize) 0
    exact retag_ftr _ (by omega) (by decide) (by omega)
  · show bp + asize + (c - asize) = bp + c
    omega

theorem placeMem_tiles (m : Nat → Nat) (l : List Nat) {bp c : Nat} (h0 : 8 ≤ bp)
    (hc1 : 32 ≤ c) (hc2 : c % 16 = 0) (hc3 : c + 1 < U64) :
    tiles (placeMem m l bp c) bp [⟨bp, c, 1⟩] (bp + c) :=
  ⟨rfl, hc1, hc2, Nat.one_lt_two, retag_hdr _ h0 (by omega) hc2 (by decide) hc3,
    retag_ftr _ hc2 (by decide) hc3, rfl⟩

theorem mem_outside {pre mid post : List Blk} {b : Blk} (hb : b ∈ pre ++ mid ++ post)
    (hne : b ∉ mid) : b ∈ pre ++ post := by
  simp only [List.mem_append] at hb ⊢
  rcases hb with (h | h) | h
  · exact Or.inl h
  · exact absurd h hne
  · exact Or.inr h

theorem mem_inside {pre mid post : List Blk} {b : Blk} (hb : b ∈ pre ++ post) :
    b ∈ pre ++ mid ++ post := by
  simp only [List.mem_append] at hb ⊢
  rcases hb with h | h
  · exact Or.inl (Or.inl h)
  · exact Or.inr h

theorem mem_middle {pre mid post : List Blk} {b : Blk} (hb : b ∈ mid) :
    b ∈ pre ++ mid ++ post :=
  List.mem_append_left _ (List.mem_append_right _ hb)

/-- `place` without a split on a well-formed heap, with the blocks and the lists of the heap
afterwards. -/
theorem place_spec_nosplit_full {s : State} {g : Ghost} (hwf : WF s g) {pre post : List Blk}
    {blk : Blk} (hdec : g.blocks = pre ++ [blk] ++ post) {asize : Nat}
    (hle : asize ≤ blk.size) (hrem : blk.size - asize < 32)
    {fuel : Nat} (hfuel : ∀ i, i < 14 → (g.lists i).length < fuel) :
    ∃ s', place fuel s blk.bp asize = some s' ∧
      Placed s g blk asize s'
        ⟨pre ++ [⟨blk.bp, blk.size, 1⟩] ++ post, unlist g.lists blk.size blk.bp⟩ := by
  obtain ⟨a, e, ha, hm, he⟩ := hwf.split3 hdec
  have hm' := hm
  obtain ⟨hb1, hb2, hb3, hb4, hb5, hb6, hm2⟩ := hm'
  subst hb1
  subst hm2
  have hlay := hwf.layout
  have hl := hlay
  obtain ⟨hl1, hl2, hl3, hl4⟩ := hl
  have hbrk := tiles_le he
  have hp := tiles_le ha
  have hgeo : ∀ i, i < 14 → ∀ y ∈ g.lists i,
      y = blk.bp ∨ y + 32 ≤ blk.bp ∨ blk.bp + blk.size ≤ y := by
    intro i hi y hy
    rcases hwf.member_geo hdec ha he hi hy with ⟨b, hb, hby, -⟩ | h | h
    · rw [List.mem_singleton.mp hb] at hby
      exact Or.inl hby.symm
    · exact Or.inr (Or.inl h)
    · exact Or.inr (Or.inr h)
  have hsz : hdrSize s.mem blk.bp = blk.size := hdrSize_of_tag hb5 hb3 hb4
  obtain ⟨s', e', hL', hr', hm'⟩ := place_nosplit_exec (F := fuel) hlay hwf.lists hp hbrk hb5
    hb4 hb2 hb3 hle hrem hgeo (hfuel _ (size_class_lt _))
  have hmp : s'.mem = placeMem s.mem (g.lists (size_class blk.size)) blk.bp blk.size := hm'
  obtain ⟨hw, hfr⟩ := hwf.splice (N := [⟨blk.bp, blk.size, 1⟩])
    (K := unlist g.lists blk.size blk.bp) hdec ha hm he hr'
    (by rw [hmp]; exact placeMem_tiles _ _ (by omega) hb2 hb3 (by unfold U64 at hl4 ⊢; omega))
    (by rw [hmp]; exact placeMem_frame _ _ (size_class_lt _) (by omega) (by omega)) hL'
    (fun i hi b hb => Or.inr ⟨⟨i, hi, mem_unlist hb⟩, hwf.lists.unlist_far hsz hgeo i hi b hb⟩)
  refine ⟨s', e', hw, hr', ⟨blk.size, mem_middle (List.mem_singleton.mpr rfl), hle,
    le_refl _⟩, ?_, ?_, ?_⟩
  · intro b hb hba hne
    have hb' := mem_outside (hdec ▸ hb) (fun h => hne (List.mem_singleton.mp h))
    exact ⟨mem_inside hb', hfr b hb' hba⟩
  · intro hnot a h1 h2
    rw [hmp]
    exact placeMem_inner _ (hnot _ (size_class_lt _)) (by omega) (by omega) h1 (by omega)
  · intro i _
    exact (length_unlist _ _ _ _).trans (Nat.le_succ _)

/-- `place` without a split on a well-formed heap. -/
theorem place_spec_nosplit {s : State} {g : Ghost} (hwf : WF s g) {pre post : List Blk}
    {blk : Blk} (hdec : g.blocks = pre ++ [blk] ++ post) {asize : Nat}
    (hle : asize ≤ blk.size) (hrem : blk.size - asize < 32)
    {fuel : Nat} (hfuel : ∀ i, i < 14 → (g.lists i).length < fuel) :
    ∃ s' g', place fuel s blk.bp asize = some s' ∧ Placed s g blk asize s' g' := by
  obtain ⟨s', e, hP⟩ := place_spec_nosplit_full hwf hdec hle hrem hfuel
  exact ⟨s', _, e, hP⟩

/-- `place` with a split on a well-formed heap. -/
theorem place_spec_split {s : State} {g : Ghost} (hwf : WF s g) {pre post : List Blk}
    {B : Blk} (hdec : g.blocks = pre ++ [B] ++ post) {asize : Nat} (ha1 : 32 ≤ asize)
    (ha2 : asize % 16 = 0) (hrem : asize + 32 ≤ B.size)
    {F : Nat} (hfuel : ∀ i, i < 14 → (g.lists i).length < F) :
    ∃ s' g', place F s B.bp asize = some s' ∧ Placed s g B asize s' g' ∧
      (⟨B.bp, asize, 1⟩ : Blk) ∈ g'.blocks ∧
      ∃ c, (⟨B.bp + asize, c, 0⟩ : Blk) ∈ g'.blocks ∧ B.size - asize ≤ c ∧
        B.bp + asize ∈ g'.lists (size_class c) := by
  obtain ⟨a, e, ha, hm, he⟩ := hwf.split3 hdec
  have hm' := hm
  obtain ⟨hb1, hb2, hb3, hb4, hb5, hb6, hm2⟩ := hm'
  subst hb1
  subst hm2
  have hlay := hwf.layout
  have hl := hlay
  obtain ⟨hl1, hl2, hl3, hl4⟩ := hl
  have hbrk := tiles_le he
  have hp := tiles_le ha
  have hgeo : ∀ i, i < 14 → ∀ y ∈ g.lists i,
      y = B.bp ∨ y + 32 ≤ B.bp ∨ B.bp + B.size ≤ y := by
    intro i hi y hy
    rcases hwf.member_geo hdec ha he hi hy with ⟨b, hb, hby, -⟩ | h | h
    · rw [List.mem_singleton.mp hb] at hby
      exact Or.inl hby.symm
    · exact Or.inr (Or.inl h)
    · exact Or.inr (Or.inr h)
  have hsz : hdrSize s.mem B.bp = B.size := hdrSize_of_tag hb5 hb3 hb4
  have hgeo1 := hwf.lists.unlist_far hsz hgeo
  obtain ⟨s6, e6, hL6, hr6, hm6⟩ := place_split_exec (F := F) hlay hwf.lists hp hbrk hb5
    hb4 hb2 hb3 (by omega) ha2 hrem hgeo (hfuel _ (size_class_lt _))
  have hmp : s6.mem = splitMem s.mem (g.lists (size_class B.size)) B.bp B.size asize :=
    hm6
  obtain ⟨hw6, hfr6⟩ := hwf.splice
    (N := [⟨B.bp, asize, 1⟩, ⟨B.bp + asize, B.size - asize, 0⟩])
    (K := unlist g.lists B.size B.bp) hdec ha hm he hr6
    (by rw [hmp]
        exact splitMem_tiles _ _ (by omega) ha1 ha2 hrem hb3 (by unfold U64 at hl4 ⊢; omega))
    (by rw [hmp]; exact splitMem_frame _ _ (size_class_lt _) (by omega) (by omega) (by omega))
    hL6 (fun i hi b hb => Or.inr ⟨⟨i, hi, mem_unlist hb⟩, hgeo1 i hi b hb⟩)
  obtain ⟨s7, g7, c7, e7, ⟨hw7, hr7, hfr7, -, hiff, hlen7, -⟩, hc1, hc2, hc3⟩ :=
    coalesce_after_alloc hw6
    (A := pre ++ [⟨B.bp, asize, 1⟩]) (Z := post)
    (B := ⟨B.bp + asize, B.size - asize, 0⟩) (F := F)
    (by simp only [List.append_assoc, List.singleton_append, List.cons_append,
      List.nil_append])
    rfl
    (fun i hi h => by have := hgeo1 i hi _ h; dsimp only at this; omega)
    (by rw [prevAlloc_concat])
    (fun i hi => lt_of_le_of_lt (length_unlist _ _ _ _) (hfuel i hi))
  have hin1 : (⟨B.bp, asize, 1⟩ : Blk) ∈ pre ++
      [⟨B.bp, asize, 1⟩, ⟨B.bp + asize, B.size - asize, 0⟩] ++ post :=
    mem_middle (List.mem_cons_self _ _)
  refine ⟨s7, g7, ?_, ⟨hw7, sameRange_trans hr6 hr7,
    ⟨asize, (hiff _ rfl).mpr hin1, le_refl _, by omega⟩, ?_, ?_, ?_⟩, (hiff _ rfl).mpr hin1,
    ⟨c7, hc1, hc2, hc3⟩⟩
  · rw [e6, e7]
    rfl
  · intro b hb hba hne
    have hb' := mem_outside (hdec ▸ hb) (fun h => hne (List.mem_singleton.mp h))
    have hb6 : b ∈ pre ++ [⟨B.bp, asize, 1⟩, ⟨B.bp + asize, B.size - asize, 0⟩] ++ post :=
      mem_inside hb'
    refine ⟨(hiff b hba).mpr hb6, fun q h1 h2 => ?_⟩
    rw [hfr7 b hb6 hba q h1 h2]
    exact hfr6 b hb' hba q h1 h2
  · intro hnot q h1 h2
    rw [hfr7 _ hin1 rfl q (by dsimp only; omega) (by dsimp only; omega), hmp]
    exact splitMem_inner _ (hnot _ (size_class_lt _)) (by omega) (by omega) (by omega) h1 h2
  · intro i hi
    have h1 := hlen7 i hi
    have h2 := length_unlist g.lists B.size B.bp i
    exact h1.trans (Nat.succ_le_succ h2)

/-- `place` on a well-formed heap: the block `B`, free or allocated, can hold `asize`
bytes. -/
theorem place_spec {s : State} {g : Ghost} (hwf : WF s g) {B : Blk} (hblk : B ∈ g.blocks)
    {asize : Nat} (ha1 : 32 ≤ asize) (ha2 : asize % 16 = 0) (hle : asize ≤ B.size)
    {F : Nat} (hfuel : ∀ i, i < 14 → (g.lists i).length < F) :
    ∃ s' g', place F s B.bp asize = some s' ∧ Placed s g B asize s' g' := by
  obtain ⟨pre, post, hdec⟩ := List.append_of_mem hblk
  have hdec' : g.blocks = pre ++ [B] ++ post := by
    rw [hdec, List.append_assoc, List.singleton_append]
  by_cases hrem : asize + 32 ≤ B.size
  · obtain ⟨s', g', e', hP, -⟩ := place_spec_split hwf hdec' ha1 ha2 hrem hfuel
    exact ⟨s', g', e', hP⟩
  · exact place_spec_nosplit hwf hdec' hle (by omega) hfuel

/-! ## `extend_heap` -/

theorem align_of_aligned {x : Nat} (h1 : x % 16 = 0) (h2 : x + 15 < U64) : align x = x := by
  unfold align ALIGNMENT
  unfold U64 at *
  omega

theorem growMem_byte (m : Nat → Nat) {brk size a : Nat} (h0 : 8 ≤ brk) (h1 : 16 ≤ size)
    (h : a < brk - 8) : growMem m brk size a = m a := by
  unfold growMem
  rw [write8_other _ _ _ _ (by omega), retag_byte _ _ h0 h1 (by omega) (by omega)]

theorem growMem_other (m : Nat → Nat) {brk size q : Nat} (h0 : 8 ≤ brk) (h1 : 16 ≤ size)
    (h : q + 8 ≤ brk - 8) : read8 (growMem m brk size) q = read8 m q := by
  unfold growMem
  rw [read8_write8_ne _ _ _ _ (by omega), retag_other _ _ h0 h1 (by omega) (by omega)]

/-- The steps of `extend_heap` before `coalesce` when the growth primitive succeeds. -/
theorem extend_heap_exec {s : State} {size : Nat} (fuel : Nat) (hlay : Layout s)
    (hs1 : 16 ≤ size) (hs2 : size % 16 = 0) (hfit : s.mem_brk + size ≤ s.mem_max_addr) :
    extend_heap fuel s size = coalesce fuel
      { s with mem_brk := s.mem_brk + size, sbrk_calls := s.sbrk_calls ++ [size], mem := growMem s.mem s.mem_brk size }
      s.mem_brk := by
  have hl := hlay
  obtain ⟨hl1, hl2, hl3, hl4⟩ := hl
  have hU : U64 = 18446744073709551616 := rfl
  have hlay1 : Layout { s with mem_brk := s.mem_brk + size, sbrk_calls := s.sbrk_calls ++ [size] } :=
    ⟨hl1, by dsimp only; omega, hfit, hl4⟩
  unfold extend_heap mem_sbrk
  rw [align_of_aligned hs2 (by omega)]
  simp only [if_pos hfit]
  rw [if_neg (by unfold SBRK_FAIL; omega),
    retag_exec (s := { s with mem_brk := s.mem_brk + size, sbrk_calls := s.sbrk_calls ++ [size] }) hlay1 (by dsimp only; omega)
      (by dsimp only; omega) (by omega) hs2 (by decide),
    NEXT_BLKP_tag
      (s := { s with mem_brk := s.mem_brk + size, sbrk_calls := s.sbrk_calls ++ [size], mem := retagMem s.mem s.mem_brk size 0 })
      hlay1 (by dsimp only; omega) (by dsimp only; omega)
      (retag_hdr _ (by omega) (by omega) hs2 (by decide) (by omega)) hs2 (by decide)]
  simp only [obind_some]
  rw [PUT_tag
    (s := { s with mem_brk := s.mem_brk + size, sbrk_calls := s.sbrk_calls ++ [size], mem := retagMem s.mem s.mem_brk size 0 })
    _ hlay1 (by dsimp only; omega) (by dsimp only; omega)]
  rfl

/-- The heap after the steps of `extend_heap` before `coalesce` is well formed: it has one
more free block, which is in no list. -/
theorem WF_grow {s : State} {g : Ghost} {size : Nat} (hwf : WF s g) (hs1 : 32 ≤ size)
    (hs2 : size % 16 = 0) (hfit : s.mem_brk + size ≤ s.mem_max_addr) :
    WF { s with mem_brk := s.mem_brk + size, sbrk_calls := s.sbrk_calls ++ [size], mem := growMem s.mem s.mem_brk size }
      ⟨g.blocks ++ [⟨s.mem_brk, size, 0⟩], g.lists⟩ := by
  have hlay := hwf.layout
  obtain ⟨hl1, hl2, hl3, hl4⟩ := hlay
  have hU : U64 = 18446744073709551616 := rfl
  have hmr : ∀ i, i < 14 → ∀ y ∈ g.lists i, y + 32 ≤ s.mem_brk :=
    fun i hi y hy => (hwf.member_range hi hy).2
  refine ⟨⟨hl1, by dsimp only; omega, hfit, hl4⟩, ?_, ?_, ?_, ?_, ?_, ?_⟩
  · show read8 (growMem s.mem s.mem_brk size) (s.heap_listp - 8) = _
    exact (growMem_other _ (by omega) (by omega) (by omega)).trans hwf.2.1
  · show read8 (growMem s.mem s.mem_brk size) s.heap_listp = _
    exact (growMem_other _ (by omega) (by omega) (by omega)).trans hwf.2.2.1
  · show tiles (growMem s.mem s.mem_brk size) (s.heap_listp + 16)
      (g.blocks ++ [⟨s.mem_brk, size, 0⟩]) (s.mem_brk + size)
    refine (tiles_append _ _ _ _ _).mpr ⟨s.mem_brk, tiles_congr hwf.tiles ?_, ?_⟩
    · intro x hx
      obtain ⟨x1, x2, x3, -⟩ := tiles_mem hwf.tiles hx
      exact ⟨growMem_other _ (by omega) (by omega) (by omega),
        growMem_other _ (by omega) (by omega) (by omega)⟩
    · refine ⟨rfl, hs1, hs2, Nat.zero_lt_two, ?_, ?_, rfl⟩
      · show read8 (growMem s.mem s.mem_brk size) (s.mem_brk - 8) = PACK size 0
        unfold growMem
        rw [read8_write8_ne _ _ _ _ (by omega)]
        exact retag_hdr _ (by omega) (by omega) hs2 (by decide) (by omega)
      · show read8 (growMem s.mem s.mem_brk size) (s.mem_brk + size - 16) = PACK size 0
        unfold growMem
        rw [read8_write8_ne _ _ _ _ (by omega)]
        exact retag_ftr _ hs2 (by decide) (by omega)
  · show read8 (growMem s.mem s.mem_brk size) (s.mem_brk + size - 8) = PACK 0 1
    unfold growMem
    exact read8_write8_tag _ _ (by decide) (by decide) (by decide)
  · refine ListsOK_congr hwf.lists ?_ ?_ ?_ ?_
    · rfl
    · exact Nat.le_add_right _ _
    · intro _ _; rfl
    intro i hi y hy
    have := hmr i hi y hy
    have hy1 := (hwf.lists.member hi hy).1
    unfold hdrSize
    show read8 (growMem s.mem s.mem_brk size) y = _ ∧
      read8 (growMem s.mem s.mem_brk size) (y + 8) = _ ∧
      read8 (growMem s.mem s.mem_brk size) (y - 8) &&& SIZE_MASK = _
    rw [growMem_other _ (by omega) (by omega) (by omega),
      growMem_other _ (by omega) (by omega) (by omega),
      growMem_other _ (by omega) (by omega) (by omega)]
    exact ⟨rfl, rfl, rfl⟩
  · intro i hi b hb
    obtain ⟨y, hy1, hy2, hy3⟩ := hwf.member_free hi hb
    exact ⟨y, List.mem_append_left _ hy1, hy2, hy3⟩

/-- `extend_heap` on a well-formed heap when the growth primitive succeeds: the heap stays
well formed and has a free block of at least `size` bytes at the returned address. -/
theorem extend_heap_spec {s : State} {g : Ghost} {size F : Nat} (hwf : WF s g)
    (hs1 : 32 ≤ size) (hs2 : size % 16 = 0) (hfit : s.mem_brk + size ≤ s.mem_max_addr)
    (hfuel : ∀ i, i < 14 → (g.lists i).length < F) :
    ∃ s' g' r c, extend_heap F s size = some (s', r) ∧ WF s' g' ∧
      (⟨r, c, 0⟩ : Blk) ∈ g'.blocks ∧ size ≤ c ∧ allocFrame g s.mem s'.mem ∧
      (∀ b : Blk, b.alloc = 1 → (b ∈ g'.blocks ↔ b ∈ g.blocks)) ∧
      (∀ i, i < 14 → (g'.lists i).length ≤ (g.lists i).length + 1) := by
  have hw3 := WF_grow hwf hs1 hs2 hfit
  have hlay := hwf.layout
  obtain ⟨hl1, hl2, hl3, hl4⟩ := hlay
  obtain ⟨s', g', r, e', hw', hr', hfr', -, hiff, hlen, c, hc1, hc2, hc3⟩ := coalesce_wf hw3
    (A := g.blocks) (Z := []) (B := ⟨s.mem_brk, size, 0⟩) (F := F) rfl rfl
    (fun i hi h => by have := (hwf.member_range hi h).2; dsimp only at this; omega)
    (Or.inr (by rw [nextAlloc_nil]; exact Nat.one_ne_zero)) hfuel
  dsimp only at hc2 hc3
  refine ⟨s', g', r, c, ?_, hw', hc1, by omega, ?_, ?_, hlen⟩
  · rw [extend_heap_exec F hwf.layout (by omega) hs2 hfit]
    exact e'
  · intro x hx hxa a h1 h2
    obtain ⟨x1, x2, x3, -⟩ := tiles_mem hwf.tiles hx
    rw [hfr' x (List.mem_append_left _ hx) hxa a h1 h2]
    exact growMem_byte _ (by omega) (by omega) (by omega)
  · intro b hb
    rw [hiff b hb]
    constructor
    · intro h
      rcases List.mem_append.mp h with h' | h'
      · exact h'
      · rw [List.mem_singleton.mp h'] at hb
        exact absurd hb Nat.zero_ne_one
    · exact fun h => List.mem_append_left _ h

theorem firstFit_mem {m : Nat → Nat} {asize : Nat} {l : List Nat}
    (h : firstFit m asize l ≠ 0) :
    firstFit m asize l ∈ l ∧ asize ≤ hdrSize m (firstFit m asize l) := by
  induction l with
  | nil => exact absurd rfl h
  | cons a r ih =>
    rw [firstFit] at h ⊢
    by_cases hc : asize ≤ hdrSize m a
    · rw [if_pos hc]
      exact ⟨List.mem_cons_self _ _, hc⟩
    · rw [if_neg hc] at h ⊢
      exact ⟨List.mem_cons_of_mem _ (ih h).1, (ih h).2⟩

theorem adjusted_spec {size : Nat} (h1 : 1 ≤ size) (h2 : size + 31 < U64) :
    32 ≤ adjusted size ∧ adjusted size % 16 = 0 ∧ size + 16 ≤ adjusted size ∧
      adjusted size ≤ size + 31 := by
  unfold adjusted align DSIZE ALIGNMENT
  unfold U64 at *
  split <;> omega

theorem exists_bound (L : Nat → List Nat) (k : Nat) : ∃ N, ∀ i, i < k → (L i).length < N := by
  induction k with
  | zero => exact ⟨0, fun i hi => absurd hi (Nat.not_lt_zero i)⟩
  | succ k ih =>
    obtain ⟨N, hN⟩ := ih
    refine ⟨N + (L k).length + 1, fun i hi => ?_⟩
    by_cases e : i = k
    · rw [e]; omega
    · have := hN i (by omega); omega

/-! ## `malloc` -/

/-- The part of `malloc` that follows a successful search. -/
theorem malloc_fit {s : State} {g : Ghost} {asize b F : Nat} (hwf : WF s g)
    (ha1 : 32 ≤ asize) (ha2 : asize % 16 = 0) (hb : b ∈ g.lists (size_class asize))
    (hsz : asize ≤ hdrSize s.mem b) (hfuel : ∀ i, i < 14 → (g.lists i).length < F) :
    ∃ s' g', place F s b asize = some s' ∧ Allocated s g asize s' g' b := by
  obtain ⟨blk, hblk, hbp, hal⟩ := hwf.member_free (size_class_lt _) hb
  obtain ⟨-, -, -, -, -, x6, -⟩ := hwf.block hblk
  rw [← hbp] at hsz ⊢
  rw [x6] at hsz
  obtain ⟨s', g', e', hw', -, ⟨c, hc1, hc2, -⟩, hold, -, hlen⟩ := place_spec hwf hblk ha1 ha2
    hsz hfuel
  refine ⟨s', g', e', hw', ⟨c, hc1, hc2⟩, ?_, ?_, fun i hi => (hlen i hi).trans (Nat.le_succ _)⟩
  · intro x hx hxa
    exact (hold x hx hxa (fun h => by rw [h, hal] at hxa; exact absurd hxa Nat.zero_ne_one)).1
  · intro x hx hxa
    exact (hold x hx hxa (fun h => by rw [h, hal] at hxa; exact absurd hxa Nat.zero_ne_one)).2

/-- The part of `malloc` that follows a failed search when the heap can grow. -/
theorem malloc_grow {s : State} {g : Ghost} {asize F : Nat} (hwf : WF s g)
    (ha1 : 32 ≤ asize) (ha2 : asize % 16 = 0) (hfit : s.mem_brk + asize ≤ s.mem_max_addr)
    (hfuel : ∀ i, i < 14 → (g.lists i).length + 1 < F) :
    ∃ s2 r s' g', extend_heap F s asize = some (s2, r) ∧ r ≠ 0 ∧
      place F s2 r asize = some s' ∧ Allocated s g asize s' g' r := by
  obtain ⟨s2, g2, r, c, e2, hw2, hrc, hc, hfr2, hiff2, hlen2⟩ := extend_heap_spec (F := F)
    hwf ha1 ha2 hfit (fun i hi => Nat.lt_of_succ_lt (hfuel i hi))
  obtain ⟨x1, -⟩ := hw2.block hrc
  dsimp only at x1
  obtain ⟨s', g', e', hw', -, ⟨c', hc1, hc2, -⟩, hold, -, hlen⟩ := place_spec (F := F) hw2
    hrc ha1 ha2 hc (fun i hi => lt_of_le_of_lt (hlen2 i hi) (hfuel i hi))
  refine ⟨s2, r, s', g', e2, by omega, e', hw', ⟨c', hc1, hc2⟩, ?_, ?_, ?_⟩
  · intro x hx hxa
    exact (hold x ((hiff2 x hxa).mpr hx) hxa
      (fun h => by rw [h] at hxa; exact absurd hxa Nat.zero_ne_one)).1
  · intro x hx hxa a h1 h2
    rw [(hold x ((hiff2 x hxa).mpr hx) hxa
      (fun h => by rw [h] at hxa; exact absurd hxa Nat.zero_ne_one)).2 a h1 h2]
    exact hfr2 x hx hxa a h1 h2
  · intro i hi
    have h1 := hlen i hi
    have h2 := hlen2 i hi
    omega

/-- `malloc` on a well-formed heap: with enough fuel for the list searches it returns, and a
result other than null is the address of an allocated block of at least the adjusted size in
a heap that is well formed again. -/
theorem malloc_spec {s : State} {g : Ghost} {size : Nat} (hwf : WF s g) (hsize : 1 ≤ size)
    (hov : size + 31 < U64) :
    ∃ N, ∀ fuel, N ≤ fuel → ∃ s' q, malloc fuel s size = some (s', q) ∧
      (q ≠ 0 → ∃ g', Allocated s g (adjusted size) s' g' q) := by
  obtain ⟨a1, a2, a3, a4⟩ := adjusted_spec hsize hov
  obtain ⟨N0, hN0⟩ := exists_bound g.lists 14
  refine ⟨N0 + 1, fun fuel hfuel => ?_⟩
  have hf : ∀ i, i < 14 → (g.lists i).length + 1 < fuel := fun i hi => by
    have := hN0 i hi; omega
  have hf0 : ∀ i, i < 14 → (g.lists i).length < fuel := fun i hi =>
    Nat.lt_of_succ_lt (hf i hi)
  have hwf1 : WF { s with curr_freelist := some (size_class (adjusted size)) } g := hwf
  rw [malloc_unfold fuel s size (by omega), find_fit_given_free_list_spec hwf.layout hwf.lists
    (by omega) (size_class_lt _) (hf0 _ (size_class_lt _))]
  simp only [obind_some]
  by_cases hfit : firstFit s.mem (adjusted size) (g.lists (size_class (adjusted size))) = 0
  · rw [if_neg (not_not.mpr hfit)]
    by_cases hgrow : s.mem_brk + adjusted size ≤ s.mem_max_addr
    · obtain ⟨s2, r, s', g', e2, hr, e', hA⟩ := malloc_grow (F := fuel) hwf1 a1 a2 hgrow hf
      rw [e2]
      simp only [obind_some]
      rw [if_neg hr, e']
      exact ⟨s', r, rfl, fun _ => ⟨g', hA⟩⟩
    · unfold extend_heap mem_sbrk
      rw [align_of_aligned a2 (by unfold U64 at hov ⊢; omega)]
      simp only [hgrow, if_false, if_true, obind_some]
      exact ⟨_, 0, rfl, fun h => absurd rfl h⟩
  · rw [if_pos hfit]
    obtain ⟨hmem, hge⟩ := firstFit_mem hfit
    obtain ⟨s', g', e', hA⟩ := malloc_fit (F := fuel) hwf1 a1 a2 hmem hge hf0
    rw [e']
    exact ⟨s', _, rfl, fun _ => ⟨g', hA⟩⟩

/-- The words that the accessors of `mm.c` read for an allocated block of a well-formed
heap. -/
theorem WF.allocated_tags {s : State} {g : Ghost} (hwf : WF s g) {p c : Nat}
    (hp : (⟨p, c, 1⟩ : Blk) ∈ g.blocks) :
    GET s (HDRP p) = some (PACK c 1) ∧ obind (FTRP s p) (GET s) = some (PACK c 1) ∧
      GET_SIZE s (HDRP p) = some c ∧ GET_ALLOC s (HDRP p) = some 1 ∧ c % 16 = 0 := by
  obtain ⟨t1, t2, t3, t4, t5, t6, t7⟩ := tiles_mem hwf.tiles hp
  dsimp only at t1 t2 t3 t4 t5 t6 t7
  have hlay := hwf.layout
  have hl := hlay
  obtain ⟨hl1, hl2, hl3, hl4⟩ := hl
  refine ⟨?_, ?_, GET_SIZE_tag hlay (by omega) (by omega) t6 t4 t5,
    GET_ALLOC_tag hlay (by omega) (by omega) t6 t4 t5, t4⟩
  · rw [HDRP_eq (by omega) (by omega), GET_eq (by omega) (by omega), t6]
  · rw [FTRP_tag hlay (by omega) t2 (by omega) t6 t4 t5]
    simp only [obind_some]
    rw [GET_eq (by omega) (by omega), t7]

/-- C3: in a well-formed heap, `malloc(size)` with `size ≥ 1` and `size + 31 < 2^64` returns
(given enough fuel for the list searches), and when the result `p` is not null the header
word and the footer word of the block at `p` are both `PACK c 1` for one size `c` (allocated,
equal sizes), where `c` is a multiple of 16 and at least `size + 16`, so that the payload
`[p, p + size)` ends before the footer word at `p + c - 16`. -/
theorem malloc_block_is_tagged (s : State) (g : Ghost) (size : Nat) (hwf : WF s g)
    (hsize : 1 ≤ size) (hov : size + 31 < U64) :
    ∃ N, ∀ fuel, N ≤ fuel → ∃ s' p, malloc fuel s size = some (s', p) ∧
      (p ≠ 0 → ∃ c, GET s' (HDRP p) = some (PACK c 1) ∧
        obind (FTRP s' p) (GET s') = some (PACK c 1) ∧
        GET_SIZE s' (HDRP p) = some c ∧ GET_ALLOC s' (HDRP p) = some 1 ∧
        FTRP s' p = some (p + c - 16) ∧ c % 16 = 0 ∧ size + 16 ≤ c ∧
        p + size ≤ p + c - 16) := by
  obtain ⟨N, hN⟩ := malloc_spec hwf hsize hov
  obtain ⟨a1, a2, a3, a4⟩ := adjusted_spec hsize hov
  refine ⟨N, fun fuel hfuel => ?_⟩
  obtain ⟨s', p, e, h⟩ := hN fuel hfuel
  refine ⟨s', p, e, fun hp => ?_⟩
  obtain ⟨g', hw', ⟨c, hc1, hc2⟩, -⟩ := h hp
  obtain ⟨k1, k2, k3, k4, k5⟩ := hw'.allocated_tags hc1
  obtain ⟨t1, t2, t3, t4, t5, t6, t7⟩ := tiles_mem hw'.tiles hc1
  dsimp only at t1 t2 t3 t4 t5 t6 t7
  have hlay := hw'.layout
  obtain ⟨hl1, hl2, hl3, hl4⟩ := hlay
  exact ⟨c, k1, k2, k3, k4, FTRP_tag hw'.layout (by omega) t2 (by omega) t6 t4 t5, k5,
    by omega, by omega⟩

set_option maxRecDepth 100000

theorem malloc_block_is_tagged_witness :
    WF sampleState sampleGhost ∧ 1 ≤ 100 ∧ 100 + 31 < U64 ∧
    ∃ N, ∀ fuel, N ≤ fuel → ∃ s' p, malloc fuel sampleState 100 = some (s', p) ∧
      (p ≠ 0 → ∃ c, GET s' (HDRP p) = some (PACK c 1) ∧
        obind (FTRP s' p) (GET s') = some (PACK c 1) ∧
        GET_SIZE s' (HDRP p) = some c ∧ GET_ALLOC s' (HDRP p) = some 1 ∧
        FTRP s' p = some (p + c - 16) ∧ c % 16 = 0 ∧ 100 + 16 ≤ c ∧
        p + 100 ≤ p + c - 16) :=
  ⟨by decide, by decide, by decide,
   malloc_block_is_tagged sampleState sampleGhost 100 (by decide) (by decide) (by decide)⟩

set_option maxRecDepth 512

theorem align_spec {x : Nat} (h : x + 15 < U64) :
    align x % 16 = 0 ∧ x ≤ align x ∧ align x ≤ x + 15 := by
  unfold align ALIGNMENT
  unfold U64 at *
  omega

/-- The in-place path of `realloc` on a well-formed heap. -/
theorem realloc_in_place_spec {s : State} {g : Ghost} {p c size F : Nat} (hwf : WF s g)
    (hp : (⟨p, c, 1⟩ : Blk) ∈ g.blocks) (hsize : 1 ≤ size) (hov : size + 31 < U64)
    (hfit : align ((size + DSIZE) % U64) ≤ c)
    (hfuel : ∀ i, i < 14 → (g.lists i).length < F) :
    ∃ s' g', realloc F s p size = some (s', p) ∧
      Placed s g ⟨p, c, 1⟩ (align ((size + DSIZE) % U64)) s' g' := by
  obtain ⟨t1, t2, t3, t4, t5, t6, t7⟩ := tiles_mem hwf.tiles hp
  dsimp only at t1 t2 t3 t4 t5 t6 t7
  have hlay := hwf.layout
  have hl := hlay
  obtain ⟨hl1, hl2, hl3, hl4⟩ := hl
  have hm : (size + DSIZE) % U64 = size + 16 :=
    Nat.mod_eq_of_lt (by unfold DSIZE; unfold U64 at hov ⊢; omega)
  obtain ⟨a1, a2, a3⟩ := align_spec (x := size + 16) (by unfold U64 at hov ⊢; omega)
  rw [hm] at hfit ⊢
  obtain ⟨s', g', e', hP⟩ := place_spec (F := F) hwf hp (by omega) a1 hfit hfuel
  refine ⟨s', g', ?_, hP⟩
  unfold realloc
  rw [if_neg (by omega), if_neg (by omega), hm]
  simp only []
  rw [GET_SIZE_tag hlay (by omega) (by omega) t6 t4 t5]
  simp only [obind_some]
  rw [if_pos hfit]
  dsimp only at e'
  rw [e']
  rfl

/-- C8 (amended): in a well-formed heap, for a live pointer `p` with block size `c` and a
size with `1 ≤ size` and `size + 31 < 2^64` such that `c ≥ align(size + 16)`,
`realloc(p, size)` returns `p` itself (given enough fuel for the list searches) and leaves
every byte of `[p, p + size)` unchanged. -/
theorem realloc_in_place_keeps_bytes (s : State) (g : Ghost) (p c size : Nat) (hwf : WF s g)
    (hp : (⟨p, c, 1⟩ : Blk) ∈ g.blocks) (hsize : 1 ≤ size) (hov : size + 31 < U64)
    (hfit : align ((size + DSIZE) % U64) ≤ c) :
    ∃ N, ∀ fuel, N ≤ fuel → ∃ s', realloc fuel s p size = some (s', p) ∧
      ∀ a, p ≤ a → a < p + size → s'.mem a = s.mem a := by
  obtain ⟨N, hN⟩ := exists_bound g.lists 14
  refine ⟨N, fun fuel hfuel => ?_⟩
  obtain ⟨s', g', e', -, -, -, -, hin, -⟩ := realloc_in_place_spec (F := fuel) hwf hp hsize
    hov hfit (fun i hi => lt_of_lt_of_le (hN i hi) hfuel)
  refine ⟨s', e', fun a h1 h2 => ?_⟩
  have hm : (size + DSIZE) % U64 = size + 16 :=
    Nat.mod_eq_of_lt (by unfold DSIZE; unfold U64 at hov ⊢; omega)
  obtain ⟨a1, a2, a3⟩ := align_spec (x := size + 16) (by unfold U64 at hov ⊢; omega)
  rw [hm] at hin
  exact hin (fun i hi => hwf.member_not_alloc hi hp Nat.one_ne_zero) a h1 (by dsimp only; omega)

set_option maxRecDepth 100000

theorem realloc_in_place_keeps_bytes_witness :
    WF sampleState sampleGhost ∧ (⟨heapBase + 160, 32, 1⟩ : Blk) ∈ sampleGhost.blocks ∧
    1 ≤ 10 ∧ 10 + 31 < U64 ∧ align ((10 + DSIZE) % U64) ≤ 32 ∧
    ∃ N, ∀ fuel, N ≤ fuel → ∃ s', realloc fuel sampleState (heapBase + 160) 10 =
        some (s', heapBase + 160) ∧
      ∀ a, heapBase + 160 ≤ a → a < heapBase + 160 + 10 → s'.mem a = sampleState.mem a :=
  ⟨by decide, by decide, by decide, by decide, by decide,
   realloc_in_place_keeps_bytes sampleState sampleGhost (heapBase + 160) 32 10 (by decide)
     (by decide) (by decide) (by decide) (by decide)⟩

/-- C8 as stated fails: in the well-formed heap `sampleState` the pointer `p = heapBase + 160`
is live with block size 32, and for `size = 2^64 - 16` the sum `size + 16` wraps to 0, so
that `32 ≥ align(size + 16) = 0`; `realloc(p, size)` returns `p`, but the byte at `p + 16`,
which lies in `[p, p + size)`, has changed from 33 to 64. -/
theorem realloc_in_place_overflow_changes_bytes :
    WF sampleState sampleGhost ∧ (⟨heapBase + 160, 32, 1⟩ : Blk) ∈ sampleGhost.blocks ∧
    0 < 18446744073709551600 ∧ align ((18446744073709551600 + DSIZE) % U64) ≤ 32 ∧
    (realloc 8 sampleState (heapBase + 160) 18446744073709551600).map
        (fun r => (r.2, r.1.mem (heapBase + 160 + 16))) = some (heapBase + 160, 64) ∧
    sampleState.mem (heapBase + 160 + 16) = 33 ∧
    heapBase + 160 ≤ heapBase + 160 + 16 ∧
    heapBase + 160 + 16 < heapBase + 160 + 18446744073709551600 := by
  decide

/-! ## Case 4 of `coalesce` -/

set_option maxRecDepth 512

theorem byteFrame.lists_mono {L L1 : Nat → List Nat} {lo hi : Nat} {m m' : Nat → Nat}
    (h : byteFrame L1 lo hi m m') (hsub : ∀ i, i < 14 → ∀ y ∈ L1 i, ∃ j, j < 14 ∧ y ∈ L j) :
    byteFrame L lo hi m m' := by
  intro a ha hl
  apply h a ha
  intro i hi' y hy
  obtain ⟨j, hj, hyj⟩ := hsub i hi' y hy
  exact hl j hj y hyj

/-- The `else` branch of case 4 of `coalesce`: the block at `p` before `bp` is taken out of
its list, gets the tags of the merged block and is put into the list of the merged size. -/
theorem coalesce_case4_tail_exec {s : State} {L : Nat → List Nat} {p psz w F : Nat}
    (hlay : Layout s) (hL : ListsOK s L) (h1 : s.heap_listp + 16 ≤ p) (hs1 : 32 ≤ psz)
    (hs2 : psz % 16 = 0) (hh : read8 s.mem (p - 8) = PACK psz 0)
    (hf : read8 s.mem (p + psz - 16) = PACK psz 0) (hm1 : psz + 32 ≤ w) (hm2 : w % 16 = 0)
    (h2 : p + w ≤ s.mem_brk)
    (hgeo : ∀ i, i < 14 → ∀ y ∈ L i, y = p ∨ y + 32 ≤ p ∨ p + w ≤ y)
    (hfuel : (L (size_class psz)).length < F) :
    ∃ s', (obind (coalesce_unlist_prev F s (p + psz)) fun s5 =>
        obind (PREV_BLKP s5 (p + psz)) fun p4 =>
        obind (PUT s5 (HDRP p4) (PACK w 0)) fun s6 =>
        obind (obind (PREV_BLKP s6 (p + psz)) fun q => FTRP s6 q) fun f =>
        obind (PUT s6 f (PACK w 0)) fun s7 =>
        obind (PREV_BLKP s7 (p + psz)) fun bp2 =>
        obind (place_freeblk s7 bp2) fun r8 => some (r8.1, bp2)) = some (s', p) ∧
      sameRange s s' ∧ byteFrame L (p - 8) (p + w - 8) s.mem s'.mem ∧
      read8 s'.mem (p - 8) = PACK w 0 ∧ read8 s'.mem (p + w - 16) = PACK w 0 ∧
      ∀ q, p + 16 ≤ q → q + 8 ≤ p + w - 16 → read8 s'.mem q = read8 s.mem q := by
  have hl := hlay
  obtain ⟨hl1, hl2, hl3, hl4⟩ := hl
  have hU : U64 = 18446744073709551616 := rfl
  have hpsz : hdrSize s.mem p = psz := hdrSize_of_tag hh hs2 (by decide)
  obtain ⟨s5, e5, hL5, hr5, hbf5, h5h⟩ := coalesce_unlist_prev_exec (F := F)
    hlay hL h1 (by omega) hs1 hs2 hh hf
    (fun i hi y hy => by have := hgeo i hi y hy; omega) hfuel
  have hlay5 : Layout s5 := Layout_of_sameRange hlay hr5
  have hlf : ∀ q, p + 16 ≤ q → q + 8 ≤ p + w - 16 → ∀ i, i < 14 → ∀ y ∈ L i,
      q + 8 ≤ y ∨ y + 16 ≤ q := by
    intro q hq1 hq2 i hi y hy
    have := hgeo i hi y hy
    omega
  have h5f : read8 s5.mem (p + psz - 16) = PACK psz 0 := by
    rw [hbf5.word (by omega) (hlf _ (by omega) (by omega))]; exact hf
  have hgeo1 := hL.unlist_far hpsz hgeo
  obtain ⟨r0, r1, r2, r3, r4⟩ := hr5
  obtain ⟨s', e', hL', hr', hbf', hth, htf, hin⟩ := retag_enlist (L := L) (s := s5)
    (p := p) (w := w) hlay5 hL5 (fun i hi y hy => ⟨i, hi, mem_unlist hy⟩)
    (by omega) (by omega) (by omega) hm2 hgeo1
  refine ⟨s', ?_, sameRange_trans (t := s5) ⟨r0, r1, r2, r3, r4⟩ hr',
    (hbf5.mono (le_refl _) (by omega)).trans hbf', hth, htf, fun q hq1 hq2 => ?_⟩
  · rw [e5]
    simp only [obind_some]
    rw [PREV_BLKP_tag hlay5 (by omega) (by omega) h5f hs2 (by decide), Nat.add_sub_cancel]
    simp only [obind_some]
    rw [PUT_tag _ hlay5 (by omega) (by omega)]
    simp only [obind_some]
    rw [PREV_BLKP_tag (s := { s5 with mem := write8 s5.mem (p - 8) (PACK w 0) }) hlay5
      (by dsimp only; omega) (by dsimp only; omega)
      (by dsimp only; rw [read8_write8_ne _ _ _ _ (by omega)]; exact h5f) hs2 (by decide),
      Nat.add_sub_cancel]
    simp only [obind_some]
    rw [FTRP_tag (s := { s5 with mem := write8 s5.mem (p - 8) (PACK w 0) }) hlay5
      (by dsimp only; omega) (by dsimp only; omega) (by omega)
      (read8_write8_tag _ _ hm2 (by decide) (by omega)) hm2 (by decide)]
    simp only [obind_some]
    rw [PUT_eq _ (by dsimp only; omega) (by dsimp only; omega)]
    simp only [obind_some]
    rw [show write8 (write8 s5.mem (p - 8) (PACK w 0)) (p + w - 16) (PACK w 0) =
      retagMem s5.mem p w 0 from rfl]
    rw [PREV_BLKP_tag (s := { s5 with mem := retagMem s5.mem p w 0 }) hlay5
      (by dsimp only; omega) (by dsimp only; omega)
      (by dsimp only
          rw [retag_other _ _ (by omega) (by omega) (by omega) (by omega)]
          exact h5f) hs2 (by decide),
      Nat.add_sub_cancel]
    simp only [obind_some]
    rw [e']
    rfl
  · rw [hin q hq1 hq2]
    exact hbf5.word (by omega) (hlf q hq1 hq2)

/-- Case 4 of `coalesce` on the level of tags and lists: it returns, and memory changes only
inside the three merged blocks and in link words. -/
theorem coalesce_case4_exec {s : State} {L : Nat → List Nat} {p psz size nsz F : Nat}
    (hlay : Layout s) (hL : ListsOK s L) (h1 : s.heap_listp + 16 ≤ p) (hs1 : 32 ≤ psz)
    (hs2 : psz % 16 = 0) (hh : read8 s.mem (p - 8) = PACK psz 0)
    (hf : read8 s.mem (p + psz - 16) = PACK psz 0)
    (hbh : read8 s.mem (p + psz - 8) = PACK size 0) (hz1 : 32 ≤ size) (hz2 : size % 16 = 0)
    (hn : read8 s.mem (p + psz + size - 8) = PACK nsz 0) (hn1 : 32 ≤ nsz)
    (hn2 : nsz % 16 = 0) (h2 : p + psz + size + nsz ≤ s.mem_brk)
    (hgeo : ∀ i, i < 14 → ∀ y ∈ L i,
      y = p ∨ y = p + psz + size ∨ y + 32 ≤ p ∨ p + psz + size + nsz ≤ y)
    (hfuel1 : (L (size_class nsz)).length < F)
    (hfuel2 : (L (size_class psz)).length < F) :
    ∃ s', coalesce_case4 F s (p + psz) size = some (s', p) ∧ sameRange s s' ∧
      byteFrame L (p - 8) (p + psz + size + nsz - 8) s.mem s'.mem ∧
      read8 s'.mem (p + psz - 8) = PACK size 0 ∧
      read8 s'.mem (p - 8) = PACK (size + (psz + nsz)) 0 ∧
      read8 s'.mem (p + (size + (psz + nsz)) - 16) = PACK (size + (psz + nsz)) 0 := by
  have hl := hlay
  obtain ⟨hl1, hl2, hl3, hl4⟩ := hl
  have hU : U64 = 18446744073709551616 := rfl
  have hnsz : hdrSize s.mem (p + psz + size) = nsz := hdrSize_of_tag hn hn2 (by decide)
  obtain ⟨s2, r, e2, hL2, hr2, hm2⟩ := remove_marked (x := p + psz + size) (z := nsz)
    (F := F) hlay hL (by omega) (by omega) hnsz (by omega) hn2
    (fun i hi y hy => by have := hgeo i hi y hy; omega) hfuel1
  have hlay2 : Layout s2 := Layout_of_sameRange hlay hr2
  obtain ⟨r0, r1, r2, r3, r4⟩ := hr2
  have hbf2 : byteFrame L (p + psz + size - 8) (p + psz + size) s.mem s2.mem := by
    rw [hm2]
    exact (byteFrame_write8 L _ _ (by omega) (by omega)).trans
      (byteFrame_unlink L _ _ _ (size_class_lt nsz) _)
  have hlf : ∀ q, (q = p - 8 ∨ q = p + psz - 16 ∨ q = p + psz - 8 ∨ q = p + psz + size - 8) →
      ∀ i, i < 14 → ∀ y ∈ L i, q + 8 ≤ y ∨ y + 16 ≤ q := by
    intro q hq i hi y hy
    have := hgeo i hi y hy
    omega
  have h2h : read8 s2.mem (p - 8) = PACK psz 0 := by
    rw [hbf2.word (by omega) (hlf _ (Or.inl rfl))]; exact hh
  have h2f : read8 s2.mem (p + psz - 16) = PACK psz 0 := by
    rw [hbf2.word (by omega) (hlf _ (Or.inr (Or.inl rfl)))]; exact hf
  have h2b : read8 s2.mem (p + psz - 8) = PACK size 0 := by
    rw [hbf2.word (by omega) (hlf _ (Or.inr (Or.inr (Or.inl rfl))))]; exact hbh
  have h2n : read8 s2.mem (p + psz + size - 8) = PACK nsz 1 := by
    rw [hm2, read8_unlinkMem_frame _ _ _ _
      (hlf _ (Or.inr (Or.inr (Or.inr rfl))) _ (size_class_lt nsz))]
    exact read8_write8_tag _ _ hn2 (by decide) (by omega)
  have h1b : read8 (write8 s.mem (p + psz + size - 8) (PACK nsz 1)) (p + psz - 8) =
      PACK size 0 := by
    rw [read8_write8_ne _ _ _ _ (by omega)]; exact hbh
  have hgeo1 : ∀ i, i < 14 → ∀ y ∈ unlist L nsz (p + psz + size) i,
      y = p ∨ y + 32 ≤ p ∨ p + (size + (psz + nsz)) ≤ y :=
    hL.unlist_of hnsz (P := fun _ y => y = p ∨ y + 32 ≤ p ∨ p + (size + (psz + nsz)) ≤ y)
      (fun i hi y hy => by have := hgeo i hi y hy; omega)
  have hs0 : size ≠ 0 := by omega
  have hm0 : size + (psz + nsz) ≠ 0 := by omega
  have hpre : coalesce_case4 F s (p + psz) size =
      if size_class size = size_class (size + (psz + nsz)) then
        coalesce_extend_prev { s2 with curr_freelist := some (size_class (size + (psz + nsz))) }
          (p + psz) (size + (psz + nsz))
      else
        (obind (coalesce_unlist_prev F
          { s2 with curr_freelist := some (size_class (size + (psz + nsz))) } (p + psz))
          fun s5 =>
        obind (PREV_BLKP s5 (p + psz)) fun p4 =>
        obind (PUT s5 (HDRP p4) (PACK (size + (psz + nsz)) 0)) fun s6 =>
        obind (obind (PREV_BLKP s6 (p + psz)) fun q => FTRP s6 q) fun f =>
        obind (PUT s6 f (PACK (size + (psz + nsz)) 0)) fun s7 =>
        obind (PREV_BLKP s7 (p + psz)) fun bp2 =>
        obind (place_freeblk s7 bp2) fun r8 => some (r8.1, bp2)) := by
    unfold coalesce_case4
    rw [NEXT_BLKP_tag hlay (by omega) (by omega) hbh hz2 (by decide)]
    simp only [obind_some]
    rw [GET_SIZE_tag hlay (by omega) (by omega) hn hn2 (by decide)]
    simp only [obind_some]
    rw [PUT_tag _ hlay (by omega) (by omega)]
    simp only [obind_some]
    rw [NEXT_BLKP_tag (s := { s with mem := write8 s.mem (p + psz + size - 8) (PACK nsz 1) })
      hlay (by dsimp only; omega) (by dsimp only; omega) h1b hz2 (by decide)]
    simp only [obind_some]
    rw [e2]
    simp only [obind_some]
    rw [prev_size_exec hlay2 (by omega) (by omega) hs2 h2h (by decide) h2f (by decide),
      NEXT_BLKP_tag hlay2 (by omega) (by omega) h2b hz2 (by decide)]
    simp only [obind_some]
    rw [GET_SIZE_tag hlay2 (by omega) (by omega) h2n hn2 (by decide)]
    simp only [obind_some]
    rw [GET_SIZE_tag hlay2 (by omega) (by omega) h2b hz2 (by decide)]
    simp only [obind_some]
    rw [Nat.mod_eq_of_lt (by omega : psz + nsz < U64),
      Nat.mod_eq_of_lt (by omega : size + (psz + nsz) < U64)]
    simp only [find_free_list_ne_zero _ hs0, find_free_list_ne_zero _ hm0, Option.some.injEq]
  rw [hpre]
  by_cases hcls : size_class size = size_class (size + (psz + nsz))
  · rw [if_pos hcls, coalesce_extend_prev_exec
      (s := { s2 with curr_freelist := some (size_class (size + (psz + nsz))) })
      hlay2 (by dsimp only; omega) (by omega) hs2 h2f (by decide) (by omega) (by omega)
      (by dsimp only; omega)]
    refine ⟨_, rfl, ⟨r0, r1, r2, r3, r4⟩, ?_, ?_, ?_, ?_⟩
    · exact (hbf2.mono (by omega) (by omega)).trans
        (byteFrame_retag L _ 0 (by omega) (by omega) (by omega) (by omega))
    · show read8 (retagMem s2.mem p (size + (psz + nsz)) 0) (p + psz - 8) = PACK size 0
      rw [retag_other _ _ (by omega) (by omega) (by omega) (by omega)]
      exact h2b
    · exact retag_hdr _ (by omega) (by omega) (by omega) (by decide) (by omega)
    · exact retag_ftr _ (by omega) (by decide) (by omega)
  · rw [if_neg hcls]
    obtain ⟨s', e', hr', hbf', hth', htf', hin'⟩ := coalesce_case4_tail_exec
      (s := { s2 with curr_freelist := some (size_class (size + (psz + nsz))) })
      (L := unlist L nsz (p + psz + size)) (F := F) (w := size + (psz + nsz))
      hlay2 hL2 (by dsimp only; omega) hs1 hs2 h2h h2f (by omega) (by omega)
      (by dsimp only; omega) hgeo1
      (lt_of_le_of_lt (length_unlist _ _ _ _) hfuel2)
    refine ⟨s', e', sameRange_trans
      (t := { s2 with curr_freelist := some (size_class (size + (psz + nsz))) })
      ⟨r0, r1, r2, r3, r4⟩ hr', ?_, ?_, hth', htf'⟩
    · exact (hbf2.mono (by omega) (by omega)).trans
        ((hbf'.lists_mono (fun i hi y hy => ⟨i, hi, mem_unlist hy⟩)).mono (le_refl _)
          (by omega))
    · rw [hin' _ (by omega) (by omega)]
      exact h2b

/-- The free block `blk` lies between the free blocks `P` and `Q` (case 4): `coalesce`
returns the address of `P`, the blocks that are allocated keep all their bytes, and the
tags describe one free block in the place of the three. -/
theorem coalesce_case4_full {s : State} {g : Ghost} (hwf : WF s g) {A Z : List Blk}
    {P blk Q : Blk} (hdec : g.blocks = A ++ [P, blk, Q] ++ Z) (hfree : blk.alloc = 0)
    (hnot : ∀ i, i < 14 → blk.bp ∉ g.lists i) (hpb : P.alloc = 0) (hnb : Q.alloc = 0)
    {fuel : Nat} (hfuel : ∀ i, i < 14 → (g.lists i).length < fuel) :
    ∃ s', coalesce fuel s blk.bp = some (s', P.bp) ∧ sameRange s s' ∧
      allocFrame g s.mem s'.mem ∧ hdrAlloc s'.mem blk.bp = 0 ∧
      Tagged s' (A ++ [⟨P.bp, blk.size + (P.size + Q.size), 0⟩] ++ Z) := by
  obtain ⟨a, e, ha, hm, he⟩ := hwf.split3 hdec
  have hm' := hm
  obtain ⟨hb1, hb2, hb3, hb4, hb5, hb6, hm2⟩ := hm'
  obtain ⟨hc1, hc2, hc3, hc4, hc5, hc6, hm3⟩ := hm2
  obtain ⟨hd1, hd2, hd3, hd4, hd5, hd6, hm4⟩ := hm3
  subst hb1
  subst hm4
  rw [hpb] at hb5 hb6
  rw [hfree] at hc5
  rw [hnb] at hd5
  have hlay := hwf.layout
  have hbrk := tiles_le he
  have hp := tiles_le ha
  have hdec' : g.blocks = (A ++ [P]) ++ blk :: (Q :: Z) := by rw [hdec]; simp
  have hgeo : ∀ i, i < 14 → ∀ y ∈ g.lists i, y = P.bp ∨ y = P.bp + P.size + blk.size ∨
      y + 32 ≤ P.bp ∨ P.bp + P.size + blk.size + Q.size ≤ y := by
    intro i hi y hy
    rcases hwf.member_geo hdec ha he hi hy with ⟨b, hb, hby, -⟩ | h | h
    · simp only [List.mem_cons, List.mem_singleton, List.not_mem_nil, or_false] at hb
      rcases hb with rfl | rfl | rfl
      · exact Or.inl hby.symm
      · exact absurd (hby ▸ hy) (hnot i hi)
      · exact Or.inr (Or.inl (by omega))
    · exact Or.inr (Or.inr (Or.inl h))
    · exact Or.inr (Or.inr (Or.inr h))
  obtain ⟨s', e', hr, hbf, hbh, hth, htf⟩ := coalesce_case4_exec (F := fuel) hlay hwf.lists
    hp hb2 hb3 hb5 hb6 hc5 hc2 hc3 hd5 hd2 hd3 hbrk hgeo (hfuel _ (size_class_lt _))
    (hfuel _ (size_class_lt _))
  have htag : Tagged s' (A ++ [⟨P.bp, blk.size + (P.size + Q.size), 0⟩] ++ Z) :=
    hwf.tagged_splice hdec ha hm he hr
      ⟨rfl, by dsimp only; omega, by dsimp only; omega, by dsimp only; omega, hth, htf,
        (tiles_nil _ _ _).mpr (by dsimp only; omega)⟩ hbf
  refine ⟨s', ?_, hr, ?_, ?_, htag⟩
  · rw [coalesce_dispatch hwf hdec', if_neg (by rw [prevAlloc_concat, hpb]; simp),
      if_neg (by rw [prevAlloc_concat, hpb]; simp),
      if_neg (by rw [nextAlloc_cons, hnb]; simp),
      if_pos (by rw [prevAlloc_concat, hpb, nextAlloc_cons, hnb]; simp), hc1]
    exact e'
  · apply hbf.alloc hwf
    intro x hx hxa
    rw [hdec] at hx
    simp only [List.mem_append] at hx
    rcases hx with (h | h) | h
    · obtain ⟨-, t2, t3, -⟩ := tiles_mem ha h
      left; omega
    · simp only [List.mem_cons, List.mem_singleton, List.not_mem_nil, or_false] at h
      rcases h with rfl | rfl | rfl
      · rw [hpb] at hxa; exact absurd hxa Nat.zero_ne_one
      · rw [hfree] at hxa; exact absurd hxa Nat.zero_ne_one
      · rw [hnb] at hxa; exact absurd hxa Nat.zero_ne_one
    · obtain ⟨t1, -⟩ := tiles_mem he h
      right; omega
  · rw [hc1]
    exact hdrAlloc_of_tag hbh hc3 (by decide)

/-- The free block `blk` lies between the free blocks `P` and `Q` (case 4): `coalesce`
returns, the blocks that are allocated keep all their bytes, and the header of `blk` still
says that it is free. -/
theorem coalesce_case4_spec {s : State} {g : Ghost} (hwf : WF s g) {A Z : List Blk}
    {P blk Q : Blk} (hdec : g.blocks = A ++ [P, blk, Q] ++ Z) (hfree : blk.alloc = 0)
    (hnot : ∀ i, i < 14 → blk.bp ∉ g.lists i) (hpb : P.alloc = 0) (hnb : Q.alloc = 0)
    {fuel : Nat} (hfuel : ∀ i, i < 14 → (g.lists i).length < fuel) :
    ∃ s' r, coalesce fuel s blk.bp = some (s', r) ∧ sameRange s s' ∧
      allocFrame g s.mem s'.mem ∧ hdrAlloc s'.mem blk.bp = 0 := by
  obtain ⟨s', e, h1, h2, h3, -⟩ := coalesce_case4_full hwf hdec hfree hnot hpb hnb hfuel
  exact ⟨s', P.bp, e, h1, h2, h3⟩

/-- All cases of `coalesce` for a free block of a well-formed heap that is in no list:
`coalesce` returns, the allocated blocks keep all their bytes, and the header of the block
still says that it is free. -/
theorem coalesce_frame {s : State} {g : Ghost} (hwf : WF s g) {B : Blk}
    (hblk : B ∈ g.blocks) (hfree : B.alloc = 0) (hnot : ∀ i, i < 14 → B.bp ∉ g.lists i)
    {F : Nat} (hfuel : ∀ i, i < 14 → (g.lists i).length < F) :
    ∃ s' r, coalesce F s B.bp = some (s', r) ∧ sameRange s s' ∧
      allocFrame g s.mem s'.mem ∧ hdrAlloc s'.mem B.bp = 0 := by
  obtain ⟨pre, post, hdec⟩ := List.append_of_mem hblk
  by_cases hcase : prevAlloc pre ≠ 0 ∨ nextAlloc post ≠ 0
  · obtain ⟨s', g', r, e', -, hr, hfr, hh, -⟩ := coalesce_wf hwf hdec hfree hnot hcase hfuel
    exact ⟨s', r, e', hr, hfr, hh⟩
  · have hp : prevAlloc pre = 0 := by
      by_contra h; exact hcase (Or.inl h)
    have hn : nextAlloc post = 0 := by
      by_contra h; exact hcase (Or.inr h)
    obtain ⟨pre', pb, e1, hpb⟩ := prevAlloc_zero hp
    obtain ⟨nb, post', e2, hnb⟩ := nextAlloc_zero hn
    exact coalesce_case4_spec (A := pre') (Z := post') (P := pb) (Q := nb) hwf
      (by rw [hdec, e1, e2]; simp) hfree hnot hpb hnb hfuel

/-! ## `free` -/

/-- `free` of an allocated block of a well-formed heap: it returns, every other allocated
block keeps all its bytes, and the header of the block says that it is free. -/
theorem free_spec {s : State} {g : Ghost} {p c F : Nat} (hwf : WF s g)
    (hp : (⟨p, c, 1⟩ : Blk) ∈ g.blocks) (hfuel : ∀ i, i < 14 → (g.lists i).length < F) :
    ∃ s', free F s p = some s' ∧ sameRange s s' ∧
      (∀ x ∈ g.blocks, x.alloc = 1 → x ≠ ⟨p, c, 1⟩ →
        ∀ a, x.bp - 8 ≤ a → a < x.bp + x.size - 8 → s'.mem a = s.mem a) ∧
      hdrAlloc s'.mem p = 0 := by
  obtain ⟨pre, post, hdec0⟩ := List.append_of_mem hp
  have hdec : g.blocks = pre ++ [⟨p, c, 1⟩] ++ post := by
    rw [hdec0, List.append_assoc, List.singleton_append]
  obtain ⟨a, e, ha, hm, he⟩ := hwf.split3 hdec
  have hm' := hm
  obtain ⟨hb1, hb2, hb3, hb4, hb5, hb6, hm2⟩ := hm'
  dsimp only at hb1 hb2 hb3 hb4 hb5 hb6 hm2
  subst hb1
  subst hm2
  have hlay := hwf.layout
  have hl := hlay
  obtain ⟨hl1, hl2, hl3, hl4⟩ := hl
  have hbrk := tiles_le he
  have hp0 := tiles_le ha
  have hgeo : ∀ i, i < 14 → ∀ y ∈ g.lists i, y + 32 ≤ p ∨ p + c ≤ y := by
    intro i hi y hy
    rcases hwf.member_geo hdec ha he hi hy with ⟨b, hb, hby, hba⟩ | h | h
    · rw [List.mem_singleton.mp hb] at hba
      exact absurd hba Nat.one_ne_zero
    · exact Or.inl h
    · exact Or.inr h
  obtain ⟨hw2, hfr2⟩ := hwf.splice (t := { s with mem := retagMem s.mem p c 0 })
    (N := [⟨p, c, 0⟩]) (K := g.lists) hdec ha hm he ⟨rfl, rfl, rfl, rfl, rfl⟩
    ⟨rfl, hb2, hb3, Nat.zero_lt_two,
      retag_hdr _ (by omega) (by omega) hb3 (by decide) (by unfold U64 at hl4 ⊢; omega),
      retag_ftr _ hb3 (by decide) (by unfold U64 at hl4 ⊢; omega), rfl⟩
    (byteFrame_retag _ _ 0 (by omega) (by omega) (by omega) (by omega))
    (ListsOK_retag 0 hwf.lists (by omega) (by omega) hgeo)
    (fun i hi b hb => Or.inr ⟨⟨i, hi, hb⟩, hgeo i hi b hb⟩)
  have hin2 : (⟨p, c, 0⟩ : Blk) ∈ pre ++ [⟨p, c, 0⟩] ++ post :=
    mem_middle (List.mem_singleton.mpr rfl)
  obtain ⟨s', r, e', hr', hfr', hh'⟩ := coalesce_frame (F := F) hw2 (B := ⟨p, c, 0⟩)
    hin2 rfl (fun i hi h => by have := hgeo i hi _ h; dsimp only at this; omega) hfuel
  refine ⟨s', ?_, hr', ?_, hh'⟩
  · unfold free
    rw [GET_SIZE_tag hlay (by omega) (by omega) hb5 hb3 hb4]
    simp only [obind_some]
    rw [retag_exec hlay (by omega) (by omega) (by omega) hb3 (by decide), e']
    rfl
  · intro x hx hxa hne q h1 h2
    have hx' := mem_outside (hdec ▸ hx) (fun h => hne (List.mem_singleton.mp h))
    rw [hfr' x (mem_inside hx') hxa q h1 h2]
    exact hfr2 x hx' hxa q h1 h2

/-- A change of memory inside the payload of an allocated block keeps the heap well formed. -/
theorem WF_payload_write {s : State} {g : Ghost} {q c : Nat} (hwf : WF s g)
    (hq : (⟨q, c, 1⟩ : Blk) ∈ g.blocks) {m' : Nat → Nat}
    (hm : ∀ a, (a < q ∨ q + c - 16 ≤ a) → m' a = s.mem a) :
    WF { s with mem := m' } g := by
  obtain ⟨t1, t2, t3, -⟩ := tiles_mem hwf.tiles hq
  dsimp only at t1 t2 t3
  have hlay := hwf.layout
  obtain ⟨hl1, hl2, hl3, hl4⟩ := hlay
  have hw : ∀ w, (w + 8 ≤ q ∨ q + c - 16 ≤ w) → read8 m' w = read8 s.mem w := by
    intro w hw
    apply read8_congr
    intro k hk
    exact hm _ (by omega)
  have hblk : ∀ x ∈ g.blocks, ∀ w, x.bp - 8 ≤ w → w + 8 ≤ x.bp + x.size - 8 →
      (x.alloc = 0 ∨ w + 8 ≤ x.bp ∨ x.bp + x.size - 16 ≤ w) → read8 m' w = read8 s.mem w := by
    intro x hx w h1 h2 h3
    obtain ⟨x1, x2, x3, -⟩ := tiles_mem hwf.tiles hx
    apply hw
    rcases tiles_disjoint hwf.tiles hx hq with e | e | e
    · rw [e] at h3 x3 h1 h2
      dsimp only at h3 h1 h2
      rcases h3 with h | h | h
      · exact absurd h Nat.one_ne_zero
      · left; omega
      · right; omega
    · dsimp only at e
      left; omega
    · dsimp only at e
      right; omega
  refine ⟨⟨hl1, hl2, hl3, hl4⟩, ?_, ?_, ?_, ?_, ?_, hwf.2.2.2.2.2.2⟩
  · exact (hw _ (by dsimp only; omega)).trans hwf.2.1
  · exact (hw _ (by dsimp only; omega)).trans hwf.2.2.1
  · refine tiles_congr hwf.tiles (fun x hx => ?_)
    obtain ⟨x1, x2, x3, -⟩ := tiles_mem hwf.tiles hx
    exact ⟨hblk x hx _ (le_refl _) (by omega) (Or.inr (Or.inl (by omega))),
      hblk x hx _ (by omega) (by omega) (Or.inr (Or.inr (le_refl _)))⟩
  · exact (hw _ (by dsimp only; omega)).trans hwf.2.2.2.2.1
  · refine ListsOK_congr hwf.lists ?_ ?_ ?_ ?_
    · rfl
    · exact le_refl _
    · intro _ _; rfl
    intro i hi y hy
    obtain ⟨x, hx, hxy, hxa⟩ := hwf.member_free hi hy
    obtain ⟨x1, x2, x3, -⟩ := tiles_mem hwf.tiles hx
    unfold hdrSize
    rw [← hxy]
    show read8 m' x.bp = _ ∧ read8 m' (x.bp + 8) = _ ∧ read8 m' (x.bp - 8) &&& SIZE_MASK = _
    rw [hblk x hx _ (by omega) (by omega) (Or.inl hxa),
      hblk x hx _ (by omega) (by omega) (Or.inl hxa),
      hblk x hx _ (by omega) (by omega) (Or.inl hxa)]
    exact ⟨rfl, rfl, rfl⟩

/-! ## `realloc`: the move path -/

theorem move_size {c size : Nat} (hc : 32 ≤ c) (hlt : size < U64)
    (hmove : c < align ((size + DSIZE) % U64)) :
    16 < size ∧ size + 31 < U64 ∧ adjusted size = align ((size + DSIZE) % U64) := by
  unfold adjusted
  unfold align DSIZE ALIGNMENT at *
  unfold U64 at *
  refine ⟨by omega, by omega, ?_⟩
  rw [if_neg (by omega)]

/-- Two allocated blocks of different sizes are different blocks with disjoint payloads. -/
theorem WF.two_allocated {s : State} {g : Ghost} {p c q cq : Nat} (hw : WF s g)
    (hp : (⟨p, c, 1⟩ : Blk) ∈ g.blocks) (hq : (⟨q, cq, 1⟩ : Blk) ∈ g.blocks) (hlt : c < cq) :
    q ≠ p ∧ (q + (c - 16) ≤ p ∨ p + (c - 16) ≤ q) := by
  have h := tiles_disjoint hw.tiles hq hp
  have hi : q = p → cq = c := fun e => by
    have := tiles_bp_inj hw.tiles hq hp e
    simp only [Blk.mk.injEq] at this
    exact this.2.1
  have he : (⟨q, cq, 1⟩ : Blk) ≠ ⟨p, c, 1⟩ := fun e => by
    simp only [Blk.mk.injEq] at e
    exact absurd e.2.1 (Nat.ne_of_gt hlt)
  refine ⟨fun e => absurd (hi e) (Nat.ne_of_gt hlt), ?_⟩
  rcases h with e | e | e
  · exact absurd e he
  · exact Or.inl (le_trans (Nat.add_le_add_left (le_trans (Nat.sub_le c 16) (le_of_lt hlt)) q) e)
  · exact Or.inr (le_trans (Nat.add_le_add_left (Nat.sub_le c 16) p) e)

theorem memcpy_eq {s : State} {dst src n : Nat} (hn : n ≠ 0) (h1 : s.mem_start_brk ≤ dst)
    (h2 : dst + n ≤ s.mem_brk) (h3 : s.mem_start_brk ≤ src) (h4 : src + n ≤ s.mem_brk)
    (hd : dst + n ≤ src ∨ src + n ≤ dst) :
    memcpy s dst src n = some { s with mem := fun a =>
      if dst ≤ a ∧ a < dst + n then s.mem (src + (a - dst)) else s.mem a } := by
  unfold memcpy inHeapRange
  rw [if_neg hn, if_pos ⟨⟨h1, h2⟩, ⟨h3, h4⟩, hd⟩]

theorem sub_word_mod {c : Nat} (h1 : 16 ≤ c) (h2 : c < U64) :
    (c + U64 - DSIZE) % U64 = c - 16 := by
  unfold DSIZE U64 at *
  omega

/-- The steps of `realloc` that follow a successful inner `malloc` on the move path. -/
theorem realloc_move_tail {s1 : State} {g1 : Ghost} {p c q cq F : Nat} (hw1 : WF s1 g1)
    (hp1 : (⟨p, c, 1⟩ : Blk) ∈ g1.blocks) (hq1 : (⟨q, cq, 1⟩ : Blk) ∈ g1.blocks)
    (hlt : c < cq) (hfuel : ∀ i, i < 14 → (g1.lists i).length < F) :
    ∃ s3, (obind (GET_SIZE s1 (HDRP p)) fun osz2 =>
        obind (memcpy s1 q p ((osz2 + U64 - DSIZE) % U64)) fun s2 =>
        obind (free F s2 p) fun s3 => some (s3, q)) = some (s3, q) ∧
      q ≠ p ∧ (∀ k, k < c - 16 → s3.mem (q + k) = s1.mem (p + k)) ∧
      GET_ALLOC s3 (HDRP p) = some 0 := by
  obtain ⟨u1, u2, u3, -⟩ := tiles_mem hw1.tiles hq1
  obtain ⟨v1, v2, v3, v4, v5, v6, -⟩ := tiles_mem hw1.tiles hp1
  dsimp only at u1 u2 u3 v1 v2 v3 v4 v5 v6
  have hlay := hw1.layout
  have hl := hlay
  obtain ⟨hl1, hl2, hl3, hl4⟩ := hl
  have hn := sub_word_mod (c := c) (by omega) (by omega)
  obtain ⟨m2, hm2⟩ : ∃ m2 : Nat → Nat, m2 =
      fun a => if q ≤ a ∧ a < q + (c - 16) then s1.mem (p + (a - q)) else s1.mem a := ⟨_, rfl⟩
  have hcpy : (q + (c - 16) ≤ p ∨ p + (c - 16) ≤ q) →
      memcpy s1 q p (c - 16) = some { s1 with mem := m2 } := fun hd => by
    rw [hm2]
    exact memcpy_eq (by omega) (by omega) (by omega) (by omega) (by omega) hd
  have hw2 : WF { s1 with mem := m2 } g1 := by
    refine WF_payload_write hw1 hq1 (fun a ha => ?_)
    rw [hm2]
    exact if_neg (by omega)
  obtain ⟨s3, e3, hr3, hfr3, hh3⟩ := free_spec (F := F) hw2 hp1 hfuel
  obtain ⟨r0, r1, r2, r3, r4⟩ := hr3
  dsimp only at r1 r2 r3 r4
  have hbe : (⟨q, cq, 1⟩ : Blk) ≠ ⟨p, c, 1⟩ := fun e => by
    simp only [Blk.mk.injEq] at e
    exact absurd e.2.1 (Nat.ne_of_gt hlt)
  have hdata : ∀ k, k < c - 16 → s3.mem (q + k) = s1.mem (p + k) := by
    intro k hk
    rw [hfr3 _ hq1 rfl hbe (q + k) (by dsimp only; omega) (by dsimp only; omega)]
    show m2 (q + k) = _
    rw [hm2]
    show (if q ≤ q + k ∧ q + k < q + (c - 16) then s1.mem (p + (q + k - q)) else _) = _
    rw [if_pos ⟨by omega, by omega⟩, Nat.add_sub_cancel_left]
  have hga : GET_ALLOC s3 (HDRP p) = some 0 := by
    rw [GET_ALLOC_HDRP (by omega) (by omega) (by omega), hh3]
  have hgs := GET_SIZE_tag hlay (b := p) (by omega) (by omega) v6 v4 v5
  obtain ⟨hne, hd⟩ := hw1.two_allocated hp1 hq1 hlt
  refine ⟨s3, ?_, hne, hdata, hga⟩
  rw [hgs, obind_some, hn, hcpy hd, obind_some, e3, obind_some]

/-- C7: in a well-formed heap, for a live pointer `p` whose block size `c` is smaller than
`align(size + 16)` and a size with `0 < size < 2^64`, the inner `malloc(size)` of
`realloc(p, size)` returns (given enough fuel for the list searches), and when its result `q`
is not null, `realloc(p, size)` returns `q`, `q` differs from `p`, the first
`min(c - 16, size)` bytes at `q` are the bytes that were at `p` before the call, and the
header of the old block at `p` is marked free. -/
theorem realloc_move_preserves_data (s : State) (g : Ghost) (p c size : Nat) (hwf : WF s g)
    (hp : (⟨p, c, 1⟩ : Blk) ∈ g.blocks) (hsize : 0 < size) (hlt : size < U64)
    (hmove : c < align ((size + DSIZE) % U64)) :
    ∃ N, ∀ fuel, N ≤ fuel → ∃ s1 q, malloc fuel s size = some (s1, q) ∧
      (q ≠ 0 → ∃ s', realloc fuel s p size = some (s', q) ∧ q ≠ p ∧
        (∀ k, k < min (c - 16) size → s'.mem (q + k) = s.mem (p + k)) ∧
        GET_ALLOC s' (HDRP p) = some 0) := by
  obtain ⟨t1, t2, t3, t4, t5, t6, -⟩ := tiles_mem hwf.tiles hp
  dsimp only at t1 t2 t3 t4 t5 t6
  have hlay := hwf.layout
  obtain ⟨hs16, hov, hadj⟩ := move_size t3 hlt hmove
  obtain ⟨N1, hN1⟩ := malloc_spec hwf hsize hov
  obtain ⟨N0, hN0⟩ := exists_bound g.lists 14
  refine ⟨N1 + N0 + 2, fun fuel hfuel => ?_⟩
  obtain ⟨s1, q, e1, h1⟩ := hN1 fuel (by omega)
  refine ⟨s1, q, e1, fun hq => ?_⟩
  obtain ⟨g1, hw1, ⟨cq, hcq1, hcq2⟩, hold1, hfr1, hlen1⟩ := h1 hq
  have hp1 := hold1 _ hp rfl
  rw [hadj] at hcq2
  obtain ⟨s3, e3, hne, hdata, hga⟩ := realloc_move_tail (F := fuel) hw1 hp1 hcq1
    (lt_of_lt_of_le hmove hcq2)
    (fun i hi => by have h1 := hlen1 i hi; have h2 := hN0 i hi; omega)
  refine ⟨s3, ?_, hne, fun k hk => ?_, hga⟩
  · have hp0 : p ≠ 0 := by omega
    have hs0 : size ≠ 0 := by omega
    have hgs := GET_SIZE_tag hlay (b := p) (by omega) (by omega) t6 t4 t5
    unfold realloc
    rw [if_neg hp0, if_neg hs0]
    simp only []
    rw [hgs, obind_some, if_neg (not_le.mpr hmove), e1, obind_some]
    exact e3
  · have hk' : k < c - 16 := lt_of_lt_of_le hk (min_le_left _ _)
    rw [hdata k hk']
    exact hfr1 _ hp rfl (p + k) (by dsimp only; omega) (by dsimp only; omega)

set_option maxRecDepth 100000

theorem realloc_move_preserves_data_witness :
    WF sampleState sampleGhost ∧ (⟨heapBase + 160, 32, 1⟩ : Blk) ∈ sampleGhost.blocks ∧
    0 < 100 ∧ 100 < U64 ∧ 32 < align ((100 + DSIZE) % U64) ∧
    ∃ N, ∀ fuel, N ≤ fuel → ∃ s1 q, malloc fuel sampleState 100 = some (s1, q) ∧
      (q ≠ 0 → ∃ s', realloc fuel sampleState (heapBase + 160) 100 = some (s', q) ∧
        q ≠ heapBase + 160 ∧
        (∀ k, k < min (32 - 16) 100 → s'.mem (q + k) = sampleState.mem (heapBase + 160 + k)) ∧
        GET_ALLOC s' (HDRP (heapBase + 160)) = some 0) :=
  ⟨by decide, by decide, by decide, by decide, by decide,
   realloc_move_preserves_data sampleState sampleGhost (heapBase + 160) 32 100 (by decide)
     (by decide) (by decide) (by decide) (by decide)⟩

/-! ## Concrete runs -/

/-- C1: the run `mm_init`, `a = malloc(1)`, `b = malloc(100)`, `c = malloc(1)`, `free(a)`,
`free(c)`, `free(b)`, `malloc(1)` is valid and leaves the address `heapBase + 32` live;
the next `malloc(1)` returns `heapBase + 32` again, an address that is still live. -/
theorem live_address_returned_twice :
    (obind (runFromInit 8 4096 [.malloc 1, .malloc 100, .malloc 1, .free (heapBase + 32),
        .free (heapBase + 192), .free (heapBase + 64), .malloc 1]) fun t =>
      obind (malloc 8 t.st 1) fun r => some (t.results, t.live, r.2))
    = some ([heapBase + 32, heapBase + 64, heapBase + 192, 0, 0, 0, heapBase + 32],
        [(heapBase + 32, 1)], heapBase + 32) := by
  decide

/-- C2: after the valid run `mm_init`, `a = malloc(1)`, `b = malloc(100)`, `c = malloc(1)`,
`free(a)`, `free(c)`, `free(b)` the heap scan finds one block, free and of size 192;
`find_free_list` maps size 192 to list 7, but list 7 is empty and the block is a member
of list 1. -/
theorem merged_block_left_in_old_list :
    (obind (runFromInit 8 4096 [.malloc 1, .malloc 100, .malloc 1, .free (heapBase + 32),
        .free (heapBase + 192), .free (heapBase + 64)]) fun t =>
      obind (heapScan 8 t.st (t.st.heap_listp + 16)) fun hs =>
      some (hs, (List.range 14).map (bucketScan 8 t.st), (find_free_list t.st 192).2))
    = some ([(heapBase + 32, 192, 192)],
        [some [], some [heapBase + 32], some [], some [], some [], some [], some [], some [],
         some [], some [], some [], some [], some [], some []], some 7) := by
  decide

/-- C5: after the valid run `mm_init`, `z = malloc(1)`, `a = malloc(1)`, `b = malloc(100)`,
`c = malloc(1)`, `g = malloc(1)`, `free(a)`, `free(c)`, `free(b)`, `free(z)`, `malloc(1)`,
`free(g)` the forward scan of the heap finds two blocks, the first with header word 224
and the second with header word 32: two physically consecutive free blocks. -/
theorem adjacent_free_blocks_after_free :
    (obind (runFromInit 8 4096 [.malloc 1, .malloc 1, .malloc 100, .malloc 1, .malloc 1,
        .free (heapBase + 64), .free (heapBase + 224), .free (heapBase + 96), .free (heapBase + 32),
        .malloc 1, .free (heapBase + 256)]) fun t =>
      obind (heapScan 8 t.st (t.st.heap_listp + 16)) fun hs => some (t.results, hs))
    = some ([heapBase + 32, heapBase + 64, heapBase + 96, heapBase + 224, heapBase + 256, 0, 0, 0, 0,
        heapBase + 64, 0],
        [(heapBase + 32, 224, 160), (heapBase + 256, 32, 192)]) := by
  decide

/-- C6: after the valid run `mm_init`, `z = malloc(1)`, `a = malloc(1)`, `b = malloc(100)`,
`c = malloc(1)`, `free(a)`, `free(c)`, `free(b)`, `free(z)`, `malloc(1)` the only block
between prologue and epilogue has header word 224 and footer word 160. -/
theorem footer_differs_from_header :
    (obind (runFromInit 8 4096 [.malloc 1, .malloc 1, .malloc 100, .malloc 1, .free (heapBase + 64),
        .free (heapBase + 224), .free (heapBase + 96), .free (heapBase + 32), .malloc 1]) fun t =>
      obind (heapScan 8 t.st (t.st.heap_listp + 16)) fun hs => some (t.results, hs))
    = some ([heapBase + 32, heapBase + 64, heapBase + 96, heapBase + 224, 0, 0, 0, 0, heapBase + 64],
        [(heapBase + 32, 224, 160)]) := by
  decide

/-- C10: with room for 64 bytes only, after `mm_init` and `p = malloc(1)` the pointer
`p = heapBase + 32` is live and `malloc(100)` returns null; `realloc(p, 100)` then has
no result, because it copies 16 bytes to the null pointer it got from `malloc`. -/
theorem realloc_failure_copies_to_null :
    (obind (runFromInit 8 64 [.malloc 1]) fun t =>
      some (t.live, (malloc 8 t.st 100).map Prod.snd,
        (realloc 8 t.st (heapBase + 32) 100).isSome))
    = some ([(heapBase + 32, 1)], some 0, false) := by
  decide

/-! ## Degenerate requests, size classes and the adjusted size -/

set_option maxRecDepth 512

/-- C11: for every state `s` (and every fuel) `malloc(0)` returns null; the state it returns
has the same record of growth calls (no call of the growth primitive was made), the same
memory, the same 14 list heads and the same heap end as `s`. -/
theorem malloc_zero_is_noop (fuel : Nat) (s : State) :
    ∃ s', malloc fuel s 0 = some (s', 0) ∧ s'.sbrk_calls = s.sbrk_calls ∧ s'.mem = s.mem ∧
      s'.freeblk_listp = s.freeblk_listp ∧ s'.mem_brk = s.mem_brk :=
  ⟨s, rfl, rfl, rfl, rfl, rfl⟩

theorem find_free_list_snd (s : State) {size : Nat} (h : 1 ≤ size) :
    (find_free_list s size).2 = some (size_class size) := by
  unfold find_free_list
  rw [if_neg (by omega)]

theorem size_class_bounds (n : Nat) :
    sizes.getD (size_class n) 0 ≤ n ∧ (size_class n < 13 → n < sizes.getD (size_class n + 1) 0) := by
  by_cases h0 : n < 32
  · have e : size_class n = 0 := by
      unfold size_class
      rw [if_pos (by omega)]
    rw [e]
    exact ⟨(by omega : 0 ≤ n), fun _ => h0⟩
  by_cases h1 : n < 48
  · have e : size_class n = 1 := by
      unfold size_class
      repeat rw [if_neg (by omega)]
      rw [if_pos (by omega)]
    rw [e]
    exact ⟨(by omega : 32 ≤ n), fun _ => h1⟩
  by_cases h2 : n < 64
  · have e : size_class n = 2 := by
      unfold size_class
      repeat rw [if_neg (by omega)]
      rw [if_pos (by omega)]
    rw [e]
    exact ⟨(by omega : 48 ≤ n), fun _ => h2⟩
  by_cases h3 : n < 80
  · have e : size_class n = 3 := by
      unfold size_class
      repeat rw [if_neg (by omega)]
      rw [if_pos (by omega)]
    rw [e]
    exact ⟨(by omega : 64 ≤ n), fun _ => h3⟩
  by_cases h4 : n < 96
  · have e : size_class n = 4 := by
      unfold size_class
      repeat rw [if_neg (by omega)]
      rw [if_pos (by omega)]
    rw [e]
    exact ⟨(by omega : 80 ≤ n), fun _ => h4⟩
  by_cases h5 : n < 112
  · have e : size_class n = 5 := by
      unfold size_class
      repeat rw [if_neg (by omega)]
      rw [if_pos (by omega)]
    rw [e]
    exact ⟨(by omega : 96 ≤ n), fun _ => h5⟩
  by_cases h6 : n < 128
  · have e : size_class n = 6 := by
      unfold size_class
      repeat rw [if_neg (by omega)]
      rw [if_pos (by omega)]
    rw [e]
    exact ⟨(by omega : 112 ≤ n), fun _ => h6⟩
  by_cases h7 : n < 512
  · have e : size_class n = 7 := by
      unfold size_class
      repeat rw [if_neg (by omega)]
      rw [if_pos (by omega)]
    rw [e]
    exact ⟨(by omega : 128 ≤ n), fun _ => h7⟩
  by_cases h8 : n < 2048
  · have e : size_class n = 8 := by
      unfold size_class
      repeat rw [if_neg (by omega)]
      rw [if_pos (by omega)]
    rw [e]
    exact ⟨(by omega : 512 ≤ n), fun _ => h8⟩
  by_cases h9 : n < 8192
  · have e : size_class n = 9 := by
      unfold size_class
      repeat rw [if_neg (by omega)]
      rw [if_pos (by omega)]
    rw [e]
    exact ⟨(by omega : 2048 ≤ n), fun _ => h9⟩
  by_cases h10 : n < 32768
  · have e : size_class n = 10 := by
      unfold size_class
      repeat rw [if_neg (by omega)]
      rw [if_pos (by omega)]
    rw [e]
    exact ⟨(by omega : 8192 ≤ n), fun _ => h10⟩
  by_cases h11 : n < 131072
  · have e : size_class n = 11 := by
      unfold size_class
      repeat rw [if_neg (by omega)]
      rw [if_pos (by omega)]
    rw [e]
    exact ⟨(by omega : 32768 ≤ n), fun _ => h11⟩
  by_cases h12 : n < 524288
  · have e : size_class n = 12 := by
      unfold size_class
      repeat rw [if_neg (by omega)]
      rw [if_pos (by omega)]
    rw [e]
    exact ⟨(by omega : 131072 ≤ n), fun _ => h12⟩
  have e : size_class n = 13 := by
    unfold size_class
    repeat rw [if_neg (by omega)]
  rw [e]
  exact ⟨(by omega : 524288 ≤ n), fun h => absurd h (by omega)⟩

theorem sizes_mono : ∀ a, a < 14 → ∀ b, b < 14 → a ≤ b → sizes.getD a 0 ≤ sizes.getD b 0 := by
  decide

theorem size_class_unique {n j : Nat} (hj : j < 14) (h1 : sizes.getD j 0 ≤ n)
    (h2 : j < 13 → n < sizes.getD (j + 1) 0) : j = size_class n := by
  obtain ⟨b1, b2⟩ := size_class_bounds n
  have hi := size_class_lt n
  rcases Nat.lt_trichotomy j (size_class n) with h | h | h
  · have := sizes_mono (j + 1) (by omega) (size_class n) hi h
    have := h2 (by omega)
    omega
  · exact h
  · have := sizes_mono (size_class n + 1) (by omega) j hj h
    have := b2 (by omega)
    omega

theorem size_class_mono {n n' : Nat} (h : n ≤ n') : size_class n ≤ size_class n' := by
  obtain ⟨b1, b2⟩ := size_class_bounds n
  obtain ⟨c1, c2⟩ := size_class_bounds n'
  have hi := size_class_lt n
  have hi' := size_class_lt n'
  by_contra hlt
  have := sizes_mono (size_class n' + 1) (by omega) (size_class n) hi (by omega)
  have := c2 (by omega)
  omega

/-- C17: `find_free_list(0)` selects no list (`NULL`); for every size `≥ 1` it selects a list
`i < 14` with `sizes[i] ≤ size`, and `size < sizes[i + 1]` when `i < 13` (and `i = 13` when
`size ≥ 524288`), where `sizes` is the table
`[0, 32, 48, 64, 80, 96, 112, 128, 512, 2048, 8192, 32768, 131072, 524288]`; `i` is the only
index with these bounds, and the selected index does not decrease when the size grows. -/
theorem find_free_list_classifies (s : State) (size : Nat) :
    (find_free_list s 0).2 = none ∧
    (1 ≤ size → ∃ i, i < 14 ∧ (find_free_list s size).2 = some i ∧
      sizes.getD i 0 ≤ size ∧ (i < 13 → size < sizes.getD (i + 1) 0) ∧
      (524288 ≤ size → i = 13) ∧
      (∀ j, j < 14 → sizes.getD j 0 ≤ size → (j < 13 → size < sizes.getD (j + 1) 0) → j = i) ∧
      ∀ size' j, size ≤ size' → (find_free_list s size').2 = some j → i ≤ j) := by
  refine ⟨rfl, fun h => ⟨size_class size, size_class_lt _, find_free_list_snd s h,
    (size_class_bounds size).1, (size_class_bounds size).2, fun hbig => ?_,
    fun j hj h1 h2 => size_class_unique hj h1 h2, fun size' j hle hj => ?_⟩⟩
  · have hi := size_class_lt size
    by_contra hne
    have := sizes_mono (size_class size + 1) (by omega) 13 (by omega) (by omega)
    have := (size_class_bounds size).2 (by omega)
    have e13 : sizes.getD 13 0 = 524288 := rfl
    omega
  · rw [find_free_list_snd s (le_trans h hle)] at hj
    rw [← Option.some.inj hj]
    exact size_class_mono hle

theorem obind_map {α β : Type} (x : Option α) (f : α → β) :
    (obind x fun a => some (f a)) = x.map f := by
  cases x <;> rfl

/-- C19: `realloc(NULL, size)` is `malloc(size)`: same result and same final state (also when
there is none); for `p ≠ NULL`, `realloc(p, 0)` is `free(p)` followed by the result null; and
when `p` is a live pointer of a well-formed heap, `free(p)` returns (given enough fuel for
the list searches), so that `realloc(p, 0)` returns null in the state that `free(p)`
produces. -/
theorem realloc_degenerate (fuel : Nat) (s : State) (size : Nat) :
    realloc fuel s 0 size = malloc fuel s size ∧
    (∀ p, p ≠ 0 → realloc fuel s p 0 = (free fuel s p).map fun s1 => (s1, 0)) ∧
    (∀ g p c, WF s g → (⟨p, c, 1⟩ : Blk) ∈ g.blocks → ∃ N, ∀ fuel', N ≤ fuel' →
      ∃ s', free fuel' s p = some s' ∧ realloc fuel' s p 0 = some (s', 0)) := by
  refine ⟨rfl, fun p hp => ?_, fun g p c hwf hp => ?_⟩
  · unfold realloc
    rw [if_neg hp, if_pos rfl]
    exact obind_map _ _
  · obtain ⟨N0, hN0⟩ := exists_bound g.lists 14
    refine ⟨N0 + 1, fun fuel' hf => ?_⟩
    obtain ⟨s', e', -⟩ := free_spec (F := fuel') hwf hp
      (fun i hi => by have := hN0 i hi; omega)
    obtain ⟨t1, -⟩ := tiles_mem hwf.tiles hp
    have hl := hwf.layout.1
    dsimp only at t1
    refine ⟨s', e', ?_⟩
    unfold realloc
    rw [if_neg (by omega), if_pos rfl, e']
    rfl

/-- C20 as stated fails: for the 64-bit request size `2^64 - 1` the sum `size + 16` wraps
around, and the adjusted size that `malloc` computes is 16: it is smaller than 32, smaller
than `size + 16`, and not `max(32, size + 16 rounded up to a multiple of 16)`. -/
theorem adjusted_size_wraps :
    1 ≤ 18446744073709551615 ∧ 18446744073709551615 < U64 ∧
    (if 18446744073709551615 ≤ DSIZE then 2 * DSIZE
      else align ((18446744073709551615 + DSIZE) % U64)) = 16 ∧
    ¬ (32 ≤ (if 18446744073709551615 ≤ DSIZE then 2 * DSIZE
      else align ((18446744073709551615 + DSIZE) % U64))) ∧
    ¬ (18446744073709551615 + 16 ≤ (if 18446744073709551615 ≤ DSIZE then 2 * DSIZE
      else align ((18446744073709551615 + DSIZE) % U64))) ∧
    (if 18446744073709551615 ≤ DSIZE then 2 * DSIZE
      else align ((18446744073709551615 + DSIZE) % U64)) ≠
      max 32 (16 * ((18446744073709551615 + 16 + 15) / 16)) := by
  decide

/-- C20 (amended): for every request size `≥ 1` with `size + 31 < 2^64` the adjusted block
size that `malloc` computes, `size ≤ 16 ? 32 : align(size + 16)`, equals
`max(32, size + 16 rounded up to a multiple of 16)`; it is a multiple of 16, at least 32 and
at least `size + 16`, and the adjusted size `align(size + 16)` of `realloc` has the same
three properties. -/
theorem adjusted_size_spec (size : Nat) (hsize : 1 ≤ size) (hov : size + 31 < U64) :
    (if size ≤ DSIZE then 2 * DSIZE else align ((size + DSIZE) % U64)) =
      max 32 (16 * ((size + 16 + 15) / 16)) ∧
    (if size ≤ DSIZE then 2 * DSIZE else align ((size + DSIZE) % U64)) % 16 = 0 ∧
    32 ≤ (if size ≤ DSIZE then 2 * DSIZE else align ((size + DSIZE) % U64)) ∧
    size + 16 ≤ (if size ≤ DSIZE then 2 * DSIZE else align ((size + DSIZE) % U64)) ∧
    align ((size + DSIZE) % U64) % 16 = 0 ∧ 32 ≤ align ((size + DSIZE) % U64) ∧
    size + 16 ≤ align ((size + DSIZE) % U64) := by
  have hU : U64 = 18446744073709551616 := rfl
  have hal : align ((size + DSIZE) % U64) = 16 * ((size + 16 + 15) / 16) := by
    unfold align DSIZE ALIGNMENT
    rw [Nat.mod_eq_of_lt (by omega : size + 16 < U64),
      Nat.mod_eq_of_lt (by omega : size + 16 + 16 - 1 < U64), Nat.mod_eq_of_lt (by omega),
      show size + 16 + 16 - 1 = size + 16 + 15 from rfl]
  rw [hal]
  unfold DSIZE
  by_cases h : size ≤ 16
  · rw [if_pos h]
    refine ⟨by omega, by omega, by omega, by omega, by omega, by omega, by omega⟩
  · rw [if_neg h]
    refine ⟨by omega, by omega, by omega, by omega, by omega, by omega, by omega⟩

theorem adjusted_size_spec_witness :
    1 ≤ 100 ∧ 100 + 31 < U64 ∧
    ((if 100 ≤ DSIZE then 2 * DSIZE else align ((100 + DSIZE) % U64)) =
      max 32 (16 * ((100 + 16 + 15) / 16)) ∧
    (if 100 ≤ DSIZE then 2 * DSIZE else align ((100 + DSIZE) % U64)) % 16 = 0 ∧
    32 ≤ (if 100 ≤ DSIZE then 2 * DSIZE else align ((100 + DSIZE) % U64)) ∧
    100 + 16 ≤ (if 100 ≤ DSIZE then 2 * DSIZE else align ((100 + DSIZE) % U64)) ∧
    align ((100 + DSIZE) % U64) % 16 = 0 ∧ 32 ≤ align ((100 + DSIZE) % U64) ∧
    100 + 16 ≤ align ((100 + DSIZE) % U64)) :=
  ⟨by decide, by decide, adjusted_size_spec 100 (by decide) (by decide)⟩

/-! ## Reuse of freed blocks, shrinking `realloc`, `calloc` -/

/-- The header word that `GET` reads for a block of a well-formed heap. -/
theorem WF.header {s : State} {g : Ghost} (hwf : WF s g) {b : Blk} (hb : b ∈ g.blocks) :
    GET s (HDRP b.bp) = some (PACK b.size b.alloc) := by
  obtain ⟨t1, t2, t3, t4, t5, t6, t7⟩ := tiles_mem hwf.tiles hb
  have hlay := hwf.layout
  obtain ⟨hl1, hl2, hl3, hl4⟩ := hlay
  have hU : U64 = 18446744073709551616 := rfl
  rw [HDRP_eq (by omega) (by omega), GET_eq (by omega) (by omega), t6]

/-- `free` of an allocated block whose two neighbours are allocated (case 1 of `coalesce`):
the block becomes the first member of the list of its size. -/
theorem free_case1_spec {s : State} {g : Ghost} {pre post : List Blk} {p c : Nat}
    (hwf : WF s g) (hdec : g.blocks = pre ++ ⟨p, c, 1⟩ :: post) (hpa : prevAlloc pre = 1)
    (hna : nextAlloc post = 1) (fuel : Nat) :
    ∃ s', free fuel s p = some s' ∧
      WF s' ⟨pre ++ [⟨p, c, 0⟩] ++ post,
        setList g.lists (size_class c) (p :: g.lists (size_class c))⟩ ∧ sameRange s s' := by
  have hdec3 : g.blocks = pre ++ [⟨p, c, 1⟩] ++ post := by
    rw [hdec, List.append_assoc, List.singleton_append]
  obtain ⟨a, e, ha, hm, he⟩ := hwf.split3 hdec3
  have hm' := hm
  obtain ⟨hb1, hb2, hb3, hb4, hb5, hb6, hm2⟩ := hm'
  dsimp only at hb1 hb2 hb3 hb4 hb5 hb6 hm2
  subst hb1
  subst hm2
  have hlay := hwf.layout
  have hl := hlay
  obtain ⟨hl1, hl2, hl3, hl4⟩ := hl
  have hbrk := tiles_le he
  have hp0 := tiles_le ha
  have hgeo : ∀ i, i < 14 → ∀ y ∈ g.lists i, y + 32 ≤ p ∨ p + c ≤ y := by
    intro i hi y hy
    rcases hwf.member_geo hdec3 ha he hi hy with ⟨b, hb, hby, hba⟩ | h | h
    · rw [List.mem_singleton.mp hb] at hba
      exact absurd hba Nat.one_ne_zero
    · exact Or.inl h
    · exact Or.inr h
  obtain ⟨hw2, -⟩ := hwf.splice (t := { s with mem := retagMem s.mem p c 0 })
    (N := [⟨p, c, 0⟩]) (K := g.lists) hdec3 ha hm he ⟨rfl, rfl, rfl, rfl, rfl⟩
    ⟨rfl, hb2, hb3, Nat.zero_lt_two,
      retag_hdr _ (by omega) (by omega) hb3 (by decide) (by unfold U64 at hl4 ⊢; omega),
      retag_ftr _ hb3 (by decide) (by unfold U64 at hl4 ⊢; omega), rfl⟩
    (byteFrame_retag _ _ 0 (by omega) (by omega) (by omega) (by omega))
    (ListsOK_retag 0 hwf.lists (by omega) (by omega) hgeo)
    (fun i hi b hb => Or.inr ⟨⟨i, hi, hb⟩, hgeo i hi b hb⟩)
  obtain ⟨s', e', hw', hr', -, -⟩ := coalesce_case1_spec hw2 (A := pre) (Z := post)
    (B := ⟨p, c, 0⟩)
    (by simp only [List.append_assoc, List.singleton_append, List.cons_append,
      List.nil_append])
    rfl (fun i hi h => by have := hgeo i hi _ h; dsimp only at this; omega) hpa hna fuel
  refine ⟨s', ?_, hw', sameRange_trans (sameRange_mem s _) hr'⟩
  unfold free
  rw [GET_SIZE_tag hlay (by omega) (by omega) hb5 hb3 hb4]
  simp only [obind_some]
  rw [retag_exec hlay (by omega) (by omega) (by omega) hb3 (by decide), e']
  rfl

/-- C13: in a well-formed heap, for a live pointer `p` (an allocated block of size `c`) whose
two physical neighbours are allocated (prologue and epilogue count as allocated), `free(p)`
returns, and a `malloc(size)` that follows it with `size ≥ 1` and adjusted size equal to `c`
returns `p`; no call of the growth primitive is made (the record of growth calls and the
heap end are the same as before `free`). -/
theorem freed_block_is_reused (s : State) (g : Ghost) (pre post : List Blk) (p c size : Nat)
    (hwf : WF s g) (hdec : g.blocks = pre ++ ⟨p, c, 1⟩ :: post) (hprev : prevAlloc pre = 1)
    (hnext : nextAlloc post = 1) (hsize : 1 ≤ size) (hadj : adjusted size = c) :
    ∃ N, ∀ fuel, N ≤ fuel → ∃ s1 s2, free fuel s p = some s1 ∧
      malloc fuel s1 size = some (s2, p) ∧ s2.sbrk_calls = s.sbrk_calls ∧
      s2.mem_brk = s.mem_brk := by
  obtain ⟨N0, hN0⟩ := exists_bound g.lists 14
  refine ⟨N0 + 1, fun fuel hfuel => ?_⟩
  obtain ⟨s1, e1, hw1, hr1⟩ := free_case1_spec hwf hdec hprev hnext fuel
  have hin : (⟨p, c, 0⟩ : Blk) ∈ pre ++ [⟨p, c, 0⟩] ++ post :=
    mem_middle (List.mem_singleton.mpr rfl)
  obtain ⟨b1, b2, b3, b4, b5, b6, -⟩ := tiles_mem hw1.tiles hin
  dsimp only at b1 b2 b3 b4 b5 b6
  have hsz : hdrSize s1.mem p = c := hdrSize_of_tag b6 b4 b5
  have hlay1 := hw1.layout
  have hL1 : ListsOK s1 (setList g.lists (size_class c) (p :: g.lists (size_class c))) :=
    hw1.lists
  have hlen : ∀ i, i < 14 →
      (setList g.lists (size_class c) (p :: g.lists (size_class c)) i).length < fuel := by
    intro i hi
    have h1 := length_enlist g.lists c p i
    have h2 := hN0 i hi
    exact lt_of_le_of_lt h1 (by omega)
  have hw1' : WF { s1 with curr_freelist := some (size_class c) }
      ⟨pre ++ [⟨p, c, 0⟩] ++ post,
        setList g.lists (size_class c) (p :: g.lists (size_class c))⟩ := hw1
  obtain ⟨s2, g2, e2, -, hr2, -⟩ := place_spec (F := fuel) hw1' (B := ⟨p, c, 0⟩) hin b3 b4
    (le_refl _) hlen
  refine ⟨s1, s2, e1, ?_, hr2.1.trans hr1.1, hr2.2.2.1.trans hr1.2.2.1⟩
  have hff : firstFit s1.mem c
      (setList g.lists (size_class c) (p :: g.lists (size_class c)) (size_class c)) = p := by
    rw [setList_same, firstFit, if_pos (le_of_eq hsz.symm)]
  rw [malloc_unfold fuel s1 size (by omega), hadj,
    find_fit_given_free_list_spec hlay1 hL1 (by omega) (size_class_lt _)
      (hlen _ (size_class_lt _))]
  simp only [obind_some]
  rw [hff, if_pos (by omega : p ≠ 0)]
  dsimp only at e2
  rw [e2]
  rfl

set_option maxRecDepth 100000

theorem freed_block_is_reused_witness :
    WF pairState pairGhost ∧
    ∃ N, ∀ fuel, N ≤ fuel → ∃ s1 s2, free fuel pairState (heapBase + 32) = some s1 ∧
      malloc fuel s1 1 = some (s2, heapBase + 32) ∧ s2.sbrk_calls = pairState.sbrk_calls ∧
      s2.mem_brk = pairState.mem_brk :=
  ⟨by decide,
   freed_block_is_reused pairState pairGhost [] [⟨heapBase + 64, 32, 1⟩] (heapBase + 32) 32 1
     (by decide) (by decide) (by decide) (by decide) (by decide) (by decide)⟩

/-- C18 as stated fails: in the well-formed heap `sampleState` the pointer
`p = heapBase + 160` is live with block size `c = 32`, and for `size = 2^64 - 16` the sum
`size + 16` wraps to 0, so that `a = align(size + 16) = 0` and `c - a = 32`;
`realloc(p, size)` returns `p`, but the header of the block at `p` then has size 64 and a
clear allocated bit: the block is not allocated with size `a`. -/
theorem realloc_shrink_overflow_frees_block :
    WF sampleState sampleGhost ∧ (⟨heapBase + 160, 32, 1⟩ : Blk) ∈ sampleGhost.blocks ∧
    0 < 18446744073709551600 ∧ align ((18446744073709551600 + DSIZE) % U64) = 0 ∧
    32 ≤ 32 - align ((18446744073709551600 + DSIZE) % U64) ∧
    (realloc 8 sampleState (heapBase + 160) 18446744073709551600).map
      (fun r => (r.2, GET_SIZE r.1 (HDRP (heapBase + 160)),
        GET_ALLOC r.1 (HDRP (heapBase + 160)))) = some (heapBase + 160, some 64, some 0) := by
  decide

set_option maxRecDepth 512

/-- C18 (amended): in a well-formed heap, for a live pointer `p` with block size `c` and a
size with `size > 0` and `size + 31 < 2^64` such that `c - a ≥ 32` for `a = align(size + 16)`,
`realloc(p, size)` returns `p` (given enough fuel for the list searches); afterwards the
heap is well formed, the block at `p` is allocated with size exactly `a`, and the block that
starts at `p + a` is free, has a size `c'` of at least `c - a`, and is a member of the list
that its size selects; the header words at `p` and `p + a` say so. -/
theorem realloc_shrink_splits (s : State) (g : Ghost) (p c size : Nat) (hwf : WF s g)
    (hp : (⟨p, c, 1⟩ : Blk) ∈ g.blocks) (hsize : 0 < size) (hov : size + 31 < U64)
    (hrem : 32 ≤ c - align ((size + DSIZE) % U64)) :
    ∃ N, ∀ fuel, N ≤ fuel → ∃ s' g' c', realloc fuel s p size = some (s', p) ∧ WF s' g' ∧
      (⟨p, align ((size + DSIZE) % U64), 1⟩ : Blk) ∈ g'.blocks ∧
      (⟨p + align ((size + DSIZE) % U64), c', 0⟩ : Blk) ∈ g'.blocks ∧
      c - align ((size + DSIZE) % U64) ≤ c' ∧
      p + align ((size + DSIZE) % U64) ∈ g'.lists (size_class c') ∧
      GET s' (HDRP p) = some (PACK (align ((size + DSIZE) % U64)) 1) ∧
      GET s' (HDRP (p + align ((size + DSIZE) % U64))) = some (PACK c' 0) := by
  obtain ⟨N, hN⟩ := exists_bound g.lists 14
  refine ⟨N, fun fuel hfuel => ?_⟩
  obtain ⟨pre, post, hdec0⟩ := List.append_of_mem hp
  have hdec : g.blocks = pre ++ [⟨p, c, 1⟩] ++ post := by
    rw [hdec0, List.append_assoc, List.singleton_append]
  obtain ⟨t1, t2, t3, t4, t5, t6, t7⟩ := tiles_mem hwf.tiles hp
  dsimp only at t1 t2 t3 t4 t5 t6 t7
  have hlay := hwf.layout
  have hl := hlay
  obtain ⟨hl1, hl2, hl3, hl4⟩ := hl
  have hm : (size + DSIZE) % U64 = size + 16 :=
    Nat.mod_eq_of_lt (by unfold DSIZE; unfold U64 at hov ⊢; omega)
  obtain ⟨a1, a2, a3⟩ := align_spec (x := size + 16) (by unfold U64 at hov ⊢; omega)
  rw [hm] at hrem ⊢
  obtain ⟨s', g', e', ⟨hw', -⟩, hin1, c', hc1, hc2, hc3⟩ := place_spec_split (F := fuel) hwf
    (B := ⟨p, c, 1⟩) hdec (by omega : 32 ≤ align (size + 16)) a1 (by dsimp only; omega)
    (fun i hi => lt_of_lt_of_le (hN i hi) hfuel)
  dsimp only at e' hin1 hc1 hc2 hc3
  have hh1 := hw'.header hin1
  have hh2 := hw'.header hc1
  dsimp only at hh1 hh2
  refine ⟨s', g', c', ?_, hw', hin1, hc1, hc2, hc3, hh1, hh2⟩
  unfold realloc
  rw [if_neg (by omega), if_neg (by omega), hm]
  simp only []
  rw [GET_SIZE_tag hlay (by omega) (by omega) t6 t4 t5]
  simp only [obind_some]
  rw [if_pos (by omega : c ≥ align (size + 16)), e']
  rfl

set_option maxRecDepth 100000

theorem realloc_shrink_splits_witness :
    WF blockState blockGhost ∧ (⟨heapBase + 32, 128, 1⟩ : Blk) ∈ blockGhost.blocks ∧
    ∃ N, ∀ fuel, N ≤ fuel → ∃ s' g' c',
      realloc fuel blockState (heapBase + 32) 10 = some (s', heapBase + 32) ∧ WF s' g' ∧
      (⟨heapBase + 32, align ((10 + DSIZE) % U64), 1⟩ : Blk) ∈ g'.blocks ∧
      (⟨heapBase + 32 + align ((10 + DSIZE) % U64), c', 0⟩ : Blk) ∈ g'.blocks ∧
      128 - align ((10 + DSIZE) % U64) ≤ c' ∧
      heapBase + 32 + align ((10 + DSIZE) % U64) ∈ g'.lists (size_class c') ∧
      GET s' (HDRP (heapBase + 32)) = some (PACK (align ((10 + DSIZE) % U64)) 1) ∧
      GET s' (HDRP (heapBase + 32 + align ((10 + DSIZE) % U64))) = some (PACK c' 0) :=
  ⟨by decide, by decide,
   realloc_shrink_splits blockState blockGhost (heapBase + 32) 128 10 (by decide) (by decide)
     (by decide) (by decide) (by decide)⟩

set_option maxRecDepth 512

theorem memset0_eq {s : State} {p n : Nat} (hn : n ≠ 0) (h1 : s.mem_start_brk ≤ p)
    (h2 : p + n ≤ s.mem_brk) :
    memset0 s p n = some { s with mem := fun a => if p ≤ a ∧ a < p + n then 0 else s.mem a } := by
  unfold memset0 inHeapRange
  rw [if_neg hn, if_pos ⟨h1, h2⟩]

set_option maxRecDepth 100000

/-- C12 as stated fails: for `count = 1` and `size = 2^64 - 1` the product does not overflow
64 bits; on the well-formed heap right after `mm_init`, `malloc(2^64 - 1)` returns the
non-null pointer `heapBase + 32` (its adjusted size wraps around to 16), but
`calloc(1, 2^64 - 1)` has no result: it fills `2^64 - 1` bytes from that pointer on, far
beyond the end of the heap. -/
theorem calloc_overflow_has_no_result :
    WF (initState 4096) emptyGhost ∧ 1 * 18446744073709551615 < U64 ∧
    (malloc 8 (initState 4096) (1 * 18446744073709551615)).map Prod.snd =
      some (heapBase + 32) ∧
    (calloc 8 (initState 4096) 1 18446744073709551615).isSome = false := by
  decide

set_option maxRecDepth 512

/-- C12 (amended): in a well-formed heap, for `count` and `size` whose product `n` satisfies
`n + 31 < 2^64`, `malloc(n)` returns (given enough fuel for the list searches) a state `s1`
and a pointer `p`, and `calloc(count, size)` returns the same pointer `p` in a state that
differs from `s1` only in the bytes of `[p, p + n)`; when `p` is not null these bytes are all
0, and the same description `g'` of blocks and lists fits both states, with an allocated
block of at least `n + 16` bytes at `p`. -/
theorem calloc_zero_fills (s : State) (g : Ghost) (count size : Nat) (hwf : WF s g)
    (hov : count * size + 31 < U64) :
    ∃ N, ∀ fuel, N ≤ fuel → ∃ s1 p m, malloc fuel s (count * size) = some (s1, p) ∧
      calloc fuel s count size = some ({ s1 with mem := m }, p) ∧
      (∀ a, (a < p ∨ p + count * size ≤ a) → m a = s1.mem a) ∧
      (p ≠ 0 → (∀ a, p ≤ a → a < p + count * size → m a = 0) ∧
        ∃ g' c, WF s1 g' ∧ WF { s1 with mem := m } g' ∧ (⟨p, c, 1⟩ : Blk) ∈ g'.blocks ∧
          count * size + 16 ≤ c) := by
  have hU : U64 = 18446744073709551616 := rfl
  have hmod : (size * count) % U64 = count * size := by
    rw [Nat.mul_comm size count]
    exact Nat.mod_eq_of_lt (by omega)
  have hcal : ∀ fuel, calloc fuel s count size =
      obind (malloc fuel s (count * size)) fun r1 =>
        if r1.2 ≠ 0 then obind (memset0 r1.1 r1.2 (count * size)) fun s2 => some (s2, r1.2)
        else some (r1.1, r1.2) := by
    intro fuel
    unfold calloc
    rw [hmod]
  by_cases hn : count * size = 0
  · refine ⟨0, fun fuel _ => ⟨s, 0, s.mem, ?_, ?_, fun _ _ => rfl, fun h => absurd rfl h⟩⟩
    · rw [hn]
      rfl
    · rw [hcal, hn]
      rfl
  · obtain ⟨N, hN⟩ := malloc_spec hwf (Nat.one_le_iff_ne_zero.mpr hn) hov
    obtain ⟨a1, a2, a3, a4⟩ := adjusted_spec (Nat.one_le_iff_ne_zero.mpr hn) hov
    refine ⟨N, fun fuel hfuel => ?_⟩
    obtain ⟨s1, p, e, h⟩ := hN fuel hfuel
    by_cases hp : p = 0
    · refine ⟨s1, p, s1.mem, e, ?_, fun _ _ => rfl, fun h' => absurd hp h'⟩
      rw [hcal, e]
      simp only [obind_some]
      rw [if_neg (not_not.mpr hp)]
    · obtain ⟨g', hw', ⟨c, hc1, hc2⟩, -⟩ := h hp
      obtain ⟨t1, t2, t3, -⟩ := tiles_mem hw'.tiles hc1
      dsimp only at t1 t2 t3
      have hlay := hw'.layout
      obtain ⟨hl1, hl2, hl3, hl4⟩ := hlay
      refine ⟨s1, p, fun a => if p ≤ a ∧ a < p + count * size then 0 else s1.mem a, e, ?_,
        fun a ha => if_neg (by omega), fun _ => ⟨fun a h1 h2 => if_pos ⟨h1, h2⟩,
          g', c, hw', WF_payload_write hw' hc1 (fun a ha => if_neg (by omega)), hc1,
          by omega⟩⟩
      rw [hcal, e]
      simp only [obind_some]
      rw [if_pos hp, memset0_eq hn (by omega) (by omega)]
      rfl

set_option maxRecDepth 100000

theorem calloc_zero_fills_witness :
    WF (initState 4096) emptyGhost ∧ 4 * 8 + 31 < U64 ∧
    ∃ N, ∀ fuel, N ≤ fuel → ∃ s1 p m, malloc fuel (initState 4096) (4 * 8) = some (s1, p) ∧
      calloc fuel (initState 4096) 4 8 = some ({ s1 with mem := m }, p) ∧
      (∀ a, (a < p ∨ p + 4 * 8 ≤ a) → m a = s1.mem a) ∧
      (p ≠ 0 → (∀ a, p ≤ a → a < p + 4 * 8 → m a = 0) ∧
        ∃ g' c, WF s1 g' ∧ WF { s1 with mem := m } g' ∧ (⟨p, c, 1⟩ : Blk) ∈ g'.blocks ∧
          4 * 8 + 16 ≤ c) :=
  ⟨by decide, by decide, calloc_zero_fills (initState 4096) emptyGhost 4 8 (by decide) (by decide)⟩

/-- C16: after the valid run `mm_init`, `a = malloc(100)`, `malloc(1)`, `c = malloc(200)`,
`malloc(1)`, `free(a)` bucket 7 holds the block `a` of size 128 and is in non-decreasing size
order; `free(c)` then hands the free block `c` of size 224 to `place_freeblk`, and
afterwards bucket 7 is `c` (size 224) followed by `a` (size 128): the block was linked in
front of the head and not at the tail, and the bucket is no longer in non-decreasing
order. -/
theorem place_freeblk_breaks_order :
    (obind (runFromInit 8 4096 [.malloc 100, .malloc 1, .malloc 200, .malloc 1,
        .free (heapBase + 32)]) fun t =>
      obind (free 8 t.st (heapBase + 192)) fun s' =>
      some (t.results, bucketSizes 8 t.st 7, bucketSizes 8 s' 7))
    = some ([heapBase + 32, heapBase + 160, heapBase + 192, heapBase + 416, 0],
        some [(heapBase + 32, 128)],
        some [(heapBase + 192, 224), (heapBase + 32, 128)]) := by
  decide

/-! ## Growth calls of `malloc` -/

set_option maxRecDepth 512

theorem firstFit_of_fit {m : Nat → Nat} {asize : Nat} {l : List Nat}
    (h : ∃ b ∈ l, asize ≤ hdrSize m b) : firstFit m asize l ∈ l := by
  induction l with
  | nil =>
    obtain ⟨b, hb, -⟩ := h
    exact absurd hb (List.not_mem_nil b)
  | cons a r ih =>
    rw [firstFit]
    by_cases hc : asize ≤ hdrSize m a
    · rw [if_pos hc]
      exact List.mem_cons_self _ _
    · rw [if_neg hc]
      obtain ⟨b, hb, hle⟩ := h
      rcases List.mem_cons.mp hb with e | e
      · rw [e] at hle
        exact absurd hle hc
      · exact List.mem_cons_of_mem _ (ih ⟨b, e, hle⟩)

/-- `extend_heap` on a well-formed heap when the growth primitive succeeds: one growth call
is recorded, the heap end moves by `size`, and the block at the returned address is the new
block itself when the last block of the heap is allocated. -/
theorem extend_heap_log {s : State} {g : Ghost} {size F : Nat} (hwf : WF s g)
    (hs1 : 32 ≤ size) (hs2 : size % 16 = 0) (hfit : s.mem_brk + size ≤ s.mem_max_addr)
    (hfuel : ∀ i, i < 14 → (g.lists i).length < F) :
    ∃ s' g' r c, extend_heap F s size = some (s', r) ∧ WF s' g' ∧
      (⟨r, c, 0⟩ : Blk) ∈ g'.blocks ∧ size ≤ c ∧
      s'.sbrk_calls = s.sbrk_calls ++ [size] ∧ s'.mem_brk = s.mem_brk + size ∧
      (∀ i, i < 14 → (g'.lists i).length ≤ (g.lists i).length + 1) ∧
      (prevAlloc g.blocks = 1 → r = s.mem_brk) := by
  have hw3 := WF_grow hwf hs1 hs2 hfit
  have hnot : ∀ i, i < 14 → s.mem_brk ∉ g.lists i := fun i hi h => by
    have := (hwf.member_range hi h).2
    omega
  by_cases hlast : prevAlloc g.blocks = 1
  · obtain ⟨s', g', c, e', ⟨hw', hr', -, -, -, hlen, -⟩, hc1, hc2, -⟩ := coalesce_after_alloc hw3
      (A := g.blocks) (Z := []) (B := ⟨s.mem_brk, size, 0⟩) (F := F) rfl rfl hnot
      hlast hfuel
    refine ⟨s', g', s.mem_brk, c, ?_, hw', hc1, hc2, hr'.1, hr'.2.2.1, hlen, fun _ => rfl⟩
    rw [extend_heap_exec F hwf.layout (by omega) hs2 hfit]
    exact e'
  · obtain ⟨s', g', r, e', hw', hr', -, -, -, hlen, c, hc1, hc2, hc3⟩ := coalesce_wf hw3
      (A := g.blocks) (Z := []) (B := ⟨s.mem_brk, size, 0⟩) (F := F) rfl rfl hnot
      (Or.inr (by rw [nextAlloc_nil]; exact Nat.one_ne_zero)) hfuel
    dsimp only at hc2 hc3
    refine ⟨s', g', r, c, ?_, hw', hc1, by omega, hr'.1, hr'.2.2.1, hlen,
      fun h => absurd h hlast⟩
    rw [extend_heap_exec F hwf.layout (by omega) hs2 hfit]
    exact e'

/-- The growth calls of `malloc` on a well-formed heap for a request whose adjusted size does
not wrap around: with a fit in the list of the adjusted size no call is made; without one,
exactly one call is made, for the adjusted size, and when it succeeds the result is not null
and, if the last block of the heap is allocated, it is the old heap end. -/
theorem malloc_log_spec {s : State} {g : Ghost} {size : Nat} (hwf : WF s g) (hsize : 1 ≤ size)
    (hov : size + 31 < U64) :
    ∃ N, ∀ fuel, N ≤ fuel → ∃ s' p, malloc fuel s size = some (s', p) ∧
      ((∀ b ∈ g.lists (size_class (adjusted size)), hdrSize s.mem b < adjusted size) →
        s'.sbrk_calls = s.sbrk_calls ++ [adjusted size] ∧
        (s.mem_brk + adjusted size ≤ s.mem_max_addr → p ≠ 0 ∧
          s'.mem_brk = s.mem_brk + adjusted size ∧ (prevAlloc g.blocks = 1 → p = s.mem_brk))) ∧
      ((∃ b ∈ g.lists (size_class (adjusted size)), adjusted size ≤ hdrSize s.mem b) →
        s'.sbrk_calls = s.sbrk_calls ∧ s'.mem_brk = s.mem_brk ∧ p ≠ 0) := by
  obtain ⟨a1, a2, a3, a4⟩ := adjusted_spec hsize hov
  obtain ⟨N0, hN0⟩ := exists_bound g.lists 14
  refine ⟨N0 + 1, fun fuel hfuel => ?_⟩
  have hf : ∀ i, i < 14 → (g.lists i).length + 1 < fuel := fun i hi => by
    have := hN0 i hi; omega
  have hf0 : ∀ i, i < 14 → (g.lists i).length < fuel := fun i hi =>
    Nat.lt_of_succ_lt (hf i hi)
  have hlay := hwf.layout
  have hl := hlay
  obtain ⟨hl1, hl2, hl3, hl4⟩ := hl
  have hwf1 : WF { s with curr_freelist := some (size_class (adjusted size)) } g := hwf
  have hpos : ∀ y ∈ g.lists (size_class (adjusted size)), y ≠ 0 := fun y hy => by
    have := (hwf.member_range (size_class_lt _) hy).1
    omega
  rw [malloc_unfold fuel s size (by omega), find_fit_given_free_list_spec hwf.layout hwf.lists
    (by omega) (size_class_lt _) (hf0 _ (size_class_lt _))]
  simp only [obind_some]
  by_cases hfit : firstFit s.mem (adjusted size) (g.lists (size_class (adjusted size))) = 0
  · have hno : ¬ ∃ b ∈ g.lists (size_class (adjusted size)), adjusted size ≤ hdrSize s.mem b :=
      fun h => hpos _ (firstFit_of_fit h) hfit
    rw [if_neg (not_not.mpr hfit)]
    by_cases hgrow : s.mem_brk + adjusted size ≤ s.mem_max_addr
    · obtain ⟨s2, g2, r, c, e2, hw2, hrc, hc, hlog2, hbrk2, hlen2, hlast2⟩ :=
        extend_heap_log (F := fuel) hwf1 a1 a2 hgrow hf0
      obtain ⟨x1, -⟩ := hw2.block hrc
      dsimp only at x1
      obtain ⟨s', g', e', -, hr', -⟩ := place_spec (F := fuel) hw2 hrc a1 a2 hc
        (fun i hi => lt_of_le_of_lt (hlen2 i hi) (hf i hi))
      rw [e2]
      simp only [obind_some]
      rw [if_neg (by omega : r ≠ 0), e']
      exact ⟨s', r, rfl, fun _ => ⟨hr'.1.trans hlog2,
        fun _ => ⟨by omega, hr'.2.2.1.trans hbrk2, hlast2⟩⟩, fun h => absurd h hno⟩
    · unfold extend_heap mem_sbrk
      rw [align_of_aligned a2 (by unfold U64 at hov ⊢; omega)]
      simp only [hgrow, if_false, if_true, obind_some]
      exact ⟨_, 0, rfl, fun _ => ⟨rfl, fun h => False.elim h⟩, fun h => absurd h hno⟩
  · rw [if_pos hfit]
    obtain ⟨hmem, hge⟩ := firstFit_mem hfit
    obtain ⟨blk, hblk, hbp, hal⟩ := hwf.member_free (size_class_lt _) hmem
    obtain ⟨-, -, -, -, -, x6, -⟩ := hwf.block hblk
    rw [← hbp] at hge ⊢
    rw [x6] at hge
    obtain ⟨s', g', e', -, hr', -⟩ := place_spec (F := fuel) hwf1 hblk a1 a2 hge hf0
    rw [e']
    refine ⟨s', _, rfl, fun h => ?_, fun _ => ⟨hr'.1, hr'.2.2.1, by rw [hbp]; exact hfit⟩⟩
    have := h _ hmem
    rw [← hbp, x6] at this
    omega

/-! ## Requests whose adjusted size wraps around to 16 -/

theorem adjusted_wrapped {size : Nat} (h1 : size < U64) (h2 : ¬ size + 31 < U64) :
    adjusted size = 0 ∨ adjusted size = 16 := by
  unfold adjusted align DSIZE ALIGNMENT
  unfold U64 at *
  rw [if_neg (by omega)]
  omega

/-- The boundary tag right before the end of a well-formed heap: the footer of the last
block, or of the prologue when there is no block. -/
theorem WF.last_tag {s : State} {g : Ghost} (hwf : WF s g) :
    ∃ lsz, 16 ≤ lsz ∧ lsz % 16 = 0 ∧ s.heap_listp + lsz ≤ s.mem_brk ∧
      read8 s.mem (s.mem_brk - 16) = PACK lsz (prevAlloc g.blocks) ∧
      read8 s.mem (s.mem_brk - lsz - 8) = PACK lsz (prevAlloc g.blocks) ∧
      prevAlloc g.blocks < 2 ∧
      (prevAlloc g.blocks = 0 → 32 ≤ lsz ∧ s.heap_listp + 16 + lsz ≤ s.mem_brk ∧
        ∀ i, i < 14 → ∀ y ∈ g.lists i, y = s.mem_brk - lsz ∨ y + 32 ≤ s.mem_brk - lsz) := by
  have hlay := hwf.layout
  obtain ⟨hl1, hl2, hl3, hl4⟩ := hlay
  rcases List.eq_nil_or_concat g.blocks with e | ⟨pre, lb, e⟩
  · have ht := hwf.tiles
    rw [e] at ht
    have hb : s.heap_listp + 16 = s.mem_brk := ht
    refine ⟨16, le_refl _, rfl, by omega, ?_, ?_, ?_, ?_⟩
    · rw [e, prevAlloc_nil, ← hb, Nat.add_sub_cancel]
      exact hwf.2.2.1
    · rw [e, prevAlloc_nil, ← hb, Nat.add_sub_cancel]
      exact hwf.2.1
    · rw [e, prevAlloc_nil]
      exact Nat.one_lt_two
    · intro h
      rw [e, prevAlloc_nil] at h
      exact absurd h Nat.one_ne_zero
  · rw [List.concat_eq_append] at e
    have ht := hwf.tiles
    rw [e, tiles_append] at ht
    obtain ⟨c, ht1, ht2⟩ := ht
    obtain ⟨k1, k2, k3, k4, k5, k6, k7⟩ := ht2
    have k7' : c + lb.size = s.mem_brk := k7
    have hc := tiles_le ht1
    have e1 : s.mem_brk - 16 = c + lb.size - 16 := by omega
    have e2 : s.mem_brk - lb.size - 8 = c - 8 := by omega
    refine ⟨lb.size, by omega, k3, by omega, ?_, ?_, ?_, ?_⟩
    · rw [e, prevAlloc_concat, e1]
      exact k6
    · rw [e, prevAlloc_concat, e2]
      exact k5
    · rw [e, prevAlloc_concat]
      exact k4
    · intro h0
      refine ⟨k2, by omega, fun i hi y hy => ?_⟩
      obtain ⟨blk, hblk, hbp, -⟩ := hwf.member_free hi hy
      have hlb : lb ∈ g.blocks := by
        rw [e]
        exact List.mem_append_right _ (List.mem_singleton.mpr rfl)
      obtain ⟨x1, x2, x3, -⟩ := tiles_mem hwf.tiles hblk
      rcases tiles_disjoint hwf.tiles hblk hlb with h | h | h
      · left
        rw [← hbp, h, k1]
        omega
      · right
        rw [← hbp]
        omega
      · exfalso
        omega

/-- The lists of a heap are untouched by the tags that `extend_heap` writes at its end. -/
theorem ListsOK_grow {s : State} {L : Nat → List Nat} {size : Nat} (hlay : Layout s)
    (hL : ListsOK s L) (hmr : ∀ i, i < 14 → ∀ y ∈ L i, y + 32 ≤ s.mem_brk) (hs : 16 ≤ size) :
    ListsOK { s with mem_brk := s.mem_brk + size, sbrk_calls := s.sbrk_calls ++ [size], mem := growMem s.mem s.mem_brk size } L := by
  obtain ⟨hl1, hl2, hl3, hl4⟩ := hlay
  refine ListsOK_congr hL ?_ ?_ ?_ ?_
  · rfl
  · exact Nat.le_add_right _ _
  · intro _ _; rfl
  intro i hi y hy
  have := hmr i hi y hy
  have hy1 := (hL.member hi hy).1
  unfold hdrSize
  show read8 (growMem s.mem s.mem_brk size) y = _ ∧
    read8 (growMem s.mem s.mem_brk size) (y + 8) = _ ∧
    read8 (growMem s.mem s.mem_brk size) (y - 8) &&& SIZE_MASK = _
  rw [growMem_other _ (by omega) (by omega) (by omega),
    growMem_other _ (by omega) (by omega) (by omega),
    growMem_other _ (by omega) (by omega) (by omega)]
  exact ⟨rfl, rfl, rfl⟩

theorem growMem_hdr (m : Nat → Nat) {brk size : Nat} (h0 : 8 ≤ brk) (h1 : 16 ≤ size)
    (h2 : size % 16 = 0) (h3 : size + 1 < U64) :
    read8 (growMem m brk size) (brk - 8) = PACK size 0 := by
  unfold growMem
  rw [read8_write8_ne _ _ _ _ (by omega)]
  exact retag_hdr _ (by omega) (by omega) h2 (by decide) h3

theorem growMem_epi (m : Nat → Nat) (brk size : Nat) :
    read8 (growMem m brk size) (brk + size - 8) = PACK 0 1 := by
  unfold growMem
  exact read8_write8_tag _ _ (by decide) (by decide) (by decide)

/-- Which case of `coalesce` runs for the block that `extend_heap` has just added. -/
theorem coalesce_grown_dispatch {s : State} {g : Ghost} {size : Nat} (fuel : Nat)
    (hwf : WF s g) (hs1 : 16 ≤ size) (hs2 : size % 16 = 0)
    (hfit : s.mem_brk + size ≤ s.mem_max_addr) {s3 : State}
    (hs3 : s3 = { s with mem_brk := s.mem_brk + size, sbrk_calls := s.sbrk_calls ++ [size], mem := growMem s.mem s.mem_brk size }) :
    coalesce fuel s3 s.mem_brk =
      if prevAlloc g.blocks ≠ 0 then obind (place_freeblk s3 s.mem_brk) fun r => some (r.1, s.mem_brk)
      else coalesce_case3 fuel s3 s.mem_brk size := by
  have hlay := hwf.layout
  have hl := hlay
  obtain ⟨hl1, hl2, hl3, hl4⟩ := hl
  have hU : U64 = 18446744073709551616 := rfl
  obtain ⟨lsz, q1, q2, q3, q4, q5, q6, -⟩ := hwf.last_tag
  have hlay3 : Layout s3 := by
    rw [hs3]
    exact ⟨hl1, by dsimp only; omega, hfit, hl4⟩
  have hb3 : s3.mem_brk = s.mem_brk + size := by rw [hs3]
  have hp3 : s3.heap_listp = s.heap_listp := by rw [hs3]
  have hm3 : s3.mem = growMem s.mem s.mem_brk size := by rw [hs3]
  have r1 : read8 s3.mem (s.mem_brk - 16) = PACK lsz (prevAlloc g.blocks) := by
    rw [hm3, growMem_other _ (by omega) (by omega) (by omega)]
    exact q4
  have r2 : read8 s3.mem (s.mem_brk - lsz - 8) = PACK lsz (prevAlloc g.blocks) := by
    rw [hm3, growMem_other _ (by omega) (by omega) (by omega)]
    exact q5
  have r3 : read8 s3.mem (s.mem_brk - 8) = PACK size 0 := by
    rw [hm3]
    exact growMem_hdr _ (by omega) hs1 hs2 (by omega)
  have r4 : read8 s3.mem (s.mem_brk + size - 8) = PACK 0 1 := by
    rw [hm3]
    exact growMem_epi _ _ _
  unfold coalesce
  rw [PREV_BLKP_tag hlay3 (by omega) (by omega) r1 q2 q6]
  simp only [obind_some]
  rw [GET_ALLOC_tag hlay3 (by omega) (by omega) r2 q2 q6,
    NEXT_BLKP_tag hlay3 (by omega) (by omega) r3 hs2 (by decide)]
  simp only [obind_some]
  rw [GET_ALLOC_tag hlay3 (by omega) (by omega) r4 (by decide) (by decide),
    GET_SIZE_tag hlay3 (by omega) (by omega) r3 hs2 (by decide)]
  simp only [obind_some]
  by_cases hpa : prevAlloc g.blocks = 0
  · rw [if_neg (fun h => h.1 hpa), if_neg (fun h => h.1 hpa), if_pos ⟨hpa, Nat.one_ne_zero⟩,
      if_neg (not_not.mpr hpa)]
  · rw [if_pos ⟨hpa, Nat.one_ne_zero⟩, if_pos hpa]

/-- In a well-formed heap the list of the sizes below 32 has no member. -/
theorem WF.small_list_empty {s : State} {g : Ghost} (hwf : WF s g) :
    g.lists (size_class 16) = [] := by
  refine List.eq_nil_iff_forall_not_mem.mpr (fun y hy => ?_)
  have hm := (hwf.lists.member (size_class_lt 16) hy).2.2.2
  obtain ⟨blk, hblk, hbp, -⟩ := hwf.member_free (size_class_lt 16) hy
  obtain ⟨-, -, x3, -, -, x6, -⟩ := hwf.block hblk
  rw [hbp] at x6
  rw [x6] at hm
  have hb := (size_class_bounds blk.size).2 (by rw [hm]; decide)
  rw [hm] at hb
  have e : sizes.getD (size_class 16 + 1) 0 = 32 := rfl
  omega

/-- `place` without a split for a block that has all other list members below it. -/
theorem place_nosplit_low {s : State} {L : Nat → List Nat} {bp c e j F : Nat}
    (hlay : Layout s) (hL : ListsOK s L) (h1 : s.heap_listp + 16 ≤ bp)
    (h2 : bp + c ≤ s.mem_brk) (hh : read8 s.mem (bp - 8) = PACK c e) (hal : e < 2)
    (hc1 : 16 ≤ c) (hc2 : c % 16 = 0) (hle : j ≤ c) (hrem : c - j < 32)
    (hgeo : ∀ i, i < 14 → ∀ y ∈ L i, y = bp ∨ y + 32 ≤ bp)
    (hfuel : (L (size_class c)).length < F) :
    ∃ s', place F s bp j = some s' ∧ sameRange s s' := by
  have hl := hlay
  obtain ⟨hl1, hl2, hl3, hl4⟩ := hl
  have hU : U64 = 18446744073709551616 := rfl
  have hsz : hdrSize s.mem bp = c := hdrSize_of_tag hh hc2 hal
  obtain ⟨s2, r, e2, hL2, hr2, hm2⟩ := remove_marked (x := bp) (z := c) (F := F)
    hlay hL h1 (by omega) hsz hc1 hc2
    (fun i hi y hy => by have := hgeo i hi y hy; omega) hfuel
  have hlay2 := Layout_of_sameRange hlay hr2
  obtain ⟨r0, r1, r2, r3, r4⟩ := hr2
  refine ⟨{ s2 with mem := retagMem s2.mem bp c 1 }, ?_, ⟨r0, r1, r2, r3, r4⟩⟩
  unfold place
  rw [GET_SIZE_tag hlay (by omega) (by omega) hh hc2 hal]
  simp only [obind_some]
  rw [PUT_tag _ hlay (by omega) (by omega)]
  simp only [obind_some]
  rw [e2]
  simp only [obind_some]
  rw [if_neg (by unfold DSIZE U64; omega)]
  have hk := retag_exec (s := s2) (b := bp) (n := c) (e := 1) hlay2 (by omega)
    (by omega) (by omega) hc2 (by decide) some
  simp only [obind_pure] at hk
  exact hk

/-- The new block of 16 bytes follows an allocated block (or the prologue): `coalesce` files
it in list 0 and returns it, and `place` takes it out again and marks it allocated. -/
theorem grow_small_alloc {s : State} {g : Ghost} {F : Nat} (hwf : WF s g)
    (hfit : s.mem_brk + 16 ≤ s.mem_max_addr) (hpa : prevAlloc g.blocks ≠ 0)
    (hfuel : ∀ i, i < 14 → (g.lists i).length + 1 < F) {s3 : State}
    (hs3 : s3 = { s with mem_brk := s.mem_brk + 16, sbrk_calls := s.sbrk_calls ++ [16], mem := growMem s.mem s.mem_brk 16 }) :
    ∃ s4 s', coalesce F s3 s.mem_brk = some (s4, s.mem_brk) ∧
      place F s4 s.mem_brk 16 = some s' ∧ sameRange s3 s' := by
  have hlay := hwf.layout
  have hl := hlay
  obtain ⟨hl1, hl2, hl3, hl4⟩ := hl
  have hU : U64 = 18446744073709551616 := rfl
  have hmr : ∀ i, i < 14 → ∀ y ∈ g.lists i, y + 32 ≤ s.mem_brk :=
    fun i hi y hy => (hwf.member_range hi hy).2
  have hlay3 : Layout s3 := by
    rw [hs3]
    exact ⟨hl1, by dsimp only; omega, hfit, hl4⟩
  have hL3 : ListsOK s3 g.lists := by
    rw [hs3]
    exact ListsOK_grow hlay hwf.lists hmr (by decide)
  have hb3 : s3.mem_brk = s.mem_brk + 16 := by rw [hs3]
  have hp3 : s3.heap_listp = s.heap_listp := by rw [hs3]
  have hm3 : s3.mem = growMem s.mem s.mem_brk 16 := by rw [hs3]
  have r3 : read8 s3.mem (s.mem_brk - 8) = PACK 16 0 := by
    rw [hm3]
    exact growMem_hdr _ (by omega) (by decide) (by decide) (by decide)
  have hsz3 : hdrSize s3.mem s.mem_brk = 16 := hdrSize_of_tag r3 (by decide) (by decide)
  have hal3 : hdrAlloc s3.mem s.mem_brk = 0 := hdrAlloc_of_tag r3 (by decide) (by decide)
  obtain ⟨s4, e4, hm4, hh4, hr4⟩ := place_freeblk_spec (i := size_class 16) (n := s.mem_brk)
    (size_class_lt 16) hlay3 hL3 (by omega) (by omega) (by rw [hsz3]; decide) (by rw [hsz3]) hal3
  have hL4 : ListsOK s4 (enlist g.lists 16 s.mem_brk) :=
    ListsOK_push (size_class_lt 16) hlay3 hL3 (by omega) (by omega) (by rw [hsz3]; decide)
      (by rw [hsz3]) (fun j hj y hy => Or.inr (hmr j hj y hy)) hm4 hh4 hr4
  have hlay4 := Layout_of_sameRange hlay3 hr4
  have hr4' := hr4
  obtain ⟨t0, t1, t2, t3, t4⟩ := hr4'
  have r4 : read8 s4.mem (s.mem_brk - 8) = PACK 16 0 := by
    rw [hm4, read8_pushMem_frame _ _ _ _ (Or.inl (by omega))
      (fun x hx => by have := hmr _ (size_class_lt 16) x hx; omega)]
    exact r3
  obtain ⟨s', e', hr'⟩ := place_nosplit_low (F := F) (c := 16) (e := 0) (j := 16)
    hlay4 hL4 (by omega) (by omega) r4 (by decide) (le_refl _) (by decide) (le_refl _)
    (by decide)
    (fun i hi y hy => by
      rcases mem_enlist hy with h | h
      · exact Or.inl h
      · exact Or.inr (hmr i hi y h))
    (lt_of_le_of_lt (length_enlist _ _ _ _) (hfuel _ (size_class_lt _)))
  refine ⟨s4, s', ?_, e', sameRange_trans hr4 hr'⟩
  rw [coalesce_grown_dispatch F hwf (by decide) (by decide) hfit hs3, if_pos hpa, e4]
  rfl

/-- The new block of 16 bytes follows a free block: `coalesce` merges the two (case 3) and
returns the free block, and `place` splits 16 bytes off it. -/
theorem grow_small_free {s : State} {g : Ghost} {F : Nat} (hwf : WF s g)
    (hfit : s.mem_brk + 16 ≤ s.mem_max_addr) (hpa : prevAlloc g.blocks = 0)
    (hfuel : ∀ i, i < 14 → (g.lists i).length + 1 < F) {s3 : State}
    (hs3 : s3 = { s with mem_brk := s.mem_brk + 16, sbrk_calls := s.sbrk_calls ++ [16], mem := growMem s.mem s.mem_brk 16 }) :
    ∃ s5 p s', coalesce F s3 s.mem_brk = some (s5, p) ∧ p ≠ 0 ∧
      place F s5 p 16 = some s' ∧ sameRange s3 s' := by
  have hlay := hwf.layout
  have hl := hlay
  obtain ⟨hl1, hl2, hl3, hl4⟩ := hl
  have hU : U64 = 18446744073709551616 := rfl
  have hmr : ∀ i, i < 14 → ∀ y ∈ g.lists i, y + 32 ≤ s.mem_brk :=
    fun i hi y hy => (hwf.member_range hi hy).2
  obtain ⟨psz, q1, q2, q3, q4, q5, q6, q7⟩ := hwf.last_tag
  obtain ⟨q8, q9, hgeo0⟩ := q7 hpa
  rw [hpa] at q4 q5
  obtain ⟨p, hp⟩ : ∃ p, p = s.mem_brk - psz := ⟨_, rfl⟩
  have hbrk : s.mem_brk = p + psz := by omega
  have hlay3 : Layout s3 := by
    rw [hs3]
    exact ⟨hl1, by dsimp only; omega, hfit, hl4⟩
  have hL3 : ListsOK s3 g.lists := by
    rw [hs3]
    exact ListsOK_grow hlay hwf.lists hmr (by decide)
  have hb3 : s3.mem_brk = s.mem_brk + 16 := by rw [hs3]
  have hp3 : s3.heap_listp = s.heap_listp := by rw [hs3]
  have hm3 : s3.mem = growMem s.mem s.mem_brk 16 := by rw [hs3]
  have hh : read8 s3.mem (p - 8) = PACK psz 0 := by
    rw [hm3, growMem_other _ (by omega) (by decide) (by omega), hp]
    exact q5
  have hf : read8 s3.mem (p + psz - 16) = PACK psz 0 := by
    rw [← hbrk, hm3, growMem_other _ (by omega) (by decide) (by omega)]
    exact q4
  have hbh : read8 s3.mem (p + psz - 8) = PACK 16 0 := by
    rw [← hbrk, hm3]
    exact growMem_hdr _ (by omega) (by decide) (by decide) (by decide)
  have hepi : read8 s3.mem (p + psz + 16 - 8) = PACK 0 1 := by
    rw [← hbrk, hm3]
    exact growMem_epi _ _ _
  obtain ⟨s5, L5, e5, hL5, hr5, hbf5, h5h, h5f, h5b, hmem5, hlen5⟩ := coalesce_case3_exec
    (F := F) (p := p) (q := psz) (n := 16) hlay3 hL3 (by omega) q8 q2 hh hf hbh
    (by decide) (by decide) (by omega)
    (fun i hi y hy => by have := hgeo0 i hi y hy; omega)
    (Nat.lt_of_succ_lt (hfuel _ (size_class_lt _)))
  have hlay5 := Layout_of_sameRange hlay3 hr5
  have hr5' := hr5
  obtain ⟨t0, t1, t2, t3, t4⟩ := hr5'
  have hsz5 : hdrSize s5.mem p = 16 + psz := hdrSize_of_tag h5h (by omega) (by decide)
  have hgeo5 : ∀ i, i < 14 → ∀ y ∈ L5 i, y = p ∨ y + 32 ≤ p ∨ p + (16 + psz) ≤ y :=
    fun i hi y hy => by
      rcases hmem5 i hi y hy with h | ⟨-, h⟩
      · exact Or.inl h
      · exact Or.inr h
  obtain ⟨s6, e6, hL6, hr6, hm6⟩ := place_split_exec (F := F) (b := p) (c := 16 + psz)
    (e := 0) (j := 16) hlay5 hL5 (by omega) (by omega) h5h (by decide) (by omega)
    (by omega) (by decide) (by decide) (by omega) hgeo5
    (lt_of_le_of_lt (hlen5 _ (size_class_lt _)) (hfuel _ (size_class_lt _)))
  have hlay6 := Layout_of_sameRange hlay5 hr6
  have hr6' := hr6
  obtain ⟨u0, u1, u2, u3, u4⟩ := hr6'
  have hcm : 16 + psz - 16 = psz := by omega
  rw [hcm] at hm6
  have R1 : read8 s6.mem (p + 16 - 16) = PACK 16 1 := by
    rw [hm6, retag_other _ _ (by omega) (by omega) (Or.inl (by omega)) (Or.inl (by omega))]
    exact retag_ftr _ (by decide) (by decide) (by decide)
  have R2 : read8 s6.mem (p - 8) = PACK 16 1 := by
    rw [hm6, retag_other _ _ (by omega) (by omega) (Or.inl (by omega)) (Or.inl (by omega))]
    exact retag_hdr _ (by omega) (by decide) (by decide) (by decide) (by decide)
  have R3 : read8 s6.mem (p + 16 - 8) = PACK psz 0 := by
    rw [hm6]
    exact retag_hdr _ (by omega) (by omega) q2 (by decide) (by omega)
  have R4 : read8 s6.mem (p + 16 + psz - 8) = PACK 0 1 := by
    rw [hm6, retag_other _ _ (by omega) (by omega) (Or.inr (by omega)) (Or.inr (by omega)),
      retag_other _ _ (by omega) (by decide) (Or.inr (by omega)) (Or.inr (by omega)),
      read8_unlinkMem_frame _ _ _ _
        (fun x hx => by have := hgeo5 _ (size_class_lt _) x hx; omega),
      read8_write8_ne _ _ _ _ (by omega),
      hbf5.word (Or.inr (by omega)) (fun i hi y hy => by have := hmr i hi y hy; omega)]
    have e : p + 16 + psz - 8 = p + psz + 16 - 8 := by omega
    rw [e]
    exact hepi
  have hdisp : coalesce F s6 (p + 16) =
      obind (place_freeblk s6 (p + 16)) fun r => some (r.1, p + 16) := by
    unfold coalesce
    rw [PREV_BLKP_tag hlay6 (by omega) (by omega) R1 (by decide) (by decide),
      Nat.add_sub_cancel]
    simp only [obind_some]
    rw [GET_ALLOC_tag hlay6 (by omega) (by omega) R2 (by decide) (by decide),
      NEXT_BLKP_tag hlay6 (by omega) (by omega) R3 q2 (by decide)]
    simp only [obind_some]
    rw [GET_ALLOC_tag hlay6 (by omega) (by omega) R4 (by decide) (by decide),
      GET_SIZE_tag hlay6 (by omega) (by omega) R3 q2 (by decide)]
    simp only [obind_some]
    rw [if_pos ⟨Nat.one_ne_zero, Nat.one_ne_zero⟩]
  obtain ⟨s7, e7, -, hr7, -⟩ := place_freeblk_listed (s := s6)
    (L := unlist L5 (16 + psz) p) (n := p + 16) (w := psz) hlay6 hL6 (by omega) (by omega)
    q8 q2 R3
    (hL5.unlist_far hsz5 (l := p + 16) (h := p + 16 + psz)
      (fun i hi y hy => by have := hgeo5 i hi y hy; omega))
  refine ⟨s5, p, s7, ?_, by omega, ?_, sameRange_trans hr5 (sameRange_trans hr6 hr7)⟩
  · rw [coalesce_grown_dispatch F hwf (by decide) (by decide) hfit hs3,
      if_neg (not_not.mpr hpa), hbrk]
    exact e5
  · rw [e6, hdisp, e7]
    rfl

/-- The growth calls of `malloc` on a well-formed heap for a request whose adjusted size has
wrapped around to 16: no list holds a block for it, exactly one growth call is made, for 16
bytes, and when it succeeds `malloc` returns a pointer that is not null. -/
theorem malloc_small_spec {s : State} {g : Ghost} {size : Nat} (hwf : WF s g)
    (hsize : size ≠ 0) (hadj : adjusted size = 16) :
    ∃ N, ∀ fuel, N ≤ fuel → ∃ s' p, malloc fuel s size = some (s', p) ∧
      s'.sbrk_calls = s.sbrk_calls ++ [16] ∧
      (s.mem_brk + 16 ≤ s.mem_max_addr → p ≠ 0 ∧ s'.mem_brk = s.mem_brk + 16 ∧
        (prevAlloc g.blocks = 1 → p = s.mem_brk)) := by
  obtain ⟨N0, hN0⟩ := exists_bound g.lists 14
  refine ⟨N0 + 1, fun fuel hfuel => ?_⟩
  have hf : ∀ i, i < 14 → (g.lists i).length + 1 < fuel := fun i hi => by
    have := hN0 i hi; omega
  have hlay := hwf.layout
  have hl := hlay
  obtain ⟨hl1, hl2, hl3, hl4⟩ := hl
  have hwf1 : WF { s with curr_freelist := some (size_class 16) } g := hwf
  rw [malloc_unfold fuel s size hsize, hadj, find_fit_given_free_list_spec hwf.layout hwf.lists
    (by decide) (size_class_lt _) (Nat.lt_of_succ_lt (hf _ (size_class_lt _))),
    hwf.small_list_empty]
  simp only [obind_some]
  rw [show firstFit s.mem 16 [] = 0 from rfl, if_neg (not_not.mpr rfl)]
  by_cases hgrow : s.mem_brk + 16 ≤ s.mem_max_addr
  · rw [extend_heap_exec fuel hwf1.layout (by decide) (by decide) hgrow]
    by_cases hpa : prevAlloc g.blocks = 0
    · obtain ⟨s5, p, s', e5, hp, e', hr'⟩ := grow_small_free (F := fuel) hwf1 hgrow hpa hf rfl
      rw [e5]
      simp only [obind_some]
      rw [if_neg hp, e']
      exact ⟨s', p, rfl, hr'.1, fun _ => ⟨hp, hr'.2.2.1,
        fun h => absurd (h.symm.trans hpa) Nat.one_ne_zero⟩⟩
    · obtain ⟨s4, s', e4, e', hr'⟩ := grow_small_alloc (F := fuel) hwf1 hgrow hpa hf rfl
      rw [e4]
      simp only [obind_some]
      rw [if_neg (by omega), e']
      exact ⟨s', _, rfl, hr'.1, fun _ => ⟨by omega, hr'.2.2.1, fun _ => rfl⟩⟩
  · unfold extend_heap mem_sbrk
    rw [show align 16 = 16 from rfl]
    simp only [hgrow, if_false, if_true, obind_some]
    exact ⟨_, 0, rfl, rfl, fun h => False.elim h⟩

/-! ## The pointer and the growth calls of a `malloc` without a fit -/

theorem find_free_list_index {s : State} {a i : Nat} (h : (find_free_list s a).2 = some i) :
    a ≠ 0 ∧ i = size_class a := by
  unfold find_free_list at h
  by_cases h0 : a = 0
  · rw [if_pos h0] at h
    exact absurd h (by simp)
  · rw [if_neg h0] at h
    exact ⟨h0, (Option.some.inj h).symm⟩

theorem grow_of_sbrk {s : State} {n : Nat} (h : (mem_sbrk s n).2 ≠ SBRK_FAIL) :
    s.mem_brk + n ≤ s.mem_max_addr := by
  unfold mem_sbrk at h
  by_contra hc
  rw [if_neg hc] at h
  exact h rfl

set_option maxRecDepth 100000

/-- C14 as stated fails: in the well-formed heap `tailState`, whose last block is free and
has 32 bytes, `malloc(100)` finds no fit in list 7 and the growth primitive succeeds, but
the pointer that `malloc` returns is `heapBase + 32`, the address of that free block, which
lies below the end `heapBase + 64` that the heap had before the call. -/
theorem malloc_after_growth_below_old_end :
    WF tailState tailGhost ∧ 1 ≤ 100 ∧
    (find_free_list tailState (adjusted 100)).2 = some 7 ∧
    (∀ b ∈ tailGhost.lists 7, hdrSize tailState.mem b < adjusted 100) ∧
    (mem_sbrk tailState (align (adjusted 100))).2 ≠ SBRK_FAIL ∧
    (malloc 8 tailState 100).map Prod.snd = some (heapBase + 32) ∧
    heapBase + 32 < tailState.mem_brk := by
  decide

set_option maxRecDepth 512

/-- C14 (amended): in a well-formed heap whose last block is allocated (or that has no
block), for every 64-bit size `≥ 1`, whenever the list `i` that `find_free_list` selects for
the adjusted size holds no block that is large enough and the growth primitive succeeds,
`malloc(size)` returns (given enough fuel for the list searches) the end address that the
heap had before the call: the first address of the newly grown region, below the new end of
the heap. -/
theorem malloc_after_growth_pointer (s : State) (g : Ghost) (size i : Nat) (hwf : WF s g)
    (hsize : 1 ≤ size) (hlt : size < U64)
    (hlist : (find_free_list s (adjusted size)).2 = some i)
    (hnofit : ∀ b ∈ g.lists i, hdrSize s.mem b < adjusted size)
    (hgrow : (mem_sbrk s (align (adjusted size))).2 ≠ SBRK_FAIL)
    (hlast : prevAlloc g.blocks = 1) :
    ∃ N, ∀ fuel, N ≤ fuel → ∃ s', malloc fuel s size = some (s', s.mem_brk) ∧
      s.mem_brk ≠ 0 ∧ s.mem_brk < s'.mem_brk := by
  obtain ⟨ha, hi⟩ := find_free_list_index hlist
  subst hi
  have hg := grow_of_sbrk hgrow
  by_cases hov : size + 31 < U64
  · obtain ⟨a1, a2, a3, a4⟩ := adjusted_spec hsize hov
    rw [align_of_aligned a2 (by unfold U64 at hov ⊢; omega)] at hg
    obtain ⟨N, hN⟩ := malloc_log_spec hwf hsize hov
    refine ⟨N, fun fuel hfuel => ?_⟩
    obtain ⟨s', p, e, h1, -⟩ := hN fuel hfuel
    obtain ⟨-, h2⟩ := h1 hnofit
    obtain ⟨h3, h4, h5⟩ := h2 hg
    have hp := h5 hlast
    subst hp
    exact ⟨s', e, h3, by omega⟩
  · rcases adjusted_wrapped hlt hov with h0 | h16
    · exact absurd h0 ha
    · rw [h16, show align 16 = 16 from rfl] at hg
      obtain ⟨N, hN⟩ := malloc_small_spec hwf (by omega) h16
      refine ⟨N, fun fuel hfuel => ?_⟩
      obtain ⟨s', p, e, -, h2⟩ := hN fuel hfuel
      obtain ⟨h3, h4, h5⟩ := h2 hg
      have hp := h5 hlast
      subst hp
      exact ⟨s', e, h3, by omega⟩

set_option maxRecDepth 100000

theorem malloc_after_growth_pointer_witness :
    WF (initState 200000) emptyGhost ∧
    ∃ N, ∀ fuel, N ≤ fuel → ∃ s', malloc fuel (initState 200000) 100000 =
        some (s', (initState 200000).mem_brk) ∧
      (initState 200000).mem_brk ≠ 0 ∧ (initState 200000).mem_brk < s'.mem_brk :=
  ⟨by decide,
   malloc_after_growth_pointer (initState 200000) emptyGhost 100000 11 (by decide) (by decide)
     (by decide) (by decide) (by decide) (by decide) (by decide)⟩

set_option maxRecDepth 512

/-- C15: in a well-formed heap, for every 64-bit size `≥ 1` with adjusted size `a` for which
`find_free_list(a)` selects list `i`, `malloc(size)` returns (given enough fuel for the list
searches); when list `i` holds no block of size `≥ a`, exactly one call of the growth
primitive is recorded, for `n ≥ a` bytes, whatever the other lists hold; and when list `i`
holds a block of size `≥ a`, no call of the growth primitive is recorded. -/
theorem malloc_growth_calls (s : State) (g : Ghost) (size i : Nat) (hwf : WF s g)
    (hsize : 1 ≤ size) (hlt : size < U64)
    (hlist : (find_free_list s (adjusted size)).2 = some i) :
    ∃ N, ∀ fuel, N ≤ fuel → ∃ s' p, malloc fuel s size = some (s', p) ∧
      ((∀ b ∈ g.lists i, hdrSize s.mem b < adjusted size) →
        ∃ n, s'.sbrk_calls = s.sbrk_calls ++ [n] ∧ adjusted size ≤ n) ∧
      ((∃ b ∈ g.lists i, adjusted size ≤ hdrSize s.mem b) →
        s'.sbrk_calls = s.sbrk_calls) := by
  obtain ⟨ha, hi⟩ := find_free_list_index hlist
  subst hi
  by_cases hov : size + 31 < U64
  · obtain ⟨N, hN⟩ := malloc_log_spec hwf hsize hov
    refine ⟨N, fun fuel hfuel => ?_⟩
    obtain ⟨s', p, e, h1, h2⟩ := hN fuel hfuel
    exact ⟨s', p, e, fun hn => ⟨adjusted size, (h1 hn).1, le_refl _⟩, fun hf => (h2 hf).1⟩
  · rcases adjusted_wrapped hlt hov with h0 | h16
    · exact absurd h0 ha
    · obtain ⟨N, hN⟩ := malloc_small_spec hwf (by omega) h16
      refine ⟨N, fun fuel hfuel => ?_⟩
      obtain ⟨s', p, e, hlog, -⟩ := hN fuel hfuel
      refine ⟨s', p, e, fun _ => ⟨16, hlog, by rw [h16]⟩, fun hf => ?_⟩
      obtain ⟨b, hb, -⟩ := hf
      rw [h16, hwf.small_list_empty] at hb
      exact absurd hb (List.not_mem_nil b)

set_option maxRecDepth 100000

theorem malloc_growth_calls_witness :
    WF sampleState sampleGhost ∧ (∃ b ∈ sampleGhost.lists 7, adjusted 1 ≤ hdrSize sampleState.mem b) ∧
    (∀ b ∈ sampleGhost.lists 1, hdrSize sampleState.mem b < adjusted 1) ∧
    ∃ N, ∀ fuel, N ≤ fuel → ∃ s' p, malloc fuel sampleState 1 = some (s', p) ∧
      ((∀ b ∈ sampleGhost.lists 1, hdrSize sampleState.mem b < adjusted 1) →
        ∃ n, s'.sbrk_calls = sampleState.sbrk_calls ++ [n] ∧ adjusted 1 ≤ n) ∧
      ((∃ b ∈ sampleGhost.lists 1, adjusted 1 ≤ hdrSize sampleState.mem b) →
        s'.sbrk_calls = sampleState.sbrk_calls) :=
  ⟨by decide, by decide, by decide,
   malloc_growth_calls sampleState sampleGhost 1 1 (by decide) (by decide) (by decide)
     (by decide)⟩

/-! ## The list primitives: search, removal and insertion -/

set_option maxRecDepth 512

theorem listScan_spec {L : Nat → List Nat} {i : Nat} (hi : i < 14) :
    ∀ (post pre : List Nat) (x : Nat) (t : State) (fuel : Nat),
      Layout t → ListsOK t L → L i = pre ++ x :: post → post.length < fuel →
      listScan fuel t x = some (x :: post) := by
  intro post
  induction post with
  | nil =>
    intro pre x t fuel hlay hL hdec hfuel
    obtain ⟨hl1, hl2, hl3, hl4⟩ := hlay
    have hxl : x ∈ L i := by rw [hdec]; simp
    obtain ⟨hx1, hx2, hx3, hx4⟩ := hL.member hi hxl
    have hne : L i ≠ [] := by rw [hdec]; simp
    have hhead := hL.head_ne hi hne
    obtain ⟨-, hlink, hnd, -⟩ := hL.1 i hi
    have hxpre : x ∉ pre := by
      rw [hdec] at hnd
      have := List.nodup_append.mp hnd
      intro hx
      exact this.2.2 hx (by simp)
    have hnx : read8 t.mem x = 0 := by
      rw [(hlink x hxl).1, hdec, nextOf_append hxpre]; rfl
    cases fuel with
    | zero => simp at hfuel
    | succ f =>
      unfold listScan
      rw [GET_NEXT_FREEBLK_eq (by omega) (by omega) (by omega) hx3 hx4 hhead]
      simp only [obind_some, hnx, ne_eq, not_true_eq_false, if_false]
  | cons y post' ih =>
    intro pre x t fuel hlay hL hdec hfuel
    have hlay' := hlay
    obtain ⟨hl1, hl2, hl3, hl4⟩ := hlay
    have hxl : x ∈ L i := by rw [hdec]; simp
    have hyl : y ∈ L i := by rw [hdec]; simp
    obtain ⟨hx1, hx2, hx3, hx4⟩ := hL.member hi hxl
    obtain ⟨hy1, hy2, hy3, hy4⟩ := hL.member hi hyl
    have hne : L i ≠ [] := by rw [hdec]; simp
    have hhead := hL.head_ne hi hne
    obtain ⟨-, hlink, hnd, -⟩ := hL.1 i hi
    have hxpre : x ∉ pre := by
      rw [hdec] at hnd
      have := List.nodup_append.mp hnd
      intro hx
      exact this.2.2 hx (by simp)
    have hnx : read8 t.mem x = y := by
      rw [(hlink x hxl).1, hdec, nextOf_append hxpre]; rfl
    have hy0 : y ≠ 0 := by omega
    cases fuel with
    | zero => simp at hfuel
    | succ f =>
      unfold listScan
      rw [GET_NEXT_FREEBLK_eq (by omega) (by omega) (by omega) hx3 hx4 hhead]
      simp only [obind_some, hnx, ne_eq, hy0, not_false_eq_true, if_true]
      have hdec' : L i = (pre ++ [x]) ++ y :: post' := by
        rw [hdec]; simp
      rw [ih (pre ++ [x]) y t f hlay' hL hdec' (by simpa using hfuel)]
      simp only [obind_some]

/-- The traversal of list `i` as the allocator does it visits the members of the list that
the heads and the link words represent, in list order. -/
theorem bucketScan_spec {s : State} {L : Nat → List Nat} {i fuel : Nat} (hlay : Layout s)
    (hL : ListsOK s L) (hi : i < 14) (hfuel : (L i).length ≤ fuel) :
    bucketScan fuel s i = some (L i) := by
  unfold bucketScan
  rw [(hL.1 _ hi).1]
  cases hl : L i with
  | nil => simp
  | cons h r =>
    have hhl : h ∈ L i := by rw [hl]; simp
    have := (hL.member hi hhl).1
    have hne : h ≠ s.heap_listp := by omega
    simp only [List.headD_cons, hne, if_false]
    exact listScan_spec hi r [] h s fuel hlay hL (by rw [hl]; rfl)
      (by rw [hl] at hfuel; simp at hfuel; omega)

theorem firstFit_split {m : Nat → Nat} {asize : Nat} :
    ∀ l : List Nat, firstFit m asize l ≠ 0 →
      ∃ pre post, l = pre ++ firstFit m asize l :: post ∧
        (∀ b ∈ pre, hdrSize m b < asize) ∧ asize ≤ hdrSize m (firstFit m asize l) := by
  intro l
  induction l with
  | nil => intro h; exact absurd rfl h
  | cons a r ih =>
    intro h
    rw [firstFit] at h ⊢
    by_cases hc : asize ≤ hdrSize m a
    · rw [if_pos hc]
      exact ⟨[], r, rfl, fun b hb => absurd hb (List.not_mem_nil b), hc⟩
    · rw [if_neg hc] at h ⊢
      obtain ⟨pre, post, e, h1, h2⟩ := ih h
      refine ⟨a :: pre, post, by rw [List.cons_append, ← e], fun b hb => ?_, h2⟩
      rcases List.mem_cons.mp hb with rfl | hb'
      · omega
      · exact h1 b hb'

/-! ### C27 -/

set_option maxRecDepth 100000

/-- C27 as stated fails: in the well-formed heap `sampleState` the block of size 128 with
payload address `heapBase + 32` has its header at `h = heapBase + 24`; `FTRP` computes the
footer address `h + 128 - 8`, which is not `h + 128 - 16`. -/
theorem footer_is_not_sixteen_before_the_end :
    WF sampleState sampleGhost ∧ (⟨heapBase + 32, 128, 0⟩ : Blk) ∈ sampleGhost.blocks ∧
    HDRP (heapBase + 32) = heapBase + 24 ∧
    GET sampleState (heapBase + 24) = some (PACK 128 0) ∧
    FTRP sampleState (heapBase + 32) = some (heapBase + 24 + 128 - 8) ∧
    FTRP sampleState (heapBase + 32) ≠ some (heapBase + 24 + 128 - 16) := by
  decide

set_option maxRecDepth 512

/-- C27 (amended): for every block with header address `hd` (the header word is readable and
holds the size `size`, a multiple of 16 that is at least 32, and an allocated bit) that ends
inside the 64-bit address space, the payload address `hd + 8` has `hd` as its `HDRP`, and the
footer address that `FTRP` computes for the block is `hd + size - 8`, the last word of the
block. -/
theorem FTRP_address (s : State) (hd size alloc : Nat) (hs1 : 32 ≤ size) (hs2 : size % 16 = 0)
    (ha : alloc < 2) (hend : hd + size ≤ U64) (hh : GET s hd = some (PACK size alloc)) :
    HDRP (hd + 8) = hd ∧ FTRP s (hd + 8) = some (hd + size - 8) := by
  have hU : U64 = 18446744073709551616 := rfl
  have hH : HDRP (hd + 8) = hd := by
    unfold HDRP WSIZE
    rw [show hd + 8 + U64 - 8 = hd + U64 by omega, Nat.add_mod_right]
    exact Nat.mod_eq_of_lt (by omega)
  have hlt : PACK size alloc < U64 := by
    unfold GET at hh
    split at hh
    · rw [← Option.some.inj hh]
      exact read8_lt _ _
    · exact absurd hh (by simp)
  refine ⟨hH, ?_⟩
  unfold FTRP GET_SIZE
  rw [hH, hh]
  simp only [Option.map_some', size_of_PACK hs2 ha hlt, DSIZE, Option.some.injEq]
  rw [hU] at hend ⊢
  omega

set_option maxRecDepth 100000

theorem FTRP_address_witness :
    HDRP (heapBase + 24 + 8) = heapBase + 24 ∧
    FTRP sampleState (heapBase + 24 + 8) = some (heapBase + 24 + 128 - 8) :=
  FTRP_address sampleState (heapBase + 24) 128 0 (by decide) (by decide) (by decide)
    (by decide) (by decide)

/-! ### C23 -/

set_option maxRecDepth 512

/-- C23: in a well-formed heap, for an adjusted size `a ≥ 32`, `find_fit_given_free_list(a)`
returns (given enough fuel for the list walk) without changing a byte of memory or a list
head.  With `l` the members of the one list that `find_free_list(a)` selects, in the order
in which the allocator's own traversal visits them, the result `r` is null exactly when no
member of `l` has a size `≥ a`; otherwise `r` is the first member of `l` of size `≥ a`:
every member before it is smaller than `a`.  No other list enters the result. -/
theorem find_fit_is_first_fit (s : State) (g : Ghost) (a : Nat) (hwf : WF s g)
    (ha : 32 ≤ a) :
    ∃ N, ∀ fuel, N ≤ fuel → ∃ s' r, find_fit_given_free_list fuel s a = some (s', r) ∧
      s'.mem = s.mem ∧ s'.freeblk_listp = s.freeblk_listp ∧
      (find_free_list s a).2 = some (size_class a) ∧
      bucketScan fuel s (size_class a) = some (g.lists (size_class a)) ∧
      (r = 0 ↔ ∀ b ∈ g.lists (size_class a), hdrSize s.mem b < a) ∧
      (r ≠ 0 → ∃ pre post, g.lists (size_class a) = pre ++ r :: post ∧
        (∀ b ∈ pre, hdrSize s.mem b < a) ∧ a ≤ hdrSize s.mem r) := by
  obtain ⟨N, hN⟩ := exists_bound g.lists 14
  refine ⟨N, fun fuel hfuel => ?_⟩
  have hi := size_class_lt a
  have hlen : (g.lists (size_class a)).length < fuel := lt_of_lt_of_le (hN _ hi) hfuel
  have hpos : ∀ y ∈ g.lists (size_class a), y ≠ 0 := fun y hy => by
    have := (hwf.member_range hi hy).1
    omega
  refine ⟨_, _, find_fit_given_free_list_spec hwf.layout hwf.lists (by omega) hi hlen, rfl, rfl,
    find_free_list_snd s (by omega), bucketScan_spec hwf.layout hwf.lists hi (le_of_lt hlen),
    ⟨fun h b hb => ?_, firstFit_eq_zero⟩, firstFit_split _⟩
  by_contra hc
  exact hpos _ (firstFit_of_fit ⟨b, hb, by omega⟩) h

set_option maxRecDepth 100000

theorem find_fit_is_first_fit_witness :
    WF sampleState sampleGhost ∧
    ∃ N, ∀ fuel, N ≤ fuel → ∃ s' r, find_fit_given_free_list fuel sampleState 128 = some (s', r) ∧
      s'.mem = sampleState.mem ∧ s'.freeblk_listp = sampleState.freeblk_listp ∧
      (find_free_list sampleState 128).2 = some (size_class 128) ∧
      bucketScan fuel sampleState (size_class 128) = some (sampleGhost.lists (size_class 128)) ∧
      (r = 0 ↔ ∀ b ∈ sampleGhost.lists (size_class 128), hdrSize sampleState.mem b < 128) ∧
      (r ≠ 0 → ∃ pre post, sampleGhost.lists (size_class 128) = pre ++ r :: post ∧
        (∀ b ∈ pre, hdrSize sampleState.mem b < 128) ∧ 128 ≤ hdrSize sampleState.mem r) :=
  ⟨by decide, find_fit_is_first_fit sampleState sampleGhost 128 (by decide) (by decide)⟩

/-! ### C24 -/

set_option maxRecDepth 512

/-- C24: let the 14 list heads and the link words of `s` represent the lists `L`, and let `b`
be a member of list `i` (the list that the size in its header selects).  When the allocated
bit of the header of `b` is set, `remove_freeblk(b)` returns true (given enough fuel for the
list walk); afterwards the heads and links represent the same lists with `b` erased from
list `i`, the other members in their old order, and the allocator's own traversal of every
list visits exactly these members; when `b` was the only member the head of list `i` is
`heap_listp`; the heads of the other lists are unchanged.  When the allocated bit of `b` is
clear, `remove_freeblk(b)` returns false and changes no byte of memory and no list head. -/
theorem remove_freeblk_unlinks_one (s : State) (L : Nat → List Nat) (i b : Nat)
    (hlay : Layout s) (hL : ListsOK s L) (hi : i < 14) (hb : b ∈ L i) :
    (hdrAlloc s.mem b ≠ 0 → ∃ N, ∀ fuel, N ≤ fuel → ∃ s',
      remove_freeblk fuel s b = some (s', true) ∧
      ListsOK s' (setList L i ((L i).erase b)) ∧
      (∀ j, j < 14 → bucketScan fuel s' j = some (setList L i ((L i).erase b) j)) ∧
      (L i = [b] → s'.freeblk_listp i = s'.heap_listp) ∧
      (∀ j, j ≠ i → s'.freeblk_listp j = s.freeblk_listp j) ∧ sameRange s s') ∧
    (hdrAlloc s.mem b = 0 → ∀ fuel, ∃ s', remove_freeblk fuel s b = some (s', false) ∧
      s'.mem = s.mem ∧ s'.freeblk_listp = s.freeblk_listp) := by
  obtain ⟨hb1, hb2, hb3, hb4⟩ := hL.member hi hb
  constructor
  · intro hal
    obtain ⟨N, hN⟩ := exists_bound L 14
    refine ⟨N, fun fuel hfuel => ?_⟩
    obtain ⟨s', e, hm, hh, hr⟩ := remove_freeblk_spec (F := fuel) hi hlay hL hb1 (by omega)
      hb3 hb4 hal (lt_of_lt_of_le (hN i hi) hfuel)
    have hL' := ListsOK_remove hi hL hm hh hr
    have hlay' := Layout_of_sameRange hlay hr
    refine ⟨s', ?_, hL', fun j hj => ?_, fun hsole => ?_, fun j hj => ?_, hr⟩
    · rw [e, decide_eq_true hb]
    · exact bucketScan_spec hlay' hL' hj
        ((length_setList_erase L i b j).trans (le_of_lt (lt_of_lt_of_le (hN j hj) hfuel)))
    · rw [hh i, if_pos rfl, hsole, hr.2.2.2.2]
      simp
    · rw [hh j, if_neg hj]
  · intro hal fuel
    obtain ⟨hl1, hl2, hl3, hl4⟩ := hlay
    have hhead := hL.head_ne hi (List.ne_nil_of_mem hb)
    unfold remove_freeblk
    rw [GET_SIZE_HDRP (by omega) (by omega) (by omega)]
    simp only [obind_some, find_free_list_ne_zero s hb3, hb4, deref_curr, Option.map_some']
    rw [if_neg hhead]
    rw [GET_ALLOC_HDRP (s := { s with curr_freelist := some i }) (by dsimp only; omega)
      (by dsimp only; omega) (by dsimp only; omega)]
    simp only [obind_some]
    rw [if_pos hal]
    exact ⟨_, rfl, rfl, rfl⟩

set_option maxRecDepth 100000

theorem remove_freeblk_unlinks_one_witness :
    hdrAlloc markedState.mem (heapBase + 32) ≠ 0 ∧
    ((hdrAlloc markedState.mem (heapBase + 32) ≠ 0 → ∃ N, ∀ fuel, N ≤ fuel → ∃ s',
      remove_freeblk fuel markedState (heapBase + 32) = some (s', true) ∧
      ListsOK s' (setList sampleGhost.lists 7 ((sampleGhost.lists 7).erase (heapBase + 32))) ∧
      (∀ j, j < 14 → bucketScan fuel s' j =
        some (setList sampleGhost.lists 7 ((sampleGhost.lists 7).erase (heapBase + 32)) j)) ∧
      (sampleGhost.lists 7 = [heapBase + 32] → s'.freeblk_listp 7 = s'.heap_listp) ∧
      (∀ j, j ≠ 7 → s'.freeblk_listp j = markedState.freeblk_listp j) ∧
      sameRange markedState s') ∧
    (hdrAlloc markedState.mem (heapBase + 32) = 0 → ∀ fuel, ∃ s',
      remove_freeblk fuel markedState (heapBase + 32) = some (s', false) ∧
      s'.mem = markedState.mem ∧ s'.freeblk_listp = markedState.freeblk_listp)) :=
  ⟨by decide,
   remove_freeblk_unlinks_one markedState sampleGhost.lists 7 (heapBase + 32) (by decide)
     (by decide) (by decide) (by decide)⟩

/-! ### C25 -/

set_option maxRecDepth 512

/-- `place_freeblk` for a free block of a well-formed heap that is in no list. -/
theorem place_freeblk_wf {s : State} {g : Ghost} (hwf : WF s g) {blk : Blk}
    (hx : blk ∈ g.blocks) (hfree : blk.alloc = 0) (hnot : ∀ i, i < 14 → blk.bp ∉ g.lists i) :
    ∃ s', place_freeblk s blk.bp = some (s', true) ∧
      WF s' ⟨g.blocks, setList g.lists (size_class blk.size)
        (blk.bp :: g.lists (size_class blk.size))⟩ ∧
      sameRange s s' ∧ s'.mem = pushMem s.mem (g.lists (size_class blk.size)) blk.bp := by
  obtain ⟨pre, post, hdec⟩ := List.append_of_mem hx
  obtain ⟨x1, x2, x3, x4, x5, x6, x7, x8⟩ := hwf.block hx
  have hlay := hwf.layout
  have hi := size_class_lt blk.size
  obtain ⟨s', e1, e2, e3, e4⟩ := place_freeblk_spec (n := blk.bp) hi hlay hwf.lists x1
    (by omega) (by rw [x6]; omega) (by rw [x6]) (by rw [x7, hfree])
  have hL' := ListsOK_push hi hlay hwf.lists x1 (by omega) (by rw [x6]; omega) (by rw [x6])
    (fun j hj y hy => hwf.sep_of_not_member hx hnot hj hy) e2 e3 e4
  have hfr : ∀ q, (q + 8 ≤ blk.bp ∨ blk.bp + 16 ≤ q) →
      (∀ i, i < 14 → ∀ x ∈ g.lists i, q + 8 ≤ x ∨ x + 16 ≤ q) →
      read8 s'.mem q = read8 s.mem q := by
    intro q hq hlf
    rw [e2]
    exact read8_pushMem_frame _ _ _ _ hq (fun y hy => hlf _ hi y hy)
  have ht := hwf.tiles
  rw [hdec, tiles_append] at ht
  obtain ⟨a, ht1, ht2⟩ := ht
  obtain ⟨hb1, hb2, hb3, hb4, hb5, hb6, ht3⟩ := ht2
  refine ⟨s', e1, ?_, e4, e2⟩
  have := WF_rebuild (M := [blk]) (N := [blk]) (K := setList g.lists (size_class blk.size)
    (blk.bp :: g.lists (size_class blk.size))) hwf (by rw [hdec]; simp) ht1 ht3 (by omega) e4
    ?_ ?_ hL' ?_
  · simpa [hdec] using this
  · refine ⟨hb1, hb2, hb3, hb4, ?_, ?_, rfl⟩
    · rw [hfr _ (by omega) (fun i hi y hy => hwf.tag_linkfree hx (Or.inl (by omega)) hi hy)]
      exact hb5
    · rw [hfr _ (by omega) (fun i hi y hy => hwf.tag_linkfree hx (Or.inr (by omega)) hi hy)]
      exact hb6
  · intro q hq hlf
    exact hfr q (by omega) hlf
  · intro i hi b hb
    unfold setList at hb
    by_cases hic : i = size_class blk.size
    · rw [if_pos hic] at hb
      rcases List.mem_cons.mp hb with e | e
      · exact ⟨blk, by simp, e.symm, hfree⟩
      · obtain ⟨y, hy1, hy2, hy3⟩ := hwf.member_free (hic ▸ hi) e
        exact ⟨y, by simpa [hdec] using hy1, hy2, hy3⟩
    · rw [if_neg hic] at hb
      obtain ⟨y, hy1, hy2, hy3⟩ := hwf.member_free hi hb
      exact ⟨y, by simpa [hdec] using hy1, hy2, hy3⟩

/-- C25: in a well-formed heap with lists `g.lists`, for a block `blk` that is in no list:
when `blk` is free, `place_freeblk` returns true; afterwards the heap is well formed with
`blk` added to the list that `find_free_list` selects for its size and all other lists as
before, the allocator's own traversal of every list visits exactly these members, and when
the selected list was empty the `next` and `prev` words of `blk` are null.  When the header
of `blk` is marked allocated, `place_freeblk` returns false and changes no byte of memory and
no list head. -/
theorem place_freeblk_adds_one (s : State) (g : Ghost) (blk : Blk) (hwf : WF s g)
    (hblk : blk ∈ g.blocks) (hnot : ∀ i, i < 14 → blk.bp ∉ g.lists i) :
    (blk.alloc = 0 → ∃ s', place_freeblk s blk.bp = some (s', true) ∧
      (find_free_list s blk.size).2 = some (size_class blk.size) ∧
      WF s' ⟨g.blocks, setList g.lists (size_class blk.size)
        (blk.bp :: g.lists (size_class blk.size))⟩ ∧
      (∀ fuel j, j < 14 → (g.lists j).length < fuel → bucketScan fuel s' j =
        some (setList g.lists (size_class blk.size) (blk.bp :: g.lists (size_class blk.size)) j)) ∧
      (g.lists (size_class blk.size) = [] →
        read8 s'.mem blk.bp = 0 ∧ read8 s'.mem (blk.bp + 8) = 0)) ∧
    (blk.alloc = 1 → ∃ s', place_freeblk s blk.bp = some (s', false) ∧
      s'.mem = s.mem ∧ s'.freeblk_listp = s.freeblk_listp) := by
  obtain ⟨x1, x2, x3, x4, x5, x6, x7, x8⟩ := hwf.block hblk
  have hlay := hwf.layout
  constructor
  · intro hfree
    obtain ⟨s', e, hw, hr, hm⟩ := place_freeblk_wf hwf hblk hfree hnot
    refine ⟨s', e, find_free_list_snd s (by omega), hw, fun fuel j hj hlen => ?_, fun hemp => ?_⟩
    · refine bucketScan_spec hw.layout hw.lists hj ?_
      show (setList g.lists (size_class blk.size) (blk.bp :: g.lists (size_class blk.size))
        j).length ≤ fuel
      unfold setList
      by_cases hji : j = size_class blk.size
      · rw [if_pos hji, List.length_cons, ← hji]
        omega
      · rw [if_neg hji]
        omega
    · rw [hm, hemp]
      show read8 (write8 (write8 s.mem blk.bp 0) (blk.bp + 8) 0) blk.bp = 0 ∧
        read8 (write8 (write8 s.mem blk.bp 0) (blk.bp + 8) 0) (blk.bp + 8) = 0
      rw [read8_write8_ne _ _ _ _ (Or.inl (le_refl _)), read8_write8_same,
        read8_write8_same]
      exact ⟨rfl, rfl⟩
  · intro hal
    obtain ⟨hl1, hl2, hl3, hl4⟩ := hlay
    unfold place_freeblk
    rw [GET_SIZE_HDRP (by omega) (by omega) (by omega)]
    simp only [obind_some, find_free_list_ne_zero s (by rw [x6]; omega : hdrSize s.mem blk.bp ≠ 0)]
    rw [GET_ALLOC_HDRP (s := { s with curr_freelist := some (size_class (hdrSize s.mem blk.bp)) })
      (by dsimp only; omega) (by dsimp only; omega) (by dsimp only; omega)]
    simp only [obind_some]
    rw [if_pos (by rw [x7, hal]; decide)]
    exact ⟨_, rfl, rfl, rfl⟩

set_option maxRecDepth 100000

theorem place_freeblk_adds_one_witness :
    WF unlistedState unlistedGhost ∧ (⟨heapBase + 32, 128, 0⟩ : Blk).alloc = 0 ∧
    (((⟨heapBase + 32, 128, 0⟩ : Blk).alloc = 0 →
      ∃ s', place_freeblk unlistedState (⟨heapBase + 32, 128, 0⟩ : Blk).bp = some (s', true) ∧
      (find_free_list unlistedState (⟨heapBase + 32, 128, 0⟩ : Blk).size).2 =
        some (size_class (⟨heapBase + 32, 128, 0⟩ : Blk).size) ∧
      WF s' ⟨unlistedGhost.blocks,
        setList unlistedGhost.lists (size_class (⟨heapBase + 32, 128, 0⟩ : Blk).size)
          ((⟨heapBase + 32, 128, 0⟩ : Blk).bp ::
            unlistedGhost.lists (size_class (⟨heapBase + 32, 128, 0⟩ : Blk).size))⟩ ∧
      (∀ fuel j, j < 14 → (unlistedGhost.lists j).length < fuel → bucketScan fuel s' j =
        some (setList unlistedGhost.lists (size_class (⟨heapBase + 32, 128, 0⟩ : Blk).size)
          ((⟨heapBase + 32, 128, 0⟩ : Blk).bp ::
            unlistedGhost.lists (size_class (⟨heapBase + 32, 128, 0⟩ : Blk).size)) j)) ∧
      (unlistedGhost.lists (size_class (⟨heapBase + 32, 128, 0⟩ : Blk).size) = [] →
        read8 s'.mem (⟨heapBase + 32, 128, 0⟩ : Blk).bp = 0 ∧
        read8 s'.mem ((⟨heapBase + 32, 128, 0⟩ : Blk).bp + 8) = 0)) ∧
    ((⟨heapBase + 32, 128, 0⟩ : Blk).alloc = 1 →
      ∃ s', place_freeblk unlistedState (⟨heapBase + 32, 128, 0⟩ : Blk).bp = some (s', false) ∧
      s'.mem = unlistedState.mem ∧ s'.freeblk_listp = unlistedState.freeblk_listp)) :=
  ⟨by decide, rfl,
   place_freeblk_adds_one unlistedState unlistedGhost ⟨heapBase + 32, 128, 0⟩ (by decide)
     (by decide) (by decide)⟩

/-! ## The split rule of `place` -/

set_option maxRecDepth 512

/-- C26: in a well-formed heap, for a free block `blk` of size `c` that is a member of the
list of its size and an adjusted size `a ≤ c` (a multiple of 16, at least 32), `place`
returns (given enough fuel for the list walks) in a well-formed heap `g'` whose blocks tile
the same address range as before, in which the block at `blk.bp` is allocated and a member of
no list.  If `c - a ≥ 32` that block has size exactly `a` and a free block of size at least
`c - a` starts right behind it, at `blk.bp + a`; otherwise the blocks of the heap are the old
ones with `blk` marked allocated, its size still `c`. -/
theorem place_split_rule (s : State) (g : Ghost) (blk : Blk) (a : Nat) (hwf : WF s g)
    (hblk : blk ∈ g.blocks) (hfree : blk.alloc = 0)
    (hlisted : blk.bp ∈ g.lists (size_class blk.size)) (ha1 : 32 ≤ a) (ha2 : a % 16 = 0)
    (hle : a ≤ blk.size) :
    ∃ N, ∀ fuel, N ≤ fuel → ∃ s' g', place fuel s blk.bp a = some s' ∧ WF s' g' ∧
      tiles s'.mem (s.heap_listp + 16) g'.blocks s.mem_brk ∧
      (∀ i, i < 14 → blk.bp ∉ g'.lists i) ∧
      (32 ≤ blk.size - a → (⟨blk.bp, a, 1⟩ : Blk) ∈ g'.blocks ∧
        ∃ c', (⟨blk.bp + a, c', 0⟩ : Blk) ∈ g'.blocks ∧ blk.size - a ≤ c') ∧
      (blk.size - a < 32 → ∃ pre post, g.blocks = pre ++ blk :: post ∧
        g'.blocks = pre ++ ⟨blk.bp, blk.size, 1⟩ :: post) := by
  obtain ⟨N, hN⟩ := exists_bound g.lists 14
  refine ⟨N, fun fuel hfuel => ?_⟩
  have hf : ∀ i, i < 14 → (g.lists i).length < fuel := fun i hi =>
    lt_of_lt_of_le (hN i hi) hfuel
  obtain ⟨pre, post, hdec⟩ := List.append_of_mem hblk
  have hdec' : g.blocks = pre ++ [blk] ++ post := by
    rw [hdec, List.append_assoc, List.singleton_append]
  by_cases hrem : a + 32 ≤ blk.size
  · obtain ⟨s', g', e, hP, hin, c', hc1, hc2, -⟩ := place_spec_split hwf hdec' ha1 ha2 hrem hf
    obtain ⟨hw, hr, -⟩ := hP
    have ht := hw.tiles
    rw [hr.2.2.2.2, hr.2.2.1] at ht
    refine ⟨s', g', e, hw, ht,
      fun i hi => hw.member_not_alloc (x := ⟨blk.bp, a, 1⟩) hi hin Nat.one_ne_zero,
      fun _ => ⟨hin, c', hc1, hc2⟩, fun h => absurd h (by omega)⟩
  · obtain ⟨s', e, hP⟩ := place_spec_nosplit_full hwf hdec' hle (by omega) hf
    obtain ⟨hw, hr, -⟩ := hP
    have ht := hw.tiles
    rw [hr.2.2.2.2, hr.2.2.1] at ht
    have hin : (⟨blk.bp, blk.size, 1⟩ : Blk) ∈
        (⟨pre ++ [⟨blk.bp, blk.size, 1⟩] ++ post, unlist g.lists blk.size blk.bp⟩ : Ghost).blocks :=
      mem_middle (List.mem_singleton.mpr rfl)
    refine ⟨s', _, e, hw, ht,
      fun i hi => hw.member_not_alloc (x := ⟨blk.bp, blk.size, 1⟩) hi hin Nat.one_ne_zero,
      fun h => absurd h (by omega), fun _ => ⟨pre, post, hdec, ?_⟩⟩
    show pre ++ [⟨blk.bp, blk.size, 1⟩] ++ post = pre ++ ⟨blk.bp, blk.size, 1⟩ :: post
    rw [List.append_assoc, List.singleton_append]

set_option maxRecDepth 100000

theorem place_split_rule_witness :
    WF sampleState sampleGhost ∧
    ∃ N, ∀ fuel, N ≤ fuel → ∃ s' g',
      place fuel sampleState (⟨heapBase + 32, 128, 0⟩ : Blk).bp 32 = some s' ∧ WF s' g' ∧
      tiles s'.mem (sampleState.heap_listp + 16) g'.blocks sampleState.mem_brk ∧
      (∀ i, i < 14 → (⟨heapBase + 32, 128, 0⟩ : Blk).bp ∉ g'.lists i) ∧
      (32 ≤ (⟨heapBase + 32, 128, 0⟩ : Blk).size - 32 →
        (⟨(⟨heapBase + 32, 128, 0⟩ : Blk).bp, 32, 1⟩ : Blk) ∈ g'.blocks ∧
        ∃ c', (⟨(⟨heapBase + 32, 128, 0⟩ : Blk).bp + 32, c', 0⟩ : Blk) ∈ g'.blocks ∧
          (⟨heapBase + 32, 128, 0⟩ : Blk).size - 32 ≤ c') ∧
      ((⟨heapBase + 32, 128, 0⟩ : Blk).size - 32 < 32 → ∃ pre post,
        sampleGhost.blocks = pre ++ (⟨heapBase + 32, 128, 0⟩ : Blk) :: post ∧
        g'.blocks = pre ++ ⟨(⟨heapBase + 32, 128, 0⟩ : Blk).bp,
          (⟨heapBase + 32, 128, 0⟩ : Blk).size, 1⟩ :: post) :=
  ⟨by decide,
   place_split_rule sampleState sampleGhost ⟨heapBase + 32, 128, 0⟩ 32 (by decide) (by decide)
     (by decide) (by decide) (by decide) (by decide) (by decide)⟩

/-! ## What `coalesce` merges -/

set_option maxRecDepth 512

theorem prevAlloc_lt {pre : List Blk} (h : ∀ x ∈ pre, x.alloc < 2) : prevAlloc pre < 2 := by
  rcases List.eq_nil_or_concat pre with rfl | ⟨q, y, rfl⟩
  · rw [prevAlloc_nil]; decide
  · rw [List.concat_eq_append, prevAlloc_concat]
    exact h y (by simp)

theorem nextAlloc_lt {post : List Blk} (h : ∀ x ∈ post, x.alloc < 2) : nextAlloc post < 2 := by
  cases post with
  | nil => rw [nextAlloc_nil]; decide
  | cons y r =>
    rw [nextAlloc_cons]
    exact h y (by simp)

theorem prevAlloc_cons_cons (y z : Blk) (r : List Blk) :
    prevAlloc (y :: z :: r) = prevAlloc (z :: r) := by
  unfold prevAlloc
  rw [List.getLast?_cons_cons]

theorem prevAlloc_of_chain {pb : Blk} (hpb : pb.alloc = 0) :
    ∀ pre : List Blk, NoAdjFree (pre ++ [pb]) → (∀ x ∈ pre, x.alloc < 2) → prevAlloc pre = 1
  | [], _, _ => prevAlloc_nil
  | [y], hc, h => by
    have hr : y.alloc ≠ 0 ∨ pb.alloc ≠ 0 := hc.1
    have hy := h y (by simp)
    have e : prevAlloc [y] = y.alloc := prevAlloc_concat [] y
    rw [e]
    rcases hr with hr | hr
    · omega
    · exact absurd hpb hr
  | y :: z :: r, hc, h => by
    rw [prevAlloc_cons_cons]
    have hc' : NoAdjFree (z :: r ++ [pb]) := hc.2
    exact prevAlloc_of_chain hpb (z :: r) hc' (fun x hx => h x (List.mem_cons_of_mem _ hx))

theorem nextAlloc_of_chain {post : List Blk} {nb : Blk} (hc : NoAdjFree (nb :: post))
    (hnb : nb.alloc = 0) (h : ∀ x ∈ post, x.alloc < 2) : nextAlloc post = 1 := by
  cases post with
  | nil => exact nextAlloc_nil
  | cons y r =>
    rw [nextAlloc_cons]
    have hr : nb.alloc ≠ 0 ∨ y.alloc ≠ 0 := hc.1
    have hy := h y (by simp)
    rcases hr with hr | hr
    · exact absurd hnb hr
    · omega

/-! ### C22 -/

/-- C22: in a well-formed heap in which the block `blk` has just been marked free (it is in
no list) and no two other consecutive blocks are both free, `coalesce(blk)` returns (given
enough fuel for the list walks) the start of the merged block: the address of the previous
block when that block is free, the address of `blk` otherwise.  Afterwards the boundary tags
of the heap describe the blocks before the merged block, one free block that starts there
and whose size is the size of `blk` plus the sizes of its free neighbours, with that size
and a clear allocated bit in its header and in its footer, and the blocks after it; the
block before and the block after the merged block (prologue and epilogue included) are
allocated. -/
theorem coalesce_is_exhaustive (s : State) (g : Ghost) (pre post : List Blk) (blk : Blk)
    (hwf : WF s g) (hdec : g.blocks = pre ++ blk :: post) (hfree : blk.alloc = 0)
    (hnot : ∀ i, i < 14 → blk.bp ∉ g.lists i) (hpre : NoAdjFree pre)
    (hpost : NoAdjFree post) :
    ∃ N, ∀ fuel, N ≤ fuel → ∃ s', coalesce fuel s blk.bp = some (s', mergedStart pre blk) ∧
      sameRange s s' ∧
      Tagged s' (keptBefore pre ++
        ⟨mergedStart pre blk, mergedSize pre blk post, 0⟩ :: keptAfter post) ∧
      prevAlloc (keptBefore pre) = 1 ∧ nextAlloc (keptAfter post) = 1 := by
  obtain ⟨N, hN⟩ := exists_bound g.lists 14
  refine ⟨N, fun fuel hfuel => ?_⟩
  have hf : ∀ i, i < 14 → (g.lists i).length < fuel := fun i hi =>
    lt_of_lt_of_le (hN i hi) hfuel
  have hlt : ∀ x ∈ g.blocks, x.alloc < 2 := fun x hx => (hwf.block hx).2.2.2.2.1
  have hltpre : ∀ x ∈ pre, x.alloc < 2 := fun x hx => hlt x (by rw [hdec]; simp [hx])
  have hltpost : ∀ x ∈ post, x.alloc < 2 := fun x hx => hlt x (by rw [hdec]; simp [hx])
  have hp2 := prevAlloc_lt hltpre
  have hn2 := nextAlloc_lt hltpost
  by_cases hp : prevAlloc pre = 0
  · obtain ⟨pre', pb, rfl, hpb⟩ := prevAlloc_zero hp
    have hkb : keptBefore (pre' ++ [pb]) = pre' := by
      unfold keptBefore
      rw [if_pos hp, List.dropLast_concat]
    have hms : mergedStart (pre' ++ [pb]) blk = pb.bp := by
      unfold mergedStart
      rw [if_pos hp]
      simp
    have hpa : prevAlloc pre' = 1 :=
      prevAlloc_of_chain hpb pre' hpre (fun x hx => hltpre x (by simp [hx]))
    by_cases hn : nextAlloc post = 0
    · obtain ⟨nb, post', rfl, hnb⟩ := nextAlloc_zero hn
      have hka : keptAfter (nb :: post') = post' := by
        unfold keptAfter
        rw [if_pos hn, List.tail_cons]
      have hsz : mergedSize (pre' ++ [pb]) blk (nb :: post') =
          blk.size + (pb.size + nb.size) := by
        unfold mergedSize
        rw [if_pos hp, if_pos hn]
        simp
        omega
      have hna : nextAlloc post' = 1 :=
        nextAlloc_of_chain hpost hnb (fun x hx => hltpost x (by simp [hx]))
      obtain ⟨s', e, hr, -, -, htag⟩ := coalesce_case4_full (A := pre') (Z := post')
        (P := pb) (Q := nb) hwf (by rw [hdec]; simp) hfree hnot hpb hnb hf
      rw [hkb, hms, hka, hsz]
      refine ⟨s', e, hr, ?_, hpa, hna⟩
      simpa using htag
    · have hn1 : nextAlloc post = 1 := by omega
      have hka : keptAfter post = post := by
        unfold keptAfter
        rw [if_neg hn]
      have hsz : mergedSize (pre' ++ [pb]) blk post = blk.size + pb.size := by
        unfold mergedSize
        rw [if_pos hp, if_neg hn]
        simp
        omega
      obtain ⟨s', L', e, hM⟩ := coalesce_case3_full (A := pre') (Z := post) (P := pb)
        hwf (by rw [hdec]; simp) hfree hnot hpb hn1 hf
      rw [hkb, hms, hka, hsz]
      refine ⟨s', e, hM.2.1, ?_, hpa, hn1⟩
      simpa using hM.1.tagged
  · have hp1 : prevAlloc pre = 1 := by omega
    have hkb : keptBefore pre = pre := by
      unfold keptBefore
      rw [if_neg hp]
    have hms : mergedStart pre blk = blk.bp := by
      unfold mergedStart
      rw [if_neg hp]
    by_cases hn : nextAlloc post = 0
    · obtain ⟨nb, post', rfl, hnb⟩ := nextAlloc_zero hn
      have hka : keptAfter (nb :: post') = post' := by
        unfold keptAfter
        rw [if_pos hn, List.tail_cons]
      have hsz : mergedSize pre blk (nb :: post') = blk.size + nb.size := by
        unfold mergedSize
        rw [if_neg hp, if_pos hn]
        simp
      have hna : nextAlloc post' = 1 :=
        nextAlloc_of_chain hpost hnb (fun x hx => hltpost x (by simp [hx]))
      obtain ⟨s', L', e, hM, -⟩ := coalesce_case2_full (A := pre) (Z := post') (Q := nb)
        hwf (by rw [hdec]; simp) hfree hnot hp1 hnb hf
      rw [hkb, hms, hka, hsz]
      refine ⟨s', e, hM.2.1, ?_, hp1, hna⟩
      simpa using hM.1.tagged
    · have hn1 : nextAlloc post = 1 := by omega
      have hka : keptAfter post = post := by
        unfold keptAfter
        rw [if_neg hn]
      have hsz : mergedSize pre blk post = blk.size := by
        unfold mergedSize
        rw [if_neg hp, if_neg hn]
        simp
      obtain ⟨s', e, hw, hr, -⟩ := coalesce_case1_spec hwf hdec hfree hnot hp1 hn1 fuel
      rw [hkb, hms, hka, hsz, Blk.eta_free hfree]
      refine ⟨s', e, hr, ?_, hp1, hn1⟩
      have := hw.tagged
      rw [hdec] at this
      exact this

set_option maxRecDepth 100000

theorem coalesce_is_exhaustive_witness :
    WF bothFreeState bothFreeGhost ∧
    mergedStart [⟨heapBase + 32, 32, 0⟩] ⟨heapBase + 64, 128, 0⟩ = heapBase + 32 ∧
    mergedSize [⟨heapBase + 32, 32, 0⟩] ⟨heapBase + 64, 128, 0⟩ [⟨heapBase + 192, 32, 0⟩] = 192 ∧
    ∃ N, ∀ fuel, N ≤ fuel → ∃ s', coalesce fuel bothFreeState (⟨heapBase + 64, 128, 0⟩ : Blk).bp =
        some (s', mergedStart [⟨heapBase + 32, 32, 0⟩] ⟨heapBase + 64, 128, 0⟩) ∧
      sameRange bothFreeState s' ∧
      Tagged s' (keptBefore [⟨heapBase + 32, 32, 0⟩] ++
        ⟨mergedStart [⟨heapBase + 32, 32, 0⟩] ⟨heapBase + 64, 128, 0⟩,
          mergedSize [⟨heapBase + 32, 32, 0⟩] ⟨heapBase + 64, 128, 0⟩
            [⟨heapBase + 192, 32, 0⟩], 0⟩ :: keptAfter [⟨heapBase + 192, 32, 0⟩]) ∧
      prevAlloc (keptBefore [⟨heapBase + 32, 32, 0⟩]) = 1 ∧
      nextAlloc (keptAfter [⟨heapBase + 192, 32, 0⟩]) = 1 :=
  ⟨by decide, by decide, by decide,
   coalesce_is_exhaustive bothFreeState bothFreeGhost [⟨heapBase + 32, 32, 0⟩]
     [⟨heapBase + 192, 32, 0⟩] ⟨heapBase + 64, 128, 0⟩ (by decide) (by decide) (by decide)
     (by decide) (by decide) (by decide)⟩

/-! ### C21 -/

/-- C21 fails on the code: in the well-formed heap `bothFreeState` the block at
`heapBase + 64` (size 128) has just been marked free, and the blocks before it (at
`heapBase + 32`) and after it (at `heapBase + 192`), both free and of size 32, are members
of list 1, the list of their size.  The merged size 192 selects list 7, not list 1, so the
previous block has to move to list 7.  `coalesce` returns `heapBase + 32` with size 192 in
its header, but the allocator's traversal of the lists finds that block in list 1 and finds
list 7 empty. -/
theorem both_free_merge_stays_in_old_list :
    WF bothFreeState bothFreeGhost ∧
    (find_free_list bothFreeState 32).2 = some 1 ∧
    (find_free_list bothFreeState (32 + 128 + 32)).2 = some 7 ∧
    (obind (coalesce 8 bothFreeState (heapBase + 64)) fun r =>
      some (r.2, GET r.1 (HDRP r.2), (List.range 14).map (bucketScan 8 r.1)))
    = some (heapBase + 32, some (PACK 192 0),
        [some [], some [heapBase + 32], some [], some [], some [], some [], some [], some [],
         some [], some [], some [], some [], some [], some []]) := by
  decide

end MM
